import Mathlib

/-!
# Equality and bound propagation over an LP tableau

A shallow embedding of `lp_bound_propagator` (src/math/lp/lp_bound_propagator.h):
the offset-row classifier, the two-row offset table and the equality
spanning tree, together with the properties established about them.

Conventions of the embedding
* `unsigned` / `lpvar` values are natural numbers; `null_lpvar` is `UINT_MAX`.
* `mpq` is `ℚ`.
* The external collaborators (`lar_solver`, the `T& m_imp` bundle) are records of
  read-only queries.
* Raw pointers to vertices are indices into an arena (`m_verts`).
* Hash maps are total functions into `Option`; `insert` overwrites, `find` reads.
-/

namespace lp

/-! ## Data model -/

/-- The sentinel `null_lpvar` (`UINT_MAX`). -/
def null_lpvar : Nat := 4294967295

/-- A cell of a tableau row: `c.var()` and `c.coeff()`. -/
structure row_cell where
  var : Nat
  coeff : ℚ

/-- A bound value `impq`: rational part `x` and infinitesimal part `y`. -/
structure impq where
  x : ℚ
  y : ℚ

/-- The read-only queries of `lar_solver` used by the propagator.  The field `is_big`
stands for the `mpq` method `is_big()`, whose definition is not part of the sources at
hand; it is kept as an uninterpreted predicate on values. -/
structure lar_solver where
  rows : List (List row_cell)
  columns : Nat → List Nat
  column_is_fixed : Nat → Bool
  is_fixed : Nat → Bool
  get_lower_bound : Nat → impq
  get_upper_bound : Nat → impq
  is_base : Nat → Bool
  column_is_int : Nat → Bool
  find_in_fixed_tables : ℚ → Bool → Option Nat
  get_bound_constraint_witnesses_for_column : Nat → Nat × Nat
  column_to_reported_index : Nat → Nat
  local_to_external : Nat → Nat
  is_big : ℚ → Bool

/-- The collaborator `T& m_imp`: the solver plus the queries of the theory. -/
structure imp where
  lp : lar_solver
  is_equal : Nat → Nat → Bool
  bound_is_interesting : Nat → Int → ℚ → Bool

/-- Modelled from the spec: the class `explanation` is not part of the sources at hand;
it is the collection of constraint witnesses of a fact, and `push_back` adds one witness
at the end. -/
abbrev explanation := List Nat

/-- One call `add_eq_on_columns(exp, j, k)`; the sink `m_imp.add_eq` receives the
reported indices of the two columns together with `exp`. -/
structure eq_report where
  j : Nat
  k : Nat
  exp : explanation
deriving DecidableEq

/-- The record `implied_bound`. -/
structure implied_bound where
  m_bound : ℚ
  m_j : Nat
  m_is_lower_bound : Bool
  m_coeff_before_j_is_pos : Bool
  m_row_or_term_index : Nat
  m_strict : Bool
deriving DecidableEq

/-- The class `vertex`; `m_parent` and `m_children` hold arena indices. -/
structure vertex where
  m_row : Nat
  m_column : Nat
  m_children : List Nat
  m_offset : ℚ
  m_parent : Option Nat
  m_level : Nat
  m_neg : Bool
deriving DecidableEq

/-- Key of the two-row table, `std::pair<int, mpq>`.  The conversion of a column to
`int` is injective on 32-bit values, so the column itself is kept. -/
abbrev var_offset := Nat × ℚ

/-- The mutable members of `lp_bound_propagator`, the arena `m_verts` of allocated
vertices and the log `m_eqs` of the calls of `add_eq_on_columns`. -/
structure lp_bound_propagator where
  m_var_offset2row_id : var_offset → Option Nat
  m_visited_rows : List Nat
  m_visited_columns : List Nat
  m_root : Option Nat
  m_fixed_vertex : Option Nat
  m_offset_to_verts : ℚ → Option Nat
  m_offset_to_verts_neg : ℚ → Option Nat
  m_improved_lower_bounds : Nat → Option Nat
  m_improved_upper_bounds : Nat → Option Nat
  m_ibounds : List implied_bound
  m_verts : List vertex
  m_eqs : List eq_report

/-- The state set up by the constructor: everything empty, no tree. -/
def lp_bound_propagator.ctor : lp_bound_propagator where
  m_var_offset2row_id := fun _ => none
  m_visited_rows := []
  m_visited_columns := []
  m_root := none
  m_fixed_vertex := none
  m_offset_to_verts := fun _ => none
  m_offset_to_verts_neg := fun _ => none
  m_improved_lower_bounds := fun _ => none
  m_improved_upper_bounds := fun _ => none
  m_ibounds := []
  m_verts := []
  m_eqs := []

/-! ## Solver queries -/

/-- `lp().row_count()`. -/
def lar_solver.row_count (s : lar_solver) : Nat := s.rows.length

/-- `lp().get_row(r)`. -/
def lar_solver.get_row (s : lar_solver) (r : Nat) : List row_cell := s.rows.getD r []

/-- `get_lower_bound_rational(j)`. -/
def get_lower_bound_rational (s : lar_solver) (j : Nat) : ℚ := (s.get_lower_bound j).x

/-- `column_is_fixed(j)` of the propagator: fixed in the solver and with a zero
infinitesimal part. -/
def column_is_fixed (s : lar_solver) (j : Nat) : Bool :=
  s.column_is_fixed j && decide ((s.get_lower_bound j).y = 0)

/-- `is_int(j)`. -/
def is_int (s : lar_solver) (j : Nat) : Bool := s.column_is_int j

/-- `col_to_imp(j)`. -/
def col_to_imp (s : lar_solver) (j : Nat) : Nat :=
  s.local_to_external (s.column_to_reported_index j)

/-- `is_equal(j, k)`. -/
def is_equal (m : imp) (j k : Nat) : Bool :=
  m.is_equal (col_to_imp m.lp j) (col_to_imp m.lp k)

/-! ## The offset-row classifier -/

/-- First loop of `is_offset_row`: scan the cells, skipping the fixed ones; `none` is the
early `return false`. -/
def offset_row_scan (s : lar_solver) : List row_cell → Nat → Nat → Option (Nat × Nat)
  | [], x, y => some (x, y)
  | c :: cs, x, y =>
    if column_is_fixed s c.var then offset_row_scan s cs x y
    else if c.coeff = 1 ∧ x = null_lpvar then offset_row_scan s cs c.var y
    else if c.coeff = -1 ∧ y = null_lpvar then offset_row_scan s cs x c.var
    else none

/-- Second loop of `is_offset_row`: accumulate `k`, giving up as soon as it is big. -/
def offset_row_sum (s : lar_solver) : List row_cell → ℚ → Option ℚ
  | [], k => some k
  | c :: cs, k =>
    if !column_is_fixed s c.var then offset_row_sum s cs k
    else
      let k1 := k - c.coeff * get_lower_bound_rational s c.var
      if s.is_big k1 then none else offset_row_sum s cs k1

/-- `is_offset_row(r, x, y, k)`: `some (x, y, k)` when the call returns true. -/
def is_offset_row (s : lar_solver) (r : Nat) : Option (Nat × Nat × ℚ) :=
  if r ≥ s.row_count then none
  else
    match offset_row_scan s (s.get_row r) null_lpvar null_lpvar with
    | none => none
    | some (x, y) =>
      if x = null_lpvar ∧ y = null_lpvar then none
      else
        match offset_row_sum s (s.get_row r) 0 with
        | none => none
        | some k =>
          if y = null_lpvar then some (x, y, k)
          else if x = null_lpvar then some (y, x, -k)
          else if (!s.is_base x) && decide (x > y) then some (y, x, -k)
          else some (x, y, k)

/-! ## Explanations and the report sink -/

/-- `explain_fixed_column(ex, j)`: push the two bound witnesses of `j`. -/
def explain_fixed_column (s : lar_solver) (ex : explanation) (j : Nat) : explanation :=
  ex ++ [(s.get_bound_constraint_witnesses_for_column j).1,
         (s.get_bound_constraint_witnesses_for_column j).2]

/-- `explain_fixed_in_row(row, ex)`: the witnesses of every cell whose column is fixed
for the solver (`lp().is_fixed`), in row order. -/
def explain_fixed_in_row (s : lar_solver) (row : Nat) (ex : explanation) : explanation :=
  (s.get_row row).foldl
    (fun e c => if s.is_fixed c.var then explain_fixed_column s e c.var else e) ex

/-- `add_eq_on_columns(exp, j, k)`: hand the equality to the sink. -/
def add_eq_on_columns (p : lp_bound_propagator) (exp : explanation) (j k : Nat) :
    lp_bound_propagator :=
  { p with m_eqs := p.m_eqs ++ [⟨j, k, exp⟩] }

/-- The equalities reported between two states of the propagator. -/
def reports_of (before after : lp_bound_propagator) : List eq_report :=
  after.m_eqs.drop before.m_eqs.length

/-! ## The two-row offset table -/

/-- First check of `cheap_eq_table` (the block under `if (y == null_lpvar)`): `x` is
implied fixed at `k`; ask the fixed-value table for another column at `k`. -/
def cheap_eq_table_fixed (m : imp) (rid x y : Nat) (k : ℚ) (p : lp_bound_propagator) :
    lp_bound_propagator :=
  if y = null_lpvar then
    match m.lp.find_in_fixed_tables k (is_int m.lp x) with
    | some x2 =>
      if !is_equal m x x2 then
        add_eq_on_columns p
          (explain_fixed_in_row m.lp rid
            [(m.lp.get_bound_constraint_witnesses_for_column x2).1,
             (m.lp.get_bound_constraint_witnesses_for_column x2).2]) x x2
      else p
    | none => p
  else p

/-- Second check of `cheap_eq_table`: the row is `x = y`. -/
def cheap_eq_table_direct (m : imp) (rid x y : Nat) (k : ℚ) (p : lp_bound_propagator) :
    lp_bound_propagator :=
  if k = 0 ∧ y ≠ null_lpvar ∧ is_equal m x y = false ∧ is_int m.lp x = is_int m.lp y then
    add_eq_on_columns p (explain_fixed_in_row m.lp rid []) x y
  else p

/-- The statement `m_var_offset2row_id.insert(key, rid)`. -/
def table_insert (p : lp_bound_propagator) (key : var_offset) (rid : Nat) :
    lp_bound_propagator :=
  { p with m_var_offset2row_id := Function.update p.m_var_offset2row_id key rid }

/-- Third check of `cheap_eq_table`: look the key `(y, k)` up in the two-row table.  The
pair computed first is the flag `new_eq` with the value of `x2` after the possible swap. -/
def cheap_eq_table_lookup (m : imp) (rid x y : Nat) (k : ℚ) (p : lp_bound_propagator) :
    lp_bound_propagator :=
  match p.m_var_offset2row_id (y, k) with
  | some row_id =>
    if row_id = rid then p
    else
      match is_offset_row m.lp row_id with
      | some (x2, y2, k2) =>
        let new_eq : Bool × Nat :=
          if y = y2 ∧ k = k2 then (true, x2)
          else if y2 ≠ null_lpvar ∧ x2 = y ∧ k = -k2 then (true, y2)
          else (false, x2)
        if new_eq.1 then
          if !is_equal m x new_eq.2 && (is_int m.lp x == is_int m.lp new_eq.2) then
            add_eq_on_columns p
              (explain_fixed_in_row m.lp row_id (explain_fixed_in_row m.lp rid [])) x new_eq.2
          else p
        else table_insert p (y, k) rid
      | none => table_insert p (y, k) rid
  | none => table_insert p (y, k) rid

/-- `cheap_eq_table(rid)`. -/
def cheap_eq_table (m : imp) (rid : Nat) (p : lp_bound_propagator) : lp_bound_propagator :=
  match is_offset_row m.lp rid with
  | none => p
  | some (x, y, k) =>
    cheap_eq_table_lookup m rid x y k
      (cheap_eq_table_direct m rid x y k (cheap_eq_table_fixed m rid x y k p))

/-! ## Vertices and the arena -/

/-- The default constructor `vertex()`. -/
instance : Inhabited vertex := ⟨⟨0, 0, [], 0, none, 0, false⟩⟩

/-- Dereference a vertex pointer. -/
def get_vertex (p : lp_bound_propagator) (v : Nat) : vertex := p.m_verts.getD v default

/-- Store through a vertex pointer. -/
def set_vertex (p : lp_bound_propagator) (v : Nat) (x : vertex) : lp_bound_propagator :=
  { p with m_verts := p.m_verts.set v x }

/-- `alloc_v(row_index, column, offset, neg)`: a fresh vertex with no parent, no children
and level 0; the result is the new state and the pointer. -/
def alloc_v (p : lp_bound_propagator) (row column : Nat) (offset : ℚ) (neg : Bool) :
    lp_bound_propagator × Nat :=
  ({ p with m_verts := p.m_verts ++ [⟨row, column, [], offset, none, 0, neg⟩] },
   p.m_verts.length)

/-- `parent->add_child(child)`. -/
def add_child (p : lp_bound_propagator) (parent child : Nat) : lp_bound_propagator :=
  let p1 := set_vertex p child { get_vertex p child with m_parent := some parent }
  let p2 := set_vertex p1 parent
    { get_vertex p1 parent with m_children := (get_vertex p1 parent).m_children ++ [child] }
  set_vertex p2 child
    { get_vertex p2 child with m_level := (get_vertex p2 parent).m_level + 1 }

/-- `fixed_phase()`. -/
def fixed_phase (p : lp_bound_propagator) : Bool := p.m_fixed_vertex.isSome

/-- `check_insert(table, j)` on a visited set: `none` when `j` is already there, the set
with `j` added otherwise. -/
def check_insert (table : List Nat) (j : Nat) : Option (List Nat) :=
  if table.contains j then none else some (j :: table)

/-! ## Tree classification of a row -/

/-- The class `signed_column`; a column is not set while it is `UINT_MAX`. -/
structure signed_column where
  m_sign : Bool
  m_column : Nat
deriving DecidableEq

/-- The constructor `signed_column()`. -/
def signed_column.ctor : signed_column := ⟨false, null_lpvar⟩

/-- `not_set()`. -/
def signed_column.not_set (i : signed_column) : Bool := i.m_column == null_lpvar

/-- `set_sign_and_column(i, c)`: `none` when the coefficient is neither `1` nor `-1`. -/
def set_sign_and_column (c : row_cell) : Option signed_column :=
  if c.coeff = 1 then some ⟨false, c.var⟩
  else if c.coeff = -1 then some ⟨true, c.var⟩
  else none

/-- First loop of `is_tree_offset_row`. -/
def tree_row_scan (s : lar_solver) :
    List row_cell → signed_column → signed_column → Option (signed_column × signed_column)
  | [], x, y => some (x, y)
  | c :: cs, x, y =>
    if column_is_fixed s c.var then tree_row_scan s cs x y
    else if x.not_set then
      match set_sign_and_column c with
      | some x1 => tree_row_scan s cs x1 y
      | none => none
    else if y.not_set then
      match set_sign_and_column c with
      | some y1 => tree_row_scan s cs x y1
      | none => none
    else none

/-- Second loop of `is_tree_offset_row`: the sum of `coeff * lower bound` over the fixed
cells. -/
def tree_row_offset (s : lar_solver) (row : List row_cell) : ℚ :=
  row.foldl (fun offset c =>
    if column_is_fixed s c.var then offset + c.coeff * get_lower_bound_rational s c.var
    else offset) 0

/-- `is_tree_offset_row(row_index, x, y, offset)`. -/
def is_tree_offset_row (s : lar_solver) (row_index : Nat) :
    Option (signed_column × signed_column × ℚ) :=
  match tree_row_scan s (s.get_row row_index) signed_column.ctor signed_column.ctor with
  | none => none
  | some (x, y) =>
    if x.not_set && y.not_set then none
    else some (x, y, tree_row_offset s (s.get_row row_index))

/-! ## Paths and explanations -/

/-- One of the two loops of `find_path_on_tree` that equalize the levels: lift `u` while
its level is above `lvl`, recording the parents that stay in the row.  `none` is a null
parent (or an ill-formed tree that outlasts the fuel). -/
def climb_to_level (p : lp_bound_propagator) :
    Nat → Nat → Nat → List Nat → Option (Nat × List Nat)
  | 0, u, lvl, acc => if (get_vertex p u).m_level > lvl then none else some (u, acc)
  | fuel + 1, u, lvl, acc =>
    if (get_vertex p u).m_level > lvl then
      match (get_vertex p u).m_parent with
      | none => none
      | some up =>
        climb_to_level p fuel up lvl
          (if (get_vertex p u).m_row = (get_vertex p up).m_row then acc ++ [up] else acc)
    else some (u, acc)

/-- The loop `while (u != v)` of `find_path_on_tree`. -/
def climb_to_common (p : lp_bound_propagator) :
    Nat → Nat → Nat → List Nat → List Nat → Option (List Nat × List Nat)
  | 0, u, v, path, v_branch =>
    if u = v then some (path, v_branch)
    else if (get_vertex p u).m_row = (get_vertex p v).m_row ∧
        (get_vertex p u).m_offset = (get_vertex p v).m_offset then some (path, v_branch)
    else none
  | fuel + 1, u, v, path, v_branch =>
    if u = v then some (path, v_branch)
    else if (get_vertex p u).m_row = (get_vertex p v).m_row ∧
        (get_vertex p u).m_offset = (get_vertex p v).m_offset then some (path, v_branch)
    else
      match (get_vertex p u).m_parent, (get_vertex p v).m_parent with
      | some up, some vp =>
        climb_to_common p fuel up vp
          (if (get_vertex p up).m_row = (get_vertex p u).m_row then path ++ [up] else path)
          (if (get_vertex p vp).m_row = (get_vertex p v).m_row then v_branch ++ [vp]
           else v_branch)
      | _, _ => none

/-- `find_path_on_tree(path, u, v)`, with the number of allocated vertices as fuel of
each loop. -/
def find_path_on_tree (p : lp_bound_propagator) (u v : Nat) : Option (List Nat) :=
  match climb_to_level p p.m_verts.length u (get_vertex p v).m_level [u] with
  | none => none
  | some (u1, path) =>
    match climb_to_level p p.m_verts.length v (get_vertex p u1).m_level [v] with
    | none => none
    | some (v1, v_branch) =>
      match climb_to_common p p.m_verts.length u1 v1 path v_branch with
      | none => none
      | some (path1, v_branch1) => some (path1 ++ v_branch1.reverse)

/-- `get_explanation_from_path(path)`: the fixed witnesses of the rows of the path, a row
that repeats the previous one skipped. -/
def get_explanation_from_path (s : lar_solver) (p : lp_bound_propagator)
    (path : List Nat) : explanation :=
  (path.foldl (fun (st : Nat × explanation) k =>
    if (get_vertex p k).m_row = st.1 then st
    else ((get_vertex p k).m_row, explain_fixed_in_row s (get_vertex p k).m_row st.2))
    (null_lpvar, [])).2

/-- `report_eq(v_i, v_j)`; a failed path search reports nothing. -/
def report_eq (m : imp) (v_i v_j : Nat) (p : lp_bound_propagator) : lp_bound_propagator :=
  match find_path_on_tree p v_i v_j with
  | none => p
  | some path =>
    add_eq_on_columns p (get_explanation_from_path m.lp p path)
      (get_vertex p v_i).m_column (get_vertex p v_j).m_column

/-! ## The per-vertex checks -/

/-- `try_add_equation_with_fixed_tables(v)`. -/
def try_add_equation_with_fixed_tables (m : imp) (v : Nat) (p : lp_bound_propagator) :
    lp_bound_propagator :=
  match m.lp.find_in_fixed_tables (get_vertex p v).m_offset
      (is_int m.lp (get_vertex p v).m_column) with
  | none => p
  | some j =>
    match p.m_fixed_vertex with
    | none => p
    | some fv =>
      match find_path_on_tree p v fv with
      | none => p
      | some path =>
        add_eq_on_columns p
          (explain_fixed_column m.lp (get_explanation_from_path m.lp p path) j)
          j (get_vertex p v).m_column

/-- `check_for_eq_and_add_to_offset_table(v, table)`; `neg_table` selects
`m_offset_to_verts_neg`, otherwise the table is `m_offset_to_verts`. -/
def check_for_eq_and_add_to_offset_table (m : imp) (v : Nat) (neg_table : Bool)
    (p : lp_bound_propagator) : lp_bound_propagator :=
  match (if neg_table then p.m_offset_to_verts_neg else p.m_offset_to_verts)
      (get_vertex p v).m_offset with
  | some k =>
    if (get_vertex p k).m_column ≠ (get_vertex p v).m_column ∧
        is_equal m (get_vertex p k).m_column (get_vertex p v).m_column = false then
      report_eq m k v p
    else p
  | none =>
    if neg_table then
      { p with m_offset_to_verts_neg :=
          Function.update p.m_offset_to_verts_neg (get_vertex p v).m_offset (some v) }
    else
      { p with m_offset_to_verts :=
          Function.update p.m_offset_to_verts (get_vertex p v).m_offset (some v) }

/-- `check_for_eq_and_add_to_offsets(v)`. -/
def check_for_eq_and_add_to_offsets (m : imp) (v : Nat) (p : lp_bound_propagator) :
    lp_bound_propagator :=
  if !fixed_phase p then
    if (get_vertex p v).m_neg then check_for_eq_and_add_to_offset_table m v true p
    else check_for_eq_and_add_to_offset_table m v false p
  else
    let p1 :=
      match m.lp.find_in_fixed_tables (get_vertex p v).m_offset
          (is_int m.lp (get_vertex p v).m_column) with
      | some j =>
        if j ≠ (get_vertex p v).m_column then
          add_eq_on_columns p
            (explain_fixed_in_row m.lp (get_vertex p v).m_row
              [(m.lp.get_bound_constraint_witnesses_for_column j).1,
               (m.lp.get_bound_constraint_witnesses_for_column j).2])
            (get_vertex p v).m_column j
        else p
      | none => p
    check_for_eq_and_add_to_offset_table m v false p1

/-! ## Growing the tree -/

/-- `create_root(row_index)`. -/
def create_root (m : imp) (row_index : Nat) (p : lp_bound_propagator) :
    lp_bound_propagator :=
  match is_tree_offset_row m.lp row_index with
  | none => p
  | some (x, y, offset) =>
    if y.not_set then
      let a := alloc_v p row_index x.m_column offset false
      { a.1 with m_root := some a.2, m_fixed_vertex := some a.2 }
    else
      let a := alloc_v p row_index x.m_column 0 false
      let p1 := { a.1 with m_root := some a.2 }
      let b := alloc_v p1 row_index y.m_column offset (!y.m_sign)
      add_child b.1 a.2 b.2

/-- `add_child_from_row_continue_fixed(v, y, offset)`; the pointer returned is `v`. -/
def add_child_from_row_continue_fixed (v : Nat) (y : signed_column) (offset : ℚ)
    (p : lp_bound_propagator) : lp_bound_propagator :=
  let y_offs := if y.m_sign then (get_vertex p v).m_offset + offset
    else -(get_vertex p v).m_offset - offset
  let a := alloc_v p (get_vertex p v).m_row y.m_column y_offs false
  add_child a.1 v a.2

/-- `add_child_from_row_continue(v, y, offset)`; the pointer returned is `v`. -/
def add_child_from_row_continue (v : Nat) (y : signed_column) (offset : ℚ)
    (p : lp_bound_propagator) : lp_bound_propagator :=
  if fixed_phase p then add_child_from_row_continue_fixed v y offset p
  else
    let y_offs := if (get_vertex p v).m_neg then -(get_vertex p v).m_offset - offset
      else (get_vertex p v).m_offset + offset
    let neg := xor (get_vertex p v).m_neg y.m_sign
    let a := alloc_v p (get_vertex p v).m_row y.m_column y_offs neg
    add_child a.1 v a.2

/-- `switch_to_fixed_mode(v, d)`; the fuel bounds the depth of the recursion. -/
def switch_to_fixed_mode (d : ℚ) : Nat → Nat → lp_bound_propagator → lp_bound_propagator
  | 0, _, p => p
  | fuel + 1, v, p =>
    let p1 := set_vertex p v { get_vertex p v with m_offset := (get_vertex p v).m_offset + d }
    let p2 :=
      if (get_vertex p1 v).m_neg then
        set_vertex p1 v
          { get_vertex p1 v with m_offset := -(get_vertex p1 v).m_offset, m_neg := false }
      else p1
    (get_vertex p2 v).m_children.foldl (fun q c => switch_to_fixed_mode d fuel c q) p2

/-- `switch_to_fixed_mode_in_tree(v, new_v_offset)`. -/
def switch_to_fixed_mode_in_tree (v : Nat) (new_v_offset : ℚ) (p : lp_bound_propagator) :
    lp_bound_propagator :=
  let p1 := { p with m_fixed_vertex := some v }
  let delta := new_v_offset - (get_vertex p1 v).m_offset
  let p2 :=
    match p1.m_root with
    | some root => switch_to_fixed_mode delta (p1.m_verts.length + 1) root p1
    | none => p1
  { p2 with m_offset_to_verts_neg := fun _ => none, m_offset_to_verts := fun _ => none }

/-- `add_child_from_row(row_index, parent)`: the new state and the vertex to explore
next, `none` for `nullptr`. -/
def add_child_from_row (m : imp) (row_index parent : Nat) (p : lp_bound_propagator) :
    lp_bound_propagator × Option Nat :=
  match is_tree_offset_row m.lp row_index with
  | none => (p, none)
  | some (x, y, offset) =>
    if y.not_set then
      let offs := if x.m_sign then offset else -offset
      if fixed_phase p then
        let a := alloc_v p row_index x.m_column offs false
        (add_child a.1 parent a.2, some a.2)
      else
        let a := alloc_v p row_index x.m_column (get_vertex p parent).m_offset false
        let p1 := { a.1 with m_fixed_vertex := some a.2 }
        let p2 := add_child p1 parent a.2
        match p2.m_root with
        | some root =>
          (switch_to_fixed_mode_in_tree root (offs - (get_vertex p2 parent).m_offset) p2,
           some a.2)
        | none => (p2, some a.2)
    else
      let a := alloc_v p row_index (get_vertex p parent).m_column
        (get_vertex p parent).m_offset (get_vertex p parent).m_neg
      let p1 := add_child a.1 parent a.2
      let xy := if y.m_column = (get_vertex p1 a.2).m_column then (y, x) else (x, y)
      let yo : signed_column × ℚ :=
        if xy.1.m_sign then (⟨!xy.2.m_sign, xy.2.m_column⟩, -offset) else (xy.2, offset)
      (add_child_from_row_continue a.2 yo.1 yo.2 p1, some a.2)

/-! ## The traversal -/

/-- `go_over_vertex_column(v)`; `explore` stands for the nested calls of
`explore_under`. -/
def go_over_vertex_column (m : imp)
    (explore : Nat → lp_bound_propagator → lp_bound_propagator) (v : Nat)
    (p : lp_bound_propagator) : lp_bound_propagator :=
  match check_insert p.m_visited_columns (get_vertex p v).m_column with
  | none => p
  | some cols =>
    (m.lp.columns (get_vertex p v).m_column).foldl (fun q row_index =>
      match check_insert q.m_visited_rows row_index with
      | none => q
      | some rows =>
        match add_child_from_row m row_index v { q with m_visited_rows := rows } with
        | (q1, some u) => explore u q1
        | (q1, none) => q1) { p with m_visited_columns := cols }

/-- `explore_under(v)`; the fuel bounds the depth of the nested calls. -/
def explore_under (m : imp) : Nat → Nat → lp_bound_propagator → lp_bound_propagator
  | 0, _, p => p
  | fuel + 1, v, p =>
    let p1 := if fixed_phase p then try_add_equation_with_fixed_tables m v p else p
    let p2 := check_for_eq_and_add_to_offsets m v p1
    let p3 := go_over_vertex_column m (explore_under m fuel) v p2
    (get_vertex p3 v).m_children.foldl (fun q c => explore_under m fuel c q) p3

/-- `cheap_eq_tree(row_index)`; `delete_tree` empties the arena. -/
def cheap_eq_tree (m : imp) (fuel : Nat) (row_index : Nat) (p : lp_bound_propagator) :
    lp_bound_propagator :=
  match check_insert p.m_visited_rows row_index with
  | none => p
  | some rows =>
    let p1 := create_root m row_index { p with m_visited_rows := rows }
    match p1.m_root with
    | none => p1
    | some root =>
      let p2 := explore_under m fuel root p1
      { p2 with m_verts := [], m_root := none, m_fixed_vertex := none,
                m_offset_to_verts := fun _ => none,
                m_offset_to_verts_neg := fun _ => none }

/-! ## The implied-bound table -/

/-- The value `GE` of the enumeration `lconstraint_kind`, which is declared outside the
sources at hand (`LE = -2, LT = -1, GE = 2, GT = 1`); the propagator only hands the kind
to `bound_is_interesting`. -/
def lconstraint_kind_GE : Int := 2

/-- The value `LE` of the enumeration `lconstraint_kind`. -/
def lconstraint_kind_LE : Int := -2

/-- `init()`: clear the two index maps and the list of implied bounds. -/
def init (p : lp_bound_propagator) : lp_bound_propagator :=
  { p with m_improved_upper_bounds := fun _ => none,
           m_improved_lower_bounds := fun _ => none,
           m_ibounds := [] }

/-- The kind that `try_add_bound` computes: `GE` or `LE`, halved when the bound is
strict. -/
def bound_kind (is_low strict : Bool) : Int :=
  if strict then (if is_low then lconstraint_kind_GE else lconstraint_kind_LE) / 2
  else (if is_low then lconstraint_kind_GE else lconstraint_kind_LE)

/-- `try_add_bound(v, j, is_low, coeff_before_j_is_pos, row_or_term_index, strict)`.  An
index of the map that is out of the range of `m_ibounds` leaves the state alone. -/
def try_add_bound (m : imp) (v : ℚ) (j : Nat) (is_low coeff_before_j_is_pos : Bool)
    (row_or_term_index : Nat) (strict : Bool) (p : lp_bound_propagator) :
    lp_bound_propagator :=
  let jr := m.lp.column_to_reported_index j
  let b : implied_bound := ⟨v, jr, is_low, coeff_before_j_is_pos, row_or_term_index, strict⟩
  if !m.bound_is_interesting jr (bound_kind is_low strict) v then p
  else if is_low then
    match p.m_improved_lower_bounds jr with
    | some k =>
      match p.m_ibounds[k]? with
      | some found_bound =>
        if v > found_bound.m_bound ∨
            (v = found_bound.m_bound ∧ found_bound.m_strict = false ∧ strict = true) then
          { p with m_ibounds := p.m_ibounds.set k b }
        else p
      | none => p
    | none =>
      { p with
        m_improved_lower_bounds :=
          Function.update p.m_improved_lower_bounds jr (some p.m_ibounds.length),
        m_ibounds := p.m_ibounds ++ [b] }
  else
    match p.m_improved_upper_bounds jr with
    | some k =>
      match p.m_ibounds[k]? with
      | some found_bound =>
        if v < found_bound.m_bound ∨
            (v = found_bound.m_bound ∧ found_bound.m_strict = false ∧ strict = true) then
          { p with m_ibounds := p.m_ibounds.set k b }
        else p
      | none => p
    | none =>
      { p with
        m_improved_upper_bounds :=
          Function.update p.m_improved_upper_bounds jr (some p.m_ibounds.length),
        m_ibounds := p.m_ibounds ++ [b] }

/-! ## Vocabulary of the statements -/

/-- The cells of a row whose column is not fixed, in row order. -/
def free_cells (s : lar_solver) (row : List row_cell) : List row_cell :=
  row.filter (fun c => !column_is_fixed s c.var)

/-- The cells of a row whose column is fixed, in row order. -/
def fixed_cells (s : lar_solver) (row : List row_cell) : List row_cell :=
  row.filter (fun c => column_is_fixed s c.var)

/-- The value of the linear form of a row under an assignment of the columns. -/
def row_value (val : Nat → ℚ) (row : List row_cell) : ℚ :=
  (row.map (fun c => c.coeff * val c.var)).sum

/-- The contribution of the fixed cells of a row: the sum of `coeff * lower bound`. -/
def fixed_offset (s : lar_solver) (row : List row_cell) : ℚ :=
  ((fixed_cells s row).map (fun c => c.coeff * get_lower_bound_rational s c.var)).sum

/-- Every cell of the row names a column, never the sentinel `null_lpvar`. -/
def row_wf (row : List row_cell) : Prop := ∀ c ∈ row, c.var ≠ null_lpvar

/-- The assignment gives every fixed column of the row its lower bound. -/
def at_fixed_bounds (s : lar_solver) (val : Nat → ℚ) (row : List row_cell) : Prop :=
  ∀ c ∈ row, column_is_fixed s c.var = true → val c.var = get_lower_bound_rational s c.var

/-- The shapes of the free cells the scan accepts. -/
def scan_shape (l : List row_cell) (x y : Nat) : Prop :=
  (l = [] ∧ x = null_lpvar ∧ y = null_lpvar) ∨
  (∃ c, l = [c] ∧ c.coeff = 1 ∧ x = c.var ∧ y = null_lpvar) ∨
  (∃ c, l = [c] ∧ c.coeff = -1 ∧ x = null_lpvar ∧ y = c.var) ∨
  (∃ c d, l = [c, d] ∧ c.coeff = 1 ∧ d.coeff = -1 ∧ x = c.var ∧ y = d.var) ∨
  (∃ c d, l = [c, d] ∧ c.coeff = -1 ∧ d.coeff = 1 ∧ x = d.var ∧ y = c.var)

/-- The products `coeff * lower bound` of the fixed cells, in row order. -/
def fixed_terms (s : lar_solver) (row : List row_cell) : List ℚ :=
  (fixed_cells s row).map (fun c => c.coeff * get_lower_bound_rational s c.var)

/-- No running value of `k` in the second loop of `is_offset_row` is big: the negated sum
of each non-empty initial segment of the fixed contributions is not big. -/
def running_offsets_small (s : lar_solver) (row : List row_cell) : Prop :=
  ∀ n, 0 < n → n ≤ (fixed_terms s row).length →
    s.is_big (0 - ((fixed_terms s row).take n).sum) = false

/-- The shape of the free cells of an offset row: one cell with coefficient `+1` or `-1`,
or two cells with coefficients `+1` and `-1` in either order. -/
def offset_shape (l : List row_cell) : Prop :=
  (∃ c, l = [c] ∧ (c.coeff = 1 ∨ c.coeff = -1)) ∨
  (∃ c d, l = [c, d] ∧ ((c.coeff = 1 ∧ d.coeff = -1) ∨ (c.coeff = -1 ∧ d.coeff = 1)))

/-- The bound witnesses of the cells of a row whose column is fixed for the solver, in
row order: lower witness, then upper witness, cell after cell. -/
def fixed_witnesses (s : lar_solver) (row : Nat) : explanation :=
  ((s.get_row row).filter (fun c => s.is_fixed c.var)).flatMap
    (fun c => [(s.get_bound_constraint_witnesses_for_column c.var).1,
               (s.get_bound_constraint_witnesses_for_column c.var).2])

/-- The equalities reported by the first check of `cheap_eq_table(rid)`. -/
def reports_fixed (m : imp) (rid : Nat) (p : lp_bound_propagator) : List eq_report :=
  match is_offset_row m.lp rid with
  | none => []
  | some (x, y, k) => reports_of p (cheap_eq_table_fixed m rid x y k p)

/-- The equalities reported by the second check of `cheap_eq_table(rid)`. -/
def reports_direct (m : imp) (rid : Nat) (p : lp_bound_propagator) : List eq_report :=
  match is_offset_row m.lp rid with
  | none => []
  | some (x, y, k) =>
    reports_of (cheap_eq_table_fixed m rid x y k p)
      (cheap_eq_table_direct m rid x y k (cheap_eq_table_fixed m rid x y k p))

/-- The equalities reported by the third check of `cheap_eq_table(rid)`. -/
def reports_lookup (m : imp) (rid : Nat) (p : lp_bound_propagator) : List eq_report :=
  match is_offset_row m.lp rid with
  | none => []
  | some (x, y, k) =>
    reports_of (cheap_eq_table_direct m rid x y k (cheap_eq_table_fixed m rid x y k p))
      (cheap_eq_table_lookup m rid x y k
        (cheap_eq_table_direct m rid x y k (cheap_eq_table_fixed m rid x y k p)))

/-- The row stored in the two-row table still classifies as an offset row that matches the
key `(y, k)`, the way `cheap_eq_table` tests it: same `y2` and `k2`, or, with `y2` set,
the roles swapped (`x2 = y` and `k = -k2`). -/
def still_matches (s : lar_solver) (row_id y : Nat) (k : ℚ) : Prop :=
  ∃ x2 y2 k2, is_offset_row s row_id = some (x2, y2, k2) ∧
    ((y2 = y ∧ k2 = k) ∨ (y2 ≠ null_lpvar ∧ x2 = y ∧ k2 = -k))

/-- The arguments of one call of `try_add_bound`. -/
structure bound_call where
  v : ℚ
  j : Nat
  is_low : Bool
  coeff_before_j_is_pos : Bool
  row_or_term_index : Nat
  strict : Bool

/-- The call of `try_add_bound` with the arguments `c`. -/
def try_add_bound_call (m : imp) (p : lp_bound_propagator) (c : bound_call) :
    lp_bound_propagator :=
  try_add_bound m c.v c.j c.is_low c.coeff_before_j_is_pos c.row_or_term_index c.strict p

/-- A sequence of calls of `try_add_bound`, first call first. -/
def try_add_bounds (m : imp) (cs : List bound_call) (p : lp_bound_propagator) :
    lp_bound_propagator :=
  cs.foldl (try_add_bound_call m) p

/-- The implied bound the call would store. -/
def bound_call.bound (m : imp) (c : bound_call) : implied_bound :=
  ⟨c.v, m.lp.column_to_reported_index c.j, c.is_low, c.coeff_before_j_is_pos,
    c.row_or_term_index, c.strict⟩

/-- The call is judged interesting by `bound_is_interesting`. -/
def bound_call.interesting (m : imp) (c : bound_call) : Bool :=
  m.bound_is_interesting (m.lp.column_to_reported_index c.j) (bound_kind c.is_low c.strict) c.v

/-- The index map of a direction: `m_improved_lower_bounds` for lower bounds,
`m_improved_upper_bounds` for upper bounds. -/
def index_map (p : lp_bound_propagator) (low : Bool) : Nat → Option Nat :=
  if low then p.m_improved_lower_bounds else p.m_improved_upper_bounds

/-- The implied bound stored for the reported column `j` in a direction, if any. -/
def stored_bound (p : lp_bound_propagator) (low : Bool) (j : Nat) : Option implied_bound :=
  match index_map p low j with
  | some i => p.m_ibounds[i]?
  | none => none

/-- The interesting calls of a sequence for the reported column `j` in a direction. -/
def candidates (m : imp) (cs : List bound_call) (low : Bool) (j : Nat) : List bound_call :=
  cs.filter (fun c => (c.is_low == low) && (m.lp.column_to_reported_index c.j == j) &&
    c.interesting m)

/-- The candidate `v`, `strict` replaces the stored bound `b`: strictly tighter, or equal
in value and strict where `b` is not. -/
def replaces (low : Bool) (v : ℚ) (strict : Bool) (b : implied_bound) : Prop :=
  (if low then v > b.m_bound else v < b.m_bound) ∨
    (v = b.m_bound ∧ b.m_strict = false ∧ strict = true)

/-- Whether a candidate replaces a stored bound can be computed. -/
instance (low : Bool) (v : ℚ) (strict : Bool) (b : implied_bound) :
    Decidable (replaces low v strict b) := by
  unfold replaces; infer_instance

/-- The invariant of the implied-bound table: an index of a map is in range and leads to a
bound of that direction and column, and every entry is indexed. -/
def ibounds_inv (p : lp_bound_propagator) : Prop :=
  (∀ low j i, index_map p low j = some i →
    ∃ b, p.m_ibounds[i]? = some b ∧ b.m_is_lower_bound = low ∧ b.m_j = j) ∧
  (∀ i, i < p.m_ibounds.length → ∃ low j, index_map p low j = some i)

/-- The bound `b` is the best of the candidates: tightest value, strict as soon as a
candidate with that value is strict. -/
def best_of (low : Bool) (cands : List bound_call) (b : implied_bound) : Prop :=
  (∀ c ∈ cands, if low then c.v ≤ b.m_bound else b.m_bound ≤ c.v) ∧
  (∃ c ∈ cands, c.v = b.m_bound) ∧
  (b.m_strict = true ↔ ∃ c ∈ cands, c.v = b.m_bound ∧ c.strict = true)

/-- The implied-bound table `p` matches the calls `cs` made since `init()`: the invariant
holds and, for every direction and reported column, a bound is stored exactly when the
calls have an interesting candidate, and it is the best of the candidates. -/
def table_matches (m : imp) (cs : List bound_call) (p : lp_bound_propagator) : Prop :=
  ibounds_inv p ∧
  ∀ low j, (stored_bound p low j = none ∧ candidates m cs low j = []) ∨
    (∃ b, stored_bound p low j = some b ∧ best_of low (candidates m cs low j) b)

/-- Every row visited in `p` is visited in `q`. -/
def rows_sub (p q : lp_bound_propagator) : Prop :=
  ∀ r ∈ p.m_visited_rows, r ∈ q.m_visited_rows

/-- Tells whether a left fold of `f` over the list stays within the fuel, where `g` tells
it of one step of `f`. -/
def fold_ok {α : Type} (f : lp_bound_propagator → α → lp_bound_propagator)
    (g : lp_bound_propagator → α → Bool) : List α → lp_bound_propagator → Bool
  | [], _ => true
  | a :: l, q => g q a && fold_ok f g l (f q a)

/-- The body of the loop of `go_over_vertex_column`. -/
def go_over_vertex_column_step (m : imp)
    (explore : Nat → lp_bound_propagator → lp_bound_propagator) (v : Nat)
    (q : lp_bound_propagator) (row_index : Nat) : lp_bound_propagator :=
  match check_insert q.m_visited_rows row_index with
  | none => q
  | some rows =>
    match add_child_from_row m row_index v { q with m_visited_rows := rows } with
    | (q1, some u) => explore u q1
    | (q1, none) => q1

/-- Tells whether one turn of the loop of `go_over_vertex_column` stays within the fuel,
where `ok` tells it of the nested call. -/
def go_over_vertex_column_step_ok (m : imp)
    (ok : Nat → lp_bound_propagator → Bool) (v : Nat)
    (q : lp_bound_propagator) (row_index : Nat) : Bool :=
  match check_insert q.m_visited_rows row_index with
  | none => true
  | some rows =>
    match add_child_from_row m row_index v { q with m_visited_rows := rows } with
    | (q1, some u) => ok u q1
    | (_, none) => true

/-- Tells whether `go_over_vertex_column(v)` stays within the fuel. -/
def go_over_vertex_column_ok (m : imp)
    (explore : Nat → lp_bound_propagator → lp_bound_propagator)
    (ok : Nat → lp_bound_propagator → Bool) (v : Nat) (p : lp_bound_propagator) : Bool :=
  match check_insert p.m_visited_columns (get_vertex p v).m_column with
  | none => true
  | some cols =>
    fold_ok (go_over_vertex_column_step m explore v) (go_over_vertex_column_step_ok m ok v)
      (m.lp.columns (get_vertex p v).m_column) { p with m_visited_columns := cols }

/-- Tells whether the model `explore_under m fuel v p` follows the whole recursion of
`explore_under(v)`, that is, never stops for want of fuel. -/
def explore_under_ok (m : imp) : Nat → Nat → lp_bound_propagator → Bool
  | 0, _, _ => false
  | fuel + 1, v, p =>
    let p1 := if fixed_phase p then try_add_equation_with_fixed_tables m v p else p
    let p2 := check_for_eq_and_add_to_offsets m v p1
    let p3 := go_over_vertex_column m (explore_under m fuel) v p2
    go_over_vertex_column_ok m (explore_under m fuel) (explore_under_ok m fuel) v p2 &&
      fold_ok (fun q c => explore_under m fuel c q) (fun q c => explore_under_ok m fuel c q)
        (get_vertex p3 v).m_children p3

/-- Tells whether the model `cheap_eq_tree m fuel row_index p` follows the whole recursion
of `cheap_eq_tree(row_index)`. -/
def cheap_eq_tree_ok (m : imp) (fuel : Nat) (row_index : Nat) (p : lp_bound_propagator) :
    Bool :=
  match check_insert p.m_visited_rows row_index with
  | none => true
  | some rows =>
    match (create_root m row_index { p with m_visited_rows := rows }).m_root with
    | none => true
    | some root =>
      explore_under_ok m fuel root (create_root m row_index { p with m_visited_rows := rows })

/-- What the switch to fixed phase does to one vertex: shift the offset by `d`, negate it
when `neg` was set, clear `neg`. -/
def shift_vertex (d : ℚ) (x : vertex) : vertex :=
  { x with m_offset := if x.m_neg then -(x.m_offset + d) else x.m_offset + d, m_neg := false }

/-- The state with the vertex `v` shifted. -/
def shift_at (d : ℚ) (p : lp_bound_propagator) (v : Nat) : lp_bound_propagator :=
  set_vertex p v (shift_vertex d (get_vertex p v))

/-- The vertices reached from `v` through the lists of children, parents first, down to
the depth `fuel`: the traversal of `tree_contains_r`, `subtree_size` and
`switch_to_fixed_mode`. -/
def tree_nodes (p : lp_bound_propagator) : Nat → Nat → List Nat
  | 0, _ => []
  | fuel + 1, v => v :: (get_vertex p v).m_children.flatMap (tree_nodes p fuel)

/-- The arena is laid out in allocation order: the children of the vertex `i` are
allocated, and they come after `i`. -/
def arena_ordered (p : lp_bound_propagator) : Prop :=
  ∀ i c, c ∈ (get_vertex p i).m_children → i < c ∧ c < p.m_verts.length

/-- The state `q` has the same lists of children as `p`. -/
def same_children (p q : lp_bound_propagator) : Prop :=
  ∀ j, (get_vertex q j).m_children = (get_vertex p j).m_children

/-- The coefficient of the cell is `1` or `-1`. -/
def unit_coeff (c : row_cell) : Prop := c.coeff = 1 ∨ c.coeff = -1

/-- The signed column that `set_sign_and_column` makes of a cell with coefficient `1` or
`-1`: the sign is set for `-1`. -/
def signed_cell (c : row_cell) : signed_column := ⟨decide (c.coeff = -1), c.var⟩

/-- The coefficient that a sign stands for. -/
def sign_value (b : Bool) : ℚ := if b then -1 else 1

/-- The shapes of the free cells that `is_tree_offset_row` accepts, with the signed
columns it returns: one or two cells with coefficients `1` or `-1`, in row order. -/
def tree_shape (l : List row_cell) (x y : signed_column) : Prop :=
  (∃ c, l = [c] ∧ unit_coeff c ∧ x = signed_cell c ∧ y = signed_column.ctor) ∨
  (∃ c d, l = [c, d] ∧ unit_coeff c ∧ unit_coeff d ∧ x = signed_cell c ∧ y = signed_cell d)

/-- Allocate a vertex and attach it under `parent`: `alloc_v` followed by
`parent->add_child`, as every vertex but the root is made. -/
def attach (p : lp_bound_propagator) (parent row column : Nat) (offset : ℚ) (neg : Bool) :
    lp_bound_propagator :=
  add_child (alloc_v p row column offset neg).1 parent (alloc_v p row column offset neg).2

/-- The vertex `x` with the pointer `c` pushed on its children. -/
def vertex.push_child (x : vertex) (c : Nat) : vertex :=
  { x with m_children := x.m_children ++ [c] }

/-- The swap and the sign normalisation of `add_child_from_row` for a row with two free
columns `x` and `y` and the offset `offset`, seen from a parent of column
`parent_column`: the signed column other than the parent's one and the offset, once the
parent's column has coefficient `+1`. -/
def normalize_row (x y : signed_column) (offset : ℚ) (parent_column : Nat) :
    signed_column × ℚ :=
  let xy := if y.m_column = parent_column then (y, x) else (x, y)
  if xy.1.m_sign then (⟨!xy.2.m_sign, xy.2.m_column⟩, -offset) else (xy.2, offset)

/-- The sign in the row of the column that `add_child_from_row` takes for the parent's. -/
def parent_sign (x y : signed_column) (parent_column : Nat) : Bool :=
  if y.m_column = parent_column then y.m_sign else x.m_sign

/-- The offset that `add_child_from_row_continue` gives the new vertex below a parent with
`offset` and `neg`, for the normalised sign `s` and offset `k`, in fixed phase or not. -/
def child_offset (fixed : Bool) (offset : ℚ) (neg : Bool) (s : Bool) (k : ℚ) : ℚ :=
  if fixed then (if s then offset + k else -offset - k)
  else (if neg then -offset - k else offset + k)

/-- The flag `neg` that `add_child_from_row_continue` gives the new vertex. -/
def child_neg (fixed : Bool) (neg : Bool) (s : Bool) : Bool :=
  if fixed then false else xor neg s

/-- The free-phase invariant of a vertex under an assignment: the value of its column is
the value of the root column plus the offset, or minus that when `neg` is set
(the comments on `m_offset_to_verts` and `m_offset_to_verts_neg`). -/
def free_invariant (val : Nat → ℚ) (root_column : Nat) (v : vertex) : Prop :=
  if v.m_neg then -(val v.m_column) = val root_column + v.m_offset
  else val v.m_column = val root_column + v.m_offset

/-- The state `q` has the tree, the visited sets, the root and the fixed vertex of `p`:
what the per-vertex checks leave alone. -/
def same_tree (p q : lp_bound_propagator) : Prop :=
  q.m_verts = p.m_verts ∧ q.m_visited_rows = p.m_visited_rows ∧
  q.m_visited_columns = p.m_visited_columns ∧ q.m_root = p.m_root ∧
  q.m_fixed_vertex = p.m_fixed_vertex

/-- The identity and the links of a vertex: row, column, children, parent and level,
everything but the offset and `neg`. -/
def vertex.shape (v : vertex) : Nat × Nat × List Nat × Option Nat × Nat :=
  (v.m_row, v.m_column, v.m_children, v.m_parent, v.m_level)

/-- The state `q` has the root of `p` and an arena of the same size with the same
identities and links. -/
def same_shape (p q : lp_bound_propagator) : Prop :=
  q.m_root = p.m_root ∧ q.m_verts.length = p.m_verts.length ∧
  ∀ j, (get_vertex q j).shape = (get_vertex p j).shape

/-- The identities `(row, column)` of the vertices of the arena, in allocation order. -/
def vertex_keys (p : lp_bound_propagator) : List (Nat × Nat) :=
  p.m_verts.map (fun v => (v.m_row, v.m_column))

/-- The well-formedness of the tree in the arena: the root is the first vertex, at level 0
and without parent; every other vertex has a parent allocated before it, one level above
it, whose list of children holds it exactly once; and the lists of children hold only
allocated vertices that come after their parent. -/
def tree_wf (p : lp_bound_propagator) : Prop :=
  p.m_root = some 0 ∧ 0 < p.m_verts.length ∧
  (get_vertex p 0).m_level = 0 ∧ (get_vertex p 0).m_parent = none ∧
  (∀ i, 0 < i → i < p.m_verts.length →
    ∃ q, q < i ∧ (get_vertex p i).m_parent = some q ∧
      (get_vertex p i).m_level = (get_vertex p q).m_level + 1 ∧
      (get_vertex p q).m_children.count i = 1) ∧
  arena_ordered p

/-- No row of the tableau holds the same column in two cells. -/
def no_duplicate_columns (s : lar_solver) : Prop :=
  ∀ r, ((s.get_row r).map (fun c => c.var)).Nodup

/-- The anti-duplication invariant with what keeps it inductive: no two vertices of the
arena have the same `(row, column)`, and the row of every vertex is marked visited. -/
def keys_inv (p : lp_bound_propagator) : Prop :=
  (vertex_keys p).Nodup ∧ ∀ k ∈ vertex_keys p, k.1 ∈ p.m_visited_rows

/-- The vertex reached from `u` by following `n` parent links; `none` when a null parent
is met on the way. -/
def nth_parent (p : lp_bound_propagator) : Nat → Nat → Option Nat
  | 0, u => some u
  | n + 1, u =>
    match (get_vertex p u).m_parent with
    | none => none
    | some q => nth_parent p n q

/-- The vertex `a` is `u` or an ancestor of `u`. -/
def ancestor_or_self (p : lp_bound_propagator) (a u : Nat) : Prop :=
  ∃ n, nth_parent p n u = some a

/-- The vertex `w` was recorded on the way up from `u`: it is the parent of `u` or of an
ancestor of `u`, and it has the row of the vertex it was reached from. -/
def recorded_from (p : lp_bound_propagator) (w u : Nat) : Prop :=
  ∃ c, ancestor_or_self p c u ∧ (get_vertex p c).m_parent = some w ∧
    (get_vertex p c).m_row = (get_vertex p w).m_row

/-- The vertices on which a left fold of `f` invokes `explore_under`, call after call,
where `g` lists those of one step of `f`. -/
def fold_calls {α : Type} (f : lp_bound_propagator → α → lp_bound_propagator)
    (g : lp_bound_propagator → α → List Nat) : List α → lp_bound_propagator → List Nat
  | [], _ => []
  | a :: l, q => g q a ++ fold_calls f g l (f q a)

/-- The vertices on which one turn of the loop of `go_over_vertex_column` invokes
`explore_under`, where `calls` lists those of the nested call. -/
def go_over_vertex_column_step_calls (m : imp)
    (calls : Nat → lp_bound_propagator → List Nat) (v : Nat)
    (q : lp_bound_propagator) (row_index : Nat) : List Nat :=
  match check_insert q.m_visited_rows row_index with
  | none => []
  | some rows =>
    match add_child_from_row m row_index v { q with m_visited_rows := rows } with
    | (q1, some u) => calls u q1
    | (_, none) => []

/-- The vertices on which `go_over_vertex_column(v)` invokes `explore_under`. -/
def go_over_vertex_column_calls (m : imp)
    (explore : Nat → lp_bound_propagator → lp_bound_propagator)
    (calls : Nat → lp_bound_propagator → List Nat) (v : Nat) (p : lp_bound_propagator) :
    List Nat :=
  match check_insert p.m_visited_columns (get_vertex p v).m_column with
  | none => []
  | some cols =>
    fold_calls (go_over_vertex_column_step m explore v)
      (go_over_vertex_column_step_calls m calls v)
      (m.lp.columns (get_vertex p v).m_column) { p with m_visited_columns := cols }

/-- The vertices on which `explore_under` is invoked during `explore_under(v)`, the call on
`v` itself first, in the order of the calls. -/
def explore_under_calls (m : imp) : Nat → Nat → lp_bound_propagator → List Nat
  | 0, _, _ => []
  | fuel + 1, v, p =>
    let p1 := if fixed_phase p then try_add_equation_with_fixed_tables m v p else p
    let p2 := check_for_eq_and_add_to_offsets m v p1
    let p3 := go_over_vertex_column m (explore_under m fuel) v p2
    v :: (go_over_vertex_column_calls m (explore_under m fuel) (explore_under_calls m fuel)
        v p2 ++
      fold_calls (fun q c => explore_under m fuel c q)
        (fun q c => explore_under_calls m fuel c q) (get_vertex p3 v).m_children p3)

/-- The number of rows of the tableau that are not marked visited. -/
def unvisited_rows (m : imp) (p : lp_bound_propagator) : Nat :=
  ((List.range m.lp.row_count).filter (fun r => decide (r ∉ p.m_visited_rows))).length

/-- Every vertex listed among the children of a vertex is one level below it. -/
def levels_linked (p : lp_bound_propagator) : Prop :=
  ∀ i c, c ∈ (get_vertex p i).m_children →
    (get_vertex p c).m_level = (get_vertex p i).m_level + 1

/-- The tree has at most two vertices for each row of the tableau that is marked
visited. -/
def size_bounded (m : imp) (p : lp_bound_propagator) : Prop :=
  p.m_verts.length + 2 * unvisited_rows m p ≤ 2 * m.lp.row_count

/-- The arena of `q` holds the vertices of `p`, with their columns and levels, and
possibly more. -/
def arena_extends (p q : lp_bound_propagator) : Prop :=
  p.m_verts.length ≤ q.m_verts.length ∧
  ∀ i, i < p.m_verts.length →
    (get_vertex q i).m_column = (get_vertex p i).m_column ∧
    (get_vertex q i).m_level = (get_vertex p i).m_level

/-- What the exploration keeps true of the tree: it is well formed, the levels follow the
lists of children, and its size is bounded by the rows visited. -/
def explore_inv (m : imp) (p : lp_bound_propagator) : Prop :=
  tree_wf p ∧ levels_linked p ∧ size_bounded m p

/-- The assertions of `add_child_from_row(row_index, parent)` on the columns:
`parent->column() == x.column()` for a row with one free column, and
`x.column() == v->column() || y.column() == v->column()` for a row with two, where `v` is
the copy of `parent`; a row that fails the classification meets no assertion. -/
def add_child_from_row_asserts (m : imp) (row_index parent : Nat)
    (p : lp_bound_propagator) : Bool :=
  match is_tree_offset_row m.lp row_index with
  | none => true
  | some (x, y, _) =>
    if y.not_set then decide ((get_vertex p parent).m_column = x.m_column)
    else decide (x.m_column = (get_vertex p parent).m_column) ||
      decide (y.m_column = (get_vertex p parent).m_column)

/-- Tells whether the call of `add_child_from_row` in one turn of the loop of
`go_over_vertex_column`, if any, meets its assertions. -/
def go_over_vertex_column_step_asserts (m : imp) (v : Nat) (q : lp_bound_propagator)
    (row_index : Nat) : Bool :=
  match check_insert q.m_visited_rows row_index with
  | none => true
  | some rows => add_child_from_row_asserts m row_index v { q with m_visited_rows := rows }

/-- Tells whether every call of `add_child_from_row` that `go_over_vertex_column(v)` makes
meets its assertions. -/
def go_over_vertex_column_asserts (m : imp)
    (explore : Nat → lp_bound_propagator → lp_bound_propagator) (v : Nat)
    (p : lp_bound_propagator) : Bool :=
  match check_insert p.m_visited_columns (get_vertex p v).m_column with
  | none => true
  | some cols =>
    fold_ok (go_over_vertex_column_step m explore v) (go_over_vertex_column_step_asserts m v)
      (m.lp.columns (get_vertex p v).m_column) { p with m_visited_columns := cols }

/-- The row and column indexes of the tableau agree: every row listed for a column holds
a cell of that column. -/
def indexes_agree (s : lar_solver) : Prop :=
  ∀ j r, r ∈ s.columns j → ∃ c ∈ s.get_row r, c.var = j

/-! ## Sample tableaux -/

/-- Two rows `x2 - x1 - x3 = 0` and `x0 - x1 - x4 = 0`; the columns 3 and 4 are fixed at 5
and are the basic columns of their rows. -/
def tableau_a : lar_solver where
  rows := [[⟨2, 1⟩, ⟨1, -1⟩, ⟨3, -1⟩], [⟨0, 1⟩, ⟨1, -1⟩, ⟨4, -1⟩]]
  columns := fun j => if j = 0 then [1] else if j = 1 then [0, 1] else if j = 2 then [0]
    else if j = 3 then [0] else if j = 4 then [1] else []
  column_is_fixed := fun j => j == 3 || j == 4
  is_fixed := fun j => j == 3 || j == 4
  get_lower_bound := fun j => if j = 3 ∨ j = 4 then ⟨5, 0⟩ else ⟨0, 0⟩
  get_upper_bound := fun j => if j = 3 ∨ j = 4 then ⟨5, 0⟩ else ⟨0, 0⟩
  is_base := fun j => j == 3 || j == 4
  column_is_int := fun _ => false
  find_in_fixed_tables := fun v _ => if v = 5 then some 3 else none
  get_bound_constraint_witnesses_for_column := fun j => (2 * j, 2 * j + 1)
  column_to_reported_index := fun j => j
  local_to_external := fun j => j
  is_big := fun _ => false

/-- The theory side for `tableau_a`: no two distinct columns are known equal. -/
def imp_a : imp where
  lp := tableau_a
  is_equal := fun j k => j == k
  bound_is_interesting := fun _ _ _ => true

/-- One row `x1 - x2 = 0` whose basic column is the one with coefficient `-1`. -/
def tableau_b : lar_solver where
  rows := [[⟨1, 1⟩, ⟨2, -1⟩]]
  columns := fun j => if j = 1 ∨ j = 2 then [0] else []
  column_is_fixed := fun _ => false
  is_fixed := fun _ => false
  get_lower_bound := fun _ => ⟨0, 0⟩
  get_upper_bound := fun _ => ⟨0, 0⟩
  is_base := fun j => j == 2
  column_is_int := fun _ => false
  find_in_fixed_tables := fun _ _ => none
  get_bound_constraint_witnesses_for_column := fun j => (2 * j, 2 * j + 1)
  column_to_reported_index := fun j => j
  local_to_external := fun j => j
  is_big := fun _ => false

/-- An assignment of the columns that solves the first row of `tableau_a`. -/
def val_a : Nat → ℚ := fun j => if j = 2 ∨ j = 3 then 5 else 0

/-- One row `x0 - x1 = 0` with column 1 fixed at 5; column 2, in no row, is fixed at 5 as
well and is the column the fixed-value table holds at 5. -/
def tableau_c : lar_solver where
  rows := [[⟨0, 1⟩, ⟨1, -1⟩]]
  columns := fun j => if j = 0 ∨ j = 1 then [0] else []
  column_is_fixed := fun j => j == 1 || j == 2
  is_fixed := fun j => j == 1 || j == 2
  get_lower_bound := fun j => if j = 1 ∨ j = 2 then ⟨5, 0⟩ else ⟨0, 0⟩
  get_upper_bound := fun j => if j = 1 ∨ j = 2 then ⟨5, 0⟩ else ⟨0, 0⟩
  is_base := fun j => j == 0
  column_is_int := fun _ => false
  find_in_fixed_tables := fun v _ => if v = 5 then some 2 else none
  get_bound_constraint_witnesses_for_column := fun j => (2 * j, 2 * j + 1)
  column_to_reported_index := fun j => j
  local_to_external := fun j => j
  is_big := fun _ => false

/-- The theory side for `tableau_c`: no two distinct columns are known equal. -/
def imp_c : imp where
  lp := tableau_c
  is_equal := fun j k => j == k
  bound_is_interesting := fun _ _ _ => true

/-- Two rows `x0 - x1 - x2 = 0` and `x3 - x1 - x2 = 0`; column 2 is fixed at 5 and
column 3, the basic column of its row, is fixed at 0, so that the second row reads
`x1 = -5`. -/
def tableau_d : lar_solver where
  rows := [[⟨0, 1⟩, ⟨1, -1⟩, ⟨2, -1⟩], [⟨3, 1⟩, ⟨1, -1⟩, ⟨2, -1⟩]]
  columns := fun j => if j = 0 then [0] else if j = 1 ∨ j = 2 then [0, 1]
    else if j = 3 then [1] else []
  column_is_fixed := fun j => j == 2 || j == 3
  is_fixed := fun j => j == 2 || j == 3
  get_lower_bound := fun j => if j = 2 then ⟨5, 0⟩ else ⟨0, 0⟩
  get_upper_bound := fun j => if j = 2 then ⟨5, 0⟩ else ⟨0, 0⟩
  is_base := fun j => j == 0 || j == 3
  column_is_int := fun _ => false
  find_in_fixed_tables := fun v _ => if v = 5 then some 2 else if v = 0 then some 3 else none
  get_bound_constraint_witnesses_for_column := fun j => (2 * j, 2 * j + 1)
  column_to_reported_index := fun j => j
  local_to_external := fun j => j
  is_big := fun _ => false

/-- The theory side for `tableau_d`: no two distinct columns are known equal. -/
def imp_d : imp where
  lp := tableau_d
  is_equal := fun j k => j == k
  bound_is_interesting := fun _ _ _ => true

/-- A propagator whose two-row table holds the second row of `tableau_d` under the key
`(x1, 5)`, as recorded when that row read `x3 = x1 + 5`. -/
def propagator_d : lp_bound_propagator :=
  table_insert lp_bound_propagator.ctor (1, 5) 1

/-- Two rows `x0 - x2 - x3 = 0` and `x1 - x2 - x4 = 0`; the columns 3 and 4 are fixed at 5
and are the basic columns of their rows. -/
def tableau_e : lar_solver where
  rows := [[⟨0, 1⟩, ⟨2, -1⟩, ⟨3, -1⟩], [⟨1, 1⟩, ⟨2, -1⟩, ⟨4, -1⟩]]
  columns := fun j => if j = 0 then [0] else if j = 1 then [1] else if j = 2 then [0, 1]
    else if j = 3 then [0] else if j = 4 then [1] else []
  column_is_fixed := fun j => j == 3 || j == 4
  is_fixed := fun j => j == 3 || j == 4
  get_lower_bound := fun j => if j = 3 ∨ j = 4 then ⟨5, 0⟩ else ⟨0, 0⟩
  get_upper_bound := fun j => if j = 3 ∨ j = 4 then ⟨5, 0⟩ else ⟨0, 0⟩
  is_base := fun j => j == 3 || j == 4
  column_is_int := fun _ => false
  find_in_fixed_tables := fun v _ => if v = 5 then some 3 else none
  get_bound_constraint_witnesses_for_column := fun j => (2 * j, 2 * j + 1)
  column_to_reported_index := fun j => j
  local_to_external := fun j => j
  is_big := fun _ => false

/-- The theory side for `tableau_e`: no two distinct columns are known equal. -/
def imp_e : imp where
  lp := tableau_e
  is_equal := fun j k => j == k
  bound_is_interesting := fun _ _ _ => true

/-- An assignment of the columns that solves both rows of `tableau_e`. -/
def val_e : Nat → ℚ := fun j => if j = 0 ∨ j = 1 ∨ j = 3 ∨ j = 4 then 5 else 0

/-- One row `x0 + x1 = 0` with column 1 fixed at 5, so that `x0 = -5`; the fixed-value
table holds column 1 at 5. -/
def tableau_f : lar_solver where
  rows := [[⟨0, 1⟩, ⟨1, 1⟩]]
  columns := fun j => if j = 0 ∨ j = 1 then [0] else []
  column_is_fixed := fun j => j == 1
  is_fixed := fun j => j == 1
  get_lower_bound := fun j => if j = 1 then ⟨5, 0⟩ else ⟨0, 0⟩
  get_upper_bound := fun j => if j = 1 then ⟨5, 0⟩ else ⟨0, 0⟩
  is_base := fun j => j == 0
  column_is_int := fun _ => false
  find_in_fixed_tables := fun v _ => if v = 5 then some 1 else none
  get_bound_constraint_witnesses_for_column := fun j => (2 * j, 2 * j + 1)
  column_to_reported_index := fun j => j
  local_to_external := fun j => j
  is_big := fun _ => false

/-- The theory side for `tableau_f`: no two distinct columns are known equal. -/
def imp_f : imp where
  lp := tableau_f
  is_equal := fun j k => j == k
  bound_is_interesting := fun _ _ _ => true

/-- The solution of `tableau_f`. -/
def val_f : Nat → ℚ := fun j => if j = 0 then -5 else if j = 1 then 5 else 0

/-- The theory side for `tableau_e` once the equality of the columns 1 and 0 is known. -/
def imp_e2 : imp where
  lp := tableau_e
  is_equal := fun j k => j == k || (j == 1 && k == 0)
  bound_is_interesting := fun _ _ _ => true

/-- One row `-x0 + x1 = 0` with column 1 fixed at 5, so that `x0 = 5`; the fixed-value
table holds column 1 at 5. -/
def tableau_g : lar_solver where
  rows := [[⟨0, -1⟩, ⟨1, 1⟩]]
  columns := fun j => if j = 0 ∨ j = 1 then [0] else []
  column_is_fixed := fun j => j == 1
  is_fixed := fun j => j == 1
  get_lower_bound := fun j => if j = 1 then ⟨5, 0⟩ else ⟨0, 0⟩
  get_upper_bound := fun j => if j = 1 then ⟨5, 0⟩ else ⟨0, 0⟩
  is_base := fun j => j == 0
  column_is_int := fun _ => false
  find_in_fixed_tables := fun v _ => if v = 5 then some 1 else none
  get_bound_constraint_witnesses_for_column := fun j => (2 * j, 2 * j + 1)
  column_to_reported_index := fun j => j
  local_to_external := fun j => j
  is_big := fun _ => false

/-- The theory side for `tableau_g`: the equality of the columns 0 and 1 is already
known. -/
def imp_g : imp where
  lp := tableau_g
  is_equal := fun j k => j == k || (j ≤ 1 && k ≤ 1)
  bound_is_interesting := fun _ _ _ => true

/-- Two rows `x0 - x2 = 0` and `x1 - x2 = 0` over three free columns. -/
def tableau_h : lar_solver where
  rows := [[⟨0, 1⟩, ⟨2, -1⟩], [⟨1, 1⟩, ⟨2, -1⟩]]
  columns := fun j => if j = 0 then [0] else if j = 1 then [1] else if j = 2 then [0, 1]
    else []
  column_is_fixed := fun _ => false
  is_fixed := fun _ => false
  get_lower_bound := fun _ => ⟨0, 0⟩
  get_upper_bound := fun _ => ⟨0, 0⟩
  is_base := fun j => j == 0 || j == 1
  column_is_int := fun _ => false
  find_in_fixed_tables := fun _ _ => none
  get_bound_constraint_witnesses_for_column := fun j => (2 * j, 2 * j + 1)
  column_to_reported_index := fun j => j
  local_to_external := fun j => j
  is_big := fun _ => false

/-- The theory side for `tableau_h`: no two distinct columns are known equal. -/
def imp_h : imp where
  lp := tableau_h
  is_equal := fun j k => j == k
  bound_is_interesting := fun _ _ _ => true

/-- Two rows `x0 - x1 - x2 = 0` and `x1 - x3 - x4 = 0` with the cells stored in this
order; the columns 2, 3 and 4 are fixed at `c`, `z` and `d`, the columns 0 and 1 are free;
`fixed_table` is the fixed-value table of the solver. -/
def tableau_i (c d z : ℚ) (fixed_table : ℚ → Bool → Option Nat) : lar_solver where
  rows := [[⟨0, 1⟩, ⟨1, -1⟩, ⟨2, -1⟩], [⟨1, 1⟩, ⟨3, -1⟩, ⟨4, -1⟩]]
  columns := fun j => if j = 0 then [0] else if j = 1 then [0, 1] else if j = 2 then [0]
    else if j = 3 ∨ j = 4 then [1] else []
  column_is_fixed := fun j => j == 2 || j == 3 || j == 4
  is_fixed := fun j => j == 2 || j == 3 || j == 4
  get_lower_bound := fun j => if j = 2 then ⟨c, 0⟩ else if j = 3 then ⟨z, 0⟩
    else if j = 4 then ⟨d, 0⟩ else ⟨0, 0⟩
  get_upper_bound := fun j => if j = 2 then ⟨c, 0⟩ else if j = 3 then ⟨z, 0⟩
    else if j = 4 then ⟨d, 0⟩ else ⟨0, 0⟩
  is_base := fun j => j == 2 || j == 4
  column_is_int := fun _ => false
  find_in_fixed_tables := fixed_table
  get_bound_constraint_witnesses_for_column := fun j => (2 * j, 2 * j + 1)
  column_to_reported_index := fun j => j
  local_to_external := fun j => j
  is_big := fun _ => false

/-- The theory side for `tableau_i`, with `known` as its equality oracle. -/
def imp_i (c d z : ℚ) (fixed_table : ℚ → Bool → Option Nat) (known : Nat → Nat → Bool) :
    imp where
  lp := tableau_i c d z fixed_table
  is_equal := known
  bound_is_interesting := fun _ _ _ => true

/-- A propagator in the middle of a tree run that started from the constructor state:
the visited rows and columns, the root, the fixed vertex, the two offset tables and the
arena. -/
def tree_state (rows cols : List Nat) (root fv : Option Nat) (t tn : ℚ → Option Nat)
    (verts : List vertex) : lp_bound_propagator :=
  { lp_bound_propagator.ctor with
    m_visited_rows := rows, m_visited_columns := cols, m_root := root,
    m_fixed_vertex := fv, m_offset_to_verts := t, m_offset_to_verts_neg := tn,
    m_verts := verts }

/-- The tree on `tableau_i` right after the seed row: the root for column 0 and its child
for column 1. -/
def tableau_i_seeded (c : ℚ) (cols : List Nat) (t : ℚ → Option Nat) : lp_bound_propagator :=
  tree_state [0] cols (some 0) none t (fun _ => none)
    [⟨0, 0, [1], 0, none, 0, false⟩, ⟨0, 1, [], -c, some 0, 1, false⟩]

/-- The tree on `tableau_i` once the second row is expanded: three vertices with absolute
offsets. -/
def tableau_i_grown (c d z : ℚ) (t : ℚ → Option Nat) : lp_bound_propagator :=
  tree_state [1, 0] [1, 0] (some 0) (some 0) t (fun _ => none)
    [⟨0, 0, [1], z + d + c, none, 0, false⟩, ⟨0, 1, [2], z + d, some 0, 1, false⟩,
     ⟨1, 1, [], z + d, some 1, 2, false⟩]

/-- A tree of two vertices in free phase: the root for column 0 and its child for
column 1, with `neg` set and offset 3. -/
def tree_j : lp_bound_propagator :=
  tree_state [0] [] (some 0) none (fun _ => none) (fun _ => none)
    [⟨0, 0, [1], 0, none, 0, false⟩, ⟨0, 1, [], 3, some 0, 1, true⟩]

/-- One row `-x0 + x1 + x2 = 0` with column 2 fixed at 3, so that `x1 = x0 - 3`. -/
def tableau_k : lar_solver where
  rows := [[⟨0, -1⟩, ⟨1, 1⟩, ⟨2, 1⟩]]
  columns := fun j => if j = 0 ∨ j = 1 ∨ j = 2 then [0] else []
  column_is_fixed := fun j => j == 2
  is_fixed := fun j => j == 2
  get_lower_bound := fun j => if j = 2 then ⟨3, 0⟩ else ⟨0, 0⟩
  get_upper_bound := fun j => if j = 2 then ⟨3, 0⟩ else ⟨0, 0⟩
  is_base := fun j => j == 2
  column_is_int := fun _ => false
  find_in_fixed_tables := fun _ _ => none
  get_bound_constraint_witnesses_for_column := fun j => (2 * j, 2 * j + 1)
  column_to_reported_index := fun j => j
  local_to_external := fun j => j
  is_big := fun _ => false

/-- The theory side for `tableau_k`: no two distinct columns are known equal. -/
def imp_k : imp where
  lp := tableau_k
  is_equal := fun j k => j == k
  bound_is_interesting := fun _ _ _ => true

/-- A solution of `tableau_k`. -/
def val_k : Nat → ℚ := fun j => if j = 0 then 5 else if j = 1 then 2 else if j = 2 then 3 else 0

/-- Two rows `x0 - x1 = 0` and `x0 + x2 = 0` over three free columns. -/
def tableau_l : lar_solver where
  rows := [[⟨0, 1⟩, ⟨1, -1⟩], [⟨0, 1⟩, ⟨2, 1⟩]]
  columns := fun j => if j = 0 then [0, 1] else if j = 1 then [0] else if j = 2 then [1]
    else []
  column_is_fixed := fun _ => false
  is_fixed := fun _ => false
  get_lower_bound := fun _ => ⟨0, 0⟩
  get_upper_bound := fun _ => ⟨0, 0⟩
  is_base := fun j => j == 1 || j == 2
  column_is_int := fun _ => false
  find_in_fixed_tables := fun _ _ => none
  get_bound_constraint_witnesses_for_column := fun j => (2 * j, 2 * j + 1)
  column_to_reported_index := fun j => j
  local_to_external := fun j => j
  is_big := fun _ => false

/-- The theory side for `tableau_l`: no two distinct columns are known equal. -/
def imp_l : imp where
  lp := tableau_l
  is_equal := fun j k => j == k
  bound_is_interesting := fun _ _ _ => true

/-- A solution of `tableau_l`. -/
def val_l : Nat → ℚ := fun j => if j = 0 then 1 else if j = 1 then 1 else if j = 2 then -1 else 0

/-- The tree that `create_root` builds on `tableau_l` from the seed row 0 (the root for
column 0 and its child for column 1), in free phase, with the root registered at offset 0
and the rows 0 and 1 marked: the state in which row 1 is expanded from the root. -/
def tree_l : lp_bound_propagator :=
  tree_state [1, 0] [0] (some 0) none (Function.update (fun _ => none) 0 (some 0))
    (fun _ => none)
    [⟨0, 0, [1], 0, none, 0, false⟩, ⟨0, 1, [], 0, some 0, 1, false⟩]

/-- The tree that `create_root` builds on `tableau_h` from the seed row 0 (the root for
column 0 and its child for column 2), in free phase, with the root registered at offset 0
and the rows 0 and 1 marked: the state in which row 1 is expanded from the child. -/
def tree_h : lp_bound_propagator :=
  tree_state [1, 0] [2, 0] (some 0) none (Function.update (fun _ => none) 0 (some 0))
    (fun _ => none)
    [⟨0, 0, [1], 0, none, 0, false⟩, ⟨0, 2, [], 0, some 0, 1, false⟩]

/-- A tree in fixed phase on `tableau_e`: the root for column 2 at its value 0 under
`val_e`, row 0 visited. -/
def tree_e : lp_bound_propagator :=
  tree_state [1, 0] [2] (some 0) (some 0) (fun _ => none) (fun _ => none)
    [⟨0, 2, [], 0, none, 0, false⟩]

/-- Two rows `x0 + x1 = 0` and `x1 - x2 = 0` with column 2 fixed at 5, so that `x1 = 5`
and `x0 = -5`; the fixed-value table holds column 2 at 5. -/
def tableau_n : lar_solver where
  rows := [[⟨0, 1⟩, ⟨1, 1⟩], [⟨1, 1⟩, ⟨2, -1⟩]]
  columns := fun j => if j = 0 then [0] else if j = 1 then [0, 1] else if j = 2 then [1]
    else []
  column_is_fixed := fun j => j == 2
  is_fixed := fun j => j == 2
  get_lower_bound := fun j => if j = 2 then ⟨5, 0⟩ else ⟨0, 0⟩
  get_upper_bound := fun j => if j = 2 then ⟨5, 0⟩ else ⟨0, 0⟩
  is_base := fun j => j == 0 || j == 2
  column_is_int := fun _ => false
  find_in_fixed_tables := fun v _ => if v = 5 then some 2 else none
  get_bound_constraint_witnesses_for_column := fun j => (2 * j, 2 * j + 1)
  column_to_reported_index := fun j => j
  local_to_external := fun j => j
  is_big := fun _ => false

/-- The theory side for `tableau_n`: no two distinct columns are known equal. -/
def imp_n : imp where
  lp := tableau_n
  is_equal := fun j k => j == k
  bound_is_interesting := fun _ _ _ => true

/-- The solution of `tableau_n`. -/
def val_n : Nat → ℚ := fun j => if j = 0 then -5 else if j = 1 then 5 else if j = 2 then 5 else 0

/-- The tree that `create_root` builds on `tableau_n` from the seed row 0 (the root for
column 0 and its child for column 1, with `neg` set), in free phase, with both vertices
registered and the rows 0 and 1 marked: the state in which row 1 is expanded from the
child. -/
def tree_n : lp_bound_propagator :=
  tree_state [1, 0] [1, 0] (some 0) none (Function.update (fun _ => none) 0 (some 0))
    (Function.update (fun _ => none) 0 (some 1))
    [⟨0, 0, [1], 0, none, 0, false⟩, ⟨0, 1, [], 0, some 0, 1, true⟩]

/-- One row `2 * x0 - x1 = 0` over two free columns: the coefficient 2 makes the tree
classification fail. -/
def tableau_o : lar_solver where
  rows := [[⟨0, 2⟩, ⟨1, -1⟩]]
  columns := fun j => if j = 0 ∨ j = 1 then [0] else []
  column_is_fixed := fun _ => false
  is_fixed := fun _ => false
  get_lower_bound := fun _ => ⟨0, 0⟩
  get_upper_bound := fun _ => ⟨0, 0⟩
  is_base := fun j => j == 1
  column_is_int := fun _ => false
  find_in_fixed_tables := fun _ _ => none
  get_bound_constraint_witnesses_for_column := fun j => (2 * j, 2 * j + 1)
  column_to_reported_index := fun j => j
  local_to_external := fun j => j
  is_big := fun _ => false

/-- The theory side for `tableau_o`: no two distinct columns are known equal. -/
def imp_o : imp where
  lp := tableau_o
  is_equal := fun j k => j == k
  bound_is_interesting := fun _ _ _ => true

/-- Three rows `x0 - x1 - x3 = 0`, `x1 - x2 = 0` and `x1 - x5 = 0`; the columns 2, 3 and 4
are fixed at 5, 1 and 5, so that `x1 = 5` and `x0 = 6`; column 4 is in no row and is the
column the fixed-value table holds at 5. -/
def tableau_q : lar_solver where
  rows := [[⟨0, 1⟩, ⟨1, -1⟩, ⟨3, -1⟩], [⟨1, 1⟩, ⟨2, -1⟩], [⟨1, 1⟩, ⟨5, -1⟩]]
  columns := fun j => if j = 0 then [0] else if j = 1 then [0, 1, 2] else if j = 2 then [1]
    else if j = 3 then [0] else if j = 5 then [2] else []
  column_is_fixed := fun j => j == 2 || j == 3 || j == 4
  is_fixed := fun j => j == 2 || j == 3 || j == 4
  get_lower_bound := fun j => if j = 2 ∨ j = 4 then ⟨5, 0⟩ else if j = 3 then ⟨1, 0⟩
    else ⟨0, 0⟩
  get_upper_bound := fun j => if j = 2 ∨ j = 4 then ⟨5, 0⟩ else if j = 3 then ⟨1, 0⟩
    else ⟨0, 0⟩
  is_base := fun j => j == 0 || j == 2 || j == 5
  column_is_int := fun _ => false
  find_in_fixed_tables := fun v _ => if v = 5 then some 4 else if v = 1 then some 3 else none
  get_bound_constraint_witnesses_for_column := fun j => (2 * j, 2 * j + 1)
  column_to_reported_index := fun j => j
  local_to_external := fun j => j
  is_big := fun _ => false

/-- The theory side for `tableau_q`: no two distinct columns are known equal. -/
def imp_q : imp where
  lp := tableau_q
  is_equal := fun j k => j == k
  bound_is_interesting := fun _ _ _ => true

/-- The state of `cheap_eq_tree(row_index)`, called on the constructor state, right after
`create_root`. -/
def seeded (m : imp) (row_index : Nat) : lp_bound_propagator :=
  create_root m row_index { lp_bound_propagator.ctor with m_visited_rows := [row_index] }

/-- The state of `cheap_eq_tree(row_index)`, called on the constructor state, at the end
of the exploration and before the tree is deleted. -/
def explored (m : imp) (fuel row_index : Nat) : lp_bound_propagator :=
  match (seeded m row_index).m_root with
  | none => seeded m row_index
  | some root => explore_under m fuel root (seeded m row_index)

/-- Two rows `x0 - x1 - x2 = 0` and `x1 - x3 - x2 = 0` with column 2 fixed at `2^32`, a
value that `is_big` holds for big (numerator or denominator of `2^31` or more). -/
def tableau_r : lar_solver where
  rows := [[⟨0, 1⟩, ⟨1, -1⟩, ⟨2, -1⟩], [⟨1, 1⟩, ⟨3, -1⟩, ⟨2, -1⟩]]
  columns := fun j => if j = 0 then [0] else if j = 1 then [0, 1] else if j = 2 then [0, 1]
    else if j = 3 then [1] else []
  column_is_fixed := fun j => j == 2
  is_fixed := fun j => j == 2
  get_lower_bound := fun j => if j = 2 then ⟨4294967296, 0⟩ else ⟨0, 0⟩
  get_upper_bound := fun j => if j = 2 then ⟨4294967296, 0⟩ else ⟨0, 0⟩
  is_base := fun j => j == 0 || j == 3
  column_is_int := fun _ => false
  find_in_fixed_tables := fun v _ => if v = 4294967296 then some 2 else none
  get_bound_constraint_witnesses_for_column := fun j => (2 * j, 2 * j + 1)
  column_to_reported_index := fun j => j
  local_to_external := fun j => j
  is_big := fun q => decide (2147483648 ≤ q.num.natAbs) || decide (2147483648 ≤ q.den)

/-- The theory side for `tableau_r`: no two distinct columns are known equal. -/
def imp_r : imp where
  lp := tableau_r
  is_equal := fun j k => j == k
  bound_is_interesting := fun _ _ _ => true

/-- The tree that `create_root` builds on `tableau_q` from the seed row 0 (the root for
column 0 and its child for column 1 at offset -1), in free phase, with both vertices
registered and the rows 0 and 1 marked: the state in which row 1 is expanded from the
child. -/
def tree_q : lp_bound_propagator :=
  tree_state [1, 0] [1, 0] (some 0) none
    (Function.update (Function.update (fun _ => none) 0 (some 0)) (-1) (some 1))
    (fun _ => none)
    [⟨0, 0, [1], 0, none, 0, false⟩, ⟨0, 1, [], -1, some 0, 1, false⟩]

/-! # Theorems -/

/-! ## The classifier loops -/

theorem offset_row_scan_free (s : lar_solver) (row : List row_cell) (x y : Nat) :
    offset_row_scan s row x y = offset_row_scan s (free_cells s row) x y := by
  induction row generalizing x y with
  | nil => rfl
  | cons c cs ih =>
    by_cases hc : column_is_fixed s c.var = true
    · simp [offset_row_scan, free_cells, hc, List.filter_cons]
      exact ih x y
    · have hc2 : column_is_fixed s c.var = false := by simpa using hc
      simp only [offset_row_scan, free_cells, hc2, List.filter_cons, Bool.not_false, if_true,
        Bool.false_eq_true, if_false]
      split_ifs
      · exact ih _ _
      · exact ih _ _
      · rfl

theorem free_cells_free (s : lar_solver) (row : List row_cell) :
    ∀ c ∈ free_cells s row, column_is_fixed s c.var = false := by
  intro c hc
  simpa [free_cells] using (List.mem_filter.mp hc).2

theorem free_cells_wf (s : lar_solver) (row : List row_cell) (h : row_wf row) :
    row_wf (free_cells s row) := by
  intro c hc
  exact h c (List.mem_filter.mp hc).1

theorem offset_row_scan_of_shape (s : lar_solver) (l : List row_cell)
    (hfree : ∀ c ∈ l, column_is_fixed s c.var = false) (hwf : row_wf l) (x y : Nat)
    (h : scan_shape l x y) :
    offset_row_scan s l null_lpvar null_lpvar = some (x, y) := by
  have e1 : ¬ ((1 : ℚ) = -1) := by norm_num
  have e2 : ¬ ((-1 : ℚ) = 1) := by norm_num
  rcases h with ⟨rfl, rfl, rfl⟩ | ⟨c, rfl, h1, rfl, rfl⟩ | ⟨c, rfl, h1, rfl, rfl⟩ |
    ⟨c, d, rfl, h1, h2, rfl, rfl⟩ | ⟨c, d, rfl, h1, h2, rfl, rfl⟩
  · rfl
  · have hc := hfree c (by simp)
    simp [offset_row_scan, hc, h1]
  · have hc := hfree c (by simp)
    simp [offset_row_scan, hc, h1, e2]
  · have hc := hfree c (by simp)
    have hd := hfree d (by simp)
    have hcv := hwf c (by simp)
    simp [offset_row_scan, hc, hd, h1, h2, e2, hcv]
  · have hc := hfree c (by simp)
    have hd := hfree d (by simp)
    simp [offset_row_scan, hc, hd, h1, h2, e2]

theorem offset_row_scan_shape (s : lar_solver) (l : List row_cell)
    (hfree : ∀ c ∈ l, column_is_fixed s c.var = false) (hwf : row_wf l) (x y : Nat)
    (h : offset_row_scan s l null_lpvar null_lpvar = some (x, y)) :
    scan_shape l x y := by
  have e1 : ¬ ((1 : ℚ) = -1) := by norm_num
  have e2 : ¬ ((-1 : ℚ) = 1) := by norm_num
  rcases l with _ | ⟨c, _ | ⟨d, _ | ⟨e, t⟩⟩⟩
  · simp only [offset_row_scan, Option.some.injEq, Prod.mk.injEq] at h
    exact Or.inl ⟨rfl, h.1.symm, h.2.symm⟩
  · have hc := hfree c (by simp)
    simp only [offset_row_scan, hc] at h
    by_cases h1 : c.coeff = 1
    · simp [h1] at h
      exact Or.inr (Or.inl ⟨c, rfl, h1, h.1.symm, h.2.symm⟩)
    · by_cases h2 : c.coeff = -1
      · simp [h2, e2] at h
        exact Or.inr (Or.inr (Or.inl ⟨c, rfl, h2, h.1.symm, h.2.symm⟩))
      · simp [h1, h2] at h
  · have hc := hfree c (by simp)
    have hd := hfree d (by simp)
    have hcv := hwf c (by simp)
    simp only [offset_row_scan, hc, hd] at h
    by_cases h1 : c.coeff = 1
    · by_cases h3 : d.coeff = -1
      · simp [h1, h3, e2, hcv] at h
        exact Or.inr (Or.inr (Or.inr (Or.inl ⟨c, d, rfl, h1, h3, h.1.symm, h.2.symm⟩)))
      · simp [h1, h3, hcv] at h
    · by_cases h2 : c.coeff = -1
      · by_cases h3 : d.coeff = 1
        · simp [h2, h3, e2] at h
          exact Or.inr (Or.inr (Or.inr (Or.inr ⟨c, d, rfl, h2, h3, h.1.symm, h.2.symm⟩)))
        · simp [h2, h3, e2, hcv] at h
      · simp [h1, h2] at h
  · have hc := hfree c (by simp)
    have hd := hfree d (by simp)
    have he := hfree e (by simp)
    have hcv := hwf c (by simp)
    have hdv := hwf d (by simp)
    simp only [offset_row_scan, hc, hd, he] at h
    by_cases h1 : c.coeff = 1
    · by_cases h3 : d.coeff = -1
      · simp [h1, h3, e2, hcv, hdv] at h
      · simp [h1, h3, hcv] at h
    · by_cases h2 : c.coeff = -1
      · by_cases h3 : d.coeff = 1
        · simp [h2, h3, e2, hcv, hdv] at h
        · simp [h2, h3, e2, hcv] at h
      · simp [h1, h2] at h

theorem fixed_offset_eq (s : lar_solver) (row : List row_cell) :
    fixed_offset s row = (fixed_terms s row).sum := rfl

theorem fixed_terms_cons_fixed (s : lar_solver) (c : row_cell) (cs : List row_cell)
    (h : column_is_fixed s c.var = true) :
    fixed_terms s (c :: cs) = c.coeff * get_lower_bound_rational s c.var :: fixed_terms s cs := by
  simp [fixed_terms, fixed_cells, List.filter_cons, h]

theorem fixed_terms_cons_free (s : lar_solver) (c : row_cell) (cs : List row_cell)
    (h : column_is_fixed s c.var = false) :
    fixed_terms s (c :: cs) = fixed_terms s cs := by
  simp [fixed_terms, fixed_cells, List.filter_cons, h]

theorem offset_row_sum_iff (s : lar_solver) (row : List row_cell) (k k1 : ℚ) :
    offset_row_sum s row k = some k1 ↔
      (∀ n, 0 < n → n ≤ (fixed_terms s row).length →
        s.is_big (k - ((fixed_terms s row).take n).sum) = false) ∧
      k1 = k - (fixed_terms s row).sum := by
  induction row generalizing k with
  | nil =>
    simp only [offset_row_sum, fixed_terms, fixed_cells, List.filter_nil, List.map_nil,
      List.length_nil, List.take_nil, List.sum_nil, sub_zero, Option.some.injEq]
    constructor
    · intro h
      exact ⟨fun n hn hn0 => by omega, h.symm⟩
    · intro h
      exact h.2.symm
  | cons c cs ih =>
    by_cases hc : column_is_fixed s c.var = true
    · rw [fixed_terms_cons_fixed s c cs hc]
      simp only [offset_row_sum, hc, Bool.not_true, Bool.false_eq_true, if_false]
      by_cases hb : s.is_big (k - c.coeff * get_lower_bound_rational s c.var) = true
      · simp only [hb, if_true]
        constructor
        · intro h; exact absurd h (by simp)
        · rintro ⟨h, _⟩
          have := h 1 (by omega) (by simp)
          simp [hb] at this
      · have hb2 : s.is_big (k - c.coeff * get_lower_bound_rational s c.var) = false := by
          simpa using hb
        simp only [hb2, Bool.false_eq_true, if_false]
        rw [ih]
        constructor
        · rintro ⟨h, rfl⟩
          refine ⟨?_, by simp [List.sum_cons]; ring⟩
          intro n hn hlen
          obtain ⟨m, rfl⟩ : ∃ m, n = m + 1 := ⟨n - 1, by omega⟩
          rcases Nat.eq_zero_or_pos m with rfl | hm
          · simpa using hb2
          · have := h m hm (by simpa using hlen)
            simpa [List.take_succ_cons, List.sum_cons, sub_sub] using this
        · rintro ⟨h, rfl⟩
          refine ⟨?_, by simp [List.sum_cons]; ring⟩
          intro n hn hlen
          have := h (n + 1) (by omega) (by simpa using hlen)
          simpa [List.take_succ_cons, List.sum_cons, sub_sub] using this
    · have hc2 : column_is_fixed s c.var = false := by simpa using hc
      rw [fixed_terms_cons_free s c cs hc2]
      simp only [offset_row_sum, hc2, Bool.not_false, if_true]
      exact ih k

theorem row_value_split (s : lar_solver) (val : Nat → ℚ) (row : List row_cell)
    (h : at_fixed_bounds s val row) :
    row_value val row = row_value val (free_cells s row) + fixed_offset s row := by
  induction row with
  | nil => simp [row_value, free_cells, fixed_offset, fixed_cells]
  | cons c cs ih =>
    have ih1 := ih (fun d hd => h d (List.mem_cons_of_mem _ hd))
    by_cases hc : column_is_fixed s c.var = true
    · have hv := h c (List.mem_cons_self _ _) hc
      rw [fixed_offset_eq, fixed_terms_cons_fixed s c cs hc]
      simp only [row_value, free_cells, List.filter_cons, hc, Bool.not_true, Bool.false_eq_true,
        if_false, List.map_cons, List.sum_cons] at ih1 ⊢
      rw [ih1, hv, fixed_offset_eq]; ring
    · have hc2 : column_is_fixed s c.var = false := by simpa using hc
      rw [fixed_offset_eq, fixed_terms_cons_free s c cs hc2]
      simp only [row_value, free_cells, List.filter_cons, hc2, Bool.not_false, if_true,
        List.map_cons, List.sum_cons] at ih1 ⊢
      rw [ih1, fixed_offset_eq]; ring

/-- What a successful call of `is_offset_row` went through. -/
theorem is_offset_row_unfold (s : lar_solver) (r x y : Nat) (k : ℚ)
    (h : is_offset_row s r = some (x, y, k)) :
    r < s.row_count ∧ ∃ x0 y0 k0,
      offset_row_scan s (s.get_row r) null_lpvar null_lpvar = some (x0, y0) ∧
      ¬ (x0 = null_lpvar ∧ y0 = null_lpvar) ∧
      offset_row_sum s (s.get_row r) 0 = some k0 ∧
      ((y0 = null_lpvar ∧ x = x0 ∧ y = y0 ∧ k = k0) ∨
       (y0 ≠ null_lpvar ∧ x0 = null_lpvar ∧ x = y0 ∧ y = x0 ∧ k = -k0) ∨
       (y0 ≠ null_lpvar ∧ x0 ≠ null_lpvar ∧ (s.is_base x0 = false ∧ x0 > y0) ∧
          x = y0 ∧ y = x0 ∧ k = -k0) ∨
       (y0 ≠ null_lpvar ∧ x0 ≠ null_lpvar ∧ ¬ (s.is_base x0 = false ∧ x0 > y0) ∧
          x = x0 ∧ y = y0 ∧ k = k0)) := by
  unfold is_offset_row at h
  by_cases hr : r ≥ s.row_count
  · simp [hr] at h
  · simp only [hr, if_false] at h
    refine ⟨by omega, ?_⟩
    cases hs : offset_row_scan s (s.get_row r) null_lpvar null_lpvar with
    | none => simp [hs] at h
    | some p =>
      obtain ⟨x0, y0⟩ := p
      simp only [hs] at h
      by_cases hn : x0 = null_lpvar ∧ y0 = null_lpvar
      · simp [hn] at h
      · simp only [hn, if_false] at h
        cases hk : offset_row_sum s (s.get_row r) 0 with
        | none => simp [hk] at h
        | some k0 =>
          simp only [hk] at h
          refine ⟨x0, y0, k0, rfl, hn, rfl, ?_⟩
          by_cases hy : y0 = null_lpvar
          · simp only [hy, if_true, Option.some.injEq, Prod.mk.injEq] at h
            exact Or.inl ⟨hy, h.1.symm, by rw [hy]; exact h.2.1.symm, h.2.2.symm⟩
          · simp only [hy, if_false] at h
            by_cases hx : x0 = null_lpvar
            · simp only [hx, if_true, Option.some.injEq, Prod.mk.injEq] at h
              exact Or.inr (Or.inl ⟨hy, hx, h.1.symm, by rw [hx]; exact h.2.1.symm, h.2.2.symm⟩)
            · simp only [hx, if_false] at h
              by_cases hsw : s.is_base x0 = false ∧ x0 > y0
              · simp [hsw.1, hsw.2] at h
                exact Or.inr (Or.inr (Or.inl ⟨hy, hx, hsw, h.1.symm, h.2.1.symm, h.2.2.symm⟩))
              · have : ((!s.is_base x0) && decide (x0 > y0)) = false := by
                  rcases Bool.eq_false_or_eq_true (s.is_base x0) with hb | hb
                  · simp [hb]
                  · simp [hb] at hsw ⊢; omega
                simp only [this, Bool.false_eq_true, if_false, Option.some.injEq,
                  Prod.mk.injEq] at h
                exact Or.inr (Or.inr (Or.inr ⟨hy, hx, hsw, h.1.symm, h.2.1.symm, h.2.2.symm⟩))

/-- Free cells and scan result of a successfully classified row. -/
theorem is_offset_row_shape (s : lar_solver) (r x y : Nat) (k : ℚ)
    (hwf : row_wf (s.get_row r)) (h : is_offset_row s r = some (x, y, k)) :
    ∃ x0 y0, scan_shape (free_cells s (s.get_row r)) x0 y0 ∧
      ¬ (x0 = null_lpvar ∧ y0 = null_lpvar) ∧
      ((y0 = null_lpvar ∧ x = x0 ∧ y = y0 ∧ k = -fixed_offset s (s.get_row r)) ∨
       (y0 ≠ null_lpvar ∧ x0 = null_lpvar ∧ x = y0 ∧ y = x0 ∧
          k = fixed_offset s (s.get_row r)) ∨
       (y0 ≠ null_lpvar ∧ x0 ≠ null_lpvar ∧ (s.is_base x0 = false ∧ x0 > y0) ∧
          x = y0 ∧ y = x0 ∧ k = fixed_offset s (s.get_row r)) ∨
       (y0 ≠ null_lpvar ∧ x0 ≠ null_lpvar ∧ ¬ (s.is_base x0 = false ∧ x0 > y0) ∧
          x = x0 ∧ y = y0 ∧ k = -fixed_offset s (s.get_row r))) := by
  obtain ⟨_, x0, y0, k0, hs, hn, hk, hcase⟩ := is_offset_row_unfold s r x y k h
  rw [offset_row_scan_free] at hs
  have hsh := offset_row_scan_shape s _ (free_cells_free s _) (free_cells_wf s _ hwf) x0 y0 hs
  have hk0 : k0 = -fixed_offset s (s.get_row r) := by
    have := ((offset_row_sum_iff s _ 0 k0).mp hk).2
    rw [this, fixed_offset_eq]; ring
  refine ⟨x0, y0, hsh, hn, ?_⟩
  rcases hcase with ⟨a, b, c, d⟩ | ⟨a, b, c, d, e⟩ | ⟨a, b, c, d, e, f⟩ | ⟨a, b, c, d, e, f⟩
  · exact Or.inl ⟨a, b, c, by rw [d, hk0]⟩
  · exact Or.inr (Or.inl ⟨a, b, c, d, by rw [e, hk0]; ring⟩)
  · exact Or.inr (Or.inr (Or.inl ⟨a, b, c, d, e, by rw [f, hk0]; ring⟩))
  · exact Or.inr (Or.inr (Or.inr ⟨a, b, c, d, e, by rw [f, hk0]⟩))

/-- What a successful classification says about the solutions of its row. -/
theorem is_offset_row_value (s : lar_solver) (r x y : Nat) (k : ℚ) (val : Nat → ℚ)
    (hwf : row_wf (s.get_row r))
    (h : is_offset_row s r = some (x, y, k))
    (hrow : row_value val (s.get_row r) = 0)
    (hfix : at_fixed_bounds s val (s.get_row r)) :
    (y ≠ null_lpvar → val x = val y + k) ∧ (y = null_lpvar → val x = k) := by
  obtain ⟨x0, y0, hsh, hn, hcase⟩ := is_offset_row_shape s r x y k hwf h
  rw [row_value_split s val _ hfix] at hrow
  have hfw := free_cells_wf s _ hwf
  rcases hsh with ⟨_, rfl, rfl⟩ | ⟨c, hl, h1, rfl, rfl⟩ | ⟨c, hl, h1, rfl, rfl⟩ |
    ⟨c, d, hl, h1, h2, rfl, rfl⟩ | ⟨c, d, hl, h1, h2, rfl, rfl⟩
  · exact absurd ⟨rfl, rfl⟩ hn
  · have hcv : c.var ≠ null_lpvar := hfw c (by rw [hl]; simp)
    rw [hl] at hrow
    simp only [row_value, List.map_cons, List.map_nil, List.sum_cons, List.sum_nil, h1] at hrow
    rcases hcase with ⟨_, rfl, rfl, rfl⟩ | ⟨a, _⟩ | ⟨a, _⟩ | ⟨a, _⟩
    · exact ⟨fun hne => absurd rfl hne, fun _ => by linarith⟩
    · exact absurd rfl a
    · exact absurd rfl a
    · exact absurd rfl a
  · have hcv : c.var ≠ null_lpvar := hfw c (by rw [hl]; simp)
    rw [hl] at hrow
    simp only [row_value, List.map_cons, List.map_nil, List.sum_cons, List.sum_nil, h1] at hrow
    rcases hcase with ⟨a, _⟩ | ⟨_, _, rfl, rfl, rfl⟩ | ⟨_, a, _⟩ | ⟨_, a, _⟩
    · exact absurd a hcv
    · exact ⟨fun hne => absurd rfl hne, fun _ => by linarith⟩
    · exact absurd rfl a
    · exact absurd rfl a
  · have hcv : c.var ≠ null_lpvar := hfw c (by rw [hl]; simp)
    have hdv : d.var ≠ null_lpvar := hfw d (by rw [hl]; simp)
    rw [hl] at hrow
    simp only [row_value, List.map_cons, List.map_nil, List.sum_cons, List.sum_nil, h1, h2]
      at hrow
    rcases hcase with ⟨a, _⟩ | ⟨_, a, _⟩ | ⟨_, _, _, rfl, rfl, rfl⟩ | ⟨_, _, _, rfl, rfl, rfl⟩
    · exact absurd a hdv
    · exact absurd a hcv
    · exact ⟨fun _ => by linarith, fun hy => absurd hy hcv⟩
    · exact ⟨fun _ => by linarith, fun hy => absurd hy hdv⟩
  · have hcv : c.var ≠ null_lpvar := hfw c (by rw [hl]; simp)
    have hdv : d.var ≠ null_lpvar := hfw d (by rw [hl]; simp)
    rw [hl] at hrow
    simp only [row_value, List.map_cons, List.map_nil, List.sum_cons, List.sum_nil, h1, h2]
      at hrow
    rcases hcase with ⟨a, _⟩ | ⟨_, a, _⟩ | ⟨_, _, _, rfl, rfl, rfl⟩ | ⟨_, _, _, rfl, rfl, rfl⟩
    · exact absurd a hcv
    · exact absurd a hdv
    · exact ⟨fun _ => by linarith, fun hy => absurd hy hdv⟩
    · exact ⟨fun _ => by linarith, fun hy => absurd hy hcv⟩

/-- C3: if `is_offset_row(r)` succeeds with `(x, y, k)`, then every assignment that
satisfies row `r` and gives each fixed column of `r` its lower bound has
`value(x) = value(y) + k` when `y` is set and `value(x) = k` when `y` is `null_lpvar`;
the cells of the row are assumed to name columns (none is the sentinel). -/
theorem is_offset_row_sound (s : lar_solver) (r x y : Nat) (k : ℚ) (val : Nat → ℚ)
    (hwf : row_wf (s.get_row r))
    (h : is_offset_row s r = some (x, y, k))
    (hrow : row_value val (s.get_row r) = 0)
    (hfix : at_fixed_bounds s val (s.get_row r)) :
    (y ≠ null_lpvar → val x = val y + k) ∧ (y = null_lpvar → val x = k) :=
  is_offset_row_value s r x y k val hwf h hrow hfix

/-- Row 0 of `tableau_a` under the assignment `val_a`: the classification `(x1, x2, -5)`
holds there. -/
theorem is_offset_row_sound_witness : val_a 1 = val_a 2 + -5 :=
  (is_offset_row_sound tableau_a 0 1 2 (-5) val_a
    (by simp [row_wf, tableau_a, lar_solver.get_row, null_lpvar])
    (by simp [is_offset_row, tableau_a, lar_solver.row_count, lar_solver.get_row,
          offset_row_scan, offset_row_sum, column_is_fixed, null_lpvar,
          get_lower_bound_rational])
    (by simp [row_value, val_a, tableau_a, lar_solver.get_row])
    (by simp [at_fixed_bounds, val_a, tableau_a, lar_solver.get_row, column_is_fixed,
          get_lower_bound_rational])).1 (by simp [null_lpvar])

theorem is_offset_row_isSome_iff (s : lar_solver) (r : Nat) (hwf : row_wf (s.get_row r)) :
    (is_offset_row s r).isSome = true ↔
      r < s.row_count ∧ running_offsets_small s (s.get_row r) ∧
        offset_shape (free_cells s (s.get_row r)) := by
  have hfw := free_cells_wf s _ hwf
  constructor
  · intro h
    obtain ⟨⟨x, y, k⟩, hxy⟩ := Option.isSome_iff_exists.mp h
    obtain ⟨hr, x0, y0, k0, hs, hn, hk, -⟩ := is_offset_row_unfold s r x y k hxy
    rw [offset_row_scan_free] at hs
    have hsh := offset_row_scan_shape s _ (free_cells_free s _) hfw x0 y0 hs
    refine ⟨hr, ((offset_row_sum_iff s _ 0 k0).mp hk).1, ?_⟩
    rcases hsh with ⟨_, rfl, rfl⟩ | ⟨c, hl, h1, -, -⟩ | ⟨c, hl, h1, -, -⟩ |
      ⟨c, d, hl, h1, h2, -, -⟩ | ⟨c, d, hl, h1, h2, -, -⟩
    · exact absurd ⟨rfl, rfl⟩ hn
    · exact Or.inl ⟨c, hl, Or.inl h1⟩
    · exact Or.inl ⟨c, hl, Or.inr h1⟩
    · exact Or.inr ⟨c, d, hl, Or.inl ⟨h1, h2⟩⟩
    · exact Or.inr ⟨c, d, hl, Or.inr ⟨h1, h2⟩⟩
  · rintro ⟨hr, hsmall, hsh⟩
    have hk : offset_row_sum s (s.get_row r) 0 = some (0 - (fixed_terms s (s.get_row r)).sum) :=
      (offset_row_sum_iff s _ 0 _).mpr ⟨hsmall, rfl⟩
    have key : ∃ x0 y0, scan_shape (free_cells s (s.get_row r)) x0 y0 ∧
        ¬ (x0 = null_lpvar ∧ y0 = null_lpvar) := by
      rcases hsh with ⟨c, hl, h1 | h1⟩ | ⟨c, d, hl, ⟨h1, h2⟩ | ⟨h1, h2⟩⟩
      · exact ⟨c.var, null_lpvar, Or.inr (Or.inl ⟨c, hl, h1, rfl, rfl⟩),
          fun h => hfw c (by rw [hl]; simp) h.1⟩
      · exact ⟨null_lpvar, c.var, Or.inr (Or.inr (Or.inl ⟨c, hl, h1, rfl, rfl⟩)),
          fun h => hfw c (by rw [hl]; simp) h.2⟩
      · exact ⟨c.var, d.var, Or.inr (Or.inr (Or.inr (Or.inl ⟨c, d, hl, h1, h2, rfl, rfl⟩))),
          fun h => hfw c (by rw [hl]; simp) h.1⟩
      · exact ⟨d.var, c.var, Or.inr (Or.inr (Or.inr (Or.inr ⟨c, d, hl, h1, h2, rfl, rfl⟩))),
          fun h => hfw c (by rw [hl]; simp) h.2⟩
    obtain ⟨x0, y0, hshape, hn⟩ := key
    have hs := offset_row_scan_of_shape s _ (free_cells_free s _) hfw x0 y0 hshape
    rw [← offset_row_scan_free] at hs
    unfold is_offset_row
    have hr2 : ¬ r ≥ s.row_count := by omega
    simp only [hr2, if_false, hs, hn, hk]
    split_ifs <;> rfl

/-- C4: `is_offset_row(r)` succeeds if and only if `r < row_count`, no running value of
the fixed-cell contribution is big, and the non-fixed cells of row `r` are exactly one cell
with coefficient `+1` or `-1`, or exactly two cells with coefficients `+1` and `-1` in
either order.  In particular a row with no free column, with three or more free columns,
with a free coefficient other than `+1`/`-1`, or with two free columns of the same
coefficient is rejected.  The cells of the row are assumed to name columns. -/
theorem is_offset_row_succeeds_iff (s : lar_solver) (r : Nat) (hwf : row_wf (s.get_row r)) :
    ((is_offset_row s r).isSome = true ↔
      r < s.row_count ∧ running_offsets_small s (s.get_row r) ∧
        offset_shape (free_cells s (s.get_row r))) ∧
    (free_cells s (s.get_row r) = [] → is_offset_row s r = none) ∧
    (3 ≤ (free_cells s (s.get_row r)).length → is_offset_row s r = none) ∧
    ((∃ c ∈ free_cells s (s.get_row r), c.coeff ≠ 1 ∧ c.coeff ≠ -1) →
      is_offset_row s r = none) ∧
    (∀ c d, free_cells s (s.get_row r) = [c, d] → c.coeff = d.coeff →
      is_offset_row s r = none) := by
  have hiff := is_offset_row_isSome_iff s r hwf
  have hnone : ¬ offset_shape (free_cells s (s.get_row r)) → is_offset_row s r = none := by
    intro hns
    cases h : is_offset_row s r with
    | none => rfl
    | some p =>
      have : (is_offset_row s r).isSome = true := by rw [h]; rfl
      exact absurd (hiff.mp this).2.2 hns
  refine ⟨hiff, ?_, ?_, ?_, ?_⟩
  · intro he
    apply hnone
    rw [he]
    rintro (⟨c, hl, -⟩ | ⟨c, d, hl, -⟩) <;> simp at hl
  · intro hlen
    apply hnone
    rintro (⟨c, hl, -⟩ | ⟨c, d, hl, -⟩) <;> rw [hl] at hlen <;> simp at hlen
  · rintro ⟨c, hc, hc1, hc2⟩
    apply hnone
    rintro (⟨e, hl, h1 | h1⟩ | ⟨e, d, hl, ⟨h1, h2⟩ | ⟨h1, h2⟩⟩) <;> rw [hl] at hc <;>
      simp at hc
    · rw [hc] at hc1; exact hc1 h1
    · rw [hc] at hc2; exact hc2 h1
    · rcases hc with rfl | rfl
      · exact hc1 h1
      · exact hc2 h2
    · rcases hc with rfl | rfl
      · exact hc2 h1
      · exact hc1 h2
  · intro c d hl hcd
    apply hnone
    rw [hl]
    rintro (⟨e, hl2, -⟩ | ⟨e, f, hl2, ⟨h1, h2⟩ | ⟨h1, h2⟩⟩)
    · simp at hl2
    · simp only [List.cons.injEq, and_true] at hl2
      obtain ⟨rfl, rfl⟩ := hl2
      rw [h1, h2] at hcd; norm_num at hcd
    · simp only [List.cons.injEq, and_true] at hl2
      obtain ⟨rfl, rfl⟩ := hl2
      rw [h1, h2] at hcd; norm_num at hcd

/-- The characterisation of success at row 0 of `tableau_a`. -/
theorem is_offset_row_succeeds_iff_witness :
    row_wf (tableau_a.get_row 0) ∧
    ((is_offset_row tableau_a 0).isSome = true ↔
      0 < tableau_a.row_count ∧ running_offsets_small tableau_a (tableau_a.get_row 0) ∧
        offset_shape (free_cells tableau_a (tableau_a.get_row 0))) :=
  ⟨by simp [row_wf, tableau_a, lar_solver.get_row, null_lpvar],
   (is_offset_row_succeeds_iff tableau_a 0
      (by simp [row_wf, tableau_a, lar_solver.get_row, null_lpvar])).1⟩

/-- C5, counterexample: in the row `x1 - x2 = 0` of `tableau_b` exactly one free column
is basic, column 2, yet the canonical `x` returned by `is_offset_row` is column 1. -/
theorem is_offset_row_canonical_counterexample :
    ¬ (∀ x y k, is_offset_row tableau_b 0 = some (x, y, k) → y ≠ null_lpvar →
        (tableau_b.is_base x ≠ tableau_b.is_base y → tableau_b.is_base x = true) ∧
        (tableau_b.is_base x = tableau_b.is_base y → x ≤ y)) := by
  intro h
  have h0 : is_offset_row tableau_b 0 = some (1, 2, 0) := by
    simp [is_offset_row, tableau_b, lar_solver.row_count, lar_solver.get_row,
      offset_row_scan, offset_row_sum, column_is_fixed, null_lpvar]
  have := (h 1 2 0 h0 (by simp [null_lpvar])).1
  simp [tableau_b] at this

/-- C5, amended: when `is_offset_row(r)` succeeds with both free columns present, the
returned `x` is the free column with coefficient `+1` if that column is basic, and
otherwise the free column with the smaller index; `x` and `y` are the two free columns. -/
theorem is_offset_row_canonical (s : lar_solver) (r x y : Nat) (k : ℚ) (c d : row_cell)
    (hwf : row_wf (s.get_row r))
    (h : is_offset_row s r = some (x, y, k))
    (hfree : free_cells s (s.get_row r) = [c, d]) :
    (s.is_base (if c.coeff = 1 then c.var else d.var) = true →
      x = (if c.coeff = 1 then c.var else d.var)) ∧
    (s.is_base (if c.coeff = 1 then c.var else d.var) = false →
      x = min c.var d.var) ∧
    (x = c.var ∧ y = d.var ∨ x = d.var ∧ y = c.var) := by
  have e2 : ¬ ((-1 : ℚ) = 1) := by norm_num
  obtain ⟨x0, y0, hsh, hn, hcase⟩ := is_offset_row_shape s r x y k hwf h
  have hfw := free_cells_wf s _ hwf
  rw [hfree] at hsh hfw
  have hcv : c.var ≠ null_lpvar := hfw c (by simp)
  have hdv : d.var ≠ null_lpvar := hfw d (by simp)
  rcases hsh with ⟨hl, -⟩ | ⟨e, hl, -⟩ | ⟨e, hl, -⟩ |
    ⟨e, f, hl, h1, h2, rfl, rfl⟩ | ⟨e, f, hl, h1, h2, rfl, rfl⟩
  · simp at hl
  · simp at hl
  · simp at hl
  · simp only [List.cons.injEq, and_true] at hl
    obtain ⟨rfl, rfl⟩ := hl
    simp only [h1, if_true]
    rcases hcase with ⟨a, _⟩ | ⟨_, a, _⟩ | ⟨_, _, ⟨hb, hgt⟩, rfl, rfl, -⟩ | ⟨_, _, hns, rfl, rfl, -⟩
    · exact absurd a hdv
    · exact absurd a hcv
    · refine ⟨fun hb2 => (by rw [hb] at hb2; cases hb2), fun _ => ?_, Or.inr ⟨rfl, rfl⟩⟩
      rw [min_eq_right (le_of_lt hgt)]
    · refine ⟨fun _ => rfl, fun hb => ?_, Or.inl ⟨rfl, rfl⟩⟩
      have : ¬ c.var > d.var := fun hgt => hns ⟨hb, hgt⟩
      rw [min_eq_left (by omega)]
  · simp only [List.cons.injEq, and_true] at hl
    obtain ⟨rfl, rfl⟩ := hl
    simp only [h1, e2, if_false]
    rcases hcase with ⟨a, _⟩ | ⟨_, a, _⟩ | ⟨_, _, ⟨hb, hgt⟩, rfl, rfl, -⟩ | ⟨_, _, hns, rfl, rfl, -⟩
    · exact absurd a hcv
    · exact absurd a hdv
    · refine ⟨fun hb2 => (by rw [hb] at hb2; cases hb2), fun _ => ?_, Or.inl ⟨rfl, rfl⟩⟩
      rw [min_eq_left (le_of_lt hgt)]
    · refine ⟨fun _ => rfl, fun hb => ?_, Or.inr ⟨rfl, rfl⟩⟩
      have : ¬ d.var > c.var := fun hgt => hns ⟨hb, hgt⟩
      rw [min_eq_right (by omega)]

/-- Row 0 of `tableau_b`: the `+1` column is not basic and the smaller index is returned. -/
theorem is_offset_row_canonical_witness :
    is_offset_row tableau_b 0 = some (1, 2, 0) ∧ (1 : Nat) = min 1 2 :=
  ⟨by simp [is_offset_row, tableau_b, lar_solver.row_count, lar_solver.get_row,
        offset_row_scan, offset_row_sum, column_is_fixed, null_lpvar],
   (is_offset_row_canonical tableau_b 0 1 2 0 ⟨1, 1⟩ ⟨2, -1⟩
      (by simp [row_wf, tableau_b, lar_solver.get_row, null_lpvar])
      (by simp [is_offset_row, tableau_b, lar_solver.row_count, lar_solver.get_row,
        offset_row_scan, offset_row_sum, column_is_fixed, null_lpvar])
      (by simp [free_cells, tableau_b, lar_solver.get_row, column_is_fixed])).2.1
      (by simp [tableau_b])⟩

/-! ## Explanations and reports -/

theorem explain_fixed_in_row_foldl (s : lar_solver) (l : List row_cell) (ex : explanation) :
    l.foldl (fun e c => if s.is_fixed c.var then explain_fixed_column s e c.var else e) ex =
      ex ++ (l.filter (fun c => s.is_fixed c.var)).flatMap
        (fun c => [(s.get_bound_constraint_witnesses_for_column c.var).1,
                   (s.get_bound_constraint_witnesses_for_column c.var).2]) := by
  induction l generalizing ex with
  | nil => simp
  | cons c cs ih =>
    by_cases hc : s.is_fixed c.var = true
    · simp only [List.foldl_cons, hc, if_true, List.filter_cons, List.flatMap_cons]
      rw [ih]
      simp [explain_fixed_column]
    · have hc2 : s.is_fixed c.var = false := by simpa using hc
      simp [List.foldl_cons, hc2, ih, List.filter_cons]

theorem explain_fixed_in_row_eq (s : lar_solver) (row : Nat) (ex : explanation) :
    explain_fixed_in_row s row ex = ex ++ fixed_witnesses s row :=
  explain_fixed_in_row_foldl s _ ex

theorem reports_of_self (p : lp_bound_propagator) : reports_of p p = [] := by
  simp [reports_of]

theorem reports_of_append (p q : lp_bound_propagator) (l : List eq_report)
    (h : q.m_eqs = p.m_eqs ++ l) : reports_of p q = l := by
  simp [reports_of, h]

theorem reports_of_add_eq (p : lp_bound_propagator) (ex : explanation) (j k : Nat) :
    reports_of p (add_eq_on_columns p ex j k) = [⟨j, k, ex⟩] :=
  reports_of_append p _ _ rfl

theorem reports_of_table_insert (p : lp_bound_propagator) (key : var_offset) (rid : Nat) :
    reports_of p (table_insert p key rid) = [] :=
  reports_of_append p _ [] (by simp [table_insert])

theorem eqs_eq_append_reports (p q : lp_bound_propagator)
    (h : ∃ l, q.m_eqs = p.m_eqs ++ l) : q.m_eqs = p.m_eqs ++ reports_of p q := by
  obtain ⟨l, hl⟩ := h
  rw [reports_of_append p q l hl, hl]

theorem reports_of_trans (p q r : lp_bound_propagator)
    (h1 : ∃ l, q.m_eqs = p.m_eqs ++ l) (h2 : ∃ l, r.m_eqs = q.m_eqs ++ l) :
    reports_of p r = reports_of p q ++ reports_of q r := by
  have e1 := eqs_eq_append_reports p q h1
  have e2 := eqs_eq_append_reports q r h2
  exact reports_of_append p r _ (by rw [e2, e1, List.append_assoc])

/-! ## The checks of `cheap_eq_table` one by one -/

theorem cheap_eq_table_fixed_eqs (m : imp) (rid x y : Nat) (k : ℚ) (p : lp_bound_propagator) :
    ∃ l, (cheap_eq_table_fixed m rid x y k p).m_eqs = p.m_eqs ++ l := by
  unfold cheap_eq_table_fixed
  split_ifs
  · split
    · split_ifs
      · exact ⟨_, rfl⟩
      · exact ⟨[], by simp⟩
    · exact ⟨[], by simp⟩
  · exact ⟨[], by simp⟩

theorem cheap_eq_table_direct_eqs (m : imp) (rid x y : Nat) (k : ℚ) (p : lp_bound_propagator) :
    ∃ l, (cheap_eq_table_direct m rid x y k p).m_eqs = p.m_eqs ++ l := by
  unfold cheap_eq_table_direct
  split_ifs
  · exact ⟨_, rfl⟩
  · exact ⟨[], by simp⟩

theorem cheap_eq_table_lookup_eqs (m : imp) (rid x y : Nat) (k : ℚ) (p : lp_bound_propagator) :
    ∃ l, (cheap_eq_table_lookup m rid x y k p).m_eqs = p.m_eqs ++ l := by
  unfold cheap_eq_table_lookup
  split
  · split_ifs
    · exact ⟨[], by simp⟩
    · split
      · dsimp only
        split_ifs <;>
          first
          | exact ⟨_, rfl⟩
          | (refine ⟨[], ?_⟩; simp [table_insert])
      · exact ⟨[], by simp [table_insert]⟩
  · exact ⟨[], by simp [table_insert]⟩

theorem cheap_eq_table_fixed_table (m : imp) (rid x y : Nat) (k : ℚ)
    (p : lp_bound_propagator) :
    (cheap_eq_table_fixed m rid x y k p).m_var_offset2row_id = p.m_var_offset2row_id := by
  unfold cheap_eq_table_fixed
  split_ifs
  · split
    · split_ifs <;> rfl
    · rfl
  · rfl

theorem cheap_eq_table_direct_table (m : imp) (rid x y : Nat) (k : ℚ)
    (p : lp_bound_propagator) :
    (cheap_eq_table_direct m rid x y k p).m_var_offset2row_id = p.m_var_offset2row_id := by
  unfold cheap_eq_table_direct
  split_ifs <;> rfl

/-- The reports of a call are those of its three checks, in this order. -/
theorem cheap_eq_table_reports (m : imp) (rid : Nat) (p : lp_bound_propagator) :
    reports_of p (cheap_eq_table m rid p) =
      reports_fixed m rid p ++ reports_direct m rid p ++ reports_lookup m rid p := by
  unfold cheap_eq_table reports_fixed reports_direct reports_lookup
  cases h : is_offset_row m.lp rid with
  | none => simp [reports_of_self]
  | some t =>
    obtain ⟨x, y, k⟩ := t
    dsimp only
    have h1 := cheap_eq_table_fixed_eqs m rid x y k p
    have h2 := cheap_eq_table_direct_eqs m rid x y k (cheap_eq_table_fixed m rid x y k p)
    have h3 := cheap_eq_table_lookup_eqs m rid x y k
      (cheap_eq_table_direct m rid x y k (cheap_eq_table_fixed m rid x y k p))
    have h12 : ∃ l, (cheap_eq_table_direct m rid x y k (cheap_eq_table_fixed m rid x y k p)).m_eqs
        = p.m_eqs ++ l := by
      obtain ⟨a, ha⟩ := h1
      obtain ⟨b, hb⟩ := h2
      exact ⟨a ++ b, by rw [hb, ha, List.append_assoc]⟩
    rw [reports_of_trans p _ _ h12 h3, reports_of_trans p _ _ h1 h2]

/-! ## The first check: an implied fixed column -/

/-- C8: if `is_offset_row(rid)` yields `x` with no `y` and constant `k`, and the
fixed-value oracle returns a column `x2 != x` for `(k, is_int(x))` with `is_equal(x, x2)`
false, then `cheap_eq_table(rid)` reports the equality `(x, x2)` whose explanation is the
lower and upper bound witnesses of `x2` followed by those of each fixed cell of row `rid`
in row order; if the oracle has no entry for `(k, is_int(x))` or `is_equal(x, x2)` holds,
this check reports nothing. -/
theorem cheap_eq_table_fixed_value_check (m : imp) (rid x : Nat) (k : ℚ)
    (p : lp_bound_propagator)
    (h : is_offset_row m.lp rid = some (x, null_lpvar, k)) :
    (∀ x2, m.lp.find_in_fixed_tables k (is_int m.lp x) = some x2 → x2 ≠ x →
        is_equal m x x2 = false →
        reports_fixed m rid p =
          [⟨x, x2, [(m.lp.get_bound_constraint_witnesses_for_column x2).1,
                    (m.lp.get_bound_constraint_witnesses_for_column x2).2] ++
                   fixed_witnesses m.lp rid⟩] ∧
        (⟨x, x2, [(m.lp.get_bound_constraint_witnesses_for_column x2).1,
                  (m.lp.get_bound_constraint_witnesses_for_column x2).2] ++
                 fixed_witnesses m.lp rid⟩ : eq_report) ∈
          reports_of p (cheap_eq_table m rid p)) ∧
    ((m.lp.find_in_fixed_tables k (is_int m.lp x) = none ∨
        ∃ x2, m.lp.find_in_fixed_tables k (is_int m.lp x) = some x2 ∧
          is_equal m x x2 = true) →
      reports_fixed m rid p = []) := by
  constructor
  · intro x2 ho _ heq
    have hr : reports_fixed m rid p =
        [⟨x, x2, [(m.lp.get_bound_constraint_witnesses_for_column x2).1,
                  (m.lp.get_bound_constraint_witnesses_for_column x2).2] ++
                 fixed_witnesses m.lp rid⟩] := by
      simp only [reports_fixed, h, cheap_eq_table_fixed, if_true, ho, heq, Bool.not_false,
        explain_fixed_in_row_eq, reports_of_add_eq]
    refine ⟨hr, ?_⟩
    rw [cheap_eq_table_reports, hr]
    simp
  · rintro (ho | ⟨x2, ho, heq⟩)
    · simp only [reports_fixed, h, cheap_eq_table_fixed, if_true, ho, reports_of_self]
    · simp [reports_fixed, h, cheap_eq_table_fixed, ho, heq, reports_of_self]

/-- Row 0 of `tableau_c` is `x0 = 5` and the fixed-value table holds column 2 at 5: the
first check reports `(x0, x2)` with the witnesses of column 2 and then of column 1. -/
theorem cheap_eq_table_fixed_value_check_witness :
    is_offset_row imp_c.lp 0 = some (0, null_lpvar, 5) ∧
    reports_fixed imp_c 0 lp_bound_propagator.ctor = [⟨0, 2, [4, 5, 2, 3]⟩] :=
  have h : is_offset_row imp_c.lp 0 = some (0, null_lpvar, 5) := by
    simp [is_offset_row, imp_c, tableau_c, lar_solver.row_count, lar_solver.get_row,
      offset_row_scan, offset_row_sum, column_is_fixed, null_lpvar, get_lower_bound_rational]
  ⟨h, ((cheap_eq_table_fixed_value_check imp_c 0 0 5 lp_bound_propagator.ctor h).1 2
    (by simp [imp_c, tableau_c]) (by decide)
    (by simp [is_equal, imp_c, col_to_imp, tableau_c])).1⟩

/-! ## The second check: a row `x = y` -/

/-- C9: `cheap_eq_table(rid)` reports the direct equality `(x, y)`, with explanation the
bound witnesses of the fixed cells of row `rid`, if and only if `is_offset_row(rid)`
yields both `x` and `y` with `k = 0`, `is_int(x) = is_int(y)` and `is_equal(x, y)` false;
the direct check reports nothing else, and its reports are part of those of the call. -/
theorem cheap_eq_table_direct_check (m : imp) (rid : Nat) (p : lp_bound_propagator)
    (x y : Nat) :
    ((⟨x, y, fixed_witnesses m.lp rid⟩ : eq_report) ∈ reports_direct m rid p ↔
      ∃ k, is_offset_row m.lp rid = some (x, y, k) ∧ y ≠ null_lpvar ∧ k = 0 ∧
        is_int m.lp x = is_int m.lp y ∧ is_equal m x y = false) ∧
    (∀ e ∈ reports_direct m rid p, reports_direct m rid p = [e] ∧
      e.exp = fixed_witnesses m.lp rid ∧
      ∃ k, is_offset_row m.lp rid = some (e.j, e.k, k)) ∧
    (∃ a b, reports_of p (cheap_eq_table m rid p) = a ++ reports_direct m rid p ++ b) := by
  refine ⟨?_, ?_, ⟨reports_fixed m rid p, reports_lookup m rid p,
    cheap_eq_table_reports m rid p⟩⟩
  · unfold reports_direct
    cases h : is_offset_row m.lp rid with
    | none => simp
    | some t =>
      obtain ⟨x1, y1, k1⟩ := t
      dsimp only
      unfold cheap_eq_table_direct
      by_cases hc : k1 = 0 ∧ y1 ≠ null_lpvar ∧ is_equal m x1 y1 = false ∧
          is_int m.lp x1 = is_int m.lp y1
      · rw [if_pos hc, reports_of_add_eq, explain_fixed_in_row_eq]
        simp only [List.nil_append, List.mem_singleton, eq_report.mk.injEq, and_true,
          Option.some.injEq, Prod.mk.injEq]
        constructor
        · rintro ⟨rfl, rfl⟩
          exact ⟨k1, ⟨rfl, rfl, rfl⟩, hc.2.1, hc.1, hc.2.2.2, hc.2.2.1⟩
        · rintro ⟨k, ⟨rfl, rfl, rfl⟩, _⟩
          exact ⟨rfl, rfl⟩
      · rw [if_neg hc, reports_of_self]
        simp only [List.not_mem_nil, false_iff, not_exists, not_and, Option.some.injEq,
          Prod.mk.injEq]
        rintro k ⟨rfl, rfl, rfl⟩ hy hk hi he
        exact hc ⟨hk, hy, he, hi⟩
  · unfold reports_direct
    cases h : is_offset_row m.lp rid with
    | none => simp
    | some t =>
      obtain ⟨x1, y1, k1⟩ := t
      dsimp only
      unfold cheap_eq_table_direct
      split_ifs with hc
      · rw [reports_of_add_eq, explain_fixed_in_row_eq]
        intro e he
        simp only [List.mem_singleton] at he
        subst he
        exact ⟨rfl, by simp, k1, rfl⟩
      · rw [reports_of_self]
        intro e he
        simp at he

/-! ## The third check: the two-row table -/

theorem table_insert_table (p : lp_bound_propagator) (key : var_offset) (rid : Nat) :
    (table_insert p key rid).m_var_offset2row_id =
      Function.update p.m_var_offset2row_id key rid := rfl

theorem add_eq_on_columns_table (p : lp_bound_propagator) (ex : explanation) (j k : Nat) :
    (add_eq_on_columns p ex j k).m_var_offset2row_id = p.m_var_offset2row_id := rfl

/-- The table after the third check: unchanged when the entry is `rid` or a row that
still matches, and otherwise the key now maps to `rid`. -/
theorem cheap_eq_table_lookup_table (m : imp) (rid x y : Nat) (k : ℚ)
    (p : lp_bound_propagator) :
    ((p.m_var_offset2row_id (y, k) = some rid ∨
        ∃ row_id, p.m_var_offset2row_id (y, k) = some row_id ∧
          still_matches m.lp row_id y k) ∧
      (cheap_eq_table_lookup m rid x y k p).m_var_offset2row_id = p.m_var_offset2row_id) ∨
    (¬ (p.m_var_offset2row_id (y, k) = some rid ∨
        ∃ row_id, p.m_var_offset2row_id (y, k) = some row_id ∧
          still_matches m.lp row_id y k) ∧
      (cheap_eq_table_lookup m rid x y k p).m_var_offset2row_id =
        Function.update p.m_var_offset2row_id (y, k) rid) := by
  unfold cheap_eq_table_lookup
  cases ht : p.m_var_offset2row_id (y, k) with
  | none => exact Or.inr ⟨by simp, rfl⟩
  | some row_id =>
    dsimp only
    by_cases hr : row_id = rid
    · exact Or.inl ⟨Or.inl (by rw [hr]), by rw [if_pos hr]⟩
    · rw [if_neg hr]
      have hcond : ∀ q : Prop, (q ↔ still_matches m.lp row_id y k) →
          ((some row_id = some rid ∨ ∃ r, some row_id = some r ∧ still_matches m.lp r y k)
            ↔ q) := by
        intro q hq
        rw [hq]
        constructor
        · rintro (h | ⟨r, h, hm⟩)
          · exact absurd (Option.some.inj h) hr
          · cases h; exact hm
        · intro hm; exact Or.inr ⟨row_id, rfl, hm⟩
      cases ho : is_offset_row m.lp row_id with
      | none =>
        have hm : ¬ still_matches m.lp row_id y k := by
          rintro ⟨x2, y2, k2, h, -⟩
          rw [ho] at h; cases h
        exact Or.inr ⟨fun h => hm ((hcond _ Iff.rfl).mp h), rfl⟩
      | some t =>
        obtain ⟨x2, y2, k2⟩ := t
        dsimp only
        by_cases h1 : y = y2 ∧ k = k2
        · have hm : still_matches m.lp row_id y k :=
            ⟨x2, y2, k2, ho, Or.inl ⟨h1.1.symm, h1.2.symm⟩⟩
          refine Or.inl ⟨(hcond _ Iff.rfl).mpr hm, ?_⟩
          rw [if_pos h1]
          simp only [if_true]
          split_ifs <;> rfl
        · rw [if_neg h1]
          by_cases h2 : y2 ≠ null_lpvar ∧ x2 = y ∧ k = -k2
          · have hm : still_matches m.lp row_id y k :=
              ⟨x2, y2, k2, ho, Or.inr ⟨h2.1, h2.2.1, by rw [h2.2.2]; ring⟩⟩
            refine Or.inl ⟨(hcond _ Iff.rfl).mpr hm, ?_⟩
            rw [if_pos h2]
            simp only [if_true]
            split_ifs <;> rfl
          · have hm : ¬ still_matches m.lp row_id y k := by
              rintro ⟨x3, y3, k3, h, hc⟩
              rw [ho] at h
              simp only [Option.some.injEq, Prod.mk.injEq] at h
              obtain ⟨rfl, rfl, rfl⟩ := h
              rcases hc with ⟨a, b⟩ | ⟨a, b, c⟩
              · exact h1 ⟨a.symm, b.symm⟩
              · exact h2 ⟨a, b, by rw [c]; ring⟩
            refine Or.inr ⟨fun h => hm ((hcond _ Iff.rfl).mp h), ?_⟩
            rw [if_neg h2]
            rfl

/-- How a call of `cheap_eq_table` changes the two-row table. -/
theorem cheap_eq_table_table_change (m : imp) (rid : Nat) (p : lp_bound_propagator) :
    (is_offset_row m.lp rid = none → cheap_eq_table m rid p = p) ∧
    (∀ x y k, is_offset_row m.lp rid = some (x, y, k) →
      (∀ key, key ≠ (y, k) →
        (cheap_eq_table m rid p).m_var_offset2row_id key = p.m_var_offset2row_id key) ∧
      ((p.m_var_offset2row_id (y, k) = none ∨
          ∃ row_id, p.m_var_offset2row_id (y, k) = some row_id ∧ row_id ≠ rid ∧
            ¬ still_matches m.lp row_id y k) →
        (cheap_eq_table m rid p).m_var_offset2row_id (y, k) = some rid) ∧
      ((p.m_var_offset2row_id (y, k) = some rid ∨
          ∃ row_id, p.m_var_offset2row_id (y, k) = some row_id ∧
            still_matches m.lp row_id y k) →
        (cheap_eq_table m rid p).m_var_offset2row_id = p.m_var_offset2row_id)) := by
  constructor
  · intro h
    simp [cheap_eq_table, h]
  · intro x y k h
    have hfd : (cheap_eq_table_direct m rid x y k
        (cheap_eq_table_fixed m rid x y k p)).m_var_offset2row_id = p.m_var_offset2row_id := by
      rw [cheap_eq_table_direct_table, cheap_eq_table_fixed_table]
    have ht := cheap_eq_table_lookup_table m rid x y k
      (cheap_eq_table_direct m rid x y k (cheap_eq_table_fixed m rid x y k p))
    rw [hfd] at ht
    have hce : cheap_eq_table m rid p = cheap_eq_table_lookup m rid x y k
        (cheap_eq_table_direct m rid x y k (cheap_eq_table_fixed m rid x y k p)) := by
      simp only [cheap_eq_table, h]
    rw [← hce] at ht
    refine ⟨?_, ?_, ?_⟩
    · intro key hkey
      rcases ht with ⟨-, ht⟩ | ⟨-, ht⟩
      · rw [ht]
      · rw [ht]; exact Function.update_noteq hkey _ _
    · intro hc
      rcases ht with ⟨hcond, -⟩ | ⟨-, ht⟩
      · exfalso
        rcases hc with hn | ⟨row_id, hr, hne, hm⟩
        · rcases hcond with h1 | ⟨r2, h2, -⟩
          · rw [hn] at h1; cases h1
          · rw [hn] at h2; cases h2
        · rcases hcond with h1 | ⟨r2, h2, hm2⟩
          · rw [hr] at h1; exact hne (Option.some.inj h1)
          · rw [hr] at h2; cases h2; exact hm hm2
      · rw [ht]; exact Function.update_same _ _ _
    · intro hc
      rcases ht with ⟨-, ht⟩ | ⟨hcond, -⟩
      · exact ht
      · exact absurd hc hcond

/-- C10, counterexample: the table of `propagator_d` holds row 1 under the key `(x1, 5)` of
row 0, and row 1 classifies with `x2 = x1` and `k2 = -5`, so it matches the key in the
sense of the claim; yet the call on row 0 overwrites the entry with row 0. -/
theorem cheap_eq_table_postcondition_counterexample :
    ¬ (∀ x y k, is_offset_row imp_d.lp 0 = some (x, y, k) →
        (∃ row_id, propagator_d.m_var_offset2row_id (y, k) = some row_id ∧
          ∃ x2 y2 k2, is_offset_row imp_d.lp row_id = some (x2, y2, k2) ∧
            ((y2 = y ∧ k2 = k) ∨ (x2 = y ∧ k2 = -k))) →
        (cheap_eq_table imp_d 0 propagator_d).m_var_offset2row_id (y, k) =
          propagator_d.m_var_offset2row_id (y, k)) := by
  intro h
  have h0 : is_offset_row imp_d.lp 0 = some (0, 1, 5) := by
    simp [is_offset_row, imp_d, tableau_d, lar_solver.row_count, lar_solver.get_row,
      offset_row_scan, offset_row_sum, column_is_fixed, null_lpvar, get_lower_bound_rational]
  have h1 : is_offset_row imp_d.lp 1 = some (1, null_lpvar, -5) := by
    norm_num [is_offset_row, imp_d, tableau_d, lar_solver.row_count, lar_solver.get_row,
      offset_row_scan, offset_row_sum, column_is_fixed, null_lpvar, get_lower_bound_rational]
  have ht : propagator_d.m_var_offset2row_id (1, 5) = some 1 := by
    simp [propagator_d, table_insert]
  have := h 0 1 5 h0 ⟨1, ht, 1, null_lpvar, -5, h1, Or.inr ⟨rfl, rfl⟩⟩
  rw [ht] at this
  simp [cheap_eq_table, h0, cheap_eq_table_fixed, cheap_eq_table_direct, null_lpvar,
    cheap_eq_table_lookup, ht, h1, table_insert, add_eq_on_columns] at this

/-- C10, amended: postcondition of `cheap_eq_table(rid)` on the two-row table, for a row
classified with key `(y, k)`.  If the table had no entry for `(y, k)`, or its entry is a
row other than `rid` that no longer classifies as an offset row matching the key (neither
`y2 = y` and `k2 = k`, nor `y2` set with `x2 = y` and `k2 = -k`), then afterwards the
table maps `(y, k)` to `rid`; if the entry is `rid` itself or a row that still matches,
the table is unchanged.  Entries under every other key are unchanged, and if `rid` is not
an offset row nothing changes and nothing is reported. -/
theorem cheap_eq_table_postcondition (m : imp) (rid : Nat) (p : lp_bound_propagator) :
    (is_offset_row m.lp rid = none → cheap_eq_table m rid p = p) ∧
    (∀ x y k, is_offset_row m.lp rid = some (x, y, k) →
      (∀ key, key ≠ (y, k) →
        (cheap_eq_table m rid p).m_var_offset2row_id key = p.m_var_offset2row_id key) ∧
      ((p.m_var_offset2row_id (y, k) = none ∨
          ∃ row_id, p.m_var_offset2row_id (y, k) = some row_id ∧ row_id ≠ rid ∧
            ¬ still_matches m.lp row_id y k) →
        (cheap_eq_table m rid p).m_var_offset2row_id (y, k) = some rid) ∧
      ((p.m_var_offset2row_id (y, k) = some rid ∨
          ∃ row_id, p.m_var_offset2row_id (y, k) = some row_id ∧
            still_matches m.lp row_id y k) →
        (cheap_eq_table m rid p).m_var_offset2row_id = p.m_var_offset2row_id)) :=
  cheap_eq_table_table_change m rid p

/-! ## Two rows with the same key -/

theorem tableau_e_row0 : is_offset_row imp_e.lp 0 = some (0, 2, 5) := by
  norm_num [is_offset_row, imp_e, tableau_e, lar_solver.row_count, lar_solver.get_row,
    offset_row_scan, offset_row_sum, column_is_fixed, null_lpvar, get_lower_bound_rational]

theorem tableau_e_row1 : is_offset_row imp_e.lp 1 = some (1, 2, 5) := by
  norm_num [is_offset_row, imp_e, tableau_e, lar_solver.row_count, lar_solver.get_row,
    offset_row_scan, offset_row_sum, column_is_fixed, null_lpvar, get_lower_bound_rational]

/-- What two rows with the same key make the second call of `cheap_eq_table` do. -/
theorem cheap_eq_table_same_key (m : imp) (r1 r2 x1 x2 y : Nat) (k : ℚ)
    (p : lp_bound_propagator)
    (hempty : p.m_var_offset2row_id = fun _ => none)
    (hne : r1 ≠ r2)
    (h1 : is_offset_row m.lp r1 = some (x1, y, k))
    (h2 : is_offset_row m.lp r2 = some (x2, y, k))
    (_hx : x1 ≠ x2)
    (hint : is_int m.lp x1 = is_int m.lp x2)
    (heq : is_equal m x2 x1 = false) :
    (⟨x2, x1, fixed_witnesses m.lp r2 ++ fixed_witnesses m.lp r1⟩ : eq_report) ∈
        reports_of (cheap_eq_table m r1 p) (cheap_eq_table m r2 (cheap_eq_table m r1 p)) ∧
    reports_lookup m r2 (cheap_eq_table m r1 p) =
        [⟨x2, x1, fixed_witnesses m.lp r2 ++ fixed_witnesses m.lp r1⟩] ∧
    (cheap_eq_table m r2 (cheap_eq_table m r1 p)).m_var_offset2row_id (y, k) = some r1 := by
  have ht1 : (cheap_eq_table m r1 p).m_var_offset2row_id (y, k) = some r1 := by
    refine ((cheap_eq_table_table_change m r1 p).2 x1 y k h1).2.1 (Or.inl ?_)
    rw [hempty]
  have hl : ∀ q : lp_bound_propagator, q.m_var_offset2row_id (y, k) = some r1 →
      cheap_eq_table_lookup m r2 x2 y k q =
        add_eq_on_columns q
          (explain_fixed_in_row m.lp r1 (explain_fixed_in_row m.lp r2 [])) x2 x1 := by
    intro q hq
    simp [cheap_eq_table_lookup, hq, hne, h1, heq, hint]
  have hq : (cheap_eq_table_direct m r2 x2 y k
      (cheap_eq_table_fixed m r2 x2 y k (cheap_eq_table m r1 p))).m_var_offset2row_id (y, k)
        = some r1 := by
    rw [cheap_eq_table_direct_table, cheap_eq_table_fixed_table, ht1]
  have hrl : reports_lookup m r2 (cheap_eq_table m r1 p) =
      [⟨x2, x1, fixed_witnesses m.lp r2 ++ fixed_witnesses m.lp r1⟩] := by
    simp only [reports_lookup, h2]
    rw [hl _ hq, reports_of_add_eq, explain_fixed_in_row_eq, explain_fixed_in_row_eq]
    simp
  refine ⟨?_, hrl, ?_⟩
  · rw [cheap_eq_table_reports, hrl]
    simp
  · have := ((cheap_eq_table_table_change m r2 (cheap_eq_table m r1 p)).2 x2 y k h2).2.2
      (Or.inr ⟨r1, ht1, x1, y, k, h1, Or.inl ⟨rfl, rfl⟩⟩)
    rw [this, ht1]

/-- C6: starting from an empty two-row table, for distinct rows `r1` and `r2` that
`is_offset_row` classifies as `(x1, y, k)` and `(x2, y, k)` with `x1 != x2`,
`is_int(x1) = is_int(x2)` and `is_equal(x2, x1)` false, `cheap_eq_table(r1)` followed by
`cheap_eq_table(r2)` makes the second call report the equality `(x2, x1)` with
explanation the bound witnesses of the fixed cells of `r2` followed by those of `r1`, and
afterwards the table still maps `(y, k)` to `r1`. -/
theorem cheap_eq_table_two_rows (m : imp) (r1 r2 x1 x2 y : Nat) (k : ℚ)
    (p : lp_bound_propagator)
    (hempty : p.m_var_offset2row_id = fun _ => none)
    (hne : r1 ≠ r2)
    (h1 : is_offset_row m.lp r1 = some (x1, y, k))
    (h2 : is_offset_row m.lp r2 = some (x2, y, k))
    (hx : x1 ≠ x2)
    (hint : is_int m.lp x1 = is_int m.lp x2)
    (heq : is_equal m x2 x1 = false) :
    (⟨x2, x1, fixed_witnesses m.lp r2 ++ fixed_witnesses m.lp r1⟩ : eq_report) ∈
        reports_of (cheap_eq_table m r1 p) (cheap_eq_table m r2 (cheap_eq_table m r1 p)) ∧
    reports_lookup m r2 (cheap_eq_table m r1 p) =
        [⟨x2, x1, fixed_witnesses m.lp r2 ++ fixed_witnesses m.lp r1⟩] ∧
    (cheap_eq_table m r2 (cheap_eq_table m r1 p)).m_var_offset2row_id (y, k) = some r1 :=
  cheap_eq_table_same_key m r1 r2 x1 x2 y k p hempty hne h1 h2 hx hint heq

/-- The two rows of `tableau_e` share the key `(x2, 5)`: the second call reports
`(x1, x0)`. -/
theorem cheap_eq_table_two_rows_witness :
    is_offset_row imp_e.lp 0 = some (0, 2, 5) ∧
    is_offset_row imp_e.lp 1 = some (1, 2, 5) ∧
    reports_lookup imp_e 1 (cheap_eq_table imp_e 0 lp_bound_propagator.ctor) =
      [⟨1, 0, [8, 9, 6, 7]⟩] :=
  ⟨tableau_e_row0, tableau_e_row1,
   (cheap_eq_table_two_rows imp_e 0 1 0 1 2 5 lp_bound_propagator.ctor rfl
    (by decide) tableau_e_row0 tableau_e_row1 (by decide) rfl
    (by simp [is_equal, imp_e, col_to_imp, tableau_e])).2.1⟩

/-- C7: on `tableau_a` the rows 0 and 1 read `x2 = x1 + 5` and `x0 = x1 + 5`, with `+1` on
`x2` and `x0` and `-1` on the shared column `x1`; the columns `x2` and `x0` are distinct,
of the same integrality and not known equal, and the table is empty.  Row 0 is classified
with its roles swapped, under the key `(x2, -5)`, row 1 under `(x1, 5)`, and the two calls
of `cheap_eq_table`, in either order, report nothing. -/
theorem cheap_eq_table_misses_two_row_equality :
    free_cells imp_a.lp (imp_a.lp.get_row 0) = [⟨2, 1⟩, ⟨1, -1⟩] ∧
    free_cells imp_a.lp (imp_a.lp.get_row 1) = [⟨0, 1⟩, ⟨1, -1⟩] ∧
    fixed_offset imp_a.lp (imp_a.lp.get_row 0) = fixed_offset imp_a.lp (imp_a.lp.get_row 1) ∧
    is_int imp_a.lp 2 = is_int imp_a.lp 0 ∧
    is_equal imp_a 2 0 = false ∧ is_equal imp_a 0 2 = false ∧
    is_offset_row imp_a.lp 0 = some (1, 2, -5) ∧
    is_offset_row imp_a.lp 1 = some (0, 1, 5) ∧
    (cheap_eq_table imp_a 1 (cheap_eq_table imp_a 0 lp_bound_propagator.ctor)).m_eqs = [] ∧
    (cheap_eq_table imp_a 0 (cheap_eq_table imp_a 1 lp_bound_propagator.ctor)).m_eqs = [] := by
  have h0 : is_offset_row imp_a.lp 0 = some (1, 2, -5) := by
    norm_num [is_offset_row, imp_a, tableau_a, lar_solver.row_count, lar_solver.get_row,
      offset_row_scan, offset_row_sum, column_is_fixed, null_lpvar, get_lower_bound_rational]
  have h1 : is_offset_row imp_a.lp 1 = some (0, 1, 5) := by
    norm_num [is_offset_row, imp_a, tableau_a, lar_solver.row_count, lar_solver.get_row,
      offset_row_scan, offset_row_sum, column_is_fixed, null_lpvar, get_lower_bound_rational]
  refine ⟨?_, ?_, ?_, rfl, ?_, ?_, h0, h1, ?_, ?_⟩
  · simp [free_cells, imp_a, tableau_a, lar_solver.get_row, column_is_fixed]
  · simp [free_cells, imp_a, tableau_a, lar_solver.get_row, column_is_fixed]
  · simp [fixed_offset, fixed_cells, imp_a, tableau_a, lar_solver.get_row, column_is_fixed,
      get_lower_bound_rational]
  · simp [is_equal, imp_a, col_to_imp, tableau_a]
  · simp [is_equal, imp_a, col_to_imp, tableau_a]
  · norm_num [cheap_eq_table, h0, h1, cheap_eq_table_fixed, cheap_eq_table_direct,
      cheap_eq_table_lookup, table_insert, null_lpvar, lp_bound_propagator.ctor,
      Function.update]
  · norm_num [cheap_eq_table, h0, h1, cheap_eq_table_fixed, cheap_eq_table_direct,
      cheap_eq_table_lookup, table_insert, null_lpvar, lp_bound_propagator.ctor,
      Function.update]

/-! ## Soundness of the table strategy -/

theorem is_offset_row_x_ne_null (s : lar_solver) (r x y : Nat) (k : ℚ)
    (h : is_offset_row s r = some (x, y, k)) : x ≠ null_lpvar := by
  obtain ⟨_, x0, y0, k0, _, hn, _, hcase⟩ := is_offset_row_unfold s r x y k h
  rcases hcase with ⟨a, rfl, _, _⟩ | ⟨a, _, rfl, _, _⟩ | ⟨a, _, _, rfl, _, _⟩ |
    ⟨_, a, _, rfl, _, _⟩
  · exact fun hx => hn ⟨hx, a⟩
  · exact a
  · exact a
  · exact a

theorem mem_fixed_witnesses (s : lar_solver) (r : Nat) (c : row_cell)
    (hc : c ∈ s.get_row r) (hf : s.is_fixed c.var = true) :
    (s.get_bound_constraint_witnesses_for_column c.var).1 ∈ fixed_witnesses s r ∧
    (s.get_bound_constraint_witnesses_for_column c.var).2 ∈ fixed_witnesses s r := by
  unfold fixed_witnesses
  simp only [List.mem_flatMap, List.mem_filter]
  exact ⟨⟨c, ⟨hc, hf⟩, by simp⟩, ⟨c, ⟨hc, hf⟩, by simp⟩⟩

/-- An assignment that respects the witnesses of an explanation containing the fixed
witnesses of a row gives the fixed columns of that row their lower bounds. -/
theorem at_fixed_bounds_of_explanation (s : lar_solver) (r : Nat) (val : Nat → ℚ)
    (ex : explanation)
    (hfixed : ∀ j, column_is_fixed s j = true → s.is_fixed j = true)
    (hsub : ∀ w ∈ fixed_witnesses s r, w ∈ ex)
    (hexp : ∀ j, (s.get_bound_constraint_witnesses_for_column j).1 ∈ ex →
      (s.get_bound_constraint_witnesses_for_column j).2 ∈ ex →
      val j = get_lower_bound_rational s j) :
    at_fixed_bounds s val (s.get_row r) := by
  intro c hc hcf
  have hm := mem_fixed_witnesses s r c hc (hfixed _ hcf)
  exact hexp _ (hsub _ hm.1) (hsub _ hm.2)

theorem mem_reports_fixed (m : imp) (rid x y : Nat) (k : ℚ) (p : lp_bound_propagator)
    (e : eq_report) (he : e ∈ reports_of p (cheap_eq_table_fixed m rid x y k p)) :
    y = null_lpvar ∧ ∃ x2, m.lp.find_in_fixed_tables k (is_int m.lp x) = some x2 ∧
      is_equal m x x2 = false ∧
      e = ⟨x, x2, [(m.lp.get_bound_constraint_witnesses_for_column x2).1,
                  (m.lp.get_bound_constraint_witnesses_for_column x2).2] ++
                 fixed_witnesses m.lp rid⟩ := by
  unfold cheap_eq_table_fixed at he
  by_cases hy : y = null_lpvar
  · rw [if_pos hy] at he
    cases ho : m.lp.find_in_fixed_tables k (is_int m.lp x) with
    | none => simp [ho, reports_of_self] at he
    | some x2 =>
      simp only [ho] at he
      by_cases heq : is_equal m x x2 = true
      · simp [heq, reports_of_self] at he
      · have heq2 : is_equal m x x2 = false := by simpa using heq
        simp only [heq2, Bool.not_false, if_true, reports_of_add_eq, List.mem_singleton,
          explain_fixed_in_row_eq] at he
        exact ⟨hy, x2, rfl, heq2, he⟩
  · rw [if_neg hy, reports_of_self] at he
    simp at he

theorem mem_reports_direct (m : imp) (rid x y : Nat) (k : ℚ) (p : lp_bound_propagator)
    (e : eq_report) (he : e ∈ reports_of p (cheap_eq_table_direct m rid x y k p)) :
    k = 0 ∧ y ≠ null_lpvar ∧ is_equal m x y = false ∧ is_int m.lp x = is_int m.lp y ∧
      e = ⟨x, y, fixed_witnesses m.lp rid⟩ := by
  unfold cheap_eq_table_direct at he
  split_ifs at he with hc
  · simp only [reports_of_add_eq, List.mem_singleton, explain_fixed_in_row_eq,
      List.nil_append] at he
    exact ⟨hc.1, hc.2.1, hc.2.2.1, hc.2.2.2, he⟩
  · rw [reports_of_self] at he
    simp at he

theorem mem_reports_lookup (m : imp) (rid x y : Nat) (k : ℚ) (p : lp_bound_propagator)
    (e : eq_report) (he : e ∈ reports_of p (cheap_eq_table_lookup m rid x y k p)) :
    ∃ row_id x2 y2 k2, p.m_var_offset2row_id (y, k) = some row_id ∧ row_id ≠ rid ∧
      is_offset_row m.lp row_id = some (x2, y2, k2) ∧
      is_equal m x e.k = false ∧ is_int m.lp x = is_int m.lp e.k ∧
      e.j = x ∧ e.exp = fixed_witnesses m.lp rid ++ fixed_witnesses m.lp row_id ∧
      ((y = y2 ∧ k = k2 ∧ e.k = x2) ∨
       (¬ (y = y2 ∧ k = k2) ∧ y2 ≠ null_lpvar ∧ x2 = y ∧ k = -k2 ∧ e.k = y2)) := by
  unfold cheap_eq_table_lookup at he
  cases ht : p.m_var_offset2row_id (y, k) with
  | none => simp [ht, reports_of_table_insert] at he
  | some row_id =>
    simp only [ht] at he
    by_cases hr : row_id = rid
    · simp [hr, reports_of_self] at he
    · rw [if_neg hr] at he
      cases ho : is_offset_row m.lp row_id with
      | none => simp [ho, reports_of_table_insert] at he
      | some t =>
        obtain ⟨x2, y2, k2⟩ := t
        simp only [ho] at he
        have key : ∀ z : Nat, e ∈ reports_of p
            (if (!is_equal m x z && (is_int m.lp x == is_int m.lp z)) = true then
              add_eq_on_columns p
                (explain_fixed_in_row m.lp row_id (explain_fixed_in_row m.lp rid [])) x z
            else p) →
            is_equal m x e.k = false ∧ is_int m.lp x = is_int m.lp e.k ∧ e.j = x ∧
              e.exp = fixed_witnesses m.lp rid ++ fixed_witnesses m.lp row_id ∧ e.k = z := by
          intro z hz
          split_ifs at hz with hc
          · simp only [reports_of_add_eq, List.mem_singleton, explain_fixed_in_row_eq,
              List.nil_append] at hz
            subst hz
            simp only [Bool.and_eq_true, Bool.not_eq_true', beq_iff_eq] at hc
            exact ⟨hc.1, hc.2, rfl, rfl, rfl⟩
          · rw [reports_of_self] at hz
            simp at hz
        by_cases h1 : y = y2 ∧ k = k2
        · rw [if_pos h1] at he
          simp only [if_true] at he
          obtain ⟨a, b, c, d, f⟩ := key x2 he
          exact ⟨row_id, x2, y2, k2, rfl, hr, ho, a, b, c, d, Or.inl ⟨h1.1, h1.2, f⟩⟩
        · rw [if_neg h1] at he
          by_cases h2 : y2 ≠ null_lpvar ∧ x2 = y ∧ k = -k2
          · rw [if_pos h2] at he
            simp only [if_true] at he
            obtain ⟨a, b, c, d, f⟩ := key y2 he
            exact ⟨row_id, x2, y2, k2, rfl, hr, ho, a, b, c, d,
              Or.inr ⟨h1, h2.1, h2.2.1, h2.2.2, f⟩⟩
          · rw [if_neg h2] at he
            simp [reports_of_table_insert] at he

/-- Every equality reported by a call of `cheap_eq_table` follows from the two rows
used and the bounds cited. -/
theorem cheap_eq_table_reports_hold (m : imp) (rid : Nat) (p : lp_bound_propagator)
    (e : eq_report) (val : Nat → ℚ)
    (hwf : ∀ r, row_wf (m.lp.get_row r))
    (horacle : ∀ v b j, m.lp.find_in_fixed_tables v b = some j →
      column_is_fixed m.lp j = true ∧ get_lower_bound_rational m.lp j = v)
    (hfixed : ∀ j, column_is_fixed m.lp j = true → m.lp.is_fixed j = true)
    (he : e ∈ reports_of p (cheap_eq_table m rid p))
    (hrid : row_value val (m.lp.get_row rid) = 0)
    (htab : ∀ x y k row_id, is_offset_row m.lp rid = some (x, y, k) →
      p.m_var_offset2row_id (y, k) = some row_id →
      row_value val (m.lp.get_row row_id) = 0)
    (hexp : ∀ j, (m.lp.get_bound_constraint_witnesses_for_column j).1 ∈ e.exp →
      (m.lp.get_bound_constraint_witnesses_for_column j).2 ∈ e.exp →
      val j = get_lower_bound_rational m.lp j) :
    val e.j = val e.k := by
  rw [cheap_eq_table_reports] at he
  cases h : is_offset_row m.lp rid with
  | none => simp [reports_fixed, reports_direct, reports_lookup, h] at he
  | some t =>
    obtain ⟨x, y, k⟩ := t
    simp only [reports_fixed, reports_direct, reports_lookup, h, List.mem_append] at he
    rcases he with (he | he) | he
    · obtain ⟨hy, x2, ho, -, rfl⟩ := mem_reports_fixed m rid x y k p e he
      have hb := at_fixed_bounds_of_explanation m.lp rid val _ hfixed
        (fun w hw => List.mem_append_right _ hw) hexp
      have hx := (is_offset_row_value m.lp rid x y k val (hwf rid) h hrid hb).2 hy
      have hx2 := hexp x2 (by simp) (by simp)
      rw [(horacle _ _ _ ho).2] at hx2
      simp only
      rw [hx, hx2]
    · obtain ⟨hk, hy, -, -, rfl⟩ := mem_reports_direct m rid x y k _ e he
      have hb := at_fixed_bounds_of_explanation m.lp rid val _ hfixed (fun w hw => hw) hexp
      have hx := (is_offset_row_value m.lp rid x y k val (hwf rid) h hrid hb).1 hy
      simp only
      rw [hx, hk, add_zero]
    · obtain ⟨row_id, x2, y2, k2, ht, -, ho, -, -, hj, hex, hcase⟩ :=
        mem_reports_lookup m rid x y k _ e he
      rw [cheap_eq_table_direct_table, cheap_eq_table_fixed_table] at ht
      have hb1 := at_fixed_bounds_of_explanation m.lp rid val _ hfixed
        (fun w hw => by rw [hex]; exact List.mem_append_left _ hw) hexp
      have hb2 := at_fixed_bounds_of_explanation m.lp row_id val _ hfixed
        (fun w hw => by rw [hex]; exact List.mem_append_right _ hw) hexp
      have s1 := is_offset_row_value m.lp rid x y k val (hwf rid) h hrid hb1
      have s2 := is_offset_row_value m.lp row_id x2 y2 k2 val (hwf row_id) ho
        (htab x y k row_id h ht) hb2
      rw [hj]
      rcases hcase with ⟨rfl, rfl, hk⟩ | ⟨-, hy2, rfl, rfl, hk⟩
      · rw [hk]
        by_cases hy : y = null_lpvar
        · rw [s1.2 hy, s2.2 hy]
        · rw [s1.1 hy, s2.1 hy]
      · rw [hk]
        have hx2 := is_offset_row_x_ne_null m.lp row_id x2 y2 k2 ho
        have a := s1.1 hx2
        have b := s2.1 hy2
        linarith

/-- C1: every equality `(a, b, explanation)` reported by `cheap_eq_table(rid)`, for any
contents of the two-row table, holds in every assignment of rationals to the columns that
satisfies row `rid` and the table row consulted and gives each column whose two bound
witnesses appear in the explanation its lower-bound value.  Assumed: the fixed-value
oracle only returns a column fixed at exactly the queried value, every column the
classifier treats as fixed is also fixed for `explain_fixed_in_row`, and the cells of the
rows name columns. -/
theorem cheap_eq_table_sound (m : imp) (rid : Nat) (p : lp_bound_propagator)
    (e : eq_report) (val : Nat → ℚ)
    (hwf : ∀ r, row_wf (m.lp.get_row r))
    (horacle : ∀ v b j, m.lp.find_in_fixed_tables v b = some j →
      column_is_fixed m.lp j = true ∧ get_lower_bound_rational m.lp j = v)
    (hfixed : ∀ j, column_is_fixed m.lp j = true → m.lp.is_fixed j = true)
    (he : e ∈ reports_of p (cheap_eq_table m rid p))
    (hrid : row_value val (m.lp.get_row rid) = 0)
    (htab : ∀ x y k row_id, is_offset_row m.lp rid = some (x, y, k) →
      p.m_var_offset2row_id (y, k) = some row_id →
      row_value val (m.lp.get_row row_id) = 0)
    (hexp : ∀ j, (m.lp.get_bound_constraint_witnesses_for_column j).1 ∈ e.exp →
      (m.lp.get_bound_constraint_witnesses_for_column j).2 ∈ e.exp →
      val j = get_lower_bound_rational m.lp j) :
    val e.j = val e.k :=
  cheap_eq_table_reports_hold m rid p e val hwf horacle hfixed he hrid htab hexp

/-- The equality reported on `tableau_e` holds under the assignment `val_e`. -/
theorem cheap_eq_table_sound_witness :
    val_e 1 = val_e 0 :=
  cheap_eq_table_sound imp_e 1 (cheap_eq_table imp_e 0 lp_bound_propagator.ctor)
    ⟨1, 0, [8, 9, 6, 7]⟩ val_e
    (by
      intro r
      rcases r with _ | _ | r <;>
        simp [row_wf, imp_e, tableau_e, lar_solver.get_row, null_lpvar])
    (by
      intro v b j h
      simp only [imp_e, tableau_e] at h
      split_ifs at h with hv
      · cases h
        simp [column_is_fixed, get_lower_bound_rational, imp_e, tableau_e, hv])
    (by
      intro j h
      simp only [column_is_fixed, imp_e, tableau_e, Bool.and_eq_true] at h
      exact h.1)
    (by
      rw [cheap_eq_table_reports]
      have := (cheap_eq_table_same_key imp_e 0 1 0 1 2 5 lp_bound_propagator.ctor rfl
        (by decide) tableau_e_row0 tableau_e_row1 (by decide) rfl
        (by simp [is_equal, imp_e, col_to_imp, tableau_e])).2.1
      rw [this]; exact List.mem_append_right _ (List.mem_singleton.mpr rfl))
    (by norm_num [row_value, val_e, imp_e, tableau_e, lar_solver.get_row])
    (by
      intro x y k row_id h ht
      have h2 : is_offset_row imp_e.lp 1 = some (1, 2, 5) := tableau_e_row1
      rw [h2] at h
      simp only [Option.some.injEq, Prod.mk.injEq] at h
      obtain ⟨rfl, rfl, rfl⟩ := h
      have h1 : is_offset_row imp_e.lp 0 = some (0, 2, 5) := tableau_e_row0
      norm_num [cheap_eq_table, h1, cheap_eq_table_fixed, cheap_eq_table_direct,
        cheap_eq_table_lookup, table_insert, null_lpvar, lp_bound_propagator.ctor,
        Function.update] at ht
      subst ht
      norm_num [row_value, val_e, imp_e, tableau_e, lar_solver.get_row])
    (by
      intro j h1 h2
      simp only [imp_e, tableau_e, List.mem_cons, List.mem_singleton, List.not_mem_nil,
        or_false] at h1 h2
      have hj : j = 3 ∨ j = 4 := by omega
      rcases hj with rfl | rfl <;>
        norm_num [val_e, get_lower_bound_rational, imp_e, tableau_e])

/-! ## The spanning tree on a single-column seed row -/

/-- C2: on `tableau_f`, whose only row is `x0 + x1 = 0` with `x1` fixed at 5, the call
`cheap_eq_tree(0)` reports the equality of `x1` and `x0` twice, whatever the fuel, although
the fixed-value oracle only returns a column fixed at the queried value and the
solution `val_f` of the tableau (row satisfied, `x1` at its bound) has `x0 = -5` and
`x1 = 5`. -/
theorem cheap_eq_tree_reports_false_equality (fuel : Nat) :
    (cheap_eq_tree imp_f (fuel + 1) 0 lp_bound_propagator.ctor).m_eqs =
      [⟨1, 0, [2, 3, 2, 3]⟩, ⟨0, 1, [2, 3, 2, 3]⟩] ∧
    (∀ v b j, imp_f.lp.find_in_fixed_tables v b = some j →
      column_is_fixed imp_f.lp j = true ∧ get_lower_bound_rational imp_f.lp j = v) ∧
    row_value val_f (imp_f.lp.get_row 0) = 0 ∧
    at_fixed_bounds imp_f.lp val_f (imp_f.lp.get_row 0) ∧
    val_f 1 ≠ val_f 0 := by
  refine ⟨?_, ?_, ?_, ?_, ?_⟩
  · simp [cheap_eq_tree, check_insert, lp_bound_propagator.ctor, create_root,
      is_tree_offset_row, tree_row_scan, tree_row_offset, imp_f, tableau_f,
      lar_solver.get_row, column_is_fixed, signed_column.ctor, signed_column.not_set,
      set_sign_and_column, null_lpvar, get_lower_bound_rational, alloc_v, explore_under,
      fixed_phase, try_add_equation_with_fixed_tables, get_vertex, is_int,
      find_path_on_tree, climb_to_level, climb_to_common, get_explanation_from_path,
      explain_fixed_in_row, explain_fixed_column, add_eq_on_columns,
      check_for_eq_and_add_to_offsets, check_for_eq_and_add_to_offset_table,
      go_over_vertex_column, is_equal, col_to_imp, report_eq]
  · intro v b j h
    simp only [imp_f, tableau_f] at h
    split_ifs at h with hv
    cases h
    simp [column_is_fixed, get_lower_bound_rational, imp_f, tableau_f, hv]
  · norm_num [row_value, val_f, imp_f, tableau_f, lar_solver.get_row]
  · intro c hc hf
    simp only [imp_f, tableau_f, lar_solver.get_row, List.getD_cons_zero, List.mem_cons,
      List.mem_singleton, List.not_mem_nil, or_false] at hc
    rcases hc with rfl | rfl
    · simp [column_is_fixed, imp_f, tableau_f] at hf
    · norm_num [val_f, get_lower_bound_rational, imp_f, tableau_f]
  · norm_num [val_f]

/-! ## The implied-bound table -/

/-- What a call of `try_add_bound` does, in terms of the index map of its direction. -/
theorem try_add_bound_call_eq (m : imp) (p : lp_bound_propagator) (c : bound_call) :
    try_add_bound_call m p c =
      if c.interesting m = false then p
      else
        match index_map p c.is_low (m.lp.column_to_reported_index c.j) with
        | some k =>
          match p.m_ibounds[k]? with
          | some b =>
            if replaces c.is_low c.v c.strict b then
              { p with m_ibounds := p.m_ibounds.set k (c.bound m) }
            else p
          | none => p
        | none =>
          if c.is_low then
            { p with
              m_improved_lower_bounds :=
                Function.update p.m_improved_lower_bounds (m.lp.column_to_reported_index c.j)
                  (some p.m_ibounds.length),
              m_ibounds := p.m_ibounds ++ [c.bound m] }
          else
            { p with
              m_improved_upper_bounds :=
                Function.update p.m_improved_upper_bounds (m.lp.column_to_reported_index c.j)
                  (some p.m_ibounds.length),
              m_ibounds := p.m_ibounds ++ [c.bound m] } := by
  obtain ⟨v, j, low, cp, row, strict⟩ := c
  unfold try_add_bound_call try_add_bound bound_call.interesting index_map replaces
    bound_call.bound
  cases low <;>
    cases hi : m.bound_is_interesting (m.lp.column_to_reported_index j)
      (bound_kind _ strict) v <;> simp [hi]

theorem index_map_set_ibounds (p : lp_bound_propagator) (l : List implied_bound) (low : Bool) :
    index_map { p with m_ibounds := l } low = index_map p low := rfl

/-- The three things a call of `try_add_bound` can do: nothing, overwrite the entry of its
column and direction, or append a new entry and index it. -/
theorem try_add_bound_call_cases (m : imp) (p : lp_bound_propagator) (c : bound_call)
    (hinv : ibounds_inv p) :
    (try_add_bound_call m p c = p ∧
      (c.interesting m = false ∨
        ∃ b, stored_bound p c.is_low (m.lp.column_to_reported_index c.j) = some b ∧
          ¬ replaces c.is_low c.v c.strict b)) ∨
    (∃ k b, c.interesting m = true ∧
      index_map p c.is_low (m.lp.column_to_reported_index c.j) = some k ∧
      p.m_ibounds[k]? = some b ∧ replaces c.is_low c.v c.strict b ∧
      try_add_bound_call m p c = { p with m_ibounds := p.m_ibounds.set k (c.bound m) }) ∨
    (c.interesting m = true ∧
      index_map p c.is_low (m.lp.column_to_reported_index c.j) = none ∧
      (∀ low j, index_map (try_add_bound_call m p c) low j =
        if low = c.is_low ∧ j = m.lp.column_to_reported_index c.j then some p.m_ibounds.length
        else index_map p low j) ∧
      (try_add_bound_call m p c).m_ibounds = p.m_ibounds ++ [c.bound m]) := by
  rw [try_add_bound_call_eq]
  cases hi : c.interesting m with
  | false => exact Or.inl ⟨by simp, Or.inl rfl⟩
  | true =>
    simp only [Bool.true_eq_false, if_false]
    cases hk : index_map p c.is_low (m.lp.column_to_reported_index c.j) with
    | some k =>
      obtain ⟨b, hb, -, -⟩ := hinv.1 _ _ _ hk
      simp only [hb]
      by_cases hr : replaces c.is_low c.v c.strict b
      · exact Or.inr (Or.inl ⟨k, b, trivial, rfl, hb, hr, by rw [if_pos hr]⟩)
      · refine Or.inl ⟨by rw [if_neg hr], Or.inr ⟨b, ?_, hr⟩⟩
        simp only [stored_bound, hk, hb]
    | none =>
      refine Or.inr (Or.inr ⟨trivial, rfl, ?_, ?_⟩)
      · intro low j
        cases hl : c.is_low <;> cases low <;>
          simp only [hl, if_true, Bool.false_eq_true, if_false, index_map, Function.update_apply,
            true_and, false_and, Bool.true_eq_false]
      · cases hl : c.is_low <;> simp [hl]

theorem ibounds_inv_init (p : lp_bound_propagator) : ibounds_inv (init p) := by
  constructor
  · intro low j i h
    cases low <;> simp [index_map, init] at h
  · intro i h
    simp [init] at h

theorem ibounds_inv_step (m : imp) (p : lp_bound_propagator) (c : bound_call)
    (hinv : ibounds_inv p) : ibounds_inv (try_add_bound_call m p c) := by
  rcases try_add_bound_call_cases m p c hinv with ⟨h, -⟩ | ⟨k, b, -, hk, hb, -, h⟩ |
    ⟨-, hk, hmap, hib⟩
  · rw [h]; exact hinv
  · rw [h]
    obtain ⟨b0, hb0, hlow, hj⟩ := hinv.1 _ _ _ hk
    have hklt : k < p.m_ibounds.length := (List.getElem?_eq_some.mp hb).1
    constructor
    · intro low j i hi
      rw [index_map_set_ibounds] at hi
      obtain ⟨b1, hb1, hl1, hj1⟩ := hinv.1 _ _ _ hi
      by_cases hik : k = i
      · subst hik
        refine ⟨c.bound m, by simp [List.getElem?_set, hklt], ?_, ?_⟩
        · rw [hb0] at hb1; cases hb1
          simp [bound_call.bound, ← hl1, hlow]
        · rw [hb0] at hb1; cases hb1
          simp [bound_call.bound, ← hj1, hj]
      · exact ⟨b1, by simp [List.getElem?_set, hik, hb1], hl1, hj1⟩
    · intro i hi
      simp only [List.length_set] at hi
      exact hinv.2 i hi
  · constructor
    · intro low j i hi
      rw [hmap] at hi
      rw [hib]
      split_ifs at hi with hc
      · cases hi
        refine ⟨c.bound m, by simp, ?_, ?_⟩
        · simp [bound_call.bound, hc.1]
        · simp [bound_call.bound, hc.2]
      · obtain ⟨b1, hb1, hl1, hj1⟩ := hinv.1 _ _ _ hi
        have hilt : i < p.m_ibounds.length := (List.getElem?_eq_some.mp hb1).1
        exact ⟨b1, by rw [List.getElem?_append_left hilt]; exact hb1, hl1, hj1⟩
    · intro i hi
      rw [hib] at hi
      simp only [List.length_append, List.length_singleton] at hi
      by_cases hil : i < p.m_ibounds.length
      · obtain ⟨low, j, hlj⟩ := hinv.2 i hil
        refine ⟨low, j, ?_⟩
        rw [hmap]
        split_ifs with hc
        · rw [hc.1, hc.2, hk] at hlj; cases hlj
        · exact hlj
      · have : i = p.m_ibounds.length := by omega
        refine ⟨c.is_low, m.lp.column_to_reported_index c.j, ?_⟩
        rw [hmap, this]
        simp

/-- The stored bound of every column and direction after a call of `try_add_bound`. -/
theorem stored_bound_step (m : imp) (p : lp_bound_propagator) (c : bound_call)
    (hinv : ibounds_inv p) (low : Bool) (j : Nat) :
    stored_bound (try_add_bound_call m p c) low j =
      if c.interesting m = true ∧ low = c.is_low ∧ j = m.lp.column_to_reported_index c.j then
        (match stored_bound p low j with
         | none => some (c.bound m)
         | some b => if replaces c.is_low c.v c.strict b then some (c.bound m) else some b)
      else stored_bound p low j := by
  rcases try_add_bound_call_cases m p c hinv with ⟨h, hc⟩ | ⟨k, b, hi, hk, hb, hr, h⟩ |
    ⟨hi, hk, hmap, hib⟩
  · rw [h]
    rcases hc with hc | ⟨b, hb, hr⟩
    · simp [hc]
    · split_ifs with hcond
      · obtain ⟨-, rfl, rfl⟩ := hcond
        simp [hb, hr]
      · rfl
  · rw [h]
    have hklt : k < p.m_ibounds.length := (List.getElem?_eq_some.mp hb).1
    obtain ⟨b0, hb0, hlow, hj⟩ := hinv.1 _ _ _ hk
    rw [hb] at hb0; cases hb0
    split_ifs with hcond
    · obtain ⟨-, rfl, rfl⟩ := hcond
      simp only [stored_bound, index_map_set_ibounds, hk, hb, if_pos hr]
      simp [List.getElem?_set, hklt]
    · simp only [stored_bound, index_map_set_ibounds]
      cases hi2 : index_map p low j with
      | none => rfl
      | some i =>
        simp only []
        have hik : k ≠ i := by
          rintro rfl
          obtain ⟨b1, hb1, hl1, hj1⟩ := hinv.1 _ _ _ hi2
          rw [hb] at hb1; cases hb1
          exact hcond ⟨hi, by rw [← hl1, hlow], by rw [← hj1, hj]⟩
        simp [List.getElem?_set, hik]
  · simp only [stored_bound, hmap, hib]
    by_cases hc : low = c.is_low ∧ j = m.lp.column_to_reported_index c.j
    · obtain ⟨rfl, rfl⟩ := hc
      simp [hi, hk]
    · have hc2 : ¬ (c.interesting m = true ∧ low = c.is_low ∧
          j = m.lp.column_to_reported_index c.j) := fun h => hc h.2
      rw [if_neg hc, if_neg hc2]
      cases hi2 : index_map p low j with
      | none => rfl
      | some i =>
        simp only []
        obtain ⟨b1, hb1, -, -⟩ := hinv.1 _ _ _ hi2
        rw [List.getElem?_append_left (List.getElem?_eq_some.mp hb1).1]

theorem candidates_append (m : imp) (cs : List bound_call) (c : bound_call) (low : Bool)
    (j : Nat) :
    candidates m (cs ++ [c]) low j =
      candidates m cs low j ++
        (if c.interesting m = true ∧ low = c.is_low ∧ j = m.lp.column_to_reported_index c.j
         then [c] else []) := by
  unfold candidates
  rw [List.filter_append]
  congr 1
  by_cases h : c.interesting m = true ∧ low = c.is_low ∧ j = m.lp.column_to_reported_index c.j
  · obtain ⟨h1, rfl, rfl⟩ := h
    simp [h1]
  · rw [if_neg h]
    simp only [List.filter_cons, List.filter_nil]
    split_ifs with h2
    · exfalso
      simp only [Bool.and_eq_true, beq_iff_eq] at h2
      exact h ⟨h2.2, h2.1.1.symm, h2.1.2.symm⟩
    · rfl

theorem best_of_single (m : imp) (c : bound_call) (low : Bool) :
    best_of low [c] (c.bound m) := by
  refine ⟨?_, ⟨c, by simp, rfl⟩, ?_⟩
  · intro c1 h1
    simp only [List.mem_singleton] at h1
    subst h1
    cases low <;> simp [bound_call.bound]
  · simp [bound_call.bound]

theorem best_of_replace (m : imp) (cands : List bound_call) (c : bound_call)
    (b : implied_bound) (hb : best_of c.is_low cands b)
    (hr : replaces c.is_low c.v c.strict b) :
    best_of c.is_low (cands ++ [c]) (c.bound m) := by
  obtain ⟨hle, -, -⟩ := hb
  have hge : if c.is_low then b.m_bound ≤ c.v else c.v ≤ b.m_bound := by
    rcases hr with h | ⟨h, -, -⟩
    · cases hl : c.is_low <;> simp only [hl, if_true, Bool.false_eq_true, if_false] at h ⊢ <;>
        exact le_of_lt h
    · cases hl : c.is_low <;> simp [h]
  refine ⟨?_, ⟨c, by simp, rfl⟩, ?_⟩
  · intro c1 h1
    rcases List.mem_append.mp h1 with h1 | h1
    · have := hle c1 h1
      cases hl : c.is_low <;> simp only [hl, if_true, Bool.false_eq_true, if_false,
        bound_call.bound] at this hge ⊢ <;> linarith
    · simp only [List.mem_singleton] at h1
      subst h1
      cases c1.is_low <;> simp [bound_call.bound]
  · simp only [bound_call.bound]
    constructor
    · intro hs
      exact ⟨c, by simp, rfl, hs⟩
    · rintro ⟨c1, h1, hv, hs⟩
      rcases List.mem_append.mp h1 with h1 | h1
      · rcases hr with h | ⟨-, -, h⟩
        · exfalso
          have := hle c1 h1
          cases hl : c.is_low <;> simp only [hl, if_true, Bool.false_eq_true, if_false]
            at this h <;> linarith
        · exact h
      · simp only [List.mem_singleton] at h1
        subst h1
        exact hs

theorem best_of_keep (cands : List bound_call) (c : bound_call)
    (b : implied_bound) (hb : best_of c.is_low cands b)
    (hr : ¬ replaces c.is_low c.v c.strict b) :
    best_of c.is_low (cands ++ [c]) b := by
  obtain ⟨hle, ⟨c0, hc0, hv0⟩, hst⟩ := hb
  unfold replaces at hr
  push_neg at hr
  obtain ⟨hr1, hr2⟩ := hr
  refine ⟨?_, ⟨c0, List.mem_append_left _ hc0, hv0⟩, ?_⟩
  · intro c1 h1
    rcases List.mem_append.mp h1 with h1 | h1
    · exact hle c1 h1
    · simp only [List.mem_singleton] at h1
      subst h1
      cases hl : c1.is_low <;> simp only [hl, if_true, Bool.false_eq_true, if_false,
        gt_iff_lt, not_lt] at hr1 ⊢ <;> exact hr1
  · constructor
    · intro hs
      obtain ⟨c1, h1, hv, hs1⟩ := hst.mp hs
      exact ⟨c1, List.mem_append_left _ h1, hv, hs1⟩
    · rintro ⟨c1, h1, hv, hs⟩
      rcases List.mem_append.mp h1 with h1 | h1
      · exact hst.mpr ⟨c1, h1, hv, hs⟩
      · simp only [List.mem_singleton] at h1
        subst h1
        by_contra hns
        have hns2 : b.m_strict = false := by simpa using hns
        exact hr2 hv hns2 hs

theorem table_matches_init (m : imp) (p : lp_bound_propagator) :
    table_matches m [] (init p) := by
  refine ⟨ibounds_inv_init p, fun low j => Or.inl ⟨?_, rfl⟩⟩
  cases low <;> simp [stored_bound, index_map, init]

theorem table_matches_step (m : imp) (cs : List bound_call) (p : lp_bound_propagator)
    (c : bound_call) (h : table_matches m cs p) :
    table_matches m (cs ++ [c]) (try_add_bound_call m p c) := by
  obtain ⟨hinv, hall⟩ := h
  refine ⟨ibounds_inv_step m p c hinv, fun low j => ?_⟩
  rw [stored_bound_step m p c hinv, candidates_append]
  by_cases hc : c.interesting m = true ∧ low = c.is_low ∧
      j = m.lp.column_to_reported_index c.j
  · rw [if_pos hc, if_pos hc]
    obtain ⟨-, rfl, rfl⟩ := hc
    rcases hall c.is_low (m.lp.column_to_reported_index c.j) with ⟨hs, hcand⟩ | ⟨b, hs, hbest⟩
    · rw [hs, hcand]
      exact Or.inr ⟨_, rfl, best_of_single m c _⟩
    · rw [hs]
      simp only []
      by_cases hr : replaces c.is_low c.v c.strict b
      · rw [if_pos hr]
        exact Or.inr ⟨_, rfl, best_of_replace m _ c b hbest hr⟩
      · rw [if_neg hr]
        exact Or.inr ⟨_, rfl, best_of_keep _ c b hbest hr⟩
  · rw [if_neg hc, if_neg hc, List.append_nil]
    exact hall low j

theorem table_matches_run (m : imp) (cs done : List bound_call) (p : lp_bound_propagator)
    (h : table_matches m done p) :
    table_matches m (done ++ cs) (try_add_bounds m cs p) := by
  induction cs generalizing done p with
  | nil => simpa [try_add_bounds] using h
  | cons c cs ih =>
    have := ih (done ++ [c]) (try_add_bound_call m p c) (table_matches_step m done p c h)
    simpa [try_add_bounds] using this

/-- The table after `init()` and any sequence of calls matches the calls. -/
theorem table_matches_reachable (m : imp) (cs : List bound_call) (p0 : lp_bound_propagator) :
    table_matches m cs (try_add_bounds m cs (init p0)) := by
  simpa using table_matches_run m cs [] (init p0) (table_matches_init m p0)

theorem mem_candidates (m : imp) (cs : List bound_call) (low : Bool) (j : Nat)
    (c : bound_call) :
    c ∈ candidates m cs low j ↔
      c ∈ cs ∧ c.is_low = low ∧ m.lp.column_to_reported_index c.j = j ∧
        c.interesting m = true := by
  simp [candidates, and_assoc]

/-- The stored bound of a reported column after `init()` and a sequence of calls. -/
theorem stored_bound_reachable (m : imp) (cs : List bound_call) (p0 : lp_bound_propagator)
    (low : Bool) (j : Nat) :
    ((stored_bound (try_add_bounds m cs (init p0)) low j).isSome = true ↔
      ∃ c ∈ cs, c.is_low = low ∧ m.lp.column_to_reported_index c.j = j ∧
        c.interesting m = true) ∧
    ∀ b, stored_bound (try_add_bounds m cs (init p0)) low j = some b →
      b.m_is_lower_bound = low ∧ b.m_j = j ∧
      (∀ c ∈ cs, c.is_low = low → m.lp.column_to_reported_index c.j = j →
        c.interesting m = true → if low then c.v ≤ b.m_bound else b.m_bound ≤ c.v) ∧
      (∃ c ∈ cs, c.is_low = low ∧ m.lp.column_to_reported_index c.j = j ∧
        c.interesting m = true ∧ c.v = b.m_bound) ∧
      (b.m_strict = true ↔ ∃ c ∈ cs, c.is_low = low ∧ m.lp.column_to_reported_index c.j = j ∧
        c.interesting m = true ∧ c.v = b.m_bound ∧ c.strict = true) := by
  obtain ⟨hinv, hall⟩ := table_matches_reachable m cs p0
  constructor
  · rcases hall low j with ⟨hs, hcand⟩ | ⟨b, hs, -, ⟨c, hc, -⟩, -⟩
    · rw [hs]
      simp only [Option.isSome_none, Bool.false_eq_true, false_iff, not_exists, not_and]
      intro c hc h1 h2 h3
      have : c ∈ candidates m cs low j := (mem_candidates m cs low j c).mpr ⟨hc, h1, h2, h3⟩
      rw [hcand] at this
      simp at this
    · rw [hs]
      simp only [Option.isSome_some, true_iff]
      obtain ⟨h0, h1, h2, h3⟩ := (mem_candidates m cs low j c).mp hc
      exact ⟨c, h0, h1, h2, h3⟩
  · intro b hb
    rcases hall low j with ⟨hs, -⟩ | ⟨b1, hs, hle, ⟨c0, hc0, hv0⟩, hst⟩
    · rw [hs] at hb; cases hb
    · rw [hs] at hb
      obtain rfl : b1 = b := Option.some.inj hb
      have hidx : b1.m_is_lower_bound = low ∧ b1.m_j = j := by
        unfold stored_bound at hs
        cases hi : index_map (try_add_bounds m cs (init p0)) low j with
        | none => rw [hi] at hs; cases hs
        | some i =>
          rw [hi] at hs
          obtain ⟨b2, hb2, hl, hj⟩ := hinv.1 _ _ _ hi
          simp only [] at hs
          rw [hs] at hb2; cases hb2
          exact ⟨hl, hj⟩
      refine ⟨hidx.1, hidx.2, ?_, ?_, ?_⟩
      · intro c hc h1 h2 h3
        exact hle c ((mem_candidates m cs low j c).mpr ⟨hc, h1, h2, h3⟩)
      · obtain ⟨h0, h1, h2, h3⟩ := (mem_candidates m cs low j c0).mp hc0
        exact ⟨c0, h0, h1, h2, h3, hv0⟩
      · rw [hst]
        constructor
        · rintro ⟨c, hc, hv, hs1⟩
          obtain ⟨h0, h1, h2, h3⟩ := (mem_candidates m cs low j c).mp hc
          exact ⟨c, h0, h1, h2, h3, hv, hs1⟩
        · rintro ⟨c, h0, h1, h2, h3, hv, hs1⟩
          exact ⟨c, (mem_candidates m cs low j c).mpr ⟨h0, h1, h2, h3⟩, hv, hs1⟩

/-- C11: after `init()` and any sequence of `try_add_bound` calls, for every reported
column `j`: a lower implied bound for `j` is stored iff some `is_low` call for `j` was
judged interesting, and then its value is the maximum over those interesting candidates
and it is strict iff some interesting candidate with that maximum value was strict;
symmetrically an upper bound is stored with the minimum value, strict iff some minimal
interesting candidate was strict. -/
theorem try_add_bound_best (m : imp) (cs : List bound_call) (p0 : lp_bound_propagator)
    (j : Nat) :
    (((stored_bound (try_add_bounds m cs (init p0)) true j).isSome = true ↔
        ∃ c ∈ cs, c.is_low = true ∧ m.lp.column_to_reported_index c.j = j ∧
          c.interesting m = true) ∧
      ∀ b, stored_bound (try_add_bounds m cs (init p0)) true j = some b →
        b.m_is_lower_bound = true ∧ b.m_j = j ∧
        (∀ c ∈ cs, c.is_low = true → m.lp.column_to_reported_index c.j = j →
          c.interesting m = true → c.v ≤ b.m_bound) ∧
        (∃ c ∈ cs, c.is_low = true ∧ m.lp.column_to_reported_index c.j = j ∧
          c.interesting m = true ∧ c.v = b.m_bound) ∧
        (b.m_strict = true ↔ ∃ c ∈ cs, c.is_low = true ∧
          m.lp.column_to_reported_index c.j = j ∧ c.interesting m = true ∧
          c.v = b.m_bound ∧ c.strict = true)) ∧
    (((stored_bound (try_add_bounds m cs (init p0)) false j).isSome = true ↔
        ∃ c ∈ cs, c.is_low = false ∧ m.lp.column_to_reported_index c.j = j ∧
          c.interesting m = true) ∧
      ∀ b, stored_bound (try_add_bounds m cs (init p0)) false j = some b →
        b.m_is_lower_bound = false ∧ b.m_j = j ∧
        (∀ c ∈ cs, c.is_low = false → m.lp.column_to_reported_index c.j = j →
          c.interesting m = true → b.m_bound ≤ c.v) ∧
        (∃ c ∈ cs, c.is_low = false ∧ m.lp.column_to_reported_index c.j = j ∧
          c.interesting m = true ∧ c.v = b.m_bound) ∧
        (b.m_strict = true ↔ ∃ c ∈ cs, c.is_low = false ∧
          m.lp.column_to_reported_index c.j = j ∧ c.interesting m = true ∧
          c.v = b.m_bound ∧ c.strict = true)) := by
  have hl := stored_bound_reachable m cs p0 true j
  have hu := stored_bound_reachable m cs p0 false j
  simp only [if_true, Bool.false_eq_true, if_false] at hl hu
  exact ⟨hl, hu⟩

/-- A call of `try_add_bound` never loosens a stored bound. -/
theorem stored_bound_monotone (m : imp) (p : lp_bound_propagator) (c : bound_call)
    (hinv : ibounds_inv p) (low : Bool) (j : Nat) (b : implied_bound)
    (h : stored_bound p low j = some b) :
    ∃ b1, stored_bound (try_add_bound_call m p c) low j = some b1 ∧
      (if low then b.m_bound ≤ b1.m_bound else b1.m_bound ≤ b.m_bound) ∧
      (b1.m_bound = b.m_bound → b.m_strict = true → b1.m_strict = true) := by
  rw [stored_bound_step m p c hinv]
  by_cases hc : c.interesting m = true ∧ low = c.is_low ∧
      j = m.lp.column_to_reported_index c.j
  · rw [if_pos hc, h]
    simp only []
    obtain ⟨-, rfl, rfl⟩ := hc
    by_cases hr : replaces c.is_low c.v c.strict b
    · rw [if_pos hr]
      refine ⟨_, rfl, ?_, ?_⟩
      · rcases hr with hr | ⟨hr, -, -⟩
        · cases hl : c.is_low <;>
            simp only [hl, if_true, Bool.false_eq_true, if_false, bound_call.bound] at hr ⊢ <;>
            exact le_of_lt hr
        · cases hl : c.is_low <;> simp [bound_call.bound, hr]
      · intro hv hs
        rcases hr with hr | ⟨-, hr, -⟩
        · exfalso
          simp only [bound_call.bound] at hv
          cases hl : c.is_low <;>
            simp only [hl, if_true, Bool.false_eq_true, if_false] at hr <;> linarith
        · rw [hs] at hr; cases hr
    · rw [if_neg hr]
      exact ⟨b, rfl, by split_ifs <;> exact le_refl _, fun _ hs => hs⟩
  · rw [if_neg hc]
    exact ⟨b, h, by cases low <;> simp, fun _ hs => hs⟩

/-- C12: for every sequence of `try_add_bound` calls after `init()` and every reported
column `j`, the next call never decreases the value of the stored lower implied bound for
`j`, never increases the value of the stored upper implied bound, and, when it leaves the
stored value unchanged, never changes its strict flag from true to false. -/
theorem try_add_bound_monotone (m : imp) (cs : List bound_call) (p0 : lp_bound_propagator)
    (c : bound_call) (j : Nat) :
    (∀ b, stored_bound (try_add_bounds m cs (init p0)) true j = some b →
      ∃ b1, stored_bound (try_add_bound_call m (try_add_bounds m cs (init p0)) c) true j
          = some b1 ∧
        b.m_bound ≤ b1.m_bound ∧
        (b1.m_bound = b.m_bound → b.m_strict = true → b1.m_strict = true)) ∧
    (∀ b, stored_bound (try_add_bounds m cs (init p0)) false j = some b →
      ∃ b1, stored_bound (try_add_bound_call m (try_add_bounds m cs (init p0)) c) false j
          = some b1 ∧
        b1.m_bound ≤ b.m_bound ∧
        (b1.m_bound = b.m_bound → b.m_strict = true → b1.m_strict = true)) := by
  have hinv := (table_matches_reachable m cs p0).1
  constructor
  · intro b hb
    have := stored_bound_monotone m _ c hinv true j b hb
    simpa using this
  · intro b hb
    have := stored_bound_monotone m _ c hinv false j b hb
    simpa using this

/-- Under the invariant an entry of `ibounds` is indexed by exactly one key of exactly one
of the two maps, and no two entries have the same direction and column. -/
theorem ibounds_inv_unique (p : lp_bound_propagator) (hinv : ibounds_inv p) :
    (∀ i, i < p.m_ibounds.length →
      ((∃ j, p.m_improved_lower_bounds j = some i ∧
          ∀ j1, p.m_improved_lower_bounds j1 = some i → j1 = j) ∧
        ∀ j, p.m_improved_upper_bounds j ≠ some i) ∨
      ((∃ j, p.m_improved_upper_bounds j = some i ∧
          ∀ j1, p.m_improved_upper_bounds j1 = some i → j1 = j) ∧
        ∀ j, p.m_improved_lower_bounds j ≠ some i)) ∧
    (∀ (i1 i2 : Nat) (b1 b2 : implied_bound), p.m_ibounds[i1]? = some b1 → p.m_ibounds[i2]? = some b2 →
      b1.m_is_lower_bound = b2.m_is_lower_bound → b1.m_j = b2.m_j → i1 = i2) := by
  have key : ∀ low1 low2 j1 j2 i, index_map p low1 j1 = some i → index_map p low2 j2 = some i →
      low1 = low2 ∧ j1 = j2 := by
    intro low1 low2 j1 j2 i h1 h2
    obtain ⟨b1, hb1, hl1, hj1⟩ := hinv.1 _ _ _ h1
    obtain ⟨b2, hb2, hl2, hj2⟩ := hinv.1 _ _ _ h2
    rw [hb1] at hb2; cases hb2
    exact ⟨by rw [← hl1, hl2], by rw [← hj1, hj2]⟩
  constructor
  · intro i hi
    obtain ⟨low, j, hlj⟩ := hinv.2 i hi
    cases low with
    | true =>
      refine Or.inl ⟨⟨j, hlj, fun j1 h1 => (key true true j1 j i h1 hlj).2⟩, fun j1 h1 => ?_⟩
      have := (key false true j1 j i h1 hlj).1
      cases this
    | false =>
      refine Or.inr ⟨⟨j, hlj, fun j1 h1 => (key false false j1 j i h1 hlj).2⟩, fun j1 h1 => ?_⟩
      have := (key true false j1 j i h1 hlj).1
      cases this
  · intro i1 i2 b1 b2 h1 h2 hl hj
    obtain ⟨low1, j1, hi1⟩ := hinv.2 i1 (List.getElem?_eq_some.mp h1).1
    obtain ⟨low2, j2, hi2⟩ := hinv.2 i2 (List.getElem?_eq_some.mp h2).1
    obtain ⟨c1, hc1, hcl1, hcj1⟩ := hinv.1 _ _ _ hi1
    obtain ⟨c2, hc2, hcl2, hcj2⟩ := hinv.1 _ _ _ hi2
    rw [h1] at hc1; cases hc1
    rw [h2] at hc2; cases hc2
    have e1 : low1 = low2 := by rw [← hcl1, ← hcl2, hl]
    have e2 : j1 = j2 := by rw [← hcj1, ← hcj2, hj]
    subst e1; subst e2
    rw [hi1] at hi2
    exact Option.some.inj hi2

/-- C13: the invariant kept by `init()` and `try_add_bound`.  An index held by
`m_improved_lower_bounds` for `j` is in range and leads to a lower bound of column `j`
(likewise for `m_improved_upper_bounds` and upper bounds); every entry of `ibounds` is
indexed by exactly one of the two maps, under exactly one column, so that `ibounds` holds
at most one lower and at most one upper bound per reported column.  A call of
`try_add_bound` leaves `ibounds` alone, or overwrites the one entry of its column and
direction, or appends one entry; it never removes or moves an entry or an index. -/
theorem ibounds_invariant (m : imp) (p : lp_bound_propagator) (c : bound_call) :
    ibounds_inv (init p) ∧
    (ibounds_inv p →
      ibounds_inv (try_add_bound_call m p c) ∧
      (∀ j i, p.m_improved_lower_bounds j = some i →
        i < p.m_ibounds.length ∧
        ∃ b, p.m_ibounds[i]? = some b ∧ b.m_is_lower_bound = true ∧ b.m_j = j) ∧
      (∀ j i, p.m_improved_upper_bounds j = some i →
        i < p.m_ibounds.length ∧
        ∃ b, p.m_ibounds[i]? = some b ∧ b.m_is_lower_bound = false ∧ b.m_j = j) ∧
      (∀ i, i < p.m_ibounds.length →
        ((∃ j, p.m_improved_lower_bounds j = some i ∧
            ∀ j1, p.m_improved_lower_bounds j1 = some i → j1 = j) ∧
          ∀ j, p.m_improved_upper_bounds j ≠ some i) ∨
        ((∃ j, p.m_improved_upper_bounds j = some i ∧
            ∀ j1, p.m_improved_upper_bounds j1 = some i → j1 = j) ∧
          ∀ j, p.m_improved_lower_bounds j ≠ some i)) ∧
      (∀ (i1 i2 : Nat) (b1 b2 : implied_bound), p.m_ibounds[i1]? = some b1 → p.m_ibounds[i2]? = some b2 →
        b1.m_is_lower_bound = b2.m_is_lower_bound → b1.m_j = b2.m_j → i1 = i2) ∧
      ((try_add_bound_call m p c).m_ibounds = p.m_ibounds ∨
        (∃ k, index_map p c.is_low (m.lp.column_to_reported_index c.j) = some k ∧
          k < p.m_ibounds.length ∧
          (try_add_bound_call m p c).m_ibounds = p.m_ibounds.set k (c.bound m)) ∨
        (try_add_bound_call m p c).m_ibounds = p.m_ibounds ++ [c.bound m]) ∧
      (∀ j i, p.m_improved_lower_bounds j = some i →
        (try_add_bound_call m p c).m_improved_lower_bounds j = some i) ∧
      (∀ j i, p.m_improved_upper_bounds j = some i →
        (try_add_bound_call m p c).m_improved_upper_bounds j = some i)) := by
  refine ⟨ibounds_inv_init p, fun hinv => ?_⟩
  have huniq := ibounds_inv_unique p hinv
  have hmaps : ∀ low j i, index_map p low j = some i →
      index_map (try_add_bound_call m p c) low j = some i := by
    intro low j i h
    rcases try_add_bound_call_cases m p c hinv with ⟨h1, -⟩ | ⟨k, b, -, -, -, -, h1⟩ |
      ⟨-, hk, hmap, -⟩
    · rw [h1]; exact h
    · rw [h1]; exact h
    · rw [hmap]
      split_ifs with hc
      · rw [hc.1, hc.2, hk] at h; cases h
      · exact h
  refine ⟨ibounds_inv_step m p c hinv, ?_, ?_, huniq.1, huniq.2, ?_, ?_, ?_⟩
  · intro j i h
    obtain ⟨b, hb, hl, hj⟩ := hinv.1 true j i h
    exact ⟨(List.getElem?_eq_some.mp hb).1, b, hb, hl, hj⟩
  · intro j i h
    obtain ⟨b, hb, hl, hj⟩ := hinv.1 false j i h
    exact ⟨(List.getElem?_eq_some.mp hb).1, b, hb, hl, hj⟩
  · rcases try_add_bound_call_cases m p c hinv with ⟨h1, -⟩ | ⟨k, b, -, hk, hb, -, h1⟩ |
      ⟨-, -, -, hib⟩
    · exact Or.inl (by rw [h1])
    · exact Or.inr (Or.inl ⟨k, hk, (List.getElem?_eq_some.mp hb).1, by rw [h1]⟩)
    · exact Or.inr (Or.inr hib)
  · exact fun j i h => hmaps true j i h
  · exact fun j i h => hmaps false j i h

/-- C14: `init()` leaves `ibounds` and both improved-bound index maps empty, and leaves
the two-row offset table, `visited_rows`, `visited_columns`, `root`, `fixed_vertex` and
both offset-to-vertex tables unchanged (as well as the vertices and the reports). -/
theorem init_frame (p : lp_bound_propagator) :
    (init p).m_ibounds = [] ∧
    (init p).m_improved_lower_bounds = (fun _ => none) ∧
    (init p).m_improved_upper_bounds = (fun _ => none) ∧
    (init p).m_var_offset2row_id = p.m_var_offset2row_id ∧
    (init p).m_visited_rows = p.m_visited_rows ∧
    (init p).m_visited_columns = p.m_visited_columns ∧
    (init p).m_root = p.m_root ∧
    (init p).m_fixed_vertex = p.m_fixed_vertex ∧
    (init p).m_offset_to_verts = p.m_offset_to_verts ∧
    (init p).m_offset_to_verts_neg = p.m_offset_to_verts_neg ∧
    (init p).m_verts = p.m_verts ∧
    (init p).m_eqs = p.m_eqs := by
  unfold init
  exact ⟨rfl, rfl, rfl, rfl, rfl, rfl, rfl, rfl, rfl, rfl, rfl, rfl⟩

/-! ## Visited rows along the traversal -/

theorem rows_sub_refl (p : lp_bound_propagator) : rows_sub p p := fun _ h => h

theorem rows_sub_trans {p q r : lp_bound_propagator} (h1 : rows_sub p q) (h2 : rows_sub q r) :
    rows_sub p r := fun x hx => h2 x (h1 x hx)

theorem rows_sub_of_eq {p q : lp_bound_propagator} (h : q.m_visited_rows = p.m_visited_rows) :
    rows_sub p q := fun x hx => by rw [h]; exact hx

theorem rows_sub_foldl {α : Type} (f : lp_bound_propagator → α → lp_bound_propagator)
    (hf : ∀ q x, rows_sub q (f q x)) (l : List α) (p : lp_bound_propagator) :
    rows_sub p (l.foldl f p) := by
  induction l generalizing p with
  | nil => exact rows_sub_refl p
  | cons a l ih => exact rows_sub_trans (hf p a) (ih (f p a))

theorem check_insert_none_iff (table : List Nat) (j : Nat) :
    check_insert table j = none ↔ j ∈ table := by
  unfold check_insert
  by_cases h : j ∈ table <;> simp [h]

theorem check_insert_some (table t : List Nat) (j : Nat) (h : check_insert table j = some t) :
    t = j :: table ∧ j ∉ table := by
  unfold check_insert at h
  by_cases hj : j ∈ table
  · simp [hj] at h
  · simp [hj] at h
    exact ⟨h.symm, hj⟩

theorem report_eq_rows (m : imp) (u v : Nat) (p : lp_bound_propagator) :
    (report_eq m u v p).m_visited_rows = p.m_visited_rows := by
  unfold report_eq
  split <;> rfl

theorem try_add_equation_with_fixed_tables_rows (m : imp) (v : Nat)
    (p : lp_bound_propagator) :
    (try_add_equation_with_fixed_tables m v p).m_visited_rows = p.m_visited_rows := by
  unfold try_add_equation_with_fixed_tables
  split
  · rfl
  · split
    · rfl
    · split <;> rfl

theorem check_for_eq_and_add_to_offset_table_rows (m : imp) (v : Nat) (t : Bool)
    (p : lp_bound_propagator) :
    (check_for_eq_and_add_to_offset_table m v t p).m_visited_rows = p.m_visited_rows := by
  unfold check_for_eq_and_add_to_offset_table
  split
  · split_ifs
    · exact report_eq_rows m _ _ p
    · rfl
  · split_ifs <;> rfl

theorem check_for_eq_and_add_to_offsets_rows (m : imp) (v : Nat) (p : lp_bound_propagator) :
    (check_for_eq_and_add_to_offsets m v p).m_visited_rows = p.m_visited_rows := by
  unfold check_for_eq_and_add_to_offsets
  split_ifs
  · exact check_for_eq_and_add_to_offset_table_rows m v true p
  · exact check_for_eq_and_add_to_offset_table_rows m v false p
  · simp only []
    rw [check_for_eq_and_add_to_offset_table_rows]
    split
    · split_ifs <;> rfl
    · rfl

theorem set_vertex_rows (p : lp_bound_propagator) (v : Nat) (x : vertex) :
    (set_vertex p v x).m_visited_rows = p.m_visited_rows := rfl

theorem alloc_v_rows (p : lp_bound_propagator) (row column : Nat) (offset : ℚ) (neg : Bool) :
    (alloc_v p row column offset neg).1.m_visited_rows = p.m_visited_rows := rfl

theorem add_child_rows (p : lp_bound_propagator) (parent child : Nat) :
    (add_child p parent child).m_visited_rows = p.m_visited_rows := rfl

theorem create_root_rows (m : imp) (row_index : Nat) (p : lp_bound_propagator) :
    (create_root m row_index p).m_visited_rows = p.m_visited_rows := by
  unfold create_root
  split
  · rfl
  · split_ifs <;> rfl

theorem switch_to_fixed_mode_rows (d : ℚ) (fuel v : Nat) (p : lp_bound_propagator) :
    (switch_to_fixed_mode d fuel v p).m_visited_rows = p.m_visited_rows := by
  induction fuel generalizing v p with
  | zero => rfl
  | succ n ih =>
    simp only [switch_to_fixed_mode]
    generalize hq : (if (get_vertex (set_vertex p v _) v).m_neg = true then _ else _) = q
    have hqr : q.m_visited_rows = p.m_visited_rows := by
      rw [← hq]; split_ifs <;> rfl
    rw [← hqr]
    generalize (get_vertex q v).m_children = cs
    clear hq hqr
    induction cs generalizing q with
    | nil => rfl
    | cons c cs ih2 =>
      simp only [List.foldl_cons]
      rw [ih2, ih]

theorem switch_to_fixed_mode_in_tree_rows (v : Nat) (o : ℚ) (p : lp_bound_propagator) :
    (switch_to_fixed_mode_in_tree v o p).m_visited_rows = p.m_visited_rows := by
  unfold switch_to_fixed_mode_in_tree
  simp only []
  split
  · exact switch_to_fixed_mode_rows _ _ _ _
  · rfl

theorem add_child_from_row_continue_rows (v : Nat) (y : signed_column) (o : ℚ)
    (p : lp_bound_propagator) :
    (add_child_from_row_continue v y o p).m_visited_rows = p.m_visited_rows := by
  unfold add_child_from_row_continue add_child_from_row_continue_fixed
  split_ifs <;> rfl

theorem add_child_from_row_rows (m : imp) (row_index parent : Nat)
    (p : lp_bound_propagator) :
    (add_child_from_row m row_index parent p).1.m_visited_rows = p.m_visited_rows := by
  unfold add_child_from_row
  cases h : is_tree_offset_row m.lp row_index with
  | none => rfl
  | some t =>
    obtain ⟨x, y, offset⟩ := t
    dsimp only
    by_cases hy : y.not_set = true
    · rw [if_pos hy]
      by_cases hf : fixed_phase p = true
      · rw [if_pos hf]; rfl
      · rw [if_neg hf]
        split
        · exact switch_to_fixed_mode_in_tree_rows _ _ _
        · rfl
    · rw [if_neg hy]
      exact add_child_from_row_continue_rows _ _ _ _

theorem go_over_vertex_column_rows (m : imp)
    (explore : Nat → lp_bound_propagator → lp_bound_propagator)
    (he : ∀ u q, rows_sub q (explore u q)) (v : Nat) (p : lp_bound_propagator) :
    rows_sub p (go_over_vertex_column m explore v p) := by
  unfold go_over_vertex_column
  cases hcol : check_insert p.m_visited_columns (get_vertex p v).m_column with
  | none => exact rows_sub_refl p
  | some cols =>
    dsimp only
    have h0 : rows_sub p { p with m_visited_columns := cols } := fun _ h => h
    refine rows_sub_trans h0 (rows_sub_foldl _ (fun q row_index => ?_) _ _)
    cases hc : check_insert q.m_visited_rows row_index with
    | none => exact rows_sub_refl q
    | some rows =>
      simp only []
      have hrows := (check_insert_some _ _ _ hc).1
      have h1 : rows_sub q { q with m_visited_rows := rows } := by
        intro r hr
        simp only [hrows]
        exact List.mem_cons_of_mem _ hr
      have h2 := add_child_from_row_rows m row_index v { q with m_visited_rows := rows }
      generalize add_child_from_row m row_index v { q with m_visited_rows := rows } = a at h2
      obtain ⟨q1, u⟩ := a
      cases u with
      | none => exact rows_sub_trans h1 (rows_sub_of_eq h2)
      | some u => exact rows_sub_trans h1 (rows_sub_trans (rows_sub_of_eq h2) (he u q1))

theorem explore_under_rows (m : imp) (fuel v : Nat) (p : lp_bound_propagator) :
    rows_sub p (explore_under m fuel v p) := by
  induction fuel generalizing v p with
  | zero => exact rows_sub_refl p
  | succ n ih =>
    simp only [explore_under]
    have h1 : rows_sub p
        (if fixed_phase p = true then try_add_equation_with_fixed_tables m v p else p) := by
      split_ifs
      · exact rows_sub_of_eq (try_add_equation_with_fixed_tables_rows m v p)
      · exact rows_sub_refl p
    generalize (if fixed_phase p = true then try_add_equation_with_fixed_tables m v p
      else p) = p1 at h1
    have h2 : rows_sub p1 (check_for_eq_and_add_to_offsets m v p1) :=
      rows_sub_of_eq (check_for_eq_and_add_to_offsets_rows m v p1)
    generalize check_for_eq_and_add_to_offsets m v p1 = p2 at h2
    have h3 := go_over_vertex_column_rows m (explore_under m n) (fun u q => ih u q) v p2
    generalize go_over_vertex_column m (explore_under m n) v p2 = p3 at h3
    refine rows_sub_trans h1 (rows_sub_trans h2 (rows_sub_trans h3 ?_))
    exact rows_sub_foldl _ (fun q c => ih c q) _ p3

/-- A call of `cheap_eq_tree` keeps the visited rows and adds its seed row. -/
theorem cheap_eq_tree_rows (m : imp) (fuel row_index : Nat) (p : lp_bound_propagator) :
    rows_sub p (cheap_eq_tree m fuel row_index p) ∧
    row_index ∈ (cheap_eq_tree m fuel row_index p).m_visited_rows := by
  unfold cheap_eq_tree
  cases hc : check_insert p.m_visited_rows row_index with
  | none => exact ⟨rows_sub_refl p, (check_insert_none_iff _ _).mp hc⟩
  | some rows =>
    simp only []
    have hrows := (check_insert_some _ _ _ hc).1
    have h1 : rows_sub p (create_root m row_index { p with m_visited_rows := rows }) := by
      intro r hr
      rw [create_root_rows]
      simp only [hrows]
      exact List.mem_cons_of_mem _ hr
    have h0 : row_index ∈
        (create_root m row_index { p with m_visited_rows := rows }).m_visited_rows := by
      rw [create_root_rows]
      simp only [hrows]
      exact List.mem_cons_self _ _
    generalize create_root m row_index { p with m_visited_rows := rows } = p1 at h1 h0
    cases p1.m_root with
    | none => exact ⟨h1, h0⟩
    | some root =>
      simp only []
      have h2 := explore_under_rows m fuel root p1
      exact ⟨fun r hr => h2 r (h1 r hr), h2 row_index h0⟩

/-- A visited seed row makes `cheap_eq_tree` return at once. -/
theorem cheap_eq_tree_of_visited (m : imp) (fuel row_index : Nat) (p : lp_bound_propagator)
    (h : row_index ∈ p.m_visited_rows) : cheap_eq_tree m fuel row_index p = p := by
  unfold cheap_eq_tree
  rw [(check_insert_none_iff _ _).mpr h]

/-- C15: if `row` is already in `visited_rows`, `cheap_eq_tree(row)` leaves every piece of
the state unchanged, so it emits no equality report and creates no vertex; and a second
call of `cheap_eq_tree(row)` right after a first one is such a no-op for every row,
whether or not the first call built a tree (and whatever the fuel of the two calls). -/
theorem cheap_eq_tree_idempotent (m : imp) (fuel fuel2 row_index : Nat)
    (p : lp_bound_propagator) :
    (row_index ∈ p.m_visited_rows →
      cheap_eq_tree m fuel row_index p = p ∧
      reports_of p (cheap_eq_tree m fuel row_index p) = [] ∧
      (cheap_eq_tree m fuel row_index p).m_verts = p.m_verts) ∧
    cheap_eq_tree m fuel2 row_index (cheap_eq_tree m fuel row_index p) =
      cheap_eq_tree m fuel row_index p := by
  constructor
  · intro h
    rw [cheap_eq_tree_of_visited m fuel row_index p h]
    exact ⟨rfl, reports_of_self p, rfl⟩
  · exact cheap_eq_tree_of_visited m fuel2 row_index _ (cheap_eq_tree_rows m fuel row_index p).2

/-! ## Running the table check a second time -/

theorem reports_fixed_of (m : imp) (rid x y x2 : Nat) (k : ℚ) (p : lp_bound_propagator)
    (hy : y = null_lpvar) (ho : m.lp.find_in_fixed_tables k (is_int m.lp x) = some x2)
    (he : is_equal m x x2 = false) :
    reports_of p (cheap_eq_table_fixed m rid x y k p) =
      [⟨x, x2, [(m.lp.get_bound_constraint_witnesses_for_column x2).1,
                (m.lp.get_bound_constraint_witnesses_for_column x2).2] ++
               fixed_witnesses m.lp rid⟩] := by
  simp only [cheap_eq_table_fixed, hy, if_true, ho, he, Bool.not_false,
    explain_fixed_in_row_eq, reports_of_add_eq]

theorem reports_direct_of (m : imp) (rid x y : Nat) (k : ℚ) (p : lp_bound_propagator)
    (hk : k = 0) (hy : y ≠ null_lpvar) (he : is_equal m x y = false)
    (hi : is_int m.lp x = is_int m.lp y) :
    reports_of p (cheap_eq_table_direct m rid x y k p) = [⟨x, y, fixed_witnesses m.lp rid⟩] := by
  unfold cheap_eq_table_direct
  rw [if_pos ⟨hk, hy, he, hi⟩, reports_of_add_eq, explain_fixed_in_row_eq]
  rfl

theorem reports_lookup_of (m : imp) (rid x y row_id x2 y2 z : Nat) (k k2 : ℚ)
    (p : lp_bound_propagator)
    (ht : p.m_var_offset2row_id (y, k) = some row_id) (hr : row_id ≠ rid)
    (ho : is_offset_row m.lp row_id = some (x2, y2, k2))
    (hz : (y = y2 ∧ k = k2 ∧ z = x2) ∨
      (¬ (y = y2 ∧ k = k2) ∧ y2 ≠ null_lpvar ∧ x2 = y ∧ k = -k2 ∧ z = y2))
    (he : is_equal m x z = false) (hi : is_int m.lp x = is_int m.lp z) :
    reports_of p (cheap_eq_table_lookup m rid x y k p) =
      [⟨x, z, fixed_witnesses m.lp rid ++ fixed_witnesses m.lp row_id⟩] := by
  unfold cheap_eq_table_lookup
  simp only [ht, if_neg hr, ho]
  rcases hz with ⟨h1, h2, rfl⟩ | ⟨h1, h2, h3, h4, rfl⟩
  · have hc : y = y2 ∧ k = k2 := ⟨h1, h2⟩
    simp only [if_pos hc]
    simp [he, hi, reports_of_add_eq, explain_fixed_in_row_eq]
  · have hc : z ≠ null_lpvar ∧ x2 = y ∧ k = -k2 := ⟨h2, h3, h4⟩
    simp only [if_neg h1, if_pos hc]
    simp [he, hi, reports_of_add_eq, explain_fixed_in_row_eq]

/-- A second run of `cheap_eq_table` under an oracle that knows the equalities of the
first run reports nothing and leaves the two-row table alone. -/
theorem cheap_eq_table_second_run (m m2 : imp) (rid : Nat) (p : lp_bound_propagator)
    (hlp : m2.lp = m.lp)
    (hrep : ∀ e ∈ reports_of p (cheap_eq_table m rid p), is_equal m2 e.j e.k = true)
    (hother : ∀ a b, (∀ e ∈ reports_of p (cheap_eq_table m rid p), ¬ (e.j = a ∧ e.k = b)) →
      is_equal m2 a b = is_equal m a b) :
    reports_of (cheap_eq_table m rid p) (cheap_eq_table m2 rid (cheap_eq_table m rid p)) = [] ∧
    (cheap_eq_table m2 rid (cheap_eq_table m rid p)).m_var_offset2row_id =
      (cheap_eq_table m rid p).m_var_offset2row_id := by
  have K : ∀ a b, is_equal m2 a b = false →
      is_equal m a b = false ∧
        ∀ e ∈ reports_of p (cheap_eq_table m rid p), ¬ (e.j = a ∧ e.k = b) := by
    intro a b hab
    by_cases hex : ∃ e ∈ reports_of p (cheap_eq_table m rid p), e.j = a ∧ e.k = b
    · obtain ⟨e, he, rfl, rfl⟩ := hex
      rw [hrep e he] at hab; cases hab
    · have hno : ∀ e ∈ reports_of p (cheap_eq_table m rid p), ¬ (e.j = a ∧ e.k = b) :=
        fun e he hp => hex ⟨e, he, hp⟩
      exact ⟨by rw [← hother a b hno]; exact hab, hno⟩
  cases h : is_offset_row m.lp rid with
  | none =>
    have h2 : is_offset_row m2.lp rid = none := by rw [hlp]; exact h
    have e1 : cheap_eq_table m2 rid (cheap_eq_table m rid p) = cheap_eq_table m rid p := by
      simp only [cheap_eq_table, h, h2]
    rw [e1]
    exact ⟨reports_of_self _, rfl⟩
  | some t =>
    obtain ⟨x, y, k⟩ := t
    have h2 : is_offset_row m2.lp rid = some (x, y, k) := by rw [hlp]; exact h
    have hfirst := cheap_eq_table_reports m rid p
    simp only [reports_fixed, reports_direct, reports_lookup, h] at hfirst
    have htab1 := cheap_eq_table_lookup_table m rid x y k
      (cheap_eq_table_direct m rid x y k (cheap_eq_table_fixed m rid x y k p))
    rw [cheap_eq_table_direct_table, cheap_eq_table_fixed_table] at htab1
    have hp1 : cheap_eq_table m rid p = cheap_eq_table_lookup m rid x y k
        (cheap_eq_table_direct m rid x y k (cheap_eq_table_fixed m rid x y k p)) := by
      simp only [cheap_eq_table, h]
    rw [← hp1] at htab1
    constructor
    · rw [cheap_eq_table_reports]
      simp only [reports_fixed, reports_direct, reports_lookup, h2]
      have hf : reports_of (cheap_eq_table m rid p)
          (cheap_eq_table_fixed m2 rid x y k (cheap_eq_table m rid p)) = [] := by
        rw [List.eq_nil_iff_forall_not_mem]
        intro e he
        obtain ⟨hy, x2, ho, heq, rfl⟩ := mem_reports_fixed m2 rid x y k _ e he
        obtain ⟨heq1, hno⟩ := K x x2 heq
        rw [hlp] at ho
        have := reports_fixed_of m rid x y x2 k p hy ho heq1
        have hmem : (⟨x, x2, [(m.lp.get_bound_constraint_witnesses_for_column x2).1,
            (m.lp.get_bound_constraint_witnesses_for_column x2).2] ++
            fixed_witnesses m.lp rid⟩ : eq_report) ∈ reports_of p (cheap_eq_table m rid p) := by
          rw [hfirst, this]
          simp
        exact hno _ hmem ⟨rfl, rfl⟩
      have hd : reports_of (cheap_eq_table_fixed m2 rid x y k (cheap_eq_table m rid p))
          (cheap_eq_table_direct m2 rid x y k
            (cheap_eq_table_fixed m2 rid x y k (cheap_eq_table m rid p))) = [] := by
        rw [List.eq_nil_iff_forall_not_mem]
        intro e he
        obtain ⟨hk, hy, heq, hi, rfl⟩ := mem_reports_direct m2 rid x y k _ e he
        obtain ⟨heq1, hno⟩ := K x y heq
        rw [hlp] at hi
        have := reports_direct_of m rid x y k (cheap_eq_table_fixed m rid x y k p) hk hy heq1 hi
        have hmem : (⟨x, y, fixed_witnesses m.lp rid⟩ : eq_report) ∈
            reports_of p (cheap_eq_table m rid p) := by
          rw [hfirst, this]
          simp
        exact hno _ hmem ⟨rfl, rfl⟩
      have hl : reports_of (cheap_eq_table_direct m2 rid x y k
            (cheap_eq_table_fixed m2 rid x y k (cheap_eq_table m rid p)))
          (cheap_eq_table_lookup m2 rid x y k (cheap_eq_table_direct m2 rid x y k
            (cheap_eq_table_fixed m2 rid x y k (cheap_eq_table m rid p)))) = [] := by
        rw [List.eq_nil_iff_forall_not_mem]
        intro e he
        obtain ⟨row_id, x2, y2, k2, ht, hr, ho, heq, hi, hj, -, hz⟩ :=
          mem_reports_lookup m2 rid x y k _ e he
        rw [cheap_eq_table_direct_table, cheap_eq_table_fixed_table] at ht
        obtain ⟨heq1, hno⟩ := K x e.k heq
        rw [hlp] at ho hi
        have htp : p.m_var_offset2row_id (y, k) = some row_id := by
          rcases htab1 with ⟨-, hsame⟩ | ⟨-, hupd⟩
          · rw [← hsame]; exact ht
          · rw [hupd, Function.update_same] at ht
            exact absurd (Option.some.inj ht).symm hr
        have htq : (cheap_eq_table_direct m rid x y k
            (cheap_eq_table_fixed m rid x y k p)).m_var_offset2row_id (y, k) = some row_id := by
          rw [cheap_eq_table_direct_table, cheap_eq_table_fixed_table]; exact htp
        have hz2 : (y = y2 ∧ k = k2 ∧ e.k = x2) ∨
            (¬ (y = y2 ∧ k = k2) ∧ y2 ≠ null_lpvar ∧ x2 = y ∧ k = -k2 ∧ e.k = y2) := hz
        have := reports_lookup_of m rid x y row_id x2 y2 e.k k k2 _ htq hr ho hz2 heq1 hi
        have hmem : (⟨x, e.k, fixed_witnesses m.lp rid ++ fixed_witnesses m.lp row_id⟩ :
            eq_report) ∈ reports_of p (cheap_eq_table m rid p) := by
          rw [hfirst, this]
          simp
        exact hno _ hmem ⟨rfl, rfl⟩
      rw [hf, hd, hl]
      rfl
    · refine ((cheap_eq_table_table_change m2 rid (cheap_eq_table m rid p)).2 x y k h2).2.2 ?_
      rcases htab1 with ⟨hcond, hsame⟩ | ⟨-, hupd⟩
      · rw [hsame, hlp]
        exact hcond
      · exact Or.inl (by rw [hupd, Function.update_same])

/-- C16: running `cheap_eq_table(rid)` a second time on an unchanged tableau, when the
`is_equal` oracle answers true for every pair the first run reported and is otherwise
unchanged, emits no equality report and leaves the two-row table exactly as the first run
left it. -/
theorem cheap_eq_table_rerun (m m2 : imp) (rid : Nat) (p : lp_bound_propagator)
    (hlp : m2.lp = m.lp)
    (hrep : ∀ e ∈ reports_of p (cheap_eq_table m rid p), is_equal m2 e.j e.k = true)
    (hother : ∀ a b, (∀ e ∈ reports_of p (cheap_eq_table m rid p), ¬ (e.j = a ∧ e.k = b)) →
      is_equal m2 a b = is_equal m a b) :
    reports_of (cheap_eq_table m rid p) (cheap_eq_table m2 rid (cheap_eq_table m rid p)) = [] ∧
    (cheap_eq_table m2 rid (cheap_eq_table m rid p)).m_var_offset2row_id =
      (cheap_eq_table m rid p).m_var_offset2row_id :=
  cheap_eq_table_second_run m m2 rid p hlp hrep hother

theorem tableau_e_second_call :
    reports_of (cheap_eq_table imp_e 0 lp_bound_propagator.ctor)
      (cheap_eq_table imp_e 1 (cheap_eq_table imp_e 0 lp_bound_propagator.ctor)) =
      [⟨1, 0, [8, 9, 6, 7]⟩] := by
  rw [cheap_eq_table_reports]
  have h : reports_lookup imp_e 1 (cheap_eq_table imp_e 0 lp_bound_propagator.ctor) =
      [⟨1, 0, [8, 9, 6, 7]⟩] :=
    (cheap_eq_table_same_key imp_e 0 1 0 1 2 5 lp_bound_propagator.ctor rfl
      (by decide) tableau_e_row0 tableau_e_row1 (by decide) rfl
      (by simp [is_equal, imp_e, col_to_imp, tableau_e])).2.1
  rw [h]
  simp [reports_fixed, reports_direct, tableau_e_row1, cheap_eq_table_fixed,
    cheap_eq_table_direct, null_lpvar, reports_of_self]

theorem cheap_eq_table_rerun_witness :
    reports_of (cheap_eq_table imp_e 0 lp_bound_propagator.ctor)
      (cheap_eq_table imp_e 1 (cheap_eq_table imp_e 0 lp_bound_propagator.ctor)) =
      [⟨1, 0, [8, 9, 6, 7]⟩] ∧
    reports_of (cheap_eq_table imp_e 1 (cheap_eq_table imp_e 0 lp_bound_propagator.ctor))
      (cheap_eq_table imp_e2 1
        (cheap_eq_table imp_e 1 (cheap_eq_table imp_e 0 lp_bound_propagator.ctor))) = [] ∧
    (cheap_eq_table imp_e2 1
      (cheap_eq_table imp_e 1
        (cheap_eq_table imp_e 0 lp_bound_propagator.ctor))).m_var_offset2row_id =
    (cheap_eq_table imp_e 1
      (cheap_eq_table imp_e 0 lp_bound_propagator.ctor)).m_var_offset2row_id :=
  ⟨tableau_e_second_call,
   cheap_eq_table_rerun imp_e imp_e2 1 (cheap_eq_table imp_e 0 lp_bound_propagator.ctor) rfl
    (by
      intro e he
      rw [tableau_e_second_call, List.mem_singleton] at he
      subst he
      simp [is_equal, imp_e2, col_to_imp, tableau_e])
    (by
      intro a b h
      rw [tableau_e_second_call] at h
      have hab : ¬ (1 = a ∧ 0 = b) := h _ (List.mem_singleton.2 rfl)
      have hab2 : ¬ (a = 1 ∧ b = 0) := fun hh => hab ⟨hh.1.symm, hh.2.symm⟩
      simp only [is_equal, imp_e2, imp_e, col_to_imp, tableau_e]
      by_cases h1 : a = 1
      · have h0 : b ≠ 0 := fun hb => hab2 ⟨h1, hb⟩
        simp [h1, h0]
      · simp [h1])⟩

/-! ## Independence of the fuel -/

theorem fold_ok_agree {α : Type} (f f2 : lp_bound_propagator → α → lp_bound_propagator)
    (g g2 : lp_bound_propagator → α → Bool)
    (h : ∀ q a, g q a = true → f2 q a = f q a ∧ g2 q a = true) :
    ∀ (l : List α) (q : lp_bound_propagator), fold_ok f g l q = true →
      l.foldl f2 q = l.foldl f q ∧ fold_ok f2 g2 l q = true := by
  intro l
  induction l with
  | nil => intro q _; exact ⟨rfl, rfl⟩
  | cons a l ih =>
    intro q hq
    simp only [fold_ok, Bool.and_eq_true] at hq
    obtain ⟨h1, h2⟩ := h q a hq.1
    obtain ⟨i1, i2⟩ := ih (f q a) hq.2
    simp only [List.foldl_cons, fold_ok, Bool.and_eq_true, h1, h2, i1, i2, and_self]

theorem go_over_vertex_column_eq_fold (m : imp)
    (explore : Nat → lp_bound_propagator → lp_bound_propagator) (v : Nat)
    (p : lp_bound_propagator) :
    go_over_vertex_column m explore v p =
      match check_insert p.m_visited_columns (get_vertex p v).m_column with
      | none => p
      | some cols =>
        (m.lp.columns (get_vertex p v).m_column).foldl (go_over_vertex_column_step m explore v)
          { p with m_visited_columns := cols } := rfl

theorem go_over_vertex_column_agree (m : imp)
    (e e2 : Nat → lp_bound_propagator → lp_bound_propagator)
    (ok ok2 : Nat → lp_bound_propagator → Bool)
    (h : ∀ u q, ok u q = true → e2 u q = e u q ∧ ok2 u q = true)
    (v : Nat) (p : lp_bound_propagator)
    (hp : go_over_vertex_column_ok m e ok v p = true) :
    go_over_vertex_column m e2 v p = go_over_vertex_column m e v p ∧
      go_over_vertex_column_ok m e2 ok2 v p = true := by
  rw [go_over_vertex_column_eq_fold, go_over_vertex_column_eq_fold]
  unfold go_over_vertex_column_ok at hp ⊢
  cases hc : check_insert p.m_visited_columns (get_vertex p v).m_column with
  | none => exact ⟨rfl, rfl⟩
  | some cols =>
    rw [hc] at hp
    dsimp only at hp ⊢
    refine fold_ok_agree _ _ _ _ ?_ _ _ hp
    intro q row_index hq
    unfold go_over_vertex_column_step go_over_vertex_column_step_ok at hq ⊢
    cases hr : check_insert q.m_visited_rows row_index with
    | none => exact ⟨rfl, rfl⟩
    | some rows =>
      rw [hr] at hq
      dsimp only at hq ⊢
      rcases ha : add_child_from_row m row_index v { q with m_visited_rows := rows }
        with ⟨q1, _ | u⟩
      · exact ⟨rfl, rfl⟩
      · rw [ha] at hq
        exact h u q1 hq

theorem explore_under_succ (m : imp) :
    ∀ (n v : Nat) (p : lp_bound_propagator), explore_under_ok m n v p = true →
      explore_under m (n + 1) v p = explore_under m n v p ∧
        explore_under_ok m (n + 1) v p = true := by
  intro n
  induction n with
  | zero => intro v p h; simp [explore_under_ok] at h
  | succ n ih =>
    intro v p h
    rw [explore_under_ok] at h
    simp only [Bool.and_eq_true] at h
    obtain ⟨h1, h2⟩ := h
    have a1 := go_over_vertex_column_agree m (explore_under m n) (explore_under m (n + 1))
      (explore_under_ok m n) (explore_under_ok m (n + 1)) (fun u q hq => ih u q hq) v _ h1
    have a2 := fold_ok_agree (fun q c => explore_under m n c q)
      (fun q c => explore_under m (n + 1) c q) (fun q c => explore_under_ok m n c q)
      (fun q c => explore_under_ok m (n + 1) c q) (fun q c hq => ih c q hq) _ _ h2
    constructor
    · rw [explore_under, explore_under]
      rw [a1.1, a2.1]
    · rw [explore_under_ok]
      rw [a1.1, a1.2, a2.2]
      rfl

/-- Once the fuel suffices, more fuel does not change the result of `explore_under`. -/
theorem explore_under_fuel (m : imp) (n v : Nat) (p : lp_bound_propagator)
    (h : explore_under_ok m n v p = true) (k : Nat) :
    explore_under m (n + k) v p = explore_under m n v p ∧
      explore_under_ok m (n + k) v p = true := by
  induction k with
  | zero => exact ⟨rfl, h⟩
  | succ k ih =>
    obtain ⟨h1, h2⟩ := explore_under_succ m (n + k) v p ih.2
    exact ⟨h1.trans ih.1, h2⟩

/-- Once the fuel suffices, more fuel does not change the result of `cheap_eq_tree`. -/
theorem cheap_eq_tree_fuel (m : imp) (n row_index : Nat) (p : lp_bound_propagator)
    (h : cheap_eq_tree_ok m n row_index p = true) (k : Nat) :
    cheap_eq_tree m (n + k) row_index p = cheap_eq_tree m n row_index p := by
  unfold cheap_eq_tree_ok at h
  unfold cheap_eq_tree
  cases hc : check_insert p.m_visited_rows row_index with
  | none => rfl
  | some rows =>
    rw [hc] at h
    dsimp only at h ⊢
    cases hr : (create_root m row_index { p with m_visited_rows := rows }).m_root with
    | none => rfl
    | some root =>
      rw [hr] at h
      dsimp only at h ⊢
      rw [(explore_under_fuel m n root _ h k).1]

/-! ## Reports of the tree engine on small tableaux -/

/-- C17: on `tableau_g`, whose only row is `-x0 + x1 = 0` with `x1` fixed at 5, and with
an oracle `is_equal` that already knows `x0 = x1`, the seed vertex is in fixed phase and
`try_add_equation_with_fixed_tables` reports the pair `(1, 0)`, then the fixed branch of
`check_for_eq_and_add_to_offsets` reports `(0, 1)`; these are the reports of
`cheap_eq_tree(0)`, whatever the fuel, although `is_equal` answers true on both pairs. -/
theorem cheap_eq_tree_reports_known_equality (fuel : Nat) :
    is_equal imp_g 1 0 = true ∧ is_equal imp_g 0 1 = true ∧
    fixed_phase (create_root imp_g 0 { lp_bound_propagator.ctor with m_visited_rows := [0] })
      = true ∧
    reports_of (create_root imp_g 0 { lp_bound_propagator.ctor with m_visited_rows := [0] })
      (try_add_equation_with_fixed_tables imp_g 0
        (create_root imp_g 0 { lp_bound_propagator.ctor with m_visited_rows := [0] })) =
      [⟨1, 0, [2, 3, 2, 3]⟩] ∧
    reports_of
      (try_add_equation_with_fixed_tables imp_g 0
        (create_root imp_g 0 { lp_bound_propagator.ctor with m_visited_rows := [0] }))
      (check_for_eq_and_add_to_offsets imp_g 0
        (try_add_equation_with_fixed_tables imp_g 0
          (create_root imp_g 0 { lp_bound_propagator.ctor with m_visited_rows := [0] }))) =
      [⟨0, 1, [2, 3, 2, 3]⟩] ∧
    reports_of lp_bound_propagator.ctor
      (cheap_eq_tree imp_g (fuel + 1) 0 lp_bound_propagator.ctor) =
      [⟨1, 0, [2, 3, 2, 3]⟩, ⟨0, 1, [2, 3, 2, 3]⟩] := by
  refine ⟨by decide!, by decide!, by decide!, by decide!, by decide!, ?_⟩
  rw [Nat.add_comm fuel 1, cheap_eq_tree_fuel imp_g 1 0 _ (by decide!) fuel]
  decide!

/-- C18: on `tableau_h`, the rows `r1: x0 - x2 = 0` and `r2: x1 - x2 = 0` in the written
cell order over free columns of equal integrality, none known equal to another and nothing
visited, `cheap_eq_tree(0)` with fuel 4 or more reports the pair `(0, 2)` three times with an
empty explanation and never pairs the columns 0 and 1: the vertex of column 1 built from
`r2` gets `neg = v->neg() ^ y.sign() = true` and is looked up in the table of negated
offsets, where nothing is registered. -/
theorem cheap_eq_tree_misses_sibling_equality (fuel : Nat) :
    free_cells imp_h.lp (imp_h.lp.get_row 0) = [⟨0, 1⟩, ⟨2, -1⟩] ∧
    free_cells imp_h.lp (imp_h.lp.get_row 1) = [⟨1, 1⟩, ⟨2, -1⟩] ∧
    fixed_cells imp_h.lp (imp_h.lp.get_row 0) = [] ∧
    fixed_cells imp_h.lp (imp_h.lp.get_row 1) = [] ∧
    (∀ j k, is_int imp_h.lp j = is_int imp_h.lp k) ∧
    (∀ j k, j ≠ k → is_equal imp_h j k = false) ∧
    (cheap_eq_tree imp_h (fuel + 4) 0 lp_bound_propagator.ctor).m_eqs =
      [⟨0, 2, []⟩, ⟨0, 2, []⟩, ⟨0, 2, []⟩] ∧
    (∀ e ∈ (cheap_eq_tree imp_h (fuel + 4) 0 lp_bound_propagator.ctor).m_eqs,
      ¬ ((e.j = 0 ∧ e.k = 1) ∨ (e.j = 1 ∧ e.k = 0))) := by
  have hrun : (cheap_eq_tree imp_h (fuel + 4) 0 lp_bound_propagator.ctor).m_eqs =
      [⟨0, 2, []⟩, ⟨0, 2, []⟩, ⟨0, 2, []⟩] := by
    rw [Nat.add_comm fuel 4, cheap_eq_tree_fuel imp_h 4 0 _ (by decide!) fuel]
    decide!
  refine ⟨?_, ?_, ?_, ?_, ?_, ?_, hrun, ?_⟩
  · simp [free_cells, imp_h, tableau_h, lar_solver.get_row, column_is_fixed]
  · simp [free_cells, imp_h, tableau_h, lar_solver.get_row, column_is_fixed]
  · simp [fixed_cells, imp_h, tableau_h, lar_solver.get_row, column_is_fixed]
  · simp [fixed_cells, imp_h, tableau_h, lar_solver.get_row, column_is_fixed]
  · intro j k; rfl
  · intro j k hjk
    simpa [is_equal, imp_h, col_to_imp, tableau_h] using hjk
  · rw [hrun]
    intro e he
    simp only [List.mem_cons, List.mem_singleton, List.not_mem_nil, or_false, or_self] at he
    subst he
    simp

/-- C20: on `tableau_f` the unvisited row 0 is `x0 + x1 = 0` with `x1` fixed at 5, so its
only free column `x0` has coefficient `+1` and the row forces `x0 = -5` (minus the sum of
`coeff * lower_bound` over the fixed cells, divided by the coefficient of `x0`; the value
of `x0` in the solution `val_f`).  `create_root` makes the root with column 0,
`neg = false` and `fixed_vertex = root`, but with offset `5`, the sum over the fixed cells
as `is_tree_offset_row` returns it.  On `tableau_g`, where the coefficient of `x0` is `-1`,
the same offset `5` is the forced value. -/
theorem create_root_single_column_offset :
    check_insert lp_bound_propagator.ctor.m_visited_rows 0 = some [0] ∧
    free_cells imp_f.lp (imp_f.lp.get_row 0) = [⟨0, 1⟩] ∧
    fixed_offset imp_f.lp (imp_f.lp.get_row 0) = 5 ∧
    -(fixed_offset imp_f.lp (imp_f.lp.get_row 0)) / 1 = -5 ∧
    row_value val_f (imp_f.lp.get_row 0) = 0 ∧
    at_fixed_bounds imp_f.lp val_f (imp_f.lp.get_row 0) ∧
    val_f 0 = -5 ∧
    (create_root imp_f 0 { lp_bound_propagator.ctor with m_visited_rows := [0] }).m_root =
      some 0 ∧
    (create_root imp_f 0
      { lp_bound_propagator.ctor with m_visited_rows := [0] }).m_fixed_vertex = some 0 ∧
    (create_root imp_f 0 { lp_bound_propagator.ctor with m_visited_rows := [0] }).m_verts =
      [⟨0, 0, [], 5, none, 0, false⟩] ∧
    free_cells imp_g.lp (imp_g.lp.get_row 0) = [⟨0, -1⟩] ∧
    -(fixed_offset imp_g.lp (imp_g.lp.get_row 0)) / (-1) = 5 ∧
    (create_root imp_g 0 { lp_bound_propagator.ctor with m_visited_rows := [0] }).m_verts =
      [⟨0, 0, [], 5, none, 0, false⟩] := by
  refine ⟨by decide, ?_, ?_, ?_, ?_, ?_, ?_, by decide!, by decide!, by decide!, ?_, ?_,
    by decide!⟩
  · simp [free_cells, imp_f, tableau_f, lar_solver.get_row, column_is_fixed]
  · norm_num [fixed_offset, fixed_cells, imp_f, tableau_f, lar_solver.get_row,
      column_is_fixed, get_lower_bound_rational]
  · norm_num [fixed_offset, fixed_cells, imp_f, tableau_f, lar_solver.get_row,
      column_is_fixed, get_lower_bound_rational]
  · norm_num [row_value, val_f, imp_f, tableau_f, lar_solver.get_row]
  · intro c hc hf
    simp only [imp_f, tableau_f, lar_solver.get_row, List.getD_cons_zero, List.mem_cons,
      List.mem_singleton, List.not_mem_nil, or_false] at hc
    rcases hc with rfl | rfl
    · simp [column_is_fixed, imp_f, tableau_f] at hf
    · norm_num [val_f, get_lower_bound_rational, imp_f, tableau_f]
  · norm_num [val_f]
  · simp [free_cells, imp_g, tableau_g, lar_solver.get_row, column_is_fixed]
  · norm_num [fixed_offset, fixed_cells, imp_g, tableau_g, lar_solver.get_row,
      column_is_fixed, get_lower_bound_rational]

/-! ## A chain of two rows that ends in fixed columns -/

theorem tableau_i_row0 (c d z : ℚ) (ft : ℚ → Bool → Option Nat) :
    is_tree_offset_row (tableau_i c d z ft) 0 = some (⟨false, 0⟩, ⟨true, 1⟩, -c) := by
  norm_num [is_tree_offset_row, tree_row_scan, tree_row_offset, tableau_i,
    lar_solver.get_row, column_is_fixed, signed_column.ctor, signed_column.not_set,
    set_sign_and_column, null_lpvar, get_lower_bound_rational]

theorem tableau_i_row1 (c d z : ℚ) (ft : ℚ → Bool → Option Nat) :
    is_tree_offset_row (tableau_i c d z ft) 1 =
      some (⟨false, 1⟩, signed_column.ctor, -z - d) := by
  norm_num [is_tree_offset_row, tree_row_scan, tree_row_offset, tableau_i,
    lar_solver.get_row, column_is_fixed, signed_column.ctor, signed_column.not_set,
    set_sign_and_column, null_lpvar, get_lower_bound_rational]
  ring

theorem tableau_i_create_root (c d z : ℚ) (ft : ℚ → Bool → Option Nat)
    (known : Nat → Nat → Bool) :
    create_root (imp_i c d z ft known) 0
        { lp_bound_propagator.ctor with m_visited_rows := [0] } =
      tree_state [0] [] (some 0) none (fun _ => none) (fun _ => none)
        [⟨0, 0, [1], 0, none, 0, false⟩, ⟨0, 1, [], -c, some 0, 1, false⟩] := by
  have h := tableau_i_row0 c d z ft
  simp only [create_root, imp_i, h]
  simp [tree_state, lp_bound_propagator.ctor, signed_column.not_set, null_lpvar, alloc_v,
    add_child, set_vertex, get_vertex]

theorem tableau_i_add_child (c d z : ℚ) (ft : ℚ → Bool → Option Nat)
    (known : Nat → Nat → Bool) (t : ℚ → Option Nat) :
    add_child_from_row (imp_i c d z ft known) 1 1
        { tableau_i_seeded c [1, 0] t with m_visited_rows := [1, 0] } =
      (tableau_i_grown c d z (fun _ => none), some 2) := by
  have h := tableau_i_row1 c d z ft
  simp only [add_child_from_row, imp_i, h]
  simp [tableau_i_seeded, tableau_i_grown, tree_state, lp_bound_propagator.ctor,
    signed_column.not_set, signed_column.ctor, null_lpvar, alloc_v,
    add_child, set_vertex, get_vertex, fixed_phase, switch_to_fixed_mode_in_tree,
    switch_to_fixed_mode]
  ring

theorem tableau_i_leaf_first (c d z : ℚ) (ft : ℚ → Bool → Option Nat)
    (known : Nat → Nat → Bool) (hy : ft (z + d) false = none) (n : Nat) :
    explore_under (imp_i c d z ft known) (n + 1) 2 (tableau_i_grown c d z (fun _ => none)) =
      tableau_i_grown c d z (Function.update (fun _ => none) (z + d) (some 2)) := by
  simp [explore_under, tableau_i_grown, tree_state, lp_bound_propagator.ctor, fixed_phase,
    try_add_equation_with_fixed_tables, get_vertex, is_int, imp_i, tableau_i, hy,
    check_for_eq_and_add_to_offsets, check_for_eq_and_add_to_offset_table,
    go_over_vertex_column, check_insert]

theorem tableau_i_leaf_again (c d z : ℚ) (ft : ℚ → Bool → Option Nat)
    (known : Nat → Nat → Bool) (hy : ft (z + d) false = none) (n : Nat) :
    explore_under (imp_i c d z ft known) (n + 1) 2
        (tableau_i_grown c d z (Function.update (fun _ => none) (z + d) (some 2))) =
      tableau_i_grown c d z (Function.update (fun _ => none) (z + d) (some 2)) := by
  simp [explore_under, tableau_i_grown, tree_state, lp_bound_propagator.ctor, fixed_phase,
    try_add_equation_with_fixed_tables, get_vertex, is_int, imp_i, tableau_i, hy,
    check_for_eq_and_add_to_offsets, check_for_eq_and_add_to_offset_table,
    go_over_vertex_column, check_insert]

theorem tableau_i_inner (c d z : ℚ) (ft : ℚ → Bool → Option Nat)
    (known : Nat → Nat → Bool) (hc : c ≠ 0) (hy : ft (z + d) false = none) (n : Nat) :
    explore_under (imp_i c d z ft known) (n + 2) 1
        (tableau_i_seeded c [0] (Function.update (fun _ => none) 0 (some 0))) =
      tableau_i_grown c d z (Function.update (fun _ => none) (z + d) (some 2)) := by
  have hA := tableau_i_add_child c d z ft known
    (Function.update (Function.update (fun _ => none) 0 (some 0)) (-c) (some 1))
  have hL1 := tableau_i_leaf_first c d z ft known hy n
  have hL2 := tableau_i_leaf_again c d z ft known hy n
  have hck : check_for_eq_and_add_to_offsets (imp_i c d z ft known) 1
      (tableau_i_seeded c [0] (Function.update (fun _ => none) 0 (some 0))) =
      tableau_i_seeded c [0]
        (Function.update (Function.update (fun _ => none) 0 (some 0)) (-c) (some 1)) := by
    simp [tableau_i_seeded, tree_state, lp_bound_propagator.ctor, fixed_phase,
      get_vertex, check_for_eq_and_add_to_offsets, check_for_eq_and_add_to_offset_table,
      Function.update_apply, hc]
  have hgo : go_over_vertex_column (imp_i c d z ft known)
      (explore_under (imp_i c d z ft known) (n + 1)) 1
      (tableau_i_seeded c [0]
        (Function.update (Function.update (fun _ => none) 0 (some 0)) (-c) (some 1))) =
      tableau_i_grown c d z (Function.update (fun _ => none) (z + d) (some 2)) := by
    have hcol : (imp_i c d z ft known).lp.columns 1 = [0, 1] := by
      simp [imp_i, tableau_i]
    have hst : { tableau_i_seeded c [0]
        (Function.update (Function.update (fun _ => none) 0 (some 0)) (-c) (some 1)) with
          m_visited_columns := [1, 0] } =
        tableau_i_seeded c [1, 0]
          (Function.update (Function.update (fun _ => none) 0 (some 0)) (-c) (some 1)) := rfl
    have hv : (get_vertex (tableau_i_seeded c [0]
        (Function.update (Function.update (fun _ => none) 0 (some 0)) (-c) (some 1)))
          1).m_column = 1 := rfl
    have hci : check_insert (tableau_i_seeded c [0]
        (Function.update (Function.update (fun _ => none) 0 (some 0)) (-c)
          (some 1))).m_visited_columns 1 = some [1, 0] := rfl
    unfold go_over_vertex_column
    rw [hv, hci, hcol]
    dsimp only
    rw [hst]
    have hr0 : check_insert (tableau_i_seeded c [1, 0]
        (Function.update (Function.update (fun _ => none) 0 (some 0)) (-c)
          (some 1))).m_visited_rows 0 = none := rfl
    have hr1 : check_insert (tableau_i_seeded c [1, 0]
        (Function.update (Function.update (fun _ => none) 0 (some 0)) (-c)
          (some 1))).m_visited_rows 1 = some [1, 0] := rfl
    simp only [List.foldl_cons, List.foldl_nil, hr0, hr1, hA, hL1]
  rw [explore_under]
  have hfp : fixed_phase
      (tableau_i_seeded c [0] (Function.update (fun _ => none) 0 (some 0))) = false := rfl
  simp only [hfp, Bool.false_eq_true, if_false, hck, hgo]
  have hch : (get_vertex (tableau_i_grown c d z
      (Function.update (fun _ => none) (z + d) (some 2))) 1).m_children = [2] := rfl
  rw [hch]
  simp only [List.foldl_cons, List.foldl_nil, hL2]

theorem tableau_i_outer (c d z : ℚ) (ft : ℚ → Bool → Option Nat)
    (known : Nat → Nat → Bool) (hc : c ≠ 0) (hy : ft (z + d) false = none) (n : Nat) :
    explore_under (imp_i c d z ft known) (n + 3) 0
        (tableau_i_seeded c [] (fun _ => none)) =
      tableau_i_grown c d z (Function.update (fun _ => none) (z + d) (some 2)) := by
  have hI := tableau_i_inner c d z ft known hc hy n
  have hck : check_for_eq_and_add_to_offsets (imp_i c d z ft known) 0
      (tableau_i_seeded c [] (fun _ => none)) =
      tableau_i_seeded c [] (Function.update (fun _ => none) 0 (some 0)) := by
    simp [tableau_i_seeded, tree_state, lp_bound_propagator.ctor, fixed_phase,
      get_vertex, check_for_eq_and_add_to_offsets, check_for_eq_and_add_to_offset_table]
  have hgo : go_over_vertex_column (imp_i c d z ft known)
      (explore_under (imp_i c d z ft known) (n + 2)) 0
      (tableau_i_seeded c [] (Function.update (fun _ => none) 0 (some 0))) =
      tableau_i_seeded c [0] (Function.update (fun _ => none) 0 (some 0)) := by
    have hcol : (imp_i c d z ft known).lp.columns 0 = [0] := by
      simp [imp_i, tableau_i]
    have hv : (get_vertex (tableau_i_seeded c []
        (Function.update (fun _ => none) 0 (some 0))) 0).m_column = 0 := rfl
    have hci : check_insert (tableau_i_seeded c []
        (Function.update (fun _ => none) 0 (some 0))).m_visited_columns 0 = some [0] := rfl
    unfold go_over_vertex_column
    rw [hv, hci, hcol]
    rfl
  rw [explore_under]
  have hfp : fixed_phase (tableau_i_seeded c [] (fun _ => none)) = false := rfl
  simp only [hfp, Bool.false_eq_true, if_false, hck, hgo]
  have hch : (get_vertex (tableau_i_seeded c [0]
      (Function.update (fun _ => none) 0 (some 0))) 0).m_children = [1] := rfl
  rw [hch]
  simp only [List.foldl_cons, List.foldl_nil, hI]

theorem switch_to_fixed_mode_fixed_vertex (d : ℚ) (fuel v : Nat) (p : lp_bound_propagator) :
    (switch_to_fixed_mode d fuel v p).m_fixed_vertex = p.m_fixed_vertex := by
  induction fuel generalizing v p with
  | zero => rfl
  | succ n ih =>
    simp only [switch_to_fixed_mode]
    generalize hq : (if (get_vertex (set_vertex p v _) v).m_neg = true then _ else _) = q
    have hqr : q.m_fixed_vertex = p.m_fixed_vertex := by
      rw [← hq]; split_ifs <;> rfl
    rw [← hqr]
    generalize (get_vertex q v).m_children = cs
    clear hq hqr
    induction cs generalizing q with
    | nil => rfl
    | cons c cs ih2 =>
      simp only [List.foldl_cons]
      rw [ih2, ih]

/-- Expanding the second row of `tableau_i`, whose only free column is column 1, leaves
the tree in fixed phase, whatever the state and the parent. -/
theorem tableau_i_expand_fixed (c d z : ℚ) (ft : ℚ → Bool → Option Nat)
    (known : Nat → Nat → Bool) (parent : Nat) (q : lp_bound_propagator) :
    fixed_phase (add_child_from_row (imp_i c d z ft known) 1 parent q).1 = true := by
  have h := tableau_i_row1 c d z ft
  simp only [add_child_from_row, imp_i, h]
  have hn : signed_column.ctor.not_set = true := rfl
  rw [if_pos hn]
  by_cases hf : fixed_phase q = true
  · rw [if_pos hf]
    exact hf
  · rw [if_neg hf]
    dsimp only
    split
    · unfold switch_to_fixed_mode_in_tree
      dsimp only
      split
      · simp only [fixed_phase]
        rw [switch_to_fixed_mode_fixed_vertex]
        rfl
      · rfl
    · rfl

/-- The run of the tree engine on `tableau_i` from the seed row 0. -/
theorem tableau_i_run (c d z : ℚ) (ft : ℚ → Bool → Option Nat)
    (known : Nat → Nat → Bool) (hc : c ≠ 0) (hy : ft (z + d) false = none) (n : Nat) :
    explore_under (imp_i c d z ft known) (n + 3) 0
        (create_root (imp_i c d z ft known) 0
          { lp_bound_propagator.ctor with m_visited_rows := [0] }) =
      tableau_i_grown c d z (Function.update (fun _ => none) (z + d) (some 2)) := by
  rw [tableau_i_create_root]
  exact tableau_i_outer c d z ft known hc hy n

/-- C19 (original wording refuted): on `tableau_i` with `c` fixed at 0, `d` at 2 and `z`
at 5, an empty fixed-value oracle and no equality known, `cheap_eq_tree(0)` with
sufficient fuel reports the pair of the columns 0 and 1 (`x` and `y`), explained by the
bounds of `c`: the row 0 then reads `x - y = 0` and the two vertices meet at offset 0 before
the second row is expanded. -/
theorem cheap_eq_tree_chain_to_fixed_counterexample :
    cheap_eq_tree_ok (imp_i 0 2 5 (fun _ _ => none) (fun j k => j == k)) 3 0
      lp_bound_propagator.ctor = true ∧
    (cheap_eq_tree (imp_i 0 2 5 (fun _ _ => none) (fun j k => j == k)) 3 0
      lp_bound_propagator.ctor).m_eqs = [⟨0, 1, [4, 5]⟩] := by
  constructor <;> decide!

/-- C19 (amended): on `tableau_i`, the rows `r1: x0 - x1 - x2 = 0` and
`r2: x1 - x3 - x4 = 0` with the cells stored in this order, `x2`, `x3`, `x4` fixed at
`c`, `z`, `d` and `c ≠ 0`, and a fixed-value oracle that holds no column at `z + d`:
the tree is not in fixed phase after the seed row, expanding `r2` puts it in fixed phase,
and after the exploration from the root (fuel 3 or more) the tree is in fixed phase with
three vertices, all with `neg = false`, the vertex of `x0` at offset `z + d + c` and the
two vertices of `x1` at offset `z + d`; nothing is reported, by the exploration or by
`cheap_eq_tree(0)` as a whole, whatever `is_equal` answers. -/
theorem cheap_eq_tree_chain_to_fixed (c d z : ℚ) (ft : ℚ → Bool → Option Nat)
    (known : Nat → Nat → Bool) (fuel : Nat) (hc : c ≠ 0) (hy : ft (z + d) false = none) :
    fixed_phase (create_root (imp_i c d z ft known) 0
      { lp_bound_propagator.ctor with m_visited_rows := [0] }) = false ∧
    (∀ parent q, fixed_phase (add_child_from_row (imp_i c d z ft known) 1 parent q).1 = true) ∧
    fixed_phase (explore_under (imp_i c d z ft known) (fuel + 3) 0
      (create_root (imp_i c d z ft known) 0
        { lp_bound_propagator.ctor with m_visited_rows := [0] })) = true ∧
    (explore_under (imp_i c d z ft known) (fuel + 3) 0
      (create_root (imp_i c d z ft known) 0
        { lp_bound_propagator.ctor with m_visited_rows := [0] })).m_verts =
      [⟨0, 0, [1], z + d + c, none, 0, false⟩, ⟨0, 1, [2], z + d, some 0, 1, false⟩,
       ⟨1, 1, [], z + d, some 1, 2, false⟩] ∧
    (∀ v ∈ (explore_under (imp_i c d z ft known) (fuel + 3) 0
      (create_root (imp_i c d z ft known) 0
        { lp_bound_propagator.ctor with m_visited_rows := [0] })).m_verts,
      v.m_neg = false ∧ (v.m_column = 1 → v.m_offset = z + d) ∧
        (v.m_column = 0 → v.m_offset = z + d + c)) ∧
    (explore_under (imp_i c d z ft known) (fuel + 3) 0
      (create_root (imp_i c d z ft known) 0
        { lp_bound_propagator.ctor with m_visited_rows := [0] })).m_eqs = [] ∧
    (cheap_eq_tree (imp_i c d z ft known) (fuel + 3) 0 lp_bound_propagator.ctor).m_eqs = [] := by
  have hrun := tableau_i_run c d z ft known hc hy fuel
  refine ⟨?_, fun parent q => tableau_i_expand_fixed c d z ft known parent q, ?_, ?_, ?_, ?_,
    ?_⟩
  · rw [tableau_i_create_root]; rfl
  · rw [hrun]; rfl
  · rw [hrun]; rfl
  · rw [hrun]
    intro v hv
    simp only [tableau_i_grown, tree_state, List.mem_cons, List.mem_singleton,
      List.not_mem_nil, or_false] at hv
    rcases hv with rfl | rfl | rfl <;> simp
  · rw [hrun]; rfl
  · have hci : check_insert lp_bound_propagator.ctor.m_visited_rows 0 = some [0] := rfl
    unfold cheap_eq_tree
    rw [hci]
    dsimp only
    have hroot : (create_root (imp_i c d z ft known) 0
        { lp_bound_propagator.ctor with m_visited_rows := [0] }).m_root = some 0 := by
      rw [tableau_i_create_root]; rfl
    rw [hroot]
    dsimp only
    rw [hrun]
    rfl

/-- With the numbers `c = 3`, `d = 2`, `z = 5`, an empty fixed-value oracle and no
equality known, the vertices end at `x0 = 10` and `x1 = 7` and nothing is reported. -/
theorem cheap_eq_tree_chain_to_fixed_witness :
    (3 : ℚ) ≠ 0 ∧
    (explore_under (imp_i 3 2 5 (fun _ _ => none) (fun j k => j == k)) 3 0
      (create_root (imp_i 3 2 5 (fun _ _ => none) (fun j k => j == k)) 0
        { lp_bound_propagator.ctor with m_visited_rows := [0] })).m_verts =
      [⟨0, 0, [1], 10, none, 0, false⟩, ⟨0, 1, [2], 7, some 0, 1, false⟩,
       ⟨1, 1, [], 7, some 1, 2, false⟩] ∧
    (cheap_eq_tree (imp_i 3 2 5 (fun _ _ => none) (fun j k => j == k)) 3 0
      lp_bound_propagator.ctor).m_eqs = [] :=
  ⟨by norm_num,
   (cheap_eq_tree_chain_to_fixed 3 2 5 (fun _ _ => none) (fun j k => j == k) 0
      (by norm_num) rfl).2.2.2.1.trans (by norm_num),
   (cheap_eq_tree_chain_to_fixed 3 2 5 (fun _ _ => none) (fun j k => j == k) 0
      (by norm_num) rfl).2.2.2.2.2.2⟩

/-! ## The switch to fixed phase, vertex by vertex -/

theorem get_vertex_set_vertex (p : lp_bound_propagator) (v j : Nat) (x : vertex) :
    get_vertex (set_vertex p v x) j =
      if v = j ∧ v < p.m_verts.length then x else get_vertex p j := by
  unfold get_vertex set_vertex
  simp only [List.getD_eq_getElem?_getD, List.getElem?_set]
  by_cases h : v = j
  · subst h
    by_cases hl : v < p.m_verts.length
    · simp [hl]
    · simp [hl, List.getElem?_eq_none (not_lt.mp hl)]
  · simp [h]

theorem switch_to_fixed_mode_step (d : ℚ) (fuel v : Nat) (p : lp_bound_propagator) :
    switch_to_fixed_mode d (fuel + 1) v p =
      (get_vertex p v).m_children.foldl (fun q c => switch_to_fixed_mode d fuel c q)
        (shift_at d p v) := by
  have hstep : (if (get_vertex (set_vertex p v
        { get_vertex p v with m_offset := (get_vertex p v).m_offset + d }) v).m_neg = true
      then set_vertex (set_vertex p v
          { get_vertex p v with m_offset := (get_vertex p v).m_offset + d }) v
        { get_vertex (set_vertex p v
            { get_vertex p v with m_offset := (get_vertex p v).m_offset + d }) v with
          m_offset := -(get_vertex (set_vertex p v
            { get_vertex p v with m_offset := (get_vertex p v).m_offset + d }) v).m_offset,
          m_neg := false }
      else set_vertex p v
          { get_vertex p v with m_offset := (get_vertex p v).m_offset + d }) =
      shift_at d p v := by
    by_cases hl : v < p.m_verts.length
    · have hg : ∀ y, get_vertex (set_vertex p v y) v = y := by
        intro y
        rw [get_vertex_set_vertex, if_pos (And.intro rfl hl)]
      simp only [hg, shift_at]
      generalize get_vertex p v = x
      obtain ⟨r, c, ch, o, pa, lv, n⟩ := x
      cases n <;> simp [set_vertex, shift_vertex, List.set_set]
    · have hge := not_lt.mp hl
      have hd : get_vertex p v = default := by
        unfold get_vertex
        rw [List.getD_eq_getElem?_getD, List.getElem?_eq_none hge]
        rfl
      have hs : ∀ x, set_vertex p v x = p := by
        intro x
        unfold set_vertex
        rw [List.set_eq_of_length_le hge]
      simp only [hs, shift_at, hd]
      rfl
  have hch : (get_vertex (shift_at d p v) v).m_children = (get_vertex p v).m_children := by
    unfold shift_at
    rw [get_vertex_set_vertex]
    split_ifs <;> rfl
  rw [switch_to_fixed_mode]
  simp only [hstep, hch]

theorem shift_at_children (d : ℚ) (p : lp_bound_propagator) (i : Nat) :
    same_children p (shift_at d p i) := by
  intro j
  unfold shift_at
  rw [get_vertex_set_vertex]
  split_ifs with h
  · rw [← h.1]; rfl
  · rfl

theorem same_children_refl (p : lp_bound_propagator) : same_children p p := fun _ => rfl

theorem same_children_trans {p q r : lp_bound_propagator} (h1 : same_children p q)
    (h2 : same_children q r) : same_children p r := fun j => (h2 j).trans (h1 j)

theorem foldl_shift_at_children (d : ℚ) (l : List Nat) (p : lp_bound_propagator) :
    same_children p (l.foldl (shift_at d) p) := by
  induction l generalizing p with
  | nil => exact same_children_refl p
  | cons a l ih => exact same_children_trans (shift_at_children d p a) (ih _)

theorem tree_nodes_congr (p q : lp_bound_propagator) (h : same_children p q) (fuel v : Nat) :
    tree_nodes q fuel v = tree_nodes p fuel v := by
  induction fuel generalizing v with
  | zero => rfl
  | succ n ih =>
    simp only [tree_nodes, h v]
    congr 1
    exact List.flatMap_congr (fun c _ => ih c)  

/-- The switch to fixed phase shifts the vertices below `v` one after the other. -/
theorem switch_to_fixed_mode_eq_foldl (d : ℚ) (fuel v : Nat) (p : lp_bound_propagator) :
    switch_to_fixed_mode d fuel v p = (tree_nodes p fuel v).foldl (shift_at d) p := by
  induction fuel generalizing v p with
  | zero => rfl
  | succ n ih =>
    rw [switch_to_fixed_mode_step]
    simp only [tree_nodes, List.foldl_cons]
    have key : ∀ (cs : List Nat) (q : lp_bound_propagator), same_children p q →
        cs.foldl (fun q c => switch_to_fixed_mode d n c q) q =
          (cs.flatMap (tree_nodes p n)).foldl (shift_at d) q := by
      intro cs
      induction cs with
      | nil => intro q _; rfl
      | cons c cs ih2 =>
        intro q hq
        simp only [List.foldl_cons, List.flatMap_cons, List.foldl_append]
        rw [ih c q, tree_nodes_congr p q hq]
        exact ih2 _ (same_children_trans hq (foldl_shift_at_children d _ q))
    exact key _ _ (shift_at_children d p v)

theorem foldl_shift_at_frame (d : ℚ) (l : List Nat) (p : lp_bound_propagator) :
    l.foldl (shift_at d) p = { p with m_verts := (l.foldl (shift_at d) p).m_verts } ∧
      (l.foldl (shift_at d) p).m_verts.length = p.m_verts.length := by
  induction l generalizing p with
  | nil => exact ⟨rfl, rfl⟩
  | cons a l ih =>
    simp only [List.foldl_cons]
    obtain ⟨h1, h2⟩ := ih (shift_at d p a)
    constructor
    · rw [h1]
      rfl
    · rw [h2]
      simp [shift_at, set_vertex]

theorem foldl_shift_at_get (d : ℚ) (l : List Nat) (hl : l.Nodup) (p : lp_bound_propagator)
    (i : Nat) (x : vertex) (hx : p.m_verts[i]? = some x) :
    (l.foldl (shift_at d) p).m_verts[i]? = some (if i ∈ l then shift_vertex d x else x) := by
  induction l generalizing p x with
  | nil => simpa using hx
  | cons a l ih =>
    simp only [List.foldl_cons]
    obtain ⟨ha, hl2⟩ := List.nodup_cons.mp hl
    have hi : i < p.m_verts.length := (List.getElem?_eq_some.mp hx).1
    by_cases hai : a = i
    · subst hai
      have hgv : get_vertex p a = x := by
        unfold get_vertex
        rw [List.getD_eq_getElem?_getD, hx]
        rfl
      have h1 : (shift_at d p a).m_verts[a]? = some (shift_vertex d x) := by
        simp [shift_at, set_vertex, hgv, List.getElem?_set, hi]
      rw [ih hl2 _ _ h1]
      simp [ha]
    · have h1 : (shift_at d p a).m_verts[i]? = some x := by
        simp [shift_at, set_vertex, List.getElem?_set, hai, hx]
      rw [ih hl2 _ _ h1]
      have : (i ∈ a :: l) ↔ i ∈ l := by
        simp [List.mem_cons, Ne.symm hai]
      simp only [this]

theorem get_vertex_of_getElem (p : lp_bound_propagator) (i : Nat) (x : vertex)
    (h : p.m_verts[i]? = some x) : get_vertex p i = x := by
  unfold get_vertex
  rw [List.getD_eq_getElem?_getD, h]
  rfl

theorem getElem_get_vertex (p : lp_bound_propagator) (i : Nat) (h : i < p.m_verts.length) :
    p.m_verts[i]? = some (get_vertex p i) := by
  unfold get_vertex
  rw [List.getD_eq_getElem?_getD, List.getElem?_eq_getElem h]
  rfl

theorem get_vertex_of_length_le (p : lp_bound_propagator) (i : Nat)
    (h : p.m_verts.length ≤ i) : get_vertex p i = default := by
  unfold get_vertex
  rw [List.getD_eq_getElem?_getD, List.getElem?_eq_none h]
  rfl

theorem tree_nodes_lt (p : lp_bound_propagator) (hord : arena_ordered p) (fuel v : Nat)
    (hv : v < p.m_verts.length) : ∀ i ∈ tree_nodes p fuel v, i < p.m_verts.length := by
  induction fuel generalizing v with
  | zero => intro i hi; simp [tree_nodes] at hi
  | succ n ih =>
    intro i hi
    simp only [tree_nodes, List.mem_cons, List.mem_flatMap] at hi
    rcases hi with rfl | ⟨c, hc, hic⟩
    · exact hv
    · exact ih c (hord v c hc).2 i hic

/-- In an arena laid out in allocation order the traversal from `v` is complete as soon
as the fuel covers the vertices allocated from `v` on. -/
theorem tree_nodes_fuel (p : lp_bound_propagator) (hord : arena_ordered p) (fuel v : Nat)
    (h1 : 1 ≤ fuel) (h2 : p.m_verts.length + 1 ≤ fuel + v) :
    tree_nodes p (fuel + 1) v = tree_nodes p fuel v := by
  induction fuel generalizing v with
  | zero => omega
  | succ n ih =>
    rw [tree_nodes, tree_nodes]
    congr 1
    apply List.flatMap_congr
    intro c hc
    have hcv := hord v c hc
    by_cases hn : 1 ≤ n
    · exact ih c hn (by omega)
    · have hv : p.m_verts.length ≤ v := by omega
      omega

theorem tree_nodes_fuel_add (p : lp_bound_propagator) (hord : arena_ordered p) (v k : Nat) :
    tree_nodes p (p.m_verts.length + 1 + k) v = tree_nodes p (p.m_verts.length + 1) v := by
  induction k with
  | zero => rfl
  | succ k ih =>
    rw [← ih]
    exact tree_nodes_fuel p hord (p.m_verts.length + 1 + k) v (by omega) (by omega)

/-- The effect of `switch_to_fixed_mode_in_tree` on a tree: every vertex of the tree is
shifted once, nothing else in the arena moves, the fixed vertex is set and the offset
tables are emptied. -/
theorem switch_to_fixed_mode_in_tree_shift (p : lp_bound_propagator) (root : Nat)
    (new_offset : ℚ) (hroot : p.m_root = some root) (hlt : root < p.m_verts.length)
    (hord : arena_ordered p)
    (htree : (tree_nodes p (p.m_verts.length + 1) root).Nodup) :
    (switch_to_fixed_mode_in_tree root new_offset p).m_verts.length = p.m_verts.length ∧
    (∀ i ∈ tree_nodes p (p.m_verts.length + 1) root,
      get_vertex (switch_to_fixed_mode_in_tree root new_offset p) i =
        shift_vertex (new_offset - (get_vertex p root).m_offset) (get_vertex p i)) ∧
    (∀ i, i ∉ tree_nodes p (p.m_verts.length + 1) root →
      get_vertex (switch_to_fixed_mode_in_tree root new_offset p) i = get_vertex p i) ∧
    switch_to_fixed_mode_in_tree root new_offset p =
      { p with
        m_verts := (switch_to_fixed_mode_in_tree root new_offset p).m_verts,
        m_fixed_vertex := some root,
        m_offset_to_verts := fun _ => none,
        m_offset_to_verts_neg := fun _ => none } := by
  have hsw0 : switch_to_fixed_mode_in_tree root new_offset p =
      { (tree_nodes { p with m_fixed_vertex := some root } (p.m_verts.length + 1) root).foldl
          (shift_at (new_offset - (get_vertex p root).m_offset))
          { p with m_fixed_vertex := some root } with
        m_offset_to_verts_neg := fun _ => none, m_offset_to_verts := fun _ => none } := by
    obtain ⟨a1, a2, a3, a4, a5, a6, a7, a8, a9, a10, a11, a12⟩ := p
    simp only at hroot
    subst hroot
    unfold switch_to_fixed_mode_in_tree
    dsimp only
    rw [switch_to_fixed_mode_eq_foldl]
    rfl
  have hsw : switch_to_fixed_mode_in_tree root new_offset p =
      { (tree_nodes p (p.m_verts.length + 1) root).foldl
          (shift_at (new_offset - (get_vertex p root).m_offset))
          { p with m_fixed_vertex := some root } with
        m_offset_to_verts_neg := fun _ => none, m_offset_to_verts := fun _ => none } := by
    rw [hsw0, tree_nodes_congr p { p with m_fixed_vertex := some root } (fun _ => rfl)]
  obtain ⟨hf1, hf2⟩ := foldl_shift_at_frame (new_offset - (get_vertex p root).m_offset)
    (tree_nodes p (p.m_verts.length + 1) root) { p with m_fixed_vertex := some root }
  have hget : ∀ i x, p.m_verts[i]? = some x →
      (switch_to_fixed_mode_in_tree root new_offset p).m_verts[i]? =
        some (if i ∈ tree_nodes p (p.m_verts.length + 1) root then
          shift_vertex (new_offset - (get_vertex p root).m_offset) x else x) := by
    intro i x hx
    rw [hsw]
    exact foldl_shift_at_get _ _ htree { p with m_fixed_vertex := some root } i x hx
  have hlen : (switch_to_fixed_mode_in_tree root new_offset p).m_verts.length =
      p.m_verts.length := by
    rw [hsw]; exact hf2
  refine ⟨hlen, ?_, ?_, ?_⟩
  · intro i hi
    have hil := tree_nodes_lt p hord _ root hlt i hi
    have := hget i _ (getElem_get_vertex p i hil)
    rw [if_pos hi] at this
    exact get_vertex_of_getElem _ _ _ this
  · intro i hi
    by_cases hil : i < p.m_verts.length
    · have := hget i _ (getElem_get_vertex p i hil)
      rw [if_neg hi] at this
      exact get_vertex_of_getElem _ _ _ this
    · rw [get_vertex_of_length_le p i (not_lt.mp hil),
        get_vertex_of_length_le _ i (by rw [hlen]; exact not_lt.mp hil)]
  · conv_lhs => rw [hsw, hf1]
    rw [hsw]

/-- C26: `switch_to_fixed_mode_in_tree(root, new_offset)`, on a tree (no vertex reached
twice from the root, children allocated after their parent), with
`d = new_offset - root.offset`: every vertex of the tree goes from offset `o` and
`neg = n` to offset `n ? -(o + d) : o + d` and `neg = false`, with row, column, level,
parent and children unchanged; the arena has the same size and nothing outside the tree
moves; `fixed_vertex` is set (to the root), both offset-to-vertex tables are empty, and the
other fields of the propagator are as before.  The depth bound of the model covers the
whole tree. -/
theorem switch_to_fixed_mode_in_tree_effect (p : lp_bound_propagator) (root : Nat)
    (new_offset : ℚ) (hroot : p.m_root = some root) (hlt : root < p.m_verts.length)
    (hord : arena_ordered p)
    (htree : (tree_nodes p (p.m_verts.length + 1) root).Nodup) :
    (∀ k, tree_nodes p (p.m_verts.length + 1 + k) root =
      tree_nodes p (p.m_verts.length + 1) root) ∧
    (∀ i ∈ tree_nodes p (p.m_verts.length + 1) root,
      (get_vertex (switch_to_fixed_mode_in_tree root new_offset p) i).m_offset =
        (if (get_vertex p i).m_neg
          then -((get_vertex p i).m_offset + (new_offset - (get_vertex p root).m_offset))
          else (get_vertex p i).m_offset + (new_offset - (get_vertex p root).m_offset)) ∧
      (get_vertex (switch_to_fixed_mode_in_tree root new_offset p) i).m_neg = false ∧
      (get_vertex (switch_to_fixed_mode_in_tree root new_offset p) i).m_row =
        (get_vertex p i).m_row ∧
      (get_vertex (switch_to_fixed_mode_in_tree root new_offset p) i).m_column =
        (get_vertex p i).m_column ∧
      (get_vertex (switch_to_fixed_mode_in_tree root new_offset p) i).m_level =
        (get_vertex p i).m_level ∧
      (get_vertex (switch_to_fixed_mode_in_tree root new_offset p) i).m_parent =
        (get_vertex p i).m_parent ∧
      (get_vertex (switch_to_fixed_mode_in_tree root new_offset p) i).m_children =
        (get_vertex p i).m_children) ∧
    (∀ i, i ∉ tree_nodes p (p.m_verts.length + 1) root →
      get_vertex (switch_to_fixed_mode_in_tree root new_offset p) i = get_vertex p i) ∧
    (switch_to_fixed_mode_in_tree root new_offset p).m_verts.length = p.m_verts.length ∧
    (switch_to_fixed_mode_in_tree root new_offset p).m_fixed_vertex = some root ∧
    (switch_to_fixed_mode_in_tree root new_offset p).m_offset_to_verts = (fun _ => none) ∧
    (switch_to_fixed_mode_in_tree root new_offset p).m_offset_to_verts_neg = (fun _ => none) ∧
    (switch_to_fixed_mode_in_tree root new_offset p).m_root = p.m_root ∧
    (switch_to_fixed_mode_in_tree root new_offset p).m_visited_rows = p.m_visited_rows ∧
    (switch_to_fixed_mode_in_tree root new_offset p).m_visited_columns = p.m_visited_columns ∧
    (switch_to_fixed_mode_in_tree root new_offset p).m_eqs = p.m_eqs := by
  obtain ⟨h1, h2, h3, h4⟩ :=
    switch_to_fixed_mode_in_tree_shift p root new_offset hroot hlt hord htree
  refine ⟨fun k => tree_nodes_fuel_add p hord root k, ?_, h3, h1, ?_, ?_, ?_, ?_, ?_, ?_, ?_⟩
  · intro i hi
    rw [h2 i hi]
    exact ⟨rfl, rfl, rfl, rfl, rfl, rfl, rfl⟩
  all_goals rw [h4]

theorem tree_j_ordered : arena_ordered tree_j := by
  intro i c hc
  rcases i with _ | _ | i
  · have : c = 1 := by simpa [tree_j, tree_state, get_vertex] using hc
    subst this
    exact ⟨by decide, by decide⟩
  · simp [tree_j, tree_state, get_vertex] at hc
  · have hd : get_vertex tree_j (i + 2) = default :=
      get_vertex_of_length_le _ _ (by simp [tree_j, tree_state])
    rw [hd] at hc
    cases hc

/-- On `tree_j`, switching with the new root offset 5 moves the child from offset 3 with
`neg` set to offset `-8` with `neg` cleared. -/
theorem switch_to_fixed_mode_in_tree_effect_witness :
    tree_j.m_root = some 0 ∧
    (tree_nodes tree_j (tree_j.m_verts.length + 1) 0).Nodup ∧
    (get_vertex (switch_to_fixed_mode_in_tree 0 5 tree_j) 1).m_offset = -8 ∧
    (get_vertex (switch_to_fixed_mode_in_tree 0 5 tree_j) 1).m_neg = false :=
  ⟨rfl, by decide,
   ((switch_to_fixed_mode_in_tree_effect tree_j 0 5 rfl (by decide) tree_j_ordered
      (by decide)).2.1 1 (by decide)).1.trans (by decide!),
   ((switch_to_fixed_mode_in_tree_effect tree_j 0 5 rfl (by decide) tree_j_ordered
      (by decide)).2.1 1 (by decide)).2.1⟩

/-! ## The tree classification of a row -/

theorem tree_row_scan_free (s : lar_solver) (row : List row_cell) (x y : signed_column) :
    tree_row_scan s row x y = tree_row_scan s (free_cells s row) x y := by
  induction row generalizing x y with
  | nil => rfl
  | cons c cs ih =>
    by_cases hc : column_is_fixed s c.var = true
    · simp [tree_row_scan, free_cells, hc, List.filter_cons]
      exact ih x y
    · have hc2 : column_is_fixed s c.var = false := by simpa using hc
      simp only [tree_row_scan, free_cells, hc2, List.filter_cons, Bool.not_false, if_true,
        Bool.false_eq_true, if_false]
      split_ifs
      · split
        · exact ih _ _
        · rfl
      · split
        · exact ih _ _
        · rfl
      · rfl

theorem tree_row_offset_eq (s : lar_solver) (row : List row_cell) :
    tree_row_offset s row = fixed_offset s row := by
  have h : ∀ (l : List row_cell) (a : ℚ),
      l.foldl (fun offset c =>
        if column_is_fixed s c.var then offset + c.coeff * get_lower_bound_rational s c.var
        else offset) a = a + fixed_offset s l := by
    intro l
    induction l with
    | nil => intro a; simp [fixed_offset, fixed_cells]
    | cons c cs ih =>
      intro a
      rw [List.foldl_cons, ih]
      by_cases hc : column_is_fixed s c.var = true
      · rw [fixed_offset_eq, fixed_offset_eq, fixed_terms_cons_fixed s c cs hc]
        simp only [hc, if_true, List.sum_cons]
        ring
      · have hc2 : column_is_fixed s c.var = false := by simpa using hc
        rw [fixed_offset_eq, fixed_offset_eq, fixed_terms_cons_free s c cs hc2]
        simp only [hc2, Bool.false_eq_true, if_false]
  unfold tree_row_offset
  rw [h, zero_add]

theorem set_sign_and_column_unit (c : row_cell) (h : unit_coeff c) :
    set_sign_and_column c = some (signed_cell c) := by
  have e2 : ¬ ((-1 : ℚ) = 1) := by norm_num
  have e1 : ¬ ((1 : ℚ) = -1) := by norm_num
  rcases h with h | h <;> simp [set_sign_and_column, signed_cell, h, e1, e2]

theorem set_sign_and_column_none (c : row_cell) (h : ¬ unit_coeff c) :
    set_sign_and_column c = none := by
  unfold unit_coeff at h
  push_neg at h
  simp [set_sign_and_column, h.1, h.2]

theorem signed_cell_set (c : row_cell) (h : c.var ≠ null_lpvar) :
    (signed_cell c).not_set = false := by
  simp [signed_cell, signed_column.not_set, h]

/-- What the first loop of `is_tree_offset_row` makes of the free cells of a row. -/
theorem tree_row_scan_cases (s : lar_solver) (l : List row_cell)
    (hfree : ∀ c ∈ l, column_is_fixed s c.var = false) (hwf : row_wf l) :
    (l = [] ∧ tree_row_scan s l signed_column.ctor signed_column.ctor =
      some (signed_column.ctor, signed_column.ctor)) ∨
    (∃ x y, tree_shape l x y ∧
      tree_row_scan s l signed_column.ctor signed_column.ctor = some (x, y)) ∨
    ((2 < l.length ∨ ∃ c ∈ l, ¬ unit_coeff c) ∧
      tree_row_scan s l signed_column.ctor signed_column.ctor = none) := by
  have hctor : signed_column.ctor.not_set = true := rfl
  rcases l with _ | ⟨c, _ | ⟨d, t⟩⟩
  · exact Or.inl ⟨rfl, rfl⟩
  · have hc := hfree c (by simp)
    by_cases hu : unit_coeff c
    · refine Or.inr (Or.inl ⟨signed_cell c, signed_column.ctor, Or.inl ⟨c, rfl, hu, rfl, rfl⟩, ?_⟩)
      simp [tree_row_scan, hc, hctor, set_sign_and_column_unit c hu]
    · refine Or.inr (Or.inr ⟨Or.inr ⟨c, by simp, hu⟩, ?_⟩)
      simp [tree_row_scan, hc, hctor, set_sign_and_column_none c hu]
  · have hc := hfree c (by simp)
    have hd := hfree d (by simp)
    have hcv := signed_cell_set c (hwf c (by simp))
    have hdv := signed_cell_set d (hwf d (by simp))
    by_cases hu : unit_coeff c
    · by_cases hu2 : unit_coeff d
      · rcases t with _ | ⟨e, t⟩
        · refine Or.inr (Or.inl ⟨signed_cell c, signed_cell d,
            Or.inr ⟨c, d, rfl, hu, hu2, rfl, rfl⟩, ?_⟩)
          simp [tree_row_scan, hc, hd, hctor, hcv, set_sign_and_column_unit c hu,
            set_sign_and_column_unit d hu2]
        · have he := hfree e (by simp)
          refine Or.inr (Or.inr ⟨Or.inl (by simp), ?_⟩)
          simp [tree_row_scan, hc, hd, he, hctor, hcv, hdv, set_sign_and_column_unit c hu,
            set_sign_and_column_unit d hu2]
      · refine Or.inr (Or.inr ⟨Or.inr ⟨d, by simp, hu2⟩, ?_⟩)
        simp [tree_row_scan, hc, hd, hctor, hcv, set_sign_and_column_unit c hu,
          set_sign_and_column_none d hu2]
    · refine Or.inr (Or.inr ⟨Or.inr ⟨c, by simp, hu⟩, ?_⟩)
      simp [tree_row_scan, hc, hctor, set_sign_and_column_none c hu]

/-- A successful tree classification: the free cells have one of the two shapes and the
offset is the contribution of the fixed cells. -/
theorem is_tree_offset_row_shape (s : lar_solver) (r : Nat) (x y : signed_column) (k : ℚ)
    (hwf : row_wf (s.get_row r)) (h : is_tree_offset_row s r = some (x, y, k)) :
    tree_shape (free_cells s (s.get_row r)) x y ∧ k = fixed_offset s (s.get_row r) := by
  unfold is_tree_offset_row at h
  rw [tree_row_scan_free, tree_row_offset_eq] at h
  rcases tree_row_scan_cases s (free_cells s (s.get_row r)) (free_cells_free s _)
    (free_cells_wf s _ hwf) with ⟨_, h1⟩ | ⟨x1, y1, hsh, h1⟩ | ⟨_, h1⟩
  · rw [h1] at h
    simp [signed_column.ctor, signed_column.not_set] at h
  · rw [h1] at h
    simp only at h
    split_ifs at h
    simp only [Option.some.injEq, Prod.mk.injEq] at h
    obtain ⟨rfl, rfl, rfl⟩ := h
    exact ⟨hsh, rfl⟩
  · rw [h1] at h
    cases h

/-- A row of one of the two shapes is classified. -/
theorem is_tree_offset_row_of_shape (s : lar_solver) (r : Nat) (x y : signed_column)
    (hwf : row_wf (s.get_row r)) (hsh : tree_shape (free_cells s (s.get_row r)) x y) :
    is_tree_offset_row s r = some (x, y, fixed_offset s (s.get_row r)) := by
  unfold is_tree_offset_row
  rw [tree_row_scan_free, tree_row_offset_eq]
  have hfw := free_cells_wf s _ hwf
  rcases tree_row_scan_cases s (free_cells s (s.get_row r)) (free_cells_free s _) hfw
    with ⟨h0, _⟩ | ⟨x1, y1, hsh1, h1⟩ | ⟨hbad, _⟩
  · rcases hsh with ⟨c, hl, _⟩ | ⟨c, d, hl, _⟩ <;> rw [hl] at h0 <;> cases h0
  · have hxy : x1 = x ∧ y1 = y := by
      rcases hsh with ⟨c, hl, _, rfl, rfl⟩ | ⟨c, d, hl, _, _, rfl, rfl⟩ <;>
        rcases hsh1 with ⟨c1, hl1, _, rfl, rfl⟩ | ⟨c1, d1, hl1, _, _, rfl, rfl⟩ <;>
        rw [hl] at hl1 <;> simp at hl1
      · rw [hl1]; exact ⟨rfl, rfl⟩
      · rw [hl1.1, hl1.2]; exact ⟨rfl, rfl⟩
    obtain ⟨rfl, rfl⟩ := hxy
    rw [h1]
    have hx : x1.not_set = false := by
      rcases hsh with ⟨c, hl, _, rfl, _⟩ | ⟨c, d, hl, _, _, rfl, _⟩
      · exact signed_cell_set c (hfw c (by rw [hl]; simp))
      · exact signed_cell_set c (hfw c (by rw [hl]; simp))
    simp [hx]
  · exfalso
    rcases hsh with ⟨c, hl, hu, _⟩ | ⟨c, d, hl, hu, hu2, _⟩
    · rw [hl] at hbad
      rcases hbad with h | ⟨e, he, hne⟩
      · simp at h
      · simp at he; subst he; exact hne hu
    · rw [hl] at hbad
      rcases hbad with h | ⟨e, he, hne⟩
      · simp at h
      · simp at he
        rcases he with rfl | rfl
        · exact hne hu
        · exact hne hu2

/-- The tree classification fails exactly on the rows with no free cell, with more than
two free cells, or with a free cell whose coefficient is neither `1` nor `-1`. -/
theorem is_tree_offset_row_none_iff (s : lar_solver) (r : Nat) (hwf : row_wf (s.get_row r)) :
    is_tree_offset_row s r = none ↔
      (free_cells s (s.get_row r) = [] ∨ 2 < (free_cells s (s.get_row r)).length ∨
        ∃ c ∈ free_cells s (s.get_row r), ¬ unit_coeff c) := by
  have hfw := free_cells_wf s _ hwf
  constructor
  · intro h
    unfold is_tree_offset_row at h
    rw [tree_row_scan_free] at h
    rcases tree_row_scan_cases s (free_cells s (s.get_row r)) (free_cells_free s _) hfw
      with ⟨h0, _⟩ | ⟨x1, y1, hsh1, h1⟩ | ⟨hbad, _⟩
    · exact Or.inl h0
    · exfalso
      rw [h1] at h
      have hx : x1.not_set = false := by
        rcases hsh1 with ⟨c, hl, _, rfl, _⟩ | ⟨c, d, hl, _, _, rfl, _⟩
        · exact signed_cell_set c (hfw c (by rw [hl]; simp))
        · exact signed_cell_set c (hfw c (by rw [hl]; simp))
      simp [hx] at h
    · exact Or.inr hbad
  · intro h
    cases hr : is_tree_offset_row s r with
    | none => rfl
    | some t =>
      exfalso
      obtain ⟨x, y, k⟩ := t
      have hsh := (is_tree_offset_row_shape s r x y k hwf hr).1
      rcases hsh with ⟨c, hl, hu, _⟩ | ⟨c, d, hl, hu, hu2, _⟩
      · rw [hl] at h
        rcases h with h | h | ⟨e, he, hne⟩
        · cases h
        · simp at h
        · simp at he; subst he; exact hne hu
      · rw [hl] at h
        rcases h with h | h | ⟨e, he, hne⟩
        · cases h
        · simp at h
        · simp at he
          rcases he with rfl | rfl
          · exact hne hu
          · exact hne hu2

theorem sign_value_signed_cell (c : row_cell) (h : unit_coeff c) :
    sign_value (signed_cell c).m_sign = c.coeff := by
  have e1 : ¬ ((1 : ℚ) = -1) := by norm_num
  rcases h with h | h <;> simp [sign_value, signed_cell, h, e1]

/-- The linear form of a classified row, the fixed columns at their bounds: the signed
free columns plus the offset. -/
theorem is_tree_offset_row_value (s : lar_solver) (r : Nat) (x y : signed_column) (k : ℚ)
    (val : Nat → ℚ) (hwf : row_wf (s.get_row r))
    (h : is_tree_offset_row s r = some (x, y, k))
    (hfix : at_fixed_bounds s val (s.get_row r)) :
    (y.not_set = true → row_value val (s.get_row r) = sign_value x.m_sign * val x.m_column + k) ∧
    (y.not_set = false → row_value val (s.get_row r) =
      sign_value x.m_sign * val x.m_column + sign_value y.m_sign * val y.m_column + k) := by
  obtain ⟨hsh, rfl⟩ := is_tree_offset_row_shape s r x y k hwf h
  have hfw := free_cells_wf s _ hwf
  rw [row_value_split s val _ hfix]
  rcases hsh with ⟨c, hl, hu, rfl, rfl⟩ | ⟨c, d, hl, hu, hu2, rfl, rfl⟩
  · constructor
    · intro _
      rw [hl, sign_value_signed_cell c hu]
      simp [row_value, signed_cell]
    · intro hy
      cases hy
  · have hdv := signed_cell_set d (hfw d (by rw [hl]; simp))
    constructor
    · intro hy
      rw [hdv] at hy
      cases hy
    · intro _
      rw [hl, sign_value_signed_cell c hu, sign_value_signed_cell d hu2]
      simp [row_value, signed_cell]

/-! ## Allocating and attaching a vertex -/

theorem attach_eq (p : lp_bound_propagator) (parent row column : Nat) (offset : ℚ)
    (neg : Bool) (hp : parent < p.m_verts.length) :
    attach p parent row column offset neg =
      { p with
        m_verts :=
          p.m_verts.set parent ((get_vertex p parent).push_child p.m_verts.length) ++
            [⟨row, column, [], offset, some parent, (get_vertex p parent).m_level + 1, neg⟩] } := by
  have hne : parent ≠ p.m_verts.length := Nat.ne_of_lt hp
  have hg : get_vertex p parent = p.m_verts[parent] := by
    unfold get_vertex
    rw [List.getD_eq_getElem?_getD, List.getElem?_eq_getElem hp]
    rfl
  unfold attach add_child alloc_v
  simp only [set_vertex, get_vertex, List.getD_eq_getElem?_getD, List.getElem?_set,
    List.length_append, List.length_singleton, List.length_set]
  have hp1 : parent < p.m_verts.length + 1 := Nat.lt_succ_of_lt hp
  simp [List.getElem?_append, hp, hp1, hne, hne.symm, List.set_append, List.getElem?_set,
    vertex.push_child, List.getElem_append_left hp]


theorem attach_frame (p : lp_bound_propagator) (parent row column : Nat) (offset : ℚ)
    (neg : Bool) :
    attach p parent row column offset neg =
      { p with m_verts := (attach p parent row column offset neg).m_verts } := rfl

theorem create_root_none (m : imp) (row_index : Nat) (p : lp_bound_propagator)
    (h : is_tree_offset_row m.lp row_index = none) : create_root m row_index p = p := by
  unfold create_root
  rw [h]

theorem create_root_one (m : imp) (row_index : Nat) (p : lp_bound_propagator)
    (x y : signed_column) (k : ℚ) (h : is_tree_offset_row m.lp row_index = some (x, y, k))
    (hy : y.not_set = true) :
    create_root m row_index p =
      { p with
        m_root := some p.m_verts.length, m_fixed_vertex := some p.m_verts.length,
        m_verts := p.m_verts ++ [⟨row_index, x.m_column, [], k, none, 0, false⟩] } := by
  unfold create_root
  rw [h]
  dsimp only
  rw [if_pos hy]
  rfl

theorem create_root_two (m : imp) (row_index : Nat) (p : lp_bound_propagator)
    (x y : signed_column) (k : ℚ) (h : is_tree_offset_row m.lp row_index = some (x, y, k))
    (hy : y.not_set = false) :
    create_root m row_index p =
      { p with
        m_root := some p.m_verts.length,
        m_verts := p.m_verts ++
          [⟨row_index, x.m_column, [p.m_verts.length + 1], 0, none, 0, false⟩,
           ⟨row_index, y.m_column, [], k, some p.m_verts.length, 1, !y.m_sign⟩] } := by
  have h1 : create_root m row_index p =
      attach { p with
          m_verts := p.m_verts ++ [⟨row_index, x.m_column, [], 0, none, 0, false⟩],
          m_root := some p.m_verts.length }
        p.m_verts.length row_index y.m_column k (!y.m_sign) := by
    unfold create_root
    rw [h]
    dsimp only
    rw [if_neg (by simp [hy])]
    rfl
  rw [h1, attach_eq _ _ _ _ _ _ (by simp)]
  simp [get_vertex, vertex.push_child]

theorem get_vertex_append_last (p : lp_bound_propagator) (l : List vertex) (x : vertex)
    (hl : p.m_verts = l ++ [x]) : get_vertex p l.length = x := by
  unfold get_vertex
  rw [hl]
  simp [List.getD_eq_getElem?_getD]

theorem add_child_from_row_continue_eq (v : Nat) (y : signed_column) (k : ℚ)
    (p : lp_bound_propagator) :
    add_child_from_row_continue v y k p =
      attach p v (get_vertex p v).m_row y.m_column
        (child_offset (fixed_phase p) (get_vertex p v).m_offset (get_vertex p v).m_neg
          y.m_sign k)
        (child_neg (fixed_phase p) (get_vertex p v).m_neg y.m_sign) := by
  unfold add_child_from_row_continue add_child_from_row_continue_fixed child_offset child_neg
  cases fixed_phase p <;> rfl

/-- The state after `add_child_from_row` on a row with two free columns: the copy of the
parent in the new row, and below it the vertex of the other column. -/
theorem add_child_from_row_two (m : imp) (row_index parent : Nat) (p : lp_bound_propagator)
    (x y : signed_column) (k : ℚ) (h : is_tree_offset_row m.lp row_index = some (x, y, k))
    (hy : y.not_set = false) (hp : parent < p.m_verts.length) :
    add_child_from_row m row_index parent p =
      ({ p with
         m_verts :=
           p.m_verts.set parent ((get_vertex p parent).push_child p.m_verts.length) ++
             [⟨row_index, (get_vertex p parent).m_column, [p.m_verts.length + 1],
                (get_vertex p parent).m_offset, some parent,
                (get_vertex p parent).m_level + 1, (get_vertex p parent).m_neg⟩,
              ⟨row_index, (normalize_row x y k (get_vertex p parent).m_column).1.m_column, [],
                child_offset (fixed_phase p) (get_vertex p parent).m_offset
                  (get_vertex p parent).m_neg
                  (normalize_row x y k (get_vertex p parent).m_column).1.m_sign
                  (normalize_row x y k (get_vertex p parent).m_column).2,
                some p.m_verts.length, (get_vertex p parent).m_level + 2,
                child_neg (fixed_phase p) (get_vertex p parent).m_neg
                  (normalize_row x y k (get_vertex p parent).m_column).1.m_sign⟩] },
       some p.m_verts.length) := by
  have hA := attach_eq p parent row_index (get_vertex p parent).m_column
    (get_vertex p parent).m_offset (get_vertex p parent).m_neg hp
  have hv : get_vertex (attach p parent row_index (get_vertex p parent).m_column
      (get_vertex p parent).m_offset (get_vertex p parent).m_neg) p.m_verts.length =
      ⟨row_index, (get_vertex p parent).m_column, [], (get_vertex p parent).m_offset,
        some parent, (get_vertex p parent).m_level + 1, (get_vertex p parent).m_neg⟩ := by
    have := get_vertex_append_last
      (attach p parent row_index (get_vertex p parent).m_column
        (get_vertex p parent).m_offset (get_vertex p parent).m_neg)
      (p.m_verts.set parent ((get_vertex p parent).push_child p.m_verts.length)) _
      (by rw [hA])
    simpa using this
  have h1 : add_child_from_row m row_index parent p =
      (add_child_from_row_continue p.m_verts.length
        (normalize_row x y k
          (get_vertex (attach p parent row_index (get_vertex p parent).m_column
            (get_vertex p parent).m_offset (get_vertex p parent).m_neg)
            p.m_verts.length).m_column).1
        (normalize_row x y k
          (get_vertex (attach p parent row_index (get_vertex p parent).m_column
            (get_vertex p parent).m_offset (get_vertex p parent).m_neg)
            p.m_verts.length).m_column).2
        (attach p parent row_index (get_vertex p parent).m_column
          (get_vertex p parent).m_offset (get_vertex p parent).m_neg),
       some p.m_verts.length) := by
    unfold add_child_from_row
    rw [h]
    dsimp only
    rw [if_neg (by simp [hy])]
    rfl
  rw [h1, add_child_from_row_continue_eq, hv]
  dsimp only
  have hlen : p.m_verts.length < (attach p parent row_index (get_vertex p parent).m_column
      (get_vertex p parent).m_offset (get_vertex p parent).m_neg).m_verts.length := by
    rw [hA]; simp
  rw [attach_eq _ _ _ _ _ _ hlen, hv]
  have hfp : fixed_phase (attach p parent row_index (get_vertex p parent).m_column
      (get_vertex p parent).m_offset (get_vertex p parent).m_neg) = fixed_phase p := rfl
  rw [hfp, hA]
  simp [vertex.push_child]

theorem get_vertex_eq_getD (q : lp_bound_propagator) (l : List vertex) (h : q.m_verts = l)
    (i : Nat) : get_vertex q i = l.getD i default := by
  unfold get_vertex
  rw [h]

/-- The vertices after attaching a new one. -/
theorem get_vertex_attach (p : lp_bound_propagator) (parent row column : Nat) (offset : ℚ)
    (neg : Bool) (hp : parent < p.m_verts.length) (i : Nat) :
    get_vertex (attach p parent row column offset neg) i =
      if i = p.m_verts.length then
        ⟨row, column, [], offset, some parent, (get_vertex p parent).m_level + 1, neg⟩
      else if i = parent then (get_vertex p parent).push_child p.m_verts.length
      else get_vertex p i := by
  rw [get_vertex_eq_getD _ _ (by rw [attach_eq p parent row column offset neg hp]) i]
  by_cases h1 : i = p.m_verts.length
  · subst h1
    simp [List.getD_eq_getElem?_getD, List.getElem?_append]
  · rw [if_neg h1]
    by_cases h2 : i = parent
    · subst h2
      simp [List.getD_eq_getElem?_getD, List.getElem?_append, hp, List.getElem?_set]
    · rw [if_neg h2]
      by_cases h3 : i < p.m_verts.length
      · rw [get_vertex_eq_getD p _ rfl i]
        simp [List.getD_eq_getElem?_getD, List.getElem?_append, h3, List.getElem?_set,
          Ne.symm h2]
      · have h4 : p.m_verts.length + 1 ≤ i := by omega
        rw [get_vertex_of_length_le p i (by omega)]
        rw [List.getD_eq_getElem?_getD, List.getElem?_eq_none (by simp; omega)]
        rfl

theorem attach_length (p : lp_bound_propagator) (parent row column : Nat) (offset : ℚ)
    (neg : Bool) :
    (attach p parent row column offset neg).m_verts.length = p.m_verts.length + 1 := by
  simp [attach, add_child, alloc_v, set_vertex]

theorem add_child_from_row_none (m : imp) (row_index parent : Nat) (p : lp_bound_propagator)
    (h : is_tree_offset_row m.lp row_index = none) :
    add_child_from_row m row_index parent p = (p, none) := by
  unfold add_child_from_row
  rw [h]

/-- The state after `add_child_from_row` in fixed phase on a row with one free column. -/
theorem add_child_from_row_one_fixed (m : imp) (row_index parent : Nat)
    (p : lp_bound_propagator) (x y : signed_column) (k : ℚ)
    (h : is_tree_offset_row m.lp row_index = some (x, y, k))
    (hy : y.not_set = true) (hf : fixed_phase p = true) :
    add_child_from_row m row_index parent p =
      (attach p parent row_index x.m_column (if x.m_sign then k else -k) false,
       some p.m_verts.length) := by
  unfold add_child_from_row
  rw [h]
  dsimp only
  rw [if_pos hy, if_pos hf]
  rfl

/-- The state after `add_child_from_row` in free phase on a row with one free column:
the new vertex copies the offset of the parent, then the tree is switched. -/
theorem add_child_from_row_one_free (m : imp) (row_index parent : Nat)
    (p : lp_bound_propagator) (x y : signed_column) (k : ℚ)
    (h : is_tree_offset_row m.lp row_index = some (x, y, k))
    (hy : y.not_set = true) (hf : fixed_phase p = false) (hp : parent < p.m_verts.length) :
    add_child_from_row m row_index parent p =
      (match p.m_root with
       | some root =>
         switch_to_fixed_mode_in_tree root
           ((if x.m_sign then k else -k) - (get_vertex p parent).m_offset)
           { attach p parent row_index x.m_column (get_vertex p parent).m_offset false with
             m_fixed_vertex := some p.m_verts.length }
       | none =>
         { attach p parent row_index x.m_column (get_vertex p parent).m_offset false with
           m_fixed_vertex := some p.m_verts.length },
       some p.m_verts.length) := by
  have hf2 : ¬ (fixed_phase p = true) := by simp [hf]
  have hpo : (get_vertex
      { attach p parent row_index x.m_column (get_vertex p parent).m_offset false with
        m_fixed_vertex := some p.m_verts.length } parent).m_offset =
      (get_vertex p parent).m_offset := by
    have : get_vertex
        { attach p parent row_index x.m_column (get_vertex p parent).m_offset false with
          m_fixed_vertex := some p.m_verts.length } parent =
        get_vertex (attach p parent row_index x.m_column (get_vertex p parent).m_offset false)
          parent := rfl
    rw [this, get_vertex_attach p parent _ _ _ _ hp, if_neg (Nat.ne_of_lt hp), if_pos rfl]
    rfl
  have h1 : add_child_from_row m row_index parent p =
      (match p.m_root with
       | some root =>
         switch_to_fixed_mode_in_tree root
           ((if x.m_sign then k else -k) - (get_vertex
             { attach p parent row_index x.m_column (get_vertex p parent).m_offset false with
               m_fixed_vertex := some p.m_verts.length } parent).m_offset)
           { attach p parent row_index x.m_column (get_vertex p parent).m_offset false with
             m_fixed_vertex := some p.m_verts.length }
       | none =>
         { attach p parent row_index x.m_column (get_vertex p parent).m_offset false with
           m_fixed_vertex := some p.m_verts.length },
       some p.m_verts.length) := by
    unfold add_child_from_row
    rw [h]
    dsimp only
    rw [if_pos hy, if_neg hf2]
    cases hr : p.m_root with
    | none =>
      have : (add_child { p with
          m_verts := p.m_verts ++ [⟨row_index, x.m_column, [],
            (get_vertex p parent).m_offset, none, 0, false⟩],
          m_fixed_vertex := some p.m_verts.length } parent p.m_verts.length).m_root = none := hr
      simp only [alloc_v]
      rw [this]
      rfl
    | some root =>
      have : (add_child { p with
          m_verts := p.m_verts ++ [⟨row_index, x.m_column, [],
            (get_vertex p parent).m_offset, none, 0, false⟩],
          m_fixed_vertex := some p.m_verts.length } parent p.m_verts.length).m_root =
          some root := hr
      simp only [alloc_v]
      rw [this]
      rfl
  rw [h1, hpo]

/-! ## The offsets and signs of new vertices -/

theorem sign_value_ne_zero (b : Bool) : sign_value b ≠ 0 := by
  cases b <;> simp [sign_value]

/-- The normalised row: the linear form of the row is, up to the sign of the parent's
column, the parent's column plus the signed other column plus the normalised offset. -/
theorem normalize_row_value (s : lar_solver) (r : Nat) (x y : signed_column) (k : ℚ)
    (val : Nat → ℚ) (pc : Nat) (hwf : row_wf (s.get_row r))
    (h : is_tree_offset_row s r = some (x, y, k)) (hy : y.not_set = false)
    (hfix : at_fixed_bounds s val (s.get_row r))
    (hcol : x.m_column = pc ∨ y.m_column = pc) :
    row_value val (s.get_row r) =
      sign_value (parent_sign x y pc) *
        (val pc + sign_value (normalize_row x y k pc).1.m_sign *
          val (normalize_row x y k pc).1.m_column + (normalize_row x y k pc).2) := by
  rw [(is_tree_offset_row_value s r x y k val hwf h hfix).2 hy]
  obtain ⟨sx, cx⟩ := x
  obtain ⟨sy, cy⟩ := y
  simp only at hcol
  unfold normalize_row parent_sign
  by_cases hc : cy = pc
  · subst hc
    cases sx <;> cases sy <;> simp [sign_value] <;> ring
  · have hx : cx = pc := hcol.resolve_right hc
    subst hx
    cases sx <;> cases sy <;> simp [sign_value, hc] <;> ring

theorem getD_append_at {α : Type} (l r : List α) (d : α) (i : Nat) :
    (l ++ r).getD (l.length + i) d = r.getD i d := by
  rw [List.getD_eq_getElem?_getD, List.getD_eq_getElem?_getD,
    List.getElem?_append_right (Nat.le_add_right _ _), Nat.add_sub_cancel_left]

theorem getD_append_lt {α : Type} (l r : List α) (d : α) (i : Nat) (h : i < l.length) :
    (l ++ r).getD i d = l.getD i d := by
  rw [List.getD_eq_getElem?_getD, List.getD_eq_getElem?_getD, List.getElem?_append_left h]

theorem getD_set_self {α : Type} (l : List α) (d a : α) (i : Nat) (h : i < l.length) :
    (l.set i a).getD i d = a := by
  rw [List.getD_eq_getElem?_getD, List.getElem?_set]
  simp [h]

theorem getD_set_ne {α : Type} (l : List α) (d a : α) (i j : Nat) (h : i ≠ j) :
    (l.set i a).getD j d = l.getD j d := by
  rw [List.getD_eq_getElem?_getD, List.getD_eq_getElem?_getD, List.getElem?_set]
  simp [h]

/-- The vertices after `add_child_from_row` on a row with two free columns. -/
theorem get_vertex_add_child_from_row_two (m : imp) (row_index parent : Nat)
    (p : lp_bound_propagator) (x y : signed_column) (k : ℚ)
    (h : is_tree_offset_row m.lp row_index = some (x, y, k))
    (hy : y.not_set = false) (hp : parent < p.m_verts.length) :
    (add_child_from_row m row_index parent p).2 = some p.m_verts.length ∧
    (add_child_from_row m row_index parent p).1.m_verts.length = p.m_verts.length + 2 ∧
    get_vertex (add_child_from_row m row_index parent p).1 p.m_verts.length =
      ⟨row_index, (get_vertex p parent).m_column, [p.m_verts.length + 1],
        (get_vertex p parent).m_offset, some parent, (get_vertex p parent).m_level + 1,
        (get_vertex p parent).m_neg⟩ ∧
    get_vertex (add_child_from_row m row_index parent p).1 (p.m_verts.length + 1) =
      ⟨row_index, (normalize_row x y k (get_vertex p parent).m_column).1.m_column, [],
        child_offset (fixed_phase p) (get_vertex p parent).m_offset
          (get_vertex p parent).m_neg
          (normalize_row x y k (get_vertex p parent).m_column).1.m_sign
          (normalize_row x y k (get_vertex p parent).m_column).2,
        some p.m_verts.length, (get_vertex p parent).m_level + 2,
        child_neg (fixed_phase p) (get_vertex p parent).m_neg
          (normalize_row x y k (get_vertex p parent).m_column).1.m_sign⟩ ∧
    get_vertex (add_child_from_row m row_index parent p).1 parent =
      (get_vertex p parent).push_child p.m_verts.length ∧
    (∀ i, i < p.m_verts.length → i ≠ parent →
      get_vertex (add_child_from_row m row_index parent p).1 i = get_vertex p i) := by
  have h2 := add_child_from_row_two m row_index parent p x y k h hy hp
  have hls : (p.m_verts.set parent
      ((get_vertex p parent).push_child p.m_verts.length)).length = p.m_verts.length :=
    List.length_set _ _ _
  refine ⟨?_, ?_, ?_, ?_, ?_, ?_⟩
  · rw [h2]
  · rw [h2]; simp
  · rw [h2, get_vertex_eq_getD _ _ rfl]
    have := getD_append_at (p.m_verts.set parent
      ((get_vertex p parent).push_child p.m_verts.length))
      [(⟨row_index, (get_vertex p parent).m_column, [p.m_verts.length + 1],
        (get_vertex p parent).m_offset, some parent, (get_vertex p parent).m_level + 1,
        (get_vertex p parent).m_neg⟩ : vertex),
       ⟨row_index, (normalize_row x y k (get_vertex p parent).m_column).1.m_column, [],
        child_offset (fixed_phase p) (get_vertex p parent).m_offset
          (get_vertex p parent).m_neg
          (normalize_row x y k (get_vertex p parent).m_column).1.m_sign
          (normalize_row x y k (get_vertex p parent).m_column).2,
        some p.m_verts.length, (get_vertex p parent).m_level + 2,
        child_neg (fixed_phase p) (get_vertex p parent).m_neg
          (normalize_row x y k (get_vertex p parent).m_column).1.m_sign⟩] default 0
    rw [hls] at this
    exact this
  · rw [h2, get_vertex_eq_getD _ _ rfl]
    have := getD_append_at (p.m_verts.set parent
      ((get_vertex p parent).push_child p.m_verts.length))
      [(⟨row_index, (get_vertex p parent).m_column, [p.m_verts.length + 1],
        (get_vertex p parent).m_offset, some parent, (get_vertex p parent).m_level + 1,
        (get_vertex p parent).m_neg⟩ : vertex),
       ⟨row_index, (normalize_row x y k (get_vertex p parent).m_column).1.m_column, [],
        child_offset (fixed_phase p) (get_vertex p parent).m_offset
          (get_vertex p parent).m_neg
          (normalize_row x y k (get_vertex p parent).m_column).1.m_sign
          (normalize_row x y k (get_vertex p parent).m_column).2,
        some p.m_verts.length, (get_vertex p parent).m_level + 2,
        child_neg (fixed_phase p) (get_vertex p parent).m_neg
          (normalize_row x y k (get_vertex p parent).m_column).1.m_sign⟩] default 1
    rw [hls] at this
    exact this
  · rw [h2, get_vertex_eq_getD _ _ rfl, getD_append_lt _ _ _ _ (by rw [hls]; exact hp),
      getD_set_self _ _ _ _ hp]
  · intro i hi hne
    rw [h2, get_vertex_eq_getD _ _ rfl, getD_append_lt _ _ _ _ (by rw [hls]; exact hi),
      getD_set_ne _ _ _ _ _ (Ne.symm hne)]
    rfl

/-- C22: in free phase, for a row with two free columns handed to
`add_child_from_row(row, parent)` from a valid parent whose column is one of the two:
the row is normalised to `x' + s*y + k = 0` with the parent's column `x'` at coefficient
`+1` (its linear form is that of the normalised row up to the original sign of `x'`);
the call returns the new vertex at the end of the arena, a copy of the parent's column,
offset and `neg` in the new row, attached under the parent; below it comes the vertex of
`y` with offset `parent.neg ? (-parent.offset - k) : (parent.offset + k)` and
`neg = parent.neg XOR sign(y)`, where `sign(y)` is set exactly when the normalised
coefficient `s` is `-1`; the other vertices are as before. -/
theorem add_child_from_row_free_phase (m : imp) (row_index parent : Nat)
    (p : lp_bound_propagator) (x y : signed_column) (k : ℚ)
    (hwf : row_wf (m.lp.get_row row_index))
    (h : is_tree_offset_row m.lp row_index = some (x, y, k))
    (hy : y.not_set = false) (hfree : fixed_phase p = false)
    (hp : parent < p.m_verts.length)
    (hcol : x.m_column = (get_vertex p parent).m_column ∨
      y.m_column = (get_vertex p parent).m_column) :
    (∀ val, at_fixed_bounds m.lp val (m.lp.get_row row_index) →
      row_value val (m.lp.get_row row_index) =
        sign_value (parent_sign x y (get_vertex p parent).m_column) *
          (val (get_vertex p parent).m_column +
            sign_value (normalize_row x y k (get_vertex p parent).m_column).1.m_sign *
              val (normalize_row x y k (get_vertex p parent).m_column).1.m_column +
            (normalize_row x y k (get_vertex p parent).m_column).2)) ∧
    (sign_value (normalize_row x y k (get_vertex p parent).m_column).1.m_sign = -1 ↔
      (normalize_row x y k (get_vertex p parent).m_column).1.m_sign = true) ∧
    (add_child_from_row m row_index parent p).2 = some p.m_verts.length ∧
    (add_child_from_row m row_index parent p).1.m_verts.length = p.m_verts.length + 2 ∧
    get_vertex (add_child_from_row m row_index parent p).1 p.m_verts.length =
      ⟨row_index, (get_vertex p parent).m_column, [p.m_verts.length + 1],
        (get_vertex p parent).m_offset, some parent, (get_vertex p parent).m_level + 1,
        (get_vertex p parent).m_neg⟩ ∧
    get_vertex (add_child_from_row m row_index parent p).1 (p.m_verts.length + 1) =
      ⟨row_index, (normalize_row x y k (get_vertex p parent).m_column).1.m_column, [],
        (if (get_vertex p parent).m_neg
          then -(get_vertex p parent).m_offset -
            (normalize_row x y k (get_vertex p parent).m_column).2
          else (get_vertex p parent).m_offset +
            (normalize_row x y k (get_vertex p parent).m_column).2),
        some p.m_verts.length, (get_vertex p parent).m_level + 2,
        xor (get_vertex p parent).m_neg
          (normalize_row x y k (get_vertex p parent).m_column).1.m_sign⟩ ∧
    get_vertex (add_child_from_row m row_index parent p).1 parent =
      (get_vertex p parent).push_child p.m_verts.length ∧
    (∀ i, i < p.m_verts.length → i ≠ parent →
      get_vertex (add_child_from_row m row_index parent p).1 i = get_vertex p i) := by
  obtain ⟨g1, g2, g3, g4, g5, g6⟩ :=
    get_vertex_add_child_from_row_two m row_index parent p x y k h hy hp
  refine ⟨fun val hfix => normalize_row_value m.lp row_index x y k val _ hwf h hy hfix hcol,
    ?_, g1, g2, g3, ?_, g5, g6⟩
  · cases (normalize_row x y k (get_vertex p parent).m_column).1.m_sign <;>
      norm_num [sign_value]
  · rw [g4]
    simp [child_offset, child_neg, hfree]

theorem tableau_h_row1 :
    is_tree_offset_row imp_h.lp 1 = some (⟨false, 1⟩, ⟨true, 2⟩, 0) := by
  decide!

theorem tableau_h_wf (r : Nat) : row_wf (imp_h.lp.get_row r) := by
  intro c hc
  rcases r with _ | _ | r <;>
    simp [imp_h, tableau_h, lar_solver.get_row] at hc
  · rcases hc with rfl | rfl <;> simp [null_lpvar]
  · rcases hc with rfl | rfl <;> simp [null_lpvar]

/-- On `tableau_h`, expanding the row `x1 - x2 = 0` from the vertex of `x2` (offset 0,
`neg` clear) makes the copy of that vertex and, below it, the vertex of `x1` with offset 0
and `neg` set. -/
theorem add_child_from_row_free_phase_witness :
    is_tree_offset_row imp_h.lp 1 = some (⟨false, 1⟩, ⟨true, 2⟩, 0) ∧
    fixed_phase tree_h = false ∧
    get_vertex (add_child_from_row imp_h 1 1 tree_h).1 2 =
      ⟨1, 2, [3], 0, some 1, 2, false⟩ ∧
    get_vertex (add_child_from_row imp_h 1 1 tree_h).1 3 =
      ⟨1, 1, [], 0, some 2, 3, true⟩ :=
  ⟨tableau_h_row1, rfl,
   (add_child_from_row_free_phase imp_h 1 1 tree_h ⟨false, 1⟩ ⟨true, 2⟩ 0 (tableau_h_wf 1)
      tableau_h_row1 rfl rfl (by decide) (Or.inr rfl)).2.2.2.2.1.trans (by decide!),
   (add_child_from_row_free_phase imp_h 1 1 tree_h ⟨false, 1⟩ ⟨true, 2⟩ 0 (tableau_h_wf 1)
      tableau_h_row1 rfl rfl (by decide) (Or.inr rfl)).2.2.2.2.2.1.trans (by decide!)⟩

/-- C24: in fixed phase, from a valid parent with `neg` clear whose offset is the value
of its column under an assignment that satisfies the new row with the fixed columns at
their bounds, every vertex that `add_child_from_row` creates has `neg = false` and its
offset is the value of its column: for a row with two free columns (the parent's column
being one of them) the copy of the parent and the vertex of the other column `y`, whose
offset is `sign(y) ? (parent.offset + k) : (-parent.offset - k)` after normalisation; for
a row with one free column the single new vertex, whose offset is the value
`-k / coefficient` that the row forces. -/
theorem add_child_from_row_fixed_phase (m : imp) (row_index parent : Nat)
    (p : lp_bound_propagator) (x y : signed_column) (k : ℚ) (val : Nat → ℚ)
    (hwf : row_wf (m.lp.get_row row_index))
    (h : is_tree_offset_row m.lp row_index = some (x, y, k))
    (hfixed : fixed_phase p = true) (hp : parent < p.m_verts.length)
    (hbounds : at_fixed_bounds m.lp val (m.lp.get_row row_index))
    (hrow : row_value val (m.lp.get_row row_index) = 0)
    (hneg : (get_vertex p parent).m_neg = false)
    (hoff : (get_vertex p parent).m_offset = val (get_vertex p parent).m_column)
    (hcol : y.not_set = false → x.m_column = (get_vertex p parent).m_column ∨
      y.m_column = (get_vertex p parent).m_column) :
    (add_child_from_row m row_index parent p).2 = some p.m_verts.length ∧
    (y.not_set = false →
      (add_child_from_row m row_index parent p).1.m_verts.length = p.m_verts.length + 2 ∧
      (get_vertex (add_child_from_row m row_index parent p).1 p.m_verts.length).m_neg
        = false ∧
      (get_vertex (add_child_from_row m row_index parent p).1 p.m_verts.length).m_offset =
        val (get_vertex (add_child_from_row m row_index parent p).1
          p.m_verts.length).m_column ∧
      (get_vertex (add_child_from_row m row_index parent p).1 (p.m_verts.length + 1)).m_neg
        = false ∧
      (get_vertex (add_child_from_row m row_index parent p).1
          (p.m_verts.length + 1)).m_column =
        (normalize_row x y k (get_vertex p parent).m_column).1.m_column ∧
      (get_vertex (add_child_from_row m row_index parent p).1
          (p.m_verts.length + 1)).m_offset =
        (if (normalize_row x y k (get_vertex p parent).m_column).1.m_sign
          then (get_vertex p parent).m_offset +
            (normalize_row x y k (get_vertex p parent).m_column).2
          else -(get_vertex p parent).m_offset -
            (normalize_row x y k (get_vertex p parent).m_column).2) ∧
      (get_vertex (add_child_from_row m row_index parent p).1
          (p.m_verts.length + 1)).m_offset =
        val (get_vertex (add_child_from_row m row_index parent p).1
          (p.m_verts.length + 1)).m_column) ∧
    (y.not_set = true →
      (add_child_from_row m row_index parent p).1.m_verts.length = p.m_verts.length + 1 ∧
      (get_vertex (add_child_from_row m row_index parent p).1 p.m_verts.length).m_neg
        = false ∧
      (get_vertex (add_child_from_row m row_index parent p).1 p.m_verts.length).m_column =
        x.m_column ∧
      (get_vertex (add_child_from_row m row_index parent p).1 p.m_verts.length).m_offset =
        -k / sign_value x.m_sign ∧
      (get_vertex (add_child_from_row m row_index parent p).1 p.m_verts.length).m_offset =
        val x.m_column) := by
  cases hy : y.not_set with
  | false =>
    obtain ⟨g1, g2, g3, g4, -, -⟩ :=
      get_vertex_add_child_from_row_two m row_index parent p x y k h hy hp
    have hv := normalize_row_value m.lp row_index x y k val _ hwf h hy hbounds (hcol hy)
    rw [hrow] at hv
    have hv2 := (mul_eq_zero.mp hv.symm).resolve_left (sign_value_ne_zero _)
    refine ⟨g1, fun _ => ?_, fun hc => (by cases hc)⟩
    rw [g3, g4]
    refine ⟨g2, hneg, hoff, ?_, rfl, ?_, ?_⟩
    · simp [child_neg, hfixed]
    · simp [child_offset, hfixed]
    · simp only [child_offset, hfixed, if_true]
      rw [hoff]
      cases hs : (normalize_row x y k (get_vertex p parent).m_column).1.m_sign
      · rw [hs] at hv2
        simp only [sign_value, Bool.false_eq_true, if_false] at hv2 ⊢
        linarith
      · rw [hs] at hv2
        simp only [sign_value, if_true] at hv2 ⊢
        linarith
  | true =>
    have h1 := add_child_from_row_one_fixed m row_index parent p x y k h hy hfixed
    have hv := (is_tree_offset_row_value m.lp row_index x y k val hwf h hbounds).1 hy
    rw [hrow] at hv
    refine ⟨(by rw [h1]), fun hc => (by cases hc), fun _ => ?_⟩
    rw [h1]
    dsimp only
    rw [get_vertex_attach p parent _ _ _ _ hp, if_pos rfl, attach_length]
    refine ⟨rfl, rfl, rfl, ?_, ?_⟩
    · cases hs : x.m_sign <;> simp [sign_value]
    · cases hs : x.m_sign
      · rw [hs] at hv
        simp only [sign_value, Bool.false_eq_true, if_false] at hv ⊢
        linarith
      · rw [hs] at hv
        simp only [sign_value, if_true] at hv ⊢
        linarith

theorem tableau_e_wf (r : Nat) : row_wf (imp_e.lp.get_row r) := by
  rcases r with _ | _ | r <;>
    simp [row_wf, imp_e, tableau_e, lar_solver.get_row, null_lpvar]

theorem tableau_e_bounds (r : Nat) : at_fixed_bounds imp_e.lp val_e (imp_e.lp.get_row r) := by
  intro c _ hc
  simp only [column_is_fixed, imp_e, tableau_e, Bool.and_eq_true, Bool.or_eq_true,
    beq_iff_eq] at hc
  rcases hc.1 with hj | hj <;>
    norm_num [val_e, get_lower_bound_rational, imp_e, tableau_e, hj]

theorem tableau_e_tree_row1 :
    is_tree_offset_row imp_e.lp 1 = some (⟨false, 1⟩, ⟨true, 2⟩, -5) := by
  decide!

/-- On `tableau_e` in fixed phase, with the root for column 2 at its value 0, expanding
the row `x1 - x2 - x4 = 0` (`x4` fixed at 5) gives the vertex of `x1` the offset 5, the
value of `x1`. -/
theorem add_child_from_row_fixed_phase_witness :
    fixed_phase tree_e = true ∧
    row_value val_e (imp_e.lp.get_row 1) = 0 ∧
    (get_vertex (add_child_from_row imp_e 1 0 tree_e).1 2).m_offset = val_e 1 ∧
    val_e 1 = 5 :=
  ⟨rfl, by norm_num [row_value, val_e, imp_e, tableau_e, lar_solver.get_row],
   ((add_child_from_row_fixed_phase imp_e 1 0 tree_e ⟨false, 1⟩ ⟨true, 2⟩ (-5) val_e
      (tableau_e_wf 1) tableau_e_tree_row1 rfl (by decide) (tableau_e_bounds 1)
      (by norm_num [row_value, val_e, imp_e, tableau_e, lar_solver.get_row]) rfl
      (by norm_num [tree_e, tree_state, get_vertex, val_e])
      (fun _ => Or.inr rfl)).2.1 rfl).2.2.2.2.2.2.trans (by decide!),
   by norm_num [val_e]⟩

/-- The child that `create_root` makes on a row with two free columns satisfies the
free-phase invariant exactly when the first free column has coefficient `+1` or the root
column has the value 0. -/
theorem create_root_child_invariant (m : imp) (row_index : Nat) (p : lp_bound_propagator)
    (x y : signed_column) (k : ℚ) (val : Nat → ℚ)
    (hwf : row_wf (m.lp.get_row row_index))
    (h : is_tree_offset_row m.lp row_index = some (x, y, k)) (hy : y.not_set = false)
    (hbounds : at_fixed_bounds m.lp val (m.lp.get_row row_index))
    (hrow : row_value val (m.lp.get_row row_index) = 0) :
    (create_root m row_index p).m_root = some p.m_verts.length ∧
    get_vertex (create_root m row_index p) p.m_verts.length =
      ⟨row_index, x.m_column, [p.m_verts.length + 1], 0, none, 0, false⟩ ∧
    get_vertex (create_root m row_index p) (p.m_verts.length + 1) =
      ⟨row_index, y.m_column, [], k, some p.m_verts.length, 1, !y.m_sign⟩ ∧
    (free_invariant val x.m_column (get_vertex (create_root m row_index p)
        (p.m_verts.length + 1)) ↔
      (x.m_sign = false ∨ val x.m_column = 0)) := by
  have h2 := create_root_two m row_index p x y k h hy
  have g1 : get_vertex (create_root m row_index p) p.m_verts.length =
      ⟨row_index, x.m_column, [p.m_verts.length + 1], 0, none, 0, false⟩ := by
    rw [h2, get_vertex_eq_getD _ _ rfl]
    exact getD_append_at p.m_verts _ default 0
  have g2 : get_vertex (create_root m row_index p) (p.m_verts.length + 1) =
      ⟨row_index, y.m_column, [], k, some p.m_verts.length, 1, !y.m_sign⟩ := by
    rw [h2, get_vertex_eq_getD _ _ rfl]
    exact getD_append_at p.m_verts _ default 1
  refine ⟨by rw [h2], g1, g2, ?_⟩
  rw [g2]
  have hv := (is_tree_offset_row_value m.lp row_index x y k val hwf h hbounds).2 hy
  rw [hrow] at hv
  unfold free_invariant
  cases hx : x.m_sign <;> cases hys : y.m_sign <;>
    simp only [hx, hys, sign_value, Bool.not_true, Bool.not_false, if_true, if_false,
      Bool.false_eq_true, true_or, false_or, Bool.true_eq_false] at hv ⊢
  · constructor
    · intro _; trivial
    · intro _; linarith
  · constructor
    · intro _; trivial
    · intro _; linarith
  · constructor
    · intro hi; linarith
    · intro h0; rw [h0] at hv ⊢; linarith
  · constructor
    · intro hi; linarith
    · intro h0; rw [h0] at hv ⊢; linarith

theorem tableau_k_wf (r : Nat) : row_wf (imp_k.lp.get_row r) := by
  rcases r with _ | r <;>
    simp [row_wf, imp_k, tableau_k, lar_solver.get_row, null_lpvar]

theorem tableau_k_bounds (r : Nat) : at_fixed_bounds imp_k.lp val_k (imp_k.lp.get_row r) := by
  intro c _ hc
  simp only [column_is_fixed, imp_k, tableau_k, Bool.and_eq_true, beq_iff_eq] at hc
  norm_num [val_k, get_lower_bound_rational, imp_k, tableau_k, hc.1]

/-- C21: whatever the row with two free columns, `create_root` makes the root with
offset 0 and `neg = false` and the child with the offset of the row and `neg = !sign(y)`,
and the child satisfies the free-phase invariant exactly when the first free column has
coefficient `+1` or the root column has the value 0.  On `tableau_k`, whose row 0 is
`-x0 + x1 + x2 = 0` with `x2` fixed at 3, the child for `x1` gets offset 3 and `neg` set,
which reads `-x1 = x0 + 3`, although the solution `val_k` has `x0 = 5` and `x1 = 2`. -/
theorem create_root_breaks_free_invariant :
    (∀ (m : imp) (row_index : Nat) (p : lp_bound_propagator) (x y : signed_column) (k : ℚ)
      (val : Nat → ℚ), row_wf (m.lp.get_row row_index) →
      is_tree_offset_row m.lp row_index = some (x, y, k) → y.not_set = false →
      at_fixed_bounds m.lp val (m.lp.get_row row_index) →
      row_value val (m.lp.get_row row_index) = 0 →
      (create_root m row_index p).m_root = some p.m_verts.length ∧
      get_vertex (create_root m row_index p) p.m_verts.length =
        ⟨row_index, x.m_column, [p.m_verts.length + 1], 0, none, 0, false⟩ ∧
      get_vertex (create_root m row_index p) (p.m_verts.length + 1) =
        ⟨row_index, y.m_column, [], k, some p.m_verts.length, 1, !y.m_sign⟩ ∧
      (free_invariant val x.m_column (get_vertex (create_root m row_index p)
          (p.m_verts.length + 1)) ↔
        (x.m_sign = false ∨ val x.m_column = 0))) ∧
    free_cells imp_k.lp (imp_k.lp.get_row 0) = [⟨0, -1⟩, ⟨1, 1⟩] ∧
    row_value val_k (imp_k.lp.get_row 0) = 0 ∧
    at_fixed_bounds imp_k.lp val_k (imp_k.lp.get_row 0) ∧
    (create_root imp_k 0 { lp_bound_propagator.ctor with m_visited_rows := [0] }).m_verts =
      [⟨0, 0, [1], 0, none, 0, false⟩, ⟨0, 1, [], 3, some 0, 1, true⟩] ∧
    val_k 0 = 5 ∧ val_k 1 = 2 ∧
    ¬ free_invariant val_k 0 ⟨0, 1, [], 3, some 0, 1, true⟩ := by
  refine ⟨fun m row_index p x y k val hwf h hy hb hr =>
    create_root_child_invariant m row_index p x y k val hwf h hy hb hr, ?_, ?_,
    tableau_k_bounds 0, by decide!, by norm_num [val_k], by norm_num [val_k], ?_⟩
  · simp [free_cells, imp_k, tableau_k, lar_solver.get_row, column_is_fixed]
  · norm_num [row_value, val_k, imp_k, tableau_k, lar_solver.get_row]
  · norm_num [free_invariant, val_k]

/-- In free phase the copy of the parent keeps the free-phase invariant, and the vertex
of the other column has it exactly when the value of that column is 0 (parent with `neg`
clear) or the value of the root column is the normalised offset (parent with `neg`
set). -/
theorem add_child_from_row_child_invariant (m : imp) (row_index parent : Nat)
    (p : lp_bound_propagator) (x y : signed_column) (k : ℚ) (val : Nat → ℚ)
    (root_column : Nat)
    (hwf : row_wf (m.lp.get_row row_index))
    (h : is_tree_offset_row m.lp row_index = some (x, y, k))
    (hy : y.not_set = false) (hfree : fixed_phase p = false)
    (hp : parent < p.m_verts.length)
    (hcol : x.m_column = (get_vertex p parent).m_column ∨
      y.m_column = (get_vertex p parent).m_column)
    (hbounds : at_fixed_bounds m.lp val (m.lp.get_row row_index))
    (hrow : row_value val (m.lp.get_row row_index) = 0)
    (hinv : free_invariant val root_column (get_vertex p parent)) :
    free_invariant val root_column
      (get_vertex (add_child_from_row m row_index parent p).1 p.m_verts.length) ∧
    (free_invariant val root_column
        (get_vertex (add_child_from_row m row_index parent p).1 (p.m_verts.length + 1)) ↔
      (if (get_vertex p parent).m_neg
        then val root_column = (normalize_row x y k (get_vertex p parent).m_column).2
        else val (normalize_row x y k (get_vertex p parent).m_column).1.m_column = 0)) := by
  obtain ⟨-, -, g3, g4, -, -⟩ :=
    get_vertex_add_child_from_row_two m row_index parent p x y k h hy hp
  have hv := normalize_row_value m.lp row_index x y k val _ hwf h hy hbounds hcol
  rw [hrow] at hv
  have hv2 := (mul_eq_zero.mp hv.symm).resolve_left (sign_value_ne_zero _)
  rw [g3, g4]
  unfold free_invariant at hinv ⊢
  cases hn : (get_vertex p parent).m_neg <;>
    cases hs : (normalize_row x y k (get_vertex p parent).m_column).1.m_sign <;>
    simp only [hn, hs, sign_value, child_offset, child_neg, hfree, if_true, if_false,
      Bool.false_eq_true, Bool.xor_false, Bool.xor_true, Bool.not_false, Bool.not_true,
      true_and] at hinv hv2 ⊢
  · exact ⟨hinv, fun hi => (by linarith), fun h0 => (by linarith)⟩
  · exact ⟨hinv, fun hi => (by linarith), fun h0 => (by linarith)⟩
  · exact ⟨hinv, fun hi => (by linarith), fun h0 => (by linarith)⟩
  · exact ⟨hinv, fun hi => (by linarith), fun h0 => (by linarith)⟩

theorem tableau_l_wf (r : Nat) : row_wf (imp_l.lp.get_row r) := by
  rcases r with _ | _ | r <;>
    simp [row_wf, imp_l, tableau_l, lar_solver.get_row, null_lpvar]

theorem tableau_l_bounds (r : Nat) : at_fixed_bounds imp_l.lp val_l (imp_l.lp.get_row r) := by
  intro c _ hc
  simp [column_is_fixed, imp_l, tableau_l] at hc

/-- C23: in free phase, for a new row with two free columns, the copy of the parent
that `add_child_from_row` makes keeps the free-phase invariant, but the vertex of the
other column has it only when the value of that column is 0 (parent with `neg` clear) or
the value of the root column is the normalised offset (parent with `neg` set).  On
`tableau_l`, rows `x0 - x1 = 0` and `x0 + x2 = 0`, under the solution `val_l`
(`x0 = x1 = 1`, `x2 = -1`): the two vertices of the seed row satisfy the invariant,
expanding row 1 from the root gives the vertex of `x2` offset 0 with `neg` clear, which
reads `x2 = x0`; and the whole call `cheap_eq_tree(0)` reports the pair `(0, 2)`. -/
theorem add_child_from_row_breaks_free_invariant (fuel : Nat) :
    (∀ (m : imp) (row_index parent : Nat) (p : lp_bound_propagator) (x y : signed_column)
      (k : ℚ) (val : Nat → ℚ) (root_column : Nat),
      row_wf (m.lp.get_row row_index) →
      is_tree_offset_row m.lp row_index = some (x, y, k) → y.not_set = false →
      fixed_phase p = false → parent < p.m_verts.length →
      (x.m_column = (get_vertex p parent).m_column ∨
        y.m_column = (get_vertex p parent).m_column) →
      at_fixed_bounds m.lp val (m.lp.get_row row_index) →
      row_value val (m.lp.get_row row_index) = 0 →
      free_invariant val root_column (get_vertex p parent) →
      free_invariant val root_column
        (get_vertex (add_child_from_row m row_index parent p).1 p.m_verts.length) ∧
      (free_invariant val root_column
          (get_vertex (add_child_from_row m row_index parent p).1 (p.m_verts.length + 1)) ↔
        (if (get_vertex p parent).m_neg
          then val root_column = (normalize_row x y k (get_vertex p parent).m_column).2
          else val (normalize_row x y k (get_vertex p parent).m_column).1.m_column = 0))) ∧
    row_value val_l (imp_l.lp.get_row 0) = 0 ∧
    row_value val_l (imp_l.lp.get_row 1) = 0 ∧
    tree_l.m_verts =
      (create_root imp_l 0 { lp_bound_propagator.ctor with m_visited_rows := [0] }).m_verts ∧
    fixed_phase tree_l = false ∧
    (∀ v ∈ tree_l.m_verts, free_invariant val_l 0 v) ∧
    (add_child_from_row imp_l 1 0 tree_l).1.m_verts =
      [⟨0, 0, [1, 2], 0, none, 0, false⟩, ⟨0, 1, [], 0, some 0, 1, false⟩,
       ⟨1, 0, [3], 0, some 0, 1, false⟩, ⟨1, 2, [], 0, some 2, 2, false⟩] ∧
    ¬ free_invariant val_l 0 ⟨1, 2, [], 0, some 2, 2, false⟩ ∧
    (cheap_eq_tree imp_l (fuel + 4) 0 lp_bound_propagator.ctor).m_eqs =
      [⟨0, 2, []⟩, ⟨0, 1, []⟩, ⟨0, 2, []⟩] ∧
    val_l 0 ≠ val_l 2 := by
  refine ⟨fun m row_index parent p x y k val root_column hwf h hy hf hp hc hb hr hi =>
    add_child_from_row_child_invariant m row_index parent p x y k val root_column hwf h hy
      hf hp hc hb hr hi, ?_, ?_, by decide!, rfl, ?_, by decide!, ?_, ?_, ?_⟩
  · norm_num [row_value, val_l, imp_l, tableau_l, lar_solver.get_row]
  · norm_num [row_value, val_l, imp_l, tableau_l, lar_solver.get_row]
  · intro v hv
    simp only [tree_l, tree_state, List.mem_cons, List.mem_singleton, List.not_mem_nil,
      or_false] at hv
    rcases hv with rfl | rfl <;> norm_num [free_invariant, val_l]
  · norm_num [free_invariant, val_l]
  · rw [Nat.add_comm fuel 4, cheap_eq_tree_fuel imp_l 4 0 _ (by decide!) fuel]
    decide!
  · norm_num [val_l]

/-! ## The switch below a parent with `neg` set -/

theorem tableau_n_bounds (r : Nat) : at_fixed_bounds imp_n.lp val_n (imp_n.lp.get_row r) := by
  intro c _ hc
  simp only [column_is_fixed, imp_n, tableau_n, Bool.and_eq_true, beq_iff_eq] at hc
  norm_num [val_n, get_lower_bound_rational, imp_n, tableau_n, hc.1]

/-- C25: on `tableau_n`, rows `x0 + x1 = 0` and `x1 - x2 = 0` with `x2` fixed at 5,
under the only solution `val_n` (`x0 = -5`, `x1 = 5`): the tree of the seed row 0 is in
free phase, both its vertices satisfy the free-phase invariant, and the child for `x1`
has `neg` set.  Row 1 constrains `x1` alone; expanding it from that child switches the
tree with the delta `offs - parent.offset = 5`, which does not take `parent.neg` into
account: afterwards every vertex has `neg = false`, but the root holds offset `5` for
`x0 = -5` and the parent holds offset `-5` for `x1 = 5`; only the new vertex holds the
value of its column. -/
theorem add_child_from_row_switch_wrong_sign :
    row_value val_n (imp_n.lp.get_row 0) = 0 ∧
    row_value val_n (imp_n.lp.get_row 1) = 0 ∧
    at_fixed_bounds imp_n.lp val_n (imp_n.lp.get_row 0) ∧
    at_fixed_bounds imp_n.lp val_n (imp_n.lp.get_row 1) ∧
    tree_n.m_verts =
      (create_root imp_n 0 { lp_bound_propagator.ctor with m_visited_rows := [0] }).m_verts ∧
    fixed_phase tree_n = false ∧
    (∀ v ∈ tree_n.m_verts, free_invariant val_n 0 v) ∧
    (get_vertex tree_n 1).m_neg = true ∧
    free_cells imp_n.lp (imp_n.lp.get_row 1) = [⟨1, 1⟩] ∧
    (get_vertex tree_n 1).m_column = 1 ∧
    (add_child_from_row imp_n 1 1 tree_n).1.m_verts =
      [⟨0, 0, [1], 5, none, 0, false⟩, ⟨0, 1, [2], -5, some 0, 1, false⟩,
       ⟨1, 1, [], 5, some 1, 2, false⟩] ∧
    val_n 0 = -5 ∧ val_n 1 = 5 := by
  refine ⟨?_, ?_, tableau_n_bounds 0, tableau_n_bounds 1, by decide!, rfl, ?_, rfl, ?_, rfl,
    by decide!, by norm_num [val_n], by norm_num [val_n]⟩
  · norm_num [row_value, val_n, imp_n, tableau_n, lar_solver.get_row]
  · norm_num [row_value, val_n, imp_n, tableau_n, lar_solver.get_row]
  · intro v hv
    simp only [tree_n, tree_state, List.mem_cons, List.mem_singleton, List.not_mem_nil,
      or_false] at hv
    rcases hv with rfl | rfl <;> norm_num [free_invariant, val_n]
  · simp [free_cells, imp_n, tableau_n, lar_solver.get_row, column_is_fixed]

/-! ## Invariants along the traversal -/

theorem same_tree_refl (p : lp_bound_propagator) : same_tree p p := ⟨rfl, rfl, rfl, rfl, rfl⟩

theorem same_tree_trans {p q r : lp_bound_propagator} (h1 : same_tree p q)
    (h2 : same_tree q r) : same_tree p r :=
  ⟨h2.1.trans h1.1, h2.2.1.trans h1.2.1, h2.2.2.1.trans h1.2.2.1,
    h2.2.2.2.1.trans h1.2.2.2.1, h2.2.2.2.2.trans h1.2.2.2.2⟩

theorem report_eq_same_tree (m : imp) (u v : Nat) (p : lp_bound_propagator) :
    same_tree p (report_eq m u v p) := by
  unfold report_eq
  split <;> exact ⟨rfl, rfl, rfl, rfl, rfl⟩

theorem try_add_equation_with_fixed_tables_same_tree (m : imp) (v : Nat)
    (p : lp_bound_propagator) :
    same_tree p (try_add_equation_with_fixed_tables m v p) := by
  unfold try_add_equation_with_fixed_tables
  split
  · exact same_tree_refl p
  · split
    · exact same_tree_refl p
    · split <;> exact ⟨rfl, rfl, rfl, rfl, rfl⟩

theorem check_for_eq_and_add_to_offset_table_same_tree (m : imp) (v : Nat) (t : Bool)
    (p : lp_bound_propagator) :
    same_tree p (check_for_eq_and_add_to_offset_table m v t p) := by
  unfold check_for_eq_and_add_to_offset_table
  split
  · split_ifs
    · exact report_eq_same_tree m _ _ p
    · exact same_tree_refl p
  · split_ifs <;> exact ⟨rfl, rfl, rfl, rfl, rfl⟩

theorem check_for_eq_and_add_to_offsets_same_tree (m : imp) (v : Nat)
    (p : lp_bound_propagator) :
    same_tree p (check_for_eq_and_add_to_offsets m v p) := by
  unfold check_for_eq_and_add_to_offsets
  split_ifs
  · exact check_for_eq_and_add_to_offset_table_same_tree m v true p
  · exact check_for_eq_and_add_to_offset_table_same_tree m v false p
  · simp only []
    refine same_tree_trans ?_ (check_for_eq_and_add_to_offset_table_same_tree m v false _)
    split
    · split_ifs
      · exact ⟨rfl, rfl, rfl, rfl, rfl⟩
      · exact same_tree_refl p
    · exact same_tree_refl p

/-- The induction along `explore_under`: an invariant `inv` of the state, with a notion
`valid` of the vertices that may be explored, holds after the exploration when the
per-vertex checks, the marking of a column and the expansion of a freshly marked row keep
it. -/
theorem explore_under_invariant (m : imp) (inv : lp_bound_propagator → Prop)
    (valid : lp_bound_propagator → Nat → Prop)
    (hsame : ∀ p q, same_tree p q → inv p → inv q ∧ ∀ u, valid p u → valid q u)
    (hcol : ∀ p c, inv p → c ∉ p.m_visited_columns →
      inv { p with m_visited_columns := c :: p.m_visited_columns } ∧
      ∀ u, valid p u → valid { p with m_visited_columns := c :: p.m_visited_columns } u)
    (hadd : ∀ q v r, inv q → valid q v → r ∉ q.m_visited_rows →
      inv (add_child_from_row m r v { q with m_visited_rows := r :: q.m_visited_rows }).1 ∧
      (∀ u, valid q u → valid
        (add_child_from_row m r v { q with m_visited_rows := r :: q.m_visited_rows }).1 u) ∧
      (∀ u, (add_child_from_row m r v
          { q with m_visited_rows := r :: q.m_visited_rows }).2 = some u →
        valid (add_child_from_row m r v
          { q with m_visited_rows := r :: q.m_visited_rows }).1 u))
    (hch : ∀ p v c, inv p → valid p v → c ∈ (get_vertex p v).m_children → valid p c) :
    ∀ (fuel v : Nat) (p : lp_bound_propagator), inv p → valid p v →
      inv (explore_under m fuel v p) ∧ ∀ u, valid p u → valid (explore_under m fuel v p) u := by
  intro fuel
  induction fuel with
  | zero => intro v p hi _; exact ⟨hi, fun _ h => h⟩
  | succ n ih =>
    intro v p hi hv
    rw [explore_under]
    -- the two checks
    have h1 : same_tree p
        (if fixed_phase p = true then try_add_equation_with_fixed_tables m v p else p) := by
      split_ifs
      · exact try_add_equation_with_fixed_tables_same_tree m v p
      · exact same_tree_refl p
    generalize (if fixed_phase p = true then try_add_equation_with_fixed_tables m v p
      else p) = p1 at h1
    have h2 := same_tree_trans h1 (check_for_eq_and_add_to_offsets_same_tree m v p1)
    generalize check_for_eq_and_add_to_offsets m v p1 = p2 at h2
    obtain ⟨hi2, hv2⟩ := hsame p p2 h2 hi
    -- the loop over the rows of the column
    have hfold : ∀ (l : List Nat) (q : lp_bound_propagator), inv q → valid q v →
        inv (l.foldl (go_over_vertex_column_step m (explore_under m n) v) q) ∧
        ∀ u, valid q u →
          valid (l.foldl (go_over_vertex_column_step m (explore_under m n) v) q) u := by
      intro l
      induction l with
      | nil => intro q hq _; exact ⟨hq, fun _ h => h⟩
      | cons r l ihl =>
        intro q hq hqv
        rw [List.foldl_cons]
        have hstep : inv (go_over_vertex_column_step m (explore_under m n) v q r) ∧
            ∀ u, valid q u →
              valid (go_over_vertex_column_step m (explore_under m n) v q r) u := by
          unfold go_over_vertex_column_step
          cases hc : check_insert q.m_visited_rows r with
          | none => exact ⟨hq, fun _ h => h⟩
          | some rows =>
            obtain ⟨hrows, hnot⟩ := check_insert_some _ _ _ hc
            subst hrows
            dsimp only
            obtain ⟨a1, a2, a3⟩ := hadd q v r hq hqv hnot
            rcases ha : add_child_from_row m r v
                { q with m_visited_rows := r :: q.m_visited_rows } with ⟨q1, _ | u⟩
            · rw [ha] at a1 a2
              exact ⟨a1, a2⟩
            · rw [ha] at a1 a2 a3
              obtain ⟨b1, b2⟩ := ih u q1 a1 (a3 u rfl)
              exact ⟨b1, fun w hw => b2 w (a2 w hw)⟩
        obtain ⟨c1, c2⟩ := ihl _ hstep.1 (hstep.2 v hqv)
        exact ⟨c1, fun u hu => c2 u (hstep.2 u hu)⟩
    have h3 : inv (go_over_vertex_column m (explore_under m n) v p2) ∧
        ∀ u, valid p2 u → valid (go_over_vertex_column m (explore_under m n) v p2) u := by
      rw [go_over_vertex_column_eq_fold]
      cases hc : check_insert p2.m_visited_columns (get_vertex p2 v).m_column with
      | none => exact ⟨hi2, fun _ h => h⟩
      | some cols =>
        obtain ⟨hcols, hnot⟩ := check_insert_some _ _ _ hc
        subst hcols
        dsimp only
        obtain ⟨d1, d2⟩ := hcol p2 _ hi2 hnot
        obtain ⟨e1, e2⟩ := hfold _ _ d1 (d2 v (hv2 v hv))
        exact ⟨e1, fun u hu => e2 u (d2 u hu)⟩
    generalize go_over_vertex_column m (explore_under m n) v p2 = p3 at h3
    obtain ⟨hi3, hv3⟩ := h3
    -- the loop over the children
    have hv3v : valid p3 v := hv3 v (hv2 v hv)
    have hchild : ∀ (l : List Nat) (q : lp_bound_propagator), inv q →
        (∀ c ∈ l, valid q c) →
        inv (l.foldl (fun q c => explore_under m n c q) q) ∧
        ∀ u, valid q u → valid (l.foldl (fun q c => explore_under m n c q) q) u := by
      intro l
      induction l with
      | nil => intro q hq _; exact ⟨hq, fun _ h => h⟩
      | cons c l ihl =>
        intro q hq hl
        rw [List.foldl_cons]
        obtain ⟨f1, f2⟩ := ih c q hq (hl c (List.mem_cons_self _ _))
        obtain ⟨g1, g2⟩ := ihl _ f1 (fun c2 hc2 => f2 c2 (hl c2 (List.mem_cons_of_mem _ hc2)))
        exact ⟨g1, fun u hu => g2 u (f2 u hu)⟩
    obtain ⟨k1, k2⟩ := hchild _ p3 hi3 (fun c hc => hch p3 v c hi3 hv3v hc)
    exact ⟨k1, fun u hu => k2 u (hv3 u (hv2 u hu))⟩

/-! ## Identities and links of the vertices -/

theorem same_shape_refl (p : lp_bound_propagator) : same_shape p p := ⟨rfl, rfl, fun _ => rfl⟩

theorem same_shape_trans {p q r : lp_bound_propagator} (h1 : same_shape p q)
    (h2 : same_shape q r) : same_shape p r :=
  ⟨h2.1.trans h1.1, h2.2.1.trans h1.2.1, fun j => (h2.2.2 j).trans (h1.2.2 j)⟩

theorem shift_at_shape (d : ℚ) (p : lp_bound_propagator) (i : Nat) :
    same_shape p (shift_at d p i) := by
  refine ⟨rfl, by simp [shift_at, set_vertex], fun j => ?_⟩
  unfold shift_at
  rw [get_vertex_set_vertex]
  split_ifs with h
  · rw [← h.1]; rfl
  · rfl

theorem foldl_shift_at_shape (d : ℚ) (l : List Nat) (p : lp_bound_propagator) :
    same_shape p (l.foldl (shift_at d) p) := by
  induction l generalizing p with
  | nil => exact same_shape_refl p
  | cons a l ih => exact same_shape_trans (shift_at_shape d p a) (ih _)

theorem switch_to_fixed_mode_shape (d : ℚ) (fuel v : Nat) (p : lp_bound_propagator) :
    same_shape p (switch_to_fixed_mode d fuel v p) := by
  rw [switch_to_fixed_mode_eq_foldl]
  exact foldl_shift_at_shape d _ p

theorem switch_to_fixed_mode_frame (d : ℚ) (fuel v : Nat) (p : lp_bound_propagator) :
    switch_to_fixed_mode d fuel v p =
      { p with m_verts := (switch_to_fixed_mode d fuel v p).m_verts } := by
  rw [switch_to_fixed_mode_eq_foldl]
  exact (foldl_shift_at_frame d _ p).1

theorem switch_to_fixed_mode_in_tree_shape (v : Nat) (o : ℚ) (p : lp_bound_propagator) :
    same_shape p (switch_to_fixed_mode_in_tree v o p) := by
  obtain ⟨a1, a2, a3, a4, a5, a6, a7, a8, a9, a10, a11, a12⟩ := p
  unfold switch_to_fixed_mode_in_tree
  dsimp only
  cases a4 with
  | none => exact ⟨rfl, rfl, fun _ => rfl⟩
  | some root =>
    dsimp only
    have h := switch_to_fixed_mode_shape
      (o - (get_vertex (⟨a1, a2, a3, some root, some v, a6, a7, a8, a9, a10, a11, a12⟩ :
        lp_bound_propagator) v).m_offset)
      (a11.length + 1) root ⟨a1, a2, a3, some root, some v, a6, a7, a8, a9, a10, a11, a12⟩
    exact ⟨h.1, h.2.1, h.2.2⟩

theorem switch_to_fixed_mode_in_tree_frame (v : Nat) (o : ℚ) (p : lp_bound_propagator) :
    (switch_to_fixed_mode_in_tree v o p).m_visited_rows = p.m_visited_rows ∧
    (switch_to_fixed_mode_in_tree v o p).m_visited_columns = p.m_visited_columns ∧
    (switch_to_fixed_mode_in_tree v o p).m_eqs = p.m_eqs ∧
    (switch_to_fixed_mode_in_tree v o p).m_fixed_vertex = some v := by
  obtain ⟨a1, a2, a3, a4, a5, a6, a7, a8, a9, a10, a11, a12⟩ := p
  unfold switch_to_fixed_mode_in_tree
  dsimp only
  cases a4 with
  | none => exact ⟨rfl, rfl, rfl, rfl⟩
  | some root =>
    dsimp only
    rw [switch_to_fixed_mode_frame]
    exact ⟨rfl, rfl, rfl, rfl⟩

theorem vertex_keys_congr (p q : lp_bound_propagator) (h : same_shape p q) :
    vertex_keys q = vertex_keys p := by
  apply List.ext_getElem?
  intro i
  unfold vertex_keys
  rw [List.getElem?_map, List.getElem?_map]
  by_cases hi : i < p.m_verts.length
  · rw [getElem_get_vertex p i hi, getElem_get_vertex q i (by rw [h.2.1]; exact hi)]
    have := h.2.2 i
    simp only [vertex.shape, Prod.mk.injEq] at this
    simp [this.1, this.2.1]
  · rw [List.getElem?_eq_none (not_lt.mp hi),
      List.getElem?_eq_none (by rw [h.2.1]; exact not_lt.mp hi)]

theorem arena_ordered_congr (p q : lp_bound_propagator) (h : same_shape p q)
    (hp : arena_ordered p) : arena_ordered q := by
  intro i c hc
  have hs := h.2.2 i
  simp only [vertex.shape, Prod.mk.injEq] at hs
  rw [hs.2.2.1] at hc
  rw [h.2.1]
  exact hp i c hc

theorem tree_wf_congr (p q : lp_bound_propagator) (h : same_shape p q)
    (hp : tree_wf p) : tree_wf q := by
  obtain ⟨h1, h2, h3, h4, h5, h6⟩ := hp
  have hs : ∀ j, (get_vertex q j).m_children = (get_vertex p j).m_children ∧
      (get_vertex q j).m_parent = (get_vertex p j).m_parent ∧
      (get_vertex q j).m_level = (get_vertex p j).m_level := by
    intro j
    have := h.2.2 j
    simp only [vertex.shape, Prod.mk.injEq] at this
    exact ⟨this.2.2.1, this.2.2.2.1, this.2.2.2.2⟩
  refine ⟨h.1.trans h1, by rw [h.2.1]; exact h2, by rw [(hs 0).2.2]; exact h3,
    by rw [(hs 0).2.1]; exact h4, ?_, arena_ordered_congr p q h h6⟩
  intro i hi hil
  rw [h.2.1] at hil
  obtain ⟨q0, a1, a2, a3, a4⟩ := h5 i hi hil
  exact ⟨q0, a1, by rw [(hs i).2.1]; exact a2, by rw [(hs i).2.2, (hs q0).2.2]; exact a3,
    by rw [(hs q0).1]; exact a4⟩

/-! ## Attaching a vertex keeps the tree well formed -/

theorem attach_wf (p : lp_bound_propagator) (parent row column : Nat) (offset : ℚ)
    (neg : Bool) (hwf : tree_wf p) (hp : parent < p.m_verts.length) :
    tree_wf (attach p parent row column offset neg) := by
  obtain ⟨h1, h2, h3, h4, h5, h6⟩ := hwf
  have hg := get_vertex_attach p parent row column offset neg hp
  have hlen := attach_length p parent row column offset neg
  have hflds : ∀ j, j ≠ p.m_verts.length →
      (get_vertex (attach p parent row column offset neg) j).m_level =
        (get_vertex p j).m_level ∧
      (get_vertex (attach p parent row column offset neg) j).m_parent =
        (get_vertex p j).m_parent := by
    intro j hj
    rw [hg j, if_neg hj]
    split_ifs with hjp
    · subst hjp; exact ⟨rfl, rfl⟩
    · exact ⟨rfl, rfl⟩
  have hch : ∀ j, j ≠ p.m_verts.length →
      (get_vertex (attach p parent row column offset neg) j).m_children =
        if j = parent then (get_vertex p j).m_children ++ [p.m_verts.length]
        else (get_vertex p j).m_children := by
    intro j hj
    rw [hg j, if_neg hj]
    split_ifs with hjp
    · subst hjp; rfl
    · rfl
  have h0 : (0 : Nat) ≠ p.m_verts.length := Nat.ne_of_lt h2
  have hcount : ∀ j, (get_vertex p j).m_children.count p.m_verts.length = 0 := by
    intro j
    rw [List.count_eq_zero]
    intro hmem
    exact absurd (h6 j _ hmem).2 (lt_irrefl _)
  refine ⟨h1, by rw [hlen]; omega, by rw [(hflds 0 h0).1]; exact h3,
    by rw [(hflds 0 h0).2]; exact h4, ?_, ?_⟩
  · intro i hi hil
    rw [hlen] at hil
    by_cases hin : i = p.m_verts.length
    · subst hin
      refine ⟨parent, hp, ?_, ?_, ?_⟩
      · rw [hg, if_pos rfl]
      · rw [hg, if_pos rfl, (hflds parent (Nat.ne_of_lt hp)).1]
      · rw [hch parent (Nat.ne_of_lt hp), if_pos rfl, List.count_append, hcount parent]
        simp
    · have hil2 : i < p.m_verts.length := by omega
      obtain ⟨q0, a1, a2, a3, a4⟩ := h5 i hi hil2
      have hq0 : q0 ≠ p.m_verts.length := by omega
      refine ⟨q0, a1, by rw [(hflds i hin).2]; exact a2,
        by rw [(hflds i hin).1, (hflds q0 hq0).1]; exact a3, ?_⟩
      rw [hch q0 hq0]
      split_ifs
      · rw [List.count_append, a4]
        have : List.count i [p.m_verts.length] = 0 := by
          rw [List.count_eq_zero, List.mem_singleton]
          exact hin
        rw [this]
      · exact a4
  · intro i c hc
    rw [hlen]
    by_cases hin : i = p.m_verts.length
    · subst hin
      rw [hg, if_pos rfl] at hc
      cases hc
    · rw [hch i hin] at hc
      split_ifs at hc with hip
      · rcases List.mem_append.mp hc with hc1 | hc1
        · have := h6 i c hc1
          omega
        · rw [List.mem_singleton] at hc1
          subst hc1
          subst hip
          omega
      · have := h6 i c hc
        omega

theorem vertex_keys_attach (p : lp_bound_propagator) (parent row column : Nat) (offset : ℚ)
    (neg : Bool) (hp : parent < p.m_verts.length) :
    vertex_keys (attach p parent row column offset neg) = vertex_keys p ++ [(row, column)] := by
  unfold vertex_keys
  rw [attach_eq p parent row column offset neg hp]
  simp only [List.map_append, List.map_cons, List.map_nil]
  congr 1
  apply List.ext_getElem?
  intro i
  rw [List.getElem?_map, List.getElem?_map, List.getElem?_set]
  by_cases hi : parent = i
  · subst hi
    rw [if_pos rfl, if_pos hp, getElem_get_vertex p parent hp]
    rfl
  · rw [if_neg hi]

/-- On a row with two free columns `add_child_from_row` attaches the copy of the parent,
then the vertex of the other column below the copy. -/
theorem add_child_from_row_two_attach (m : imp) (row_index parent : Nat)
    (p : lp_bound_propagator) (x y : signed_column) (k : ℚ)
    (h : is_tree_offset_row m.lp row_index = some (x, y, k))
    (hy : y.not_set = false) (hp : parent < p.m_verts.length) :
    add_child_from_row m row_index parent p =
      (attach
        (attach p parent row_index (get_vertex p parent).m_column
          (get_vertex p parent).m_offset (get_vertex p parent).m_neg)
        p.m_verts.length row_index
        (normalize_row x y k (get_vertex p parent).m_column).1.m_column
        (child_offset (fixed_phase p) (get_vertex p parent).m_offset
          (get_vertex p parent).m_neg
          (normalize_row x y k (get_vertex p parent).m_column).1.m_sign
          (normalize_row x y k (get_vertex p parent).m_column).2)
        (child_neg (fixed_phase p) (get_vertex p parent).m_neg
          (normalize_row x y k (get_vertex p parent).m_column).1.m_sign),
       some p.m_verts.length) := by
  have hv : get_vertex (attach p parent row_index (get_vertex p parent).m_column
      (get_vertex p parent).m_offset (get_vertex p parent).m_neg) p.m_verts.length =
      ⟨row_index, (get_vertex p parent).m_column, [], (get_vertex p parent).m_offset,
        some parent, (get_vertex p parent).m_level + 1, (get_vertex p parent).m_neg⟩ := by
    rw [get_vertex_attach p parent _ _ _ _ hp, if_pos rfl]
  have h1 : add_child_from_row m row_index parent p =
      (add_child_from_row_continue p.m_verts.length
        (normalize_row x y k
          (get_vertex (attach p parent row_index (get_vertex p parent).m_column
            (get_vertex p parent).m_offset (get_vertex p parent).m_neg)
            p.m_verts.length).m_column).1
        (normalize_row x y k
          (get_vertex (attach p parent row_index (get_vertex p parent).m_column
            (get_vertex p parent).m_offset (get_vertex p parent).m_neg)
            p.m_verts.length).m_column).2
        (attach p parent row_index (get_vertex p parent).m_column
          (get_vertex p parent).m_offset (get_vertex p parent).m_neg),
       some p.m_verts.length) := by
    unfold add_child_from_row
    rw [h]
    dsimp only
    rw [if_neg (by simp [hy])]
    rfl
  rw [h1, add_child_from_row_continue_eq, hv]
  rfl

/-- The two signed columns of a classified row name different columns when the row
holds no column twice. -/
theorem tree_row_scan_distinct (s : lar_solver) (l : List row_cell) :
    ∀ (x y x1 y1 : signed_column), (l.map (fun c => c.var)).Nodup →
      (x.not_set = true ∨ x.m_column ∉ l.map (fun c => c.var)) →
      (y.not_set = true ∨ x.m_column ≠ y.m_column) →
      (x.not_set = true → y.not_set = true) →
      tree_row_scan s l x y = some (x1, y1) →
      (y1.not_set = true ∨ x1.m_column ≠ y1.m_column) := by
  have hcol : ∀ (c : row_cell) (z : signed_column), set_sign_and_column c = some z →
      z.m_column = c.var := by
    intro c z hz
    unfold set_sign_and_column at hz
    split_ifs at hz <;> cases hz <;> rfl
  induction l with
  | nil =>
    intro x y x1 y1 _ _ hxy _ h
    simp only [tree_row_scan, Option.some.injEq, Prod.mk.injEq] at h
    rw [← h.1, ← h.2]
    exact hxy
  | cons c cs ih =>
    intro x y x1 y1 hnd hx hxy hyx h
    simp only [List.map_cons, List.nodup_cons] at hnd
    have hx2 : x.not_set = true ∨ x.m_column ∉ cs.map (fun c => c.var) := by
      rcases hx with hx | hx
      · exact Or.inl hx
      · exact Or.inr (fun hm => hx (List.mem_cons_of_mem _ hm))
    rw [tree_row_scan] at h
    split_ifs at h with hf hxn hyn
    · exact ih x y x1 y1 hnd.2 hx2 hxy hyx h
    · cases hz : set_sign_and_column c with
      | none => rw [hz] at h; cases h
      | some z =>
        rw [hz] at h
        have hzc := hcol c z hz
        refine ih z y x1 y1 hnd.2 (Or.inr (by rw [hzc]; exact hnd.1)) (Or.inl (hyx hxn))
          (fun _ => hyx hxn) h
    · cases hz : set_sign_and_column c with
      | none => rw [hz] at h; cases h
      | some z =>
        rw [hz] at h
        have hzc := hcol c z hz
        have hxc : x.m_column ≠ c.var := by
          rcases hx with hx | hx
          · exact absurd hx hxn
          · exact fun he => hx (by rw [he]; exact List.mem_cons_self _ _)
        refine ih x z x1 y1 hnd.2 hx2 (Or.inr (by rw [hzc]; exact hxc))
          (fun hc => absurd hc hxn) h

theorem is_tree_offset_row_distinct (s : lar_solver) (r : Nat) (x y : signed_column) (k : ℚ)
    (hnd : no_duplicate_columns s) (h : is_tree_offset_row s r = some (x, y, k))
    (hy : y.not_set = false) : x.m_column ≠ y.m_column := by
  unfold is_tree_offset_row at h
  cases hs : tree_row_scan s (s.get_row r) signed_column.ctor signed_column.ctor with
  | none => rw [hs] at h; cases h
  | some t =>
    obtain ⟨x1, y1⟩ := t
    rw [hs] at h
    dsimp only at h
    split_ifs at h
    simp only [Option.some.injEq, Prod.mk.injEq] at h
    obtain ⟨rfl, rfl, -⟩ := h
    have := tree_row_scan_distinct s (s.get_row r) signed_column.ctor signed_column.ctor
      x1 y1 (hnd r) (Or.inl rfl) (Or.inl rfl) (fun _ => rfl) hs
    rcases this with h1 | h1
    · rw [hy] at h1; cases h1
    · exact h1

theorem normalize_row_column (x y : signed_column) (k : ℚ) (pc : Nat) :
    (normalize_row x y k pc).1.m_column = if y.m_column = pc then x.m_column else y.m_column := by
  unfold normalize_row
  by_cases h : y.m_column = pc
  · simp only [h, if_true]
    split_ifs <;> rfl
  · simp only [h, if_false]
    split_ifs <;> rfl

/-- The expansion of a row from a valid parent keeps the tree well formed, does not
shrink the arena, and returns a valid vertex. -/
theorem add_child_from_row_wf (m : imp) (row_index parent : Nat) (p : lp_bound_propagator)
    (hwf : tree_wf p) (hp : parent < p.m_verts.length) :
    tree_wf (add_child_from_row m row_index parent p).1 ∧
    p.m_verts.length ≤ (add_child_from_row m row_index parent p).1.m_verts.length ∧
    ∀ u, (add_child_from_row m row_index parent p).2 = some u →
      u < (add_child_from_row m row_index parent p).1.m_verts.length := by
  cases h : is_tree_offset_row m.lp row_index with
  | none =>
    rw [add_child_from_row_none m row_index parent p h]
    exact ⟨hwf, le_refl _, fun u hu => by cases hu⟩
  | some t =>
    obtain ⟨x, y, k⟩ := t
    cases hy : y.not_set with
    | false =>
      rw [add_child_from_row_two_attach m row_index parent p x y k h hy hp]
      have hl1 := attach_length p parent row_index (get_vertex p parent).m_column
        (get_vertex p parent).m_offset (get_vertex p parent).m_neg
      have hw1 := attach_wf p parent row_index (get_vertex p parent).m_column
        (get_vertex p parent).m_offset (get_vertex p parent).m_neg hwf hp
      refine ⟨attach_wf _ _ _ _ _ _ hw1 (by rw [hl1]; omega), ?_, ?_⟩
      · dsimp only
        rw [attach_length, hl1]
        omega
      · intro u hu
        dsimp only at hu ⊢
        rw [attach_length, hl1]
        cases hu
        omega
    | true =>
      cases hf : fixed_phase p with
      | true =>
        rw [add_child_from_row_one_fixed m row_index parent p x y k h hy hf]
        refine ⟨attach_wf _ _ _ _ _ _ hwf hp, ?_, ?_⟩
        · dsimp only
          rw [attach_length]
          omega
        · intro u hu
          dsimp only at hu ⊢
          rw [attach_length]
          cases hu
          omega
      | false =>
        rw [add_child_from_row_one_free m row_index parent p x y k h hy hf hp, hwf.1]
        dsimp only
        have hw1 := attach_wf p parent row_index x.m_column (get_vertex p parent).m_offset
          false hwf hp
        have hw2 : tree_wf
            { attach p parent row_index x.m_column (get_vertex p parent).m_offset false with
              m_fixed_vertex := some p.m_verts.length } :=
          tree_wf_congr _ _ ⟨rfl, rfl, fun _ => rfl⟩ hw1
        have hsh := switch_to_fixed_mode_in_tree_shape 0
          ((if x.m_sign then k else -k) - (get_vertex p parent).m_offset)
          { attach p parent row_index x.m_column (get_vertex p parent).m_offset false with
            m_fixed_vertex := some p.m_verts.length }
        have hl : (switch_to_fixed_mode_in_tree 0
            ((if x.m_sign then k else -k) - (get_vertex p parent).m_offset)
            { attach p parent row_index x.m_column (get_vertex p parent).m_offset false with
              m_fixed_vertex := some p.m_verts.length }).m_verts.length =
            p.m_verts.length + 1 := by
          rw [hsh.2.1]
          exact attach_length _ _ _ _ _ _
        refine ⟨tree_wf_congr _ _ hsh hw2, by rw [hl]; omega, ?_⟩
        intro u hu
        rw [hl]
        cases hu
        omega

/-- The identities that the expansion of a row adds to the arena: all in the new row,
and distinct when the row holds no column twice. -/
theorem add_child_from_row_keys (m : imp) (row_index parent : Nat) (p : lp_bound_propagator)
    (hroot : p.m_root = some 0) (hp : parent < p.m_verts.length) :
    ∃ new, vertex_keys (add_child_from_row m row_index parent p).1 = vertex_keys p ++ new ∧
      (∀ k ∈ new, k.1 = row_index) ∧ (no_duplicate_columns m.lp → new.Nodup) := by
  cases h : is_tree_offset_row m.lp row_index with
  | none =>
    rw [add_child_from_row_none m row_index parent p h]
    exact ⟨[], by simp, by simp, fun _ => List.nodup_nil⟩
  | some t =>
    obtain ⟨x, y, k⟩ := t
    cases hy : y.not_set with
    | false =>
      rw [add_child_from_row_two_attach m row_index parent p x y k h hy hp]
      have hl1 := attach_length p parent row_index (get_vertex p parent).m_column
        (get_vertex p parent).m_offset (get_vertex p parent).m_neg
      refine ⟨[(row_index, (get_vertex p parent).m_column),
        (row_index, (normalize_row x y k (get_vertex p parent).m_column).1.m_column)],
        ?_, ?_, ?_⟩
      · dsimp only
        rw [vertex_keys_attach _ _ _ _ _ _ (by rw [hl1]; omega),
          vertex_keys_attach _ _ _ _ _ _ hp]
        simp
      · intro k hk
        simp only [List.mem_cons, List.mem_singleton, List.not_mem_nil, or_false] at hk
        rcases hk with rfl | rfl <;> rfl
      · intro hnd
        have hd := is_tree_offset_row_distinct m.lp row_index x y k hnd h hy
        rw [normalize_row_column]
        simp only [List.nodup_cons, List.mem_singleton, Prod.mk.injEq, true_and,
          List.not_mem_nil, not_false_eq_true, List.nodup_nil, and_true]
        split_ifs with hc
        · rw [← hc]
          exact fun he => hd he.symm
        · exact fun he => hc he.symm
    | true =>
      cases hf : fixed_phase p with
      | true =>
        rw [add_child_from_row_one_fixed m row_index parent p x y k h hy hf]
        refine ⟨[(row_index, x.m_column)], vertex_keys_attach _ _ _ _ _ _ hp, ?_, ?_⟩
        · intro k hk
          rw [List.mem_singleton] at hk
          rw [hk]
        · exact fun _ => List.nodup_singleton _
      | false =>
        rw [add_child_from_row_one_free m row_index parent p x y k h hy hf hp, hroot]
        dsimp only
        refine ⟨[(row_index, x.m_column)], ?_, ?_, ?_⟩
        · rw [vertex_keys_congr _ _ (switch_to_fixed_mode_in_tree_shape _ _ _)]
          exact vertex_keys_attach _ _ _ _ _ _ hp
        · intro k hk
          rw [List.mem_singleton] at hk
          rw [hk]
        · exact fun _ => List.nodup_singleton _

/-- The expansion of a freshly marked row keeps the anti-duplication invariant. -/
theorem add_child_from_row_keys_inv (m : imp) (row_index parent : Nat)
    (q : lp_bound_propagator) (hnd : no_duplicate_columns m.lp) (hroot : q.m_root = some 0)
    (hp : parent < q.m_verts.length) (hk : keys_inv q)
    (hnew : row_index ∉ q.m_visited_rows) :
    keys_inv (add_child_from_row m row_index parent
      { q with m_visited_rows := row_index :: q.m_visited_rows }).1 := by
  obtain ⟨new, h1, h2, h3⟩ := add_child_from_row_keys m row_index parent
    { q with m_visited_rows := row_index :: q.m_visited_rows } hroot hp
  have hold : vertex_keys { q with m_visited_rows := row_index :: q.m_visited_rows } =
      vertex_keys q := rfl
  rw [hold] at h1
  have hrows := add_child_from_row_rows m row_index parent
    { q with m_visited_rows := row_index :: q.m_visited_rows }
  constructor
  · rw [h1, List.nodup_append]
    refine ⟨hk.1, h3 hnd, ?_⟩
    intro a ha hb
    exact hnew (by rw [← h2 a hb]; exact hk.2 a ha)
  · intro k hkm
    rw [hrows]
    rw [h1, List.mem_append] at hkm
    rcases hkm with hkm | hkm
    · exact List.mem_cons_of_mem _ (hk.2 k hkm)
    · rw [h2 k hkm]
      exact List.mem_cons_self _ _

theorem tree_wf_of_same_tree (p q : lp_bound_propagator) (h : same_tree p q)
    (hp : tree_wf p) : tree_wf q := by
  refine tree_wf_congr p q ⟨h.2.2.2.1, by rw [h.1], fun j => ?_⟩ hp
  unfold get_vertex
  rw [h.1]

theorem keys_inv_of_same_tree (p q : lp_bound_propagator) (h : same_tree p q)
    (hp : keys_inv p) : keys_inv q := by
  unfold keys_inv vertex_keys at hp ⊢
  rw [h.1, h.2.1]
  exact hp

/-- The tree that `create_root` starts in an empty arena is well formed. -/
theorem create_root_wf (m : imp) (row_index : Nat) (p : lp_bound_propagator)
    (hempty : p.m_verts = []) (hroot : p.m_root = none) (root : Nat)
    (h : (create_root m row_index p).m_root = some root) :
    root = 0 ∧ tree_wf (create_root m row_index p) := by
  have hsingle : ∀ (q : lp_bound_propagator) (v : vertex), q.m_root = some 0 →
      q.m_verts = [v] → v.m_level = 0 → v.m_parent = none → v.m_children = [] →
      tree_wf q := by
    intro q v h1 h2 h3 h4 h5
    have hg : ∀ j, get_vertex q j = if j = 0 then v else default := by
      intro j
      rw [get_vertex_eq_getD q _ h2]
      rcases j with _ | j
      · rfl
      · rfl
    refine ⟨h1, by rw [h2]; simp, by rw [hg, if_pos rfl]; exact h3,
      by rw [hg, if_pos rfl]; exact h4, ?_, ?_⟩
    · intro i hi hil
      rw [h2] at hil
      simp at hil
      omega
    · intro i c hc
      rw [hg] at hc
      split_ifs at hc
      · rw [h5] at hc; cases hc
      · cases hc
  cases hc : is_tree_offset_row m.lp row_index with
  | none =>
    rw [create_root_none m row_index p hc, hroot] at h
    cases h
  | some t =>
    obtain ⟨x, y, k⟩ := t
    cases hy : y.not_set with
    | true =>
      rw [create_root_one m row_index p x y k hc hy] at h ⊢
      simp only [hempty, List.length_nil, Option.some.injEq] at h
      refine ⟨h.symm, hsingle _ ⟨row_index, x.m_column, [], k, none, 0, false⟩ ?_ ?_ rfl rfl rfl⟩
      · simp [hempty]
      · simp [hempty]
    | false =>
      have h1 : create_root m row_index p =
          attach { p with
              m_verts := p.m_verts ++ [⟨row_index, x.m_column, [], 0, none, 0, false⟩],
              m_root := some p.m_verts.length }
            p.m_verts.length row_index y.m_column k (!y.m_sign) := by
        unfold create_root
        rw [hc]
        dsimp only
        rw [if_neg (by simp [hy])]
        rfl
      rw [h1] at h ⊢
      have hr : root = 0 := by
        have : (attach { p with
              m_verts := p.m_verts ++ [⟨row_index, x.m_column, [], 0, none, 0, false⟩],
              m_root := some p.m_verts.length }
            p.m_verts.length row_index y.m_column k (!y.m_sign)).m_root =
            some p.m_verts.length := rfl
        rw [this, hempty] at h
        simpa using h.symm
      refine ⟨hr, attach_wf _ _ _ _ _ _ ?_ (by simp)⟩
      exact hsingle _ ⟨row_index, x.m_column, [], 0, none, 0, false⟩
        (by simp [hempty]) (by simp [hempty]) rfl rfl rfl

/-- The tree that `create_root` starts in an empty arena has no two vertices of the same
identity, when the row holds no column twice. -/
theorem create_root_keys_inv (m : imp) (row_index : Nat) (p : lp_bound_propagator)
    (hnd : no_duplicate_columns m.lp) (hempty : p.m_verts = [])
    (hrow : row_index ∈ p.m_visited_rows) : keys_inv (create_root m row_index p) := by
  cases hc : is_tree_offset_row m.lp row_index with
  | none =>
    rw [create_root_none m row_index p hc]
    unfold keys_inv vertex_keys
    rw [hempty]
    simp
  | some t =>
    obtain ⟨x, y, k⟩ := t
    cases hy : y.not_set with
    | true =>
      rw [create_root_one m row_index p x y k hc hy]
      unfold keys_inv vertex_keys
      simp only [hempty, List.nil_append, List.map_cons, List.map_nil, List.nodup_cons,
        List.not_mem_nil, not_false_eq_true, List.nodup_nil, and_self, List.mem_singleton,
        true_and]
      intro k hk
      rw [hk]
      exact hrow
    | false =>
      have hd := is_tree_offset_row_distinct m.lp row_index x y k hnd hc hy
      rw [create_root_two m row_index p x y k hc hy]
      unfold keys_inv vertex_keys
      simp only [hempty, List.nil_append, List.map_cons, List.map_nil, List.nodup_cons,
        List.not_mem_nil, not_false_eq_true, List.nodup_nil, and_self, List.mem_singleton,
        true_and, List.mem_cons, Prod.mk.injEq, or_false, and_true]
      refine ⟨hd, ?_⟩
      intro k hk
      rcases hk with rfl | rfl <;> exact hrow

/-- The exploration from a valid vertex keeps the tree well formed. -/
theorem explore_under_wf (m : imp) (fuel v : Nat) (p : lp_bound_propagator)
    (hwf : tree_wf p) (hv : v < p.m_verts.length) :
    tree_wf (explore_under m fuel v p) ∧
    p.m_verts.length ≤ (explore_under m fuel v p).m_verts.length := by
  have h := explore_under_invariant m
    (fun q => tree_wf q ∧ p.m_verts.length ≤ q.m_verts.length)
    (fun q u => u < q.m_verts.length)
    (fun a b hab ha => ⟨⟨tree_wf_of_same_tree a b hab ha.1, by rw [hab.1]; exact ha.2⟩,
      fun u hu => (by show u < b.m_verts.length; rw [hab.1]; exact hu)⟩)
    (fun a c ha _ => ⟨⟨tree_wf_congr a _ ⟨rfl, rfl, fun _ => rfl⟩ ha.1, ha.2⟩,
      fun u hu => hu⟩)
    (fun q w r hq hw _ => by
      have hq2 : tree_wf { q with m_visited_rows := r :: q.m_visited_rows } :=
        tree_wf_congr q _ ⟨rfl, rfl, fun _ => rfl⟩ hq.1
      obtain ⟨a1, a2, a3⟩ := add_child_from_row_wf m r w
        { q with m_visited_rows := r :: q.m_visited_rows } hq2 hw
      exact ⟨⟨a1, le_trans hq.2 a2⟩, fun u hu => lt_of_lt_of_le hu a2, a3⟩)
    (fun a w c ha _ hc => (ha.1.2.2.2.2.2 w c hc).2)
    fuel v p ⟨hwf, le_refl _⟩ hv
  exact h.1

/-- The exploration from a valid vertex keeps the anti-duplication invariant. -/
theorem explore_under_keys_inv (m : imp) (hnd : no_duplicate_columns m.lp) (fuel v : Nat)
    (p : lp_bound_propagator) (hk : keys_inv p) (hwf : tree_wf p)
    (hv : v < p.m_verts.length) : keys_inv (explore_under m fuel v p) := by
  have h := explore_under_invariant m
    (fun q => keys_inv q ∧ tree_wf q)
    (fun q u => u < q.m_verts.length)
    (fun a b hab ha => ⟨⟨keys_inv_of_same_tree a b hab ha.1, tree_wf_of_same_tree a b hab ha.2⟩,
      fun u hu => (by show u < b.m_verts.length; rw [hab.1]; exact hu)⟩)
    (fun a c ha _ => ⟨⟨ha.1, tree_wf_congr a _ ⟨rfl, rfl, fun _ => rfl⟩ ha.2⟩,
      fun u hu => hu⟩)
    (fun q w r hq hw hr => by
      have hq2 : tree_wf { q with m_visited_rows := r :: q.m_visited_rows } :=
        tree_wf_congr q _ ⟨rfl, rfl, fun _ => rfl⟩ hq.2
      obtain ⟨a1, a2, a3⟩ := add_child_from_row_wf m r w
        { q with m_visited_rows := r :: q.m_visited_rows } hq2 hw
      exact ⟨⟨add_child_from_row_keys_inv m r w q hnd hq.2.1 hw hq.1 hr, a1⟩,
        fun u hu => lt_of_lt_of_le hu a2, a3⟩)
    (fun a w c ha _ hc => (ha.2.2.2.2.2.2 w c hc).2)
    fuel v p ⟨hk, hwf⟩ hv
  exact h.1.1

/-! ## Well-formedness of the tree during `cheap_eq_tree` -/

/-- C28: the well-formedness `tree_wf` of the tree (the root is the first vertex, at
level 0 and without parent; every other vertex has a parent allocated before it, one
level above it, in whose list of children it occurs exactly once; children are allocated
vertices) holds for the tree that `create_root` starts in an empty arena, is kept by the
per-vertex checks and by every `add_child_from_row` from a valid parent, hence by the
exploration from any valid vertex, and so holds after the exploration of `cheap_eq_tree`
for every fuel. -/
theorem cheap_eq_tree_tree_well_formed (m : imp) (row_index : Nat) (rows : List Nat)
    (p : lp_bound_propagator) (hempty : p.m_verts = []) (hroot : p.m_root = none) :
    (∀ root, (create_root m row_index { p with m_visited_rows := rows }).m_root = some root →
      root = 0 ∧ tree_wf (create_root m row_index { p with m_visited_rows := rows }) ∧
      ∀ fuel, tree_wf
        (explore_under m fuel root (create_root m row_index { p with m_visited_rows := rows }))) ∧
    (∀ q parent r, tree_wf q → parent < q.m_verts.length →
      tree_wf (add_child_from_row m r parent q).1) ∧
    (∀ q v, tree_wf q → tree_wf (try_add_equation_with_fixed_tables m v q) ∧
      tree_wf (check_for_eq_and_add_to_offsets m v q)) ∧
    (∀ q fuel v, tree_wf q → v < q.m_verts.length → tree_wf (explore_under m fuel v q)) := by
  refine ⟨fun root hr => ?_, fun q parent r hq hp => (add_child_from_row_wf m r parent q hq hp).1,
    fun q v hq => ⟨tree_wf_of_same_tree q _ (try_add_equation_with_fixed_tables_same_tree m v q) hq,
      tree_wf_of_same_tree q _ (check_for_eq_and_add_to_offsets_same_tree m v q) hq⟩,
    fun q fuel v hq hv => (explore_under_wf m fuel v q hq hv).1⟩
  obtain ⟨h0, hwf⟩ := create_root_wf m row_index { p with m_visited_rows := rows } hempty hroot
    root hr
  refine ⟨h0, hwf, fun fuel => (explore_under_wf m fuel root _ hwf ?_).1⟩
  rw [h0]
  exact hwf.2.1

/-- On `tableau_h` the tree explored from the seed row 0 is well formed. -/
theorem cheap_eq_tree_tree_well_formed_witness :
    tree_wf (explore_under imp_h 4 0
      (create_root imp_h 0 { lp_bound_propagator.ctor with m_visited_rows := [0] })) :=
  ((cheap_eq_tree_tree_well_formed imp_h 0 [0] lp_bound_propagator.ctor rfl rfl).1 0
    (by decide!)).2.2 4

/-! ## No two vertices with the same row and column -/

/-- C27: provided no row holds the same column in two cells, and starting from an empty
arena with the seed row marked: after `create_root`, and after the exploration of
`cheap_eq_tree` for every fuel, no two vertices of the arena have the same
`(row, column)` (and the row of every vertex is marked visited); and every expansion of a
freshly marked row from a valid parent only appends vertices whose `(row, column)` is new,
so that the assertion `!tree_contains(v)` of `alloc_v` holds at each allocation. -/
theorem cheap_eq_tree_no_duplicate_vertex (m : imp) (row_index : Nat) (rows : List Nat)
    (p : lp_bound_propagator) (hnd : no_duplicate_columns m.lp) (hempty : p.m_verts = [])
    (hroot : p.m_root = none) (hrow : row_index ∈ rows) :
    keys_inv (create_root m row_index { p with m_visited_rows := rows }) ∧
    (∀ root fuel,
      (create_root m row_index { p with m_visited_rows := rows }).m_root = some root →
      keys_inv (explore_under m fuel root
        (create_root m row_index { p with m_visited_rows := rows })) ∧
      (vertex_keys (explore_under m fuel root
        (create_root m row_index { p with m_visited_rows := rows }))).Nodup) ∧
    (∀ q parent r, keys_inv q → tree_wf q → parent < q.m_verts.length →
      r ∉ q.m_visited_rows →
      ∃ new, vertex_keys (add_child_from_row m r parent
          { q with m_visited_rows := r :: q.m_visited_rows }).1 = vertex_keys q ++ new ∧
        (vertex_keys q ++ new).Nodup) := by
  have hk := create_root_keys_inv m row_index { p with m_visited_rows := rows } hnd hempty hrow
  refine ⟨hk, fun root fuel hr => ?_, fun q parent r hq hwf hp hr => ?_⟩
  · obtain ⟨h0, hwf⟩ := create_root_wf m row_index { p with m_visited_rows := rows } hempty
      hroot root hr
    have := explore_under_keys_inv m hnd fuel root _ hk hwf (by rw [h0]; exact hwf.2.1)
    exact ⟨this, this.1⟩
  · obtain ⟨new, h1, -, -⟩ := add_child_from_row_keys m r parent
      { q with m_visited_rows := r :: q.m_visited_rows } hwf.1 hp
    have h2 := (add_child_from_row_keys_inv m r parent q hnd hwf.1 hp hq hr).1
    refine ⟨new, h1, ?_⟩
    rw [h1] at h2
    exact h2

theorem tableau_h_no_duplicate_columns : no_duplicate_columns imp_h.lp := by
  intro r
  rcases r with _ | _ | r <;> simp [imp_h, tableau_h, lar_solver.get_row]

/-- On `tableau_h` the vertices explored from the seed row 0 have distinct identities. -/
theorem cheap_eq_tree_no_duplicate_vertex_witness :
    (vertex_keys (explore_under imp_h 4 0
      (create_root imp_h 0 { lp_bound_propagator.ctor with m_visited_rows := [0] }))).Nodup ∧
    vertex_keys (explore_under imp_h 4 0
      (create_root imp_h 0 { lp_bound_propagator.ctor with m_visited_rows := [0] })) =
      [(0, 0), (0, 2), (1, 2), (1, 1)] :=
  ⟨((cheap_eq_tree_no_duplicate_vertex imp_h 0 [0] lp_bound_propagator.ctor
      tableau_h_no_duplicate_columns rfl rfl (List.mem_singleton.mpr rfl)).2.1 0 4
      (by decide!)).2,
   by decide!⟩

/-! ## What a call of `cheap_eq_tree` leaves behind -/

theorem add_child_from_row_continue_cols (v : Nat) (y : signed_column) (o : ℚ)
    (p : lp_bound_propagator) :
    (add_child_from_row_continue v y o p).m_visited_columns = p.m_visited_columns := by
  unfold add_child_from_row_continue add_child_from_row_continue_fixed
  split_ifs <;> rfl

theorem add_child_from_row_cols (m : imp) (row_index parent : Nat)
    (p : lp_bound_propagator) :
    (add_child_from_row m row_index parent p).1.m_visited_columns = p.m_visited_columns := by
  unfold add_child_from_row
  cases h : is_tree_offset_row m.lp row_index with
  | none => rfl
  | some t =>
    obtain ⟨x, y, offset⟩ := t
    dsimp only
    by_cases hy : y.not_set = true
    · rw [if_pos hy]
      by_cases hf : fixed_phase p = true
      · rw [if_pos hf]; rfl
      · rw [if_neg hf]
        split
        · exact (switch_to_fixed_mode_in_tree_frame _ _ _).2.1
        · rfl
    · rw [if_neg hy]
      exact add_child_from_row_continue_cols _ _ _ _

theorem create_root_cols (m : imp) (row_index : Nat) (p : lp_bound_propagator) :
    (create_root m row_index p).m_visited_columns = p.m_visited_columns := by
  unfold create_root
  split
  · rfl
  · split_ifs <;> rfl

/-- The exploration only adds to the visited columns. -/
theorem explore_under_cols (m : imp) (fuel v : Nat) (p : lp_bound_propagator) :
    ∀ c ∈ p.m_visited_columns, c ∈ (explore_under m fuel v p).m_visited_columns := by
  have h := explore_under_invariant m
    (fun q => ∀ c ∈ p.m_visited_columns, c ∈ q.m_visited_columns)
    (fun _ _ => True)
    (fun a b hab ha => ⟨fun c hc => (by rw [hab.2.2.1]; exact ha c hc), fun _ _ => trivial⟩)
    (fun a c ha _ => ⟨fun d hd => List.mem_cons_of_mem _ (ha d hd), fun _ _ => trivial⟩)
    (fun q w r hq _ _ => ⟨fun c hc => (by rw [add_child_from_row_cols]; exact hq c hc),
      fun _ _ => trivial, fun _ _ => trivial⟩)
    (fun _ _ _ _ _ _ => trivial)
    fuel v p (fun _ hc => hc) trivial
  exact h.1

theorem create_root_of_root_none (m : imp) (row_index : Nat) (p : lp_bound_propagator)
    (h : (create_root m row_index p).m_root = none) : create_root m row_index p = p := by
  cases hc : is_tree_offset_row m.lp row_index with
  | none => exact create_root_none m row_index p hc
  | some t =>
    obtain ⟨x, y, k⟩ := t
    cases hy : y.not_set with
    | true =>
      rw [create_root_one m row_index p x y k hc hy] at h
      cases h
    | false =>
      rw [create_root_two m row_index p x y k hc hy] at h
      cases h

/-- C29: if `root` and `fixed_vertex` are null and both offset-to-vertex tables are
empty before `cheap_eq_tree(row)`, they are so again after the call, whether or not a tree
was built and whatever the fuel; `visited_rows` and `visited_columns` after the call hold
everything they held before, and `row` is in `visited_rows`. -/
theorem cheap_eq_tree_teardown (m : imp) (fuel row_index : Nat) (p : lp_bound_propagator)
    (hroot : p.m_root = none) (hfv : p.m_fixed_vertex = none)
    (ht : p.m_offset_to_verts = fun _ => none)
    (htn : p.m_offset_to_verts_neg = fun _ => none) :
    (cheap_eq_tree m fuel row_index p).m_root = none ∧
    (cheap_eq_tree m fuel row_index p).m_fixed_vertex = none ∧
    (cheap_eq_tree m fuel row_index p).m_offset_to_verts = (fun _ => none) ∧
    (cheap_eq_tree m fuel row_index p).m_offset_to_verts_neg = (fun _ => none) ∧
    (∀ r ∈ p.m_visited_rows, r ∈ (cheap_eq_tree m fuel row_index p).m_visited_rows) ∧
    (∀ c ∈ p.m_visited_columns, c ∈ (cheap_eq_tree m fuel row_index p).m_visited_columns) ∧
    row_index ∈ (cheap_eq_tree m fuel row_index p).m_visited_rows := by
  obtain ⟨hr1, hr2⟩ := cheap_eq_tree_rows m fuel row_index p
  refine ⟨?_, ?_, ?_, ?_, hr1, ?_, hr2⟩ <;> unfold cheap_eq_tree <;>
    cases hc : check_insert p.m_visited_rows row_index with
    | none => first | assumption | exact fun _ h => h
    | some rows =>
      dsimp only
      cases hr : (create_root m row_index { p with m_visited_rows := rows }).m_root with
      | none =>
        dsimp only
        rw [create_root_of_root_none m row_index _ hr]
        first | assumption | exact fun _ h => h
      | some root =>
        first
        | rfl
        | exact fun c hc2 => explore_under_cols m fuel root _ c
            (by rw [create_root_cols]; exact hc2)

/-- On `tableau_h`, after `cheap_eq_tree(0)` from the constructor state the transient
state is reset and row 0 is marked. -/
theorem cheap_eq_tree_teardown_witness :
    (cheap_eq_tree imp_h 4 0 lp_bound_propagator.ctor).m_root = none ∧
    (cheap_eq_tree imp_h 4 0 lp_bound_propagator.ctor).m_fixed_vertex = none ∧
    0 ∈ (cheap_eq_tree imp_h 4 0 lp_bound_propagator.ctor).m_visited_rows :=
  ⟨(cheap_eq_tree_teardown imp_h 4 0 lp_bound_propagator.ctor rfl rfl rfl rfl).1,
   (cheap_eq_tree_teardown imp_h 4 0 lp_bound_propagator.ctor rfl rfl rfl rfl).2.1,
   (cheap_eq_tree_teardown imp_h 4 0 lp_bound_propagator.ctor rfl rfl rfl rfl).2.2.2.2.2.2⟩

/-- C30 (original wording refuted): on `tableau_o`, whose row 0 is `2 * x0 - x1 = 0`,
the tree classification fails, and from the constructor state `cheap_eq_tree(0)` builds
nothing and reports nothing, but it leaves row 0 in `visited_rows`, which was empty. -/
theorem cheap_eq_tree_skips_row_counterexample :
    is_tree_offset_row imp_o.lp 0 = none ∧
    lp_bound_propagator.ctor.m_visited_rows = [] ∧
    (cheap_eq_tree imp_o 4 0 lp_bound_propagator.ctor).m_visited_rows = [0] ∧
    (cheap_eq_tree imp_o 4 0 lp_bound_propagator.ctor).m_eqs = [] := by
  refine ⟨by decide!, rfl, by decide!, by decide!⟩

/-- C30 (amended): if the seed row is unvisited but fails the tree classification (no
free column, more than two free columns, or a free coefficient other than `+1` and `-1`),
and no tree is under way, `cheap_eq_tree(row)` only marks the row: the state after the
call is the state before it with `row` added to `visited_rows`, so that nothing is
reported and `root`, `fixed_vertex`, both offset-to-vertex tables, the vertices and
`visited_columns` are exactly as before. -/
theorem cheap_eq_tree_skips_row (m : imp) (fuel row_index : Nat) (p : lp_bound_propagator)
    (hwf : row_wf (m.lp.get_row row_index))
    (hnew : row_index ∉ p.m_visited_rows) (hroot : p.m_root = none)
    (hfail : free_cells m.lp (m.lp.get_row row_index) = [] ∨
      2 < (free_cells m.lp (m.lp.get_row row_index)).length ∨
      ∃ c ∈ free_cells m.lp (m.lp.get_row row_index), ¬ unit_coeff c) :
    cheap_eq_tree m fuel row_index p =
      { p with m_visited_rows := row_index :: p.m_visited_rows } ∧
    reports_of p (cheap_eq_tree m fuel row_index p) = [] ∧
    (cheap_eq_tree m fuel row_index p).m_visited_rows = row_index :: p.m_visited_rows ∧
    (cheap_eq_tree m fuel row_index p).m_visited_columns = p.m_visited_columns ∧
    (cheap_eq_tree m fuel row_index p).m_root = p.m_root ∧
    (cheap_eq_tree m fuel row_index p).m_fixed_vertex = p.m_fixed_vertex ∧
    (cheap_eq_tree m fuel row_index p).m_offset_to_verts = p.m_offset_to_verts ∧
    (cheap_eq_tree m fuel row_index p).m_offset_to_verts_neg = p.m_offset_to_verts_neg ∧
    (cheap_eq_tree m fuel row_index p).m_verts = p.m_verts := by
  have hnone := (is_tree_offset_row_none_iff m.lp row_index hwf).mpr hfail
  have hci : check_insert p.m_visited_rows row_index = some (row_index :: p.m_visited_rows) := by
    unfold check_insert
    simp [hnew]
  have h : cheap_eq_tree m fuel row_index p =
      { p with m_visited_rows := row_index :: p.m_visited_rows } := by
    unfold cheap_eq_tree
    rw [hci]
    dsimp only
    rw [create_root_none m row_index _ hnone]
    dsimp only
    rw [hroot]
  rw [h]
  exact ⟨rfl, reports_of_self p, rfl, rfl, rfl, rfl, rfl, rfl, rfl⟩

theorem tableau_o_wf (r : Nat) : row_wf (imp_o.lp.get_row r) := by
  rcases r with _ | r <;>
    simp [row_wf, imp_o, tableau_o, lar_solver.get_row, null_lpvar]

/-- On `tableau_o` the call `cheap_eq_tree(0)` from the constructor state marks row 0 and
does nothing else. -/
theorem cheap_eq_tree_skips_row_witness :
    cheap_eq_tree imp_o 4 0 lp_bound_propagator.ctor =
      { lp_bound_propagator.ctor with m_visited_rows := [0] } :=
  (cheap_eq_tree_skips_row imp_o 4 0 lp_bound_propagator.ctor (tableau_o_wf 0)
    (by simp [lp_bound_propagator.ctor]) rfl
    (Or.inr (Or.inr ⟨⟨0, 2⟩,
      by simp [free_cells, imp_o, tableau_o, lar_solver.get_row, column_is_fixed],
      by norm_num [unit_coeff]⟩))).1

/-! ## No equality of a column with itself from the table -/

theorem is_equal_self (m : imp) (hrefl : ∀ a, m.is_equal a a = true) (j : Nat) :
    is_equal m j j = true := hrefl _

theorem cheap_eq_table_reports_distinct (m : imp) (hrefl : ∀ a, m.is_equal a a = true)
    (rid : Nat) (p : lp_bound_propagator) (e : eq_report)
    (he : e ∈ reports_of p (cheap_eq_table m rid p)) : e.j ≠ e.k := by
  rw [cheap_eq_table_reports] at he
  unfold reports_fixed reports_direct reports_lookup at he
  cases h : is_offset_row m.lp rid with
  | none => simp [h] at he
  | some t =>
    obtain ⟨x, y, k⟩ := t
    simp only [h, List.mem_append] at he
    intro hjk
    rcases he with (he | he) | he
    · obtain ⟨_, x2, _, hne, rfl⟩ := mem_reports_fixed m rid x y k p e he
      simp only at hjk
      subst hjk
      rw [is_equal_self m hrefl] at hne
      cases hne
    · obtain ⟨_, _, hne, _, rfl⟩ := mem_reports_direct m rid x y k _ e he
      simp only at hjk
      subst hjk
      rw [is_equal_self m hrefl] at hne
      cases hne
    · obtain ⟨_, _, _, _, _, _, _, hne, _, hj, _, _⟩ := mem_reports_lookup m rid x y k _ e he
      rw [← hjk, hj, is_equal_self m hrefl] at hne
      cases hne

/-- C39: with a reflexive equality oracle, no equality that `cheap_eq_table` reports
relates a column to itself, whatever the fixed-value table returns and whatever row the
two-row table holds; so the assertion `j != k` of `add_eq_on_columns` holds. -/
theorem cheap_eq_table_no_self_equality (m : imp) (hrefl : ∀ a, m.is_equal a a = true)
    (rid : Nat) (p : lp_bound_propagator) :
    ∀ e ∈ reports_of p (cheap_eq_table m rid p), e.j ≠ e.k :=
  fun e he => cheap_eq_table_reports_distinct m hrefl rid p e he

theorem cheap_eq_table_no_self_equality_witness :
    reports_of lp_bound_propagator.ctor (cheap_eq_table imp_c 0 lp_bound_propagator.ctor) =
      [⟨0, 2, [4, 5, 2, 3]⟩] ∧
    ∀ e ∈ reports_of lp_bound_propagator.ctor
      (cheap_eq_table imp_c 0 lp_bound_propagator.ctor), e.j ≠ e.k :=
  ⟨by decide!, cheap_eq_table_no_self_equality imp_c (fun a => by simp [imp_c]) 0
    lp_bound_propagator.ctor⟩

/-! ## Ancestors and levels in a well formed tree -/

theorem tree_wf_parent (p : lp_bound_propagator) (hwf : tree_wf p) (i : Nat) (h0 : 0 < i)
    (hi : i < p.m_verts.length) :
    ∃ q, q < i ∧ (get_vertex p i).m_parent = some q ∧
      (get_vertex p i).m_level = (get_vertex p q).m_level + 1 :=
  let ⟨q, h1, h2, h3, _⟩ := hwf.2.2.2.2.1 i h0 hi
  ⟨q, h1, h2, h3⟩

theorem tree_wf_level_le (p : lp_bound_propagator) (hwf : tree_wf p) :
    ∀ i, i < p.m_verts.length → (get_vertex p i).m_level ≤ i := by
  intro i
  induction i using Nat.strong_induction_on with
  | _ i ih =>
    intro hi
    rcases Nat.eq_zero_or_pos i with h0 | h0
    · subst h0
      rw [hwf.2.2.1]
    · obtain ⟨q, hq, _, hl⟩ := tree_wf_parent p hwf i h0 hi
      have := ih q hq (by omega)
      omega

theorem tree_wf_level_zero (p : lp_bound_propagator) (hwf : tree_wf p) (i : Nat)
    (hi : i < p.m_verts.length) (h : (get_vertex p i).m_level = 0) : i = 0 := by
  rcases Nat.eq_zero_or_pos i with h0 | h0
  · exact h0
  · obtain ⟨q, _, _, hl⟩ := tree_wf_parent p hwf i h0 hi
    omega

theorem ancestor_or_self_refl (p : lp_bound_propagator) (u : Nat) :
    ancestor_or_self p u u := ⟨0, rfl⟩

theorem nth_parent_add (p : lp_bound_propagator) :
    ∀ (n k u a b : Nat), nth_parent p n u = some a → nth_parent p k a = some b →
      nth_parent p (n + k) u = some b := by
  intro n
  induction n with
  | zero =>
    intro k u a b h1 h2
    simp only [nth_parent, Option.some.injEq] at h1
    subst h1
    simpa using h2
  | succ n ih =>
    intro k u a b h1 h2
    rw [show n + 1 + k = (n + k) + 1 by omega]
    simp only [nth_parent] at h1 ⊢
    cases hp : (get_vertex p u).m_parent with
    | none => simp [hp] at h1
    | some q =>
      simp only [hp] at h1 ⊢
      exact ih k q a b h1 h2

theorem nth_parent_split (p : lp_bound_propagator) :
    ∀ (k j u c : Nat), nth_parent p (k + j) u = some c →
      ∃ a, nth_parent p k u = some a ∧ nth_parent p j a = some c := by
  intro k
  induction k with
  | zero =>
    intro j u c h
    exact ⟨u, rfl, by simpa using h⟩
  | succ k ih =>
    intro j u c h
    rw [show k + 1 + j = (k + j) + 1 by omega] at h
    simp only [nth_parent] at h ⊢
    cases hp : (get_vertex p u).m_parent with
    | none => simp [hp] at h
    | some q =>
      simp only [hp] at h ⊢
      exact ih j q c h

theorem ancestor_or_self_trans (p : lp_bound_propagator) (a b c : Nat)
    (h1 : ancestor_or_self p a b) (h2 : ancestor_or_self p b c) : ancestor_or_self p a c := by
  obtain ⟨n, hn⟩ := h1
  obtain ⟨k, hk⟩ := h2
  exact ⟨k + n, nth_parent_add p k n c b a hk hn⟩

theorem ancestor_of_parent (p : lp_bound_propagator) (u q : Nat)
    (h : (get_vertex p u).m_parent = some q) : ancestor_or_self p q u :=
  ⟨1, by simp [nth_parent, h]⟩

/-- Following `n` parent links in a well formed tree stays in the arena and goes up `n`
levels. -/
theorem nth_parent_level (p : lp_bound_propagator) (hwf : tree_wf p) :
    ∀ (n u a : Nat), u < p.m_verts.length → nth_parent p n u = some a →
      a < p.m_verts.length ∧ (get_vertex p a).m_level + n = (get_vertex p u).m_level := by
  intro n
  induction n with
  | zero =>
    intro u a hu h
    simp only [nth_parent, Option.some.injEq] at h
    subst h
    exact ⟨hu, rfl⟩
  | succ n ih =>
    intro u a hu h
    simp only [nth_parent] at h
    rcases Nat.eq_zero_or_pos u with h0 | h0
    · subst h0
      rw [hwf.2.2.2.1] at h
      cases h
    · obtain ⟨q, hq, hpar, hl⟩ := tree_wf_parent p hwf u h0 hu
      simp only [hpar] at h
      obtain ⟨h1, h2⟩ := ih q a (by omega) h
      exact ⟨h1, by omega⟩

theorem ancestor_level_le (p : lp_bound_propagator) (hwf : tree_wf p) (a u : Nat)
    (hu : u < p.m_verts.length) (h : ancestor_or_self p a u) :
    (get_vertex p a).m_level ≤ (get_vertex p u).m_level := by
  obtain ⟨n, hn⟩ := h
  have := (nth_parent_level p hwf n u a hu hn).2
  omega

/-- An ancestor of `u` at or above the level of another ancestor `b` of `u` is an ancestor
of `b`: the ancestors of a vertex form a chain. -/
theorem ancestor_chain (p : lp_bound_propagator) (hwf : tree_wf p) (u b c : Nat)
    (hu : u < p.m_verts.length) (hb : ancestor_or_self p b u) (hc : ancestor_or_self p c u)
    (hl : (get_vertex p c).m_level ≤ (get_vertex p b).m_level) : ancestor_or_self p c b := by
  obtain ⟨k, hk⟩ := hb
  obtain ⟨n, hn⟩ := hc
  have h1 := (nth_parent_level p hwf k u b hu hk).2
  have h2 := (nth_parent_level p hwf n u c hu hn).2
  have hkn : n = k + (n - k) := by omega
  rw [hkn] at hn
  obtain ⟨a, ha, hac⟩ := nth_parent_split p k (n - k) u c hn
  rw [hk] at ha
  cases ha
  exact ⟨_, hac⟩

/-- Two vertices of the same level with a common ancestor-or-self at that level are the
same vertex. -/
theorem ancestor_same_level (p : lp_bound_propagator) (hwf : tree_wf p) (a u : Nat)
    (hu : u < p.m_verts.length) (h : ancestor_or_self p a u)
    (hl : (get_vertex p a).m_level = (get_vertex p u).m_level) : a = u := by
  obtain ⟨n, hn⟩ := h
  have := (nth_parent_level p hwf n u a hu hn).2
  have h0 : n = 0 := by omega
  subst h0
  simpa [nth_parent] using hn.symm

/-- A strict ancestor of `u` is an ancestor-or-self of the parent of `u`. -/
theorem ancestor_of_parent_of (p : lp_bound_propagator) (c u q : Nat)
    (hpar : (get_vertex p u).m_parent = some q)
    (h : ancestor_or_self p c u) (hne : c ≠ u) : ancestor_or_self p c q := by
  obtain ⟨n, hn⟩ := h
  cases n with
  | zero =>
    simp only [nth_parent, Option.some.injEq] at hn
    exact absurd hn.symm hne
  | succ n =>
    simp only [nth_parent, hpar] at hn
    exact ⟨n, hn⟩

theorem recorded_from_of_parent (p : lp_bound_propagator) (w u q : Nat)
    (hpar : (get_vertex p u).m_parent = some q) (h : recorded_from p w q) :
    recorded_from p w u := by
  obtain ⟨c, hc, h1, h2⟩ := h
  exact ⟨c, ancestor_or_self_trans p c q u hc (ancestor_of_parent p u q hpar), h1, h2⟩

/-! ## The path between two vertices -/

theorem getLast?_append_singleton (l : List Nat) (v : Nat) :
    (l ++ [v]).getLast? = some v := by simp

/-- The loop that lifts `u` to the level `lvl` ends, at the ancestor of `u` of that level
when `u` is deeper, and what it records are ancestors of `u` no higher than `lvl`, each
with the row of the vertex it was reached from. -/
theorem climb_to_level_spec (p : lp_bound_propagator) (hwf : tree_wf p) (lvl : Nat) :
    ∀ (fuel u : Nat) (acc : List Nat), u < p.m_verts.length →
      (get_vertex p u).m_level ≤ lvl + fuel →
      ∃ u1 ext, climb_to_level p fuel u lvl acc = some (u1, acc ++ ext) ∧
        u1 < p.m_verts.length ∧ ancestor_or_self p u1 u ∧
        (get_vertex p u1).m_level = min (get_vertex p u).m_level lvl ∧
        ∀ w ∈ ext, ancestor_or_self p w u ∧ lvl ≤ (get_vertex p w).m_level ∧
          recorded_from p w u := by
  intro fuel
  induction fuel with
  | zero =>
    intro u acc hu hl
    refine ⟨u, [], ?_, hu, ancestor_or_self_refl p u, ?_, by simp⟩
    · simp only [climb_to_level]
      rw [if_neg (by omega)]
      simp
    · omega
  | succ fuel ih =>
    intro u acc hu hl
    by_cases h : (get_vertex p u).m_level > lvl
    · have h0 : 0 < u := by
        rcases Nat.eq_zero_or_pos u with h0 | h0
        · subst h0
          rw [hwf.2.2.1] at h
          omega
        · exact h0
      obtain ⟨q, hq, hpar, hlq⟩ := tree_wf_parent p hwf u h0 hu
      simp only [climb_to_level]
      rw [if_pos h]
      simp only [hpar]
      obtain ⟨u1, ext, h1, h2, h3, h4, h5⟩ := ih q
        (if (get_vertex p u).m_row = (get_vertex p q).m_row then acc ++ [q] else acc)
        (by omega) (by omega)
      have hanc : ∀ w, ancestor_or_self p w q → ancestor_or_self p w u :=
        fun w hw => ancestor_or_self_trans p w q u hw (ancestor_of_parent p u q hpar)
      have hlvl : (get_vertex p u1).m_level = min (get_vertex p u).m_level lvl := by
        rw [h4]; omega
      by_cases hrow : (get_vertex p u).m_row = (get_vertex p q).m_row
      · rw [if_pos hrow] at h1
        refine ⟨u1, q :: ext, ?_, h2, hanc _ h3, hlvl, ?_⟩
        · rw [if_pos hrow, h1]; simp
        · intro w hw
          rcases List.mem_cons.1 hw with rfl | hw
          · exact ⟨ancestor_of_parent p u w hpar, by omega,
              ⟨u, ancestor_or_self_refl p u, hpar, hrow⟩⟩
          · obtain ⟨a, b, c⟩ := h5 w hw
            exact ⟨hanc _ a, b, recorded_from_of_parent p w u q hpar c⟩
      · rw [if_neg hrow] at h1
        refine ⟨u1, ext, by rw [if_neg hrow, h1], h2, hanc _ h3, hlvl, ?_⟩
        intro w hw
        obtain ⟨a, b, c⟩ := h5 w hw
        exact ⟨hanc _ a, b, recorded_from_of_parent p w u q hpar c⟩
    · refine ⟨u, [], ?_, hu, ancestor_or_self_refl p u, ?_, by simp⟩
      · simp only [climb_to_level]
        rw [if_neg h]
        simp
      · omega

/-- The loop that lifts two vertices of the same level together ends, and what it records
on either side are ancestors no higher than any common ancestor of the two, each with the
row of the vertex it was reached from. -/
theorem climb_to_common_spec (p : lp_bound_propagator) (hwf : tree_wf p) :
    ∀ (fuel u v : Nat) (path vb : List Nat), u < p.m_verts.length → v < p.m_verts.length →
      (get_vertex p u).m_level = (get_vertex p v).m_level →
      (get_vertex p u).m_level ≤ fuel →
      ∃ e1 e2, climb_to_common p fuel u v path vb = some (path ++ e1, vb ++ e2) ∧
        (∀ w ∈ e1, ancestor_or_self p w u ∧ recorded_from p w u ∧
          ∀ c, ancestor_or_self p c u → ancestor_or_self p c v →
            (get_vertex p c).m_level ≤ (get_vertex p w).m_level) ∧
        (∀ w ∈ e2, ancestor_or_self p w v ∧ recorded_from p w v ∧
          ∀ c, ancestor_or_self p c u → ancestor_or_self p c v →
            (get_vertex p c).m_level ≤ (get_vertex p w).m_level) := by
  intro fuel
  induction fuel with
  | zero =>
    intro u v path vb hu hv hl hf
    have h1 : u = 0 := tree_wf_level_zero p hwf u hu (by omega)
    have h2 : v = 0 := tree_wf_level_zero p hwf v hv (by omega)
    subst h1 h2
    exact ⟨[], [], by simp [climb_to_common], by simp, by simp⟩
  | succ fuel ih =>
    intro u v path vb hu hv hl hf
    by_cases huv : u = v
    · exact ⟨[], [], by simp [climb_to_common, huv], by simp, by simp⟩
    · by_cases hs : (get_vertex p u).m_row = (get_vertex p v).m_row ∧
          (get_vertex p u).m_offset = (get_vertex p v).m_offset
      · refine ⟨[], [], ?_, by simp, by simp⟩
        simp only [climb_to_common]
        rw [if_neg huv, if_pos hs]
        simp
      · have hpos : 0 < (get_vertex p u).m_level := by
          rcases Nat.eq_zero_or_pos (get_vertex p u).m_level with h0 | h0
          · have h1 : u = 0 := tree_wf_level_zero p hwf u hu h0
            have h2 : v = 0 := tree_wf_level_zero p hwf v hv (by omega)
            exact absurd (h1.trans h2.symm) huv
          · exact h0
        have hu0 : 0 < u := by
          rcases Nat.eq_zero_or_pos u with h0 | h0
          · subst h0
            rw [hwf.2.2.1] at hpos
            omega
          · exact h0
        have hv0 : 0 < v := by
          rcases Nat.eq_zero_or_pos v with h0 | h0
          · subst h0
            rw [hl, hwf.2.2.1] at hpos
            omega
          · exact h0
        obtain ⟨uq, huq, hupar, hulq⟩ := tree_wf_parent p hwf u hu0 hu
        obtain ⟨vq, hvq, hvpar, hvlq⟩ := tree_wf_parent p hwf v hv0 hv
        simp only [climb_to_common]
        rw [if_neg huv, if_neg hs]
        simp only [hupar, hvpar]
        obtain ⟨e1, e2, h1, h2, h3⟩ := ih uq vq
          (if (get_vertex p uq).m_row = (get_vertex p u).m_row then path ++ [uq] else path)
          (if (get_vertex p vq).m_row = (get_vertex p v).m_row then vb ++ [vq] else vb)
          (by omega) (by omega) (by omega) (by omega)
        have hcu : ∀ c, ancestor_or_self p c u → ancestor_or_self p c v →
            ancestor_or_self p c uq ∧ ancestor_or_self p c vq := by
          intro c hc1 hc2
          have hne1 : c ≠ u := by
            intro hcu
            subst hcu
            exact huv (ancestor_same_level p hwf c v hv hc2 hl)
          have hne2 : c ≠ v := by
            intro hcv
            subst hcv
            exact huv (ancestor_same_level p hwf c u hu hc1 hl.symm).symm
          exact ⟨ancestor_of_parent_of p c u uq hupar hc1 hne1,
            ancestor_of_parent_of p c v vq hvpar hc2 hne2⟩
        have hcl : ∀ c, ancestor_or_self p c u → ancestor_or_self p c v →
            (get_vertex p c).m_level ≤ (get_vertex p uq).m_level := fun c hc1 hc2 =>
          ancestor_level_le p hwf c uq (by omega) (hcu c hc1 hc2).1
        have hA : ∀ w ∈ e1, ancestor_or_self p w u ∧ recorded_from p w u ∧
            ∀ c, ancestor_or_self p c u → ancestor_or_self p c v →
              (get_vertex p c).m_level ≤ (get_vertex p w).m_level := by
          intro w hw
          obtain ⟨a, b, c⟩ := h2 w hw
          exact ⟨ancestor_or_self_trans p w uq u a (ancestor_of_parent p u uq hupar),
            recorded_from_of_parent p w u uq hupar b,
            fun c0 hc1 hc2 => c c0 (hcu c0 hc1 hc2).1 (hcu c0 hc1 hc2).2⟩
        have hB : ∀ w ∈ e2, ancestor_or_self p w v ∧ recorded_from p w v ∧
            ∀ c, ancestor_or_self p c u → ancestor_or_self p c v →
              (get_vertex p c).m_level ≤ (get_vertex p w).m_level := by
          intro w hw
          obtain ⟨a, b, c⟩ := h3 w hw
          exact ⟨ancestor_or_self_trans p w vq v a (ancestor_of_parent p v vq hvpar),
            recorded_from_of_parent p w v vq hvpar b,
            fun c0 hc1 hc2 => c c0 (hcu c0 hc1 hc2).1 (hcu c0 hc1 hc2).2⟩
        refine ⟨(if (get_vertex p uq).m_row = (get_vertex p u).m_row then [uq] else []) ++ e1,
          (if (get_vertex p vq).m_row = (get_vertex p v).m_row then [vq] else []) ++ e2,
          ?_, ?_, ?_⟩
        · rw [h1]
          by_cases r1 : (get_vertex p uq).m_row = (get_vertex p u).m_row <;>
            by_cases r2 : (get_vertex p vq).m_row = (get_vertex p v).m_row <;>
            simp [r1, r2]
        · intro w hw
          rcases List.mem_append.1 hw with hw | hw
          · by_cases r1 : (get_vertex p uq).m_row = (get_vertex p u).m_row
            · rw [if_pos r1, List.mem_singleton] at hw
              subst hw
              exact ⟨ancestor_of_parent p u w hupar,
                ⟨u, ancestor_or_self_refl p u, hupar, r1.symm⟩, hcl⟩
            · rw [if_neg r1] at hw
              cases hw
          · exact hA w hw
        · intro w hw
          rcases List.mem_append.1 hw with hw | hw
          · by_cases r2 : (get_vertex p vq).m_row = (get_vertex p v).m_row
            · rw [if_pos r2, List.mem_singleton] at hw
              subst hw
              refine ⟨ancestor_of_parent p v w hvpar,
                ⟨v, ancestor_or_self_refl p v, hvpar, r2.symm⟩, ?_⟩
              intro c hc1 hc2
              have := hcl c hc1 hc2
              omega
            · rw [if_neg r2] at hw
              cases hw
          · exact hB w hw

/-- The path search between two vertices of a well formed tree succeeds; the path starts
with `u` and ends with `v`, and each of its elements is `u`, `v` or a recorded ancestor of
one of them, no higher than any common ancestor of the two. -/
theorem find_path_on_tree_spec (p : lp_bound_propagator) (hwf : tree_wf p) (u v : Nat)
    (hu : u < p.m_verts.length) (hv : v < p.m_verts.length) :
    ∃ path, find_path_on_tree p u v = some path ∧
      path.head? = some u ∧ path.getLast? = some v ∧
      ∀ w ∈ path,
        (ancestor_or_self p w u ∨ ancestor_or_self p w v) ∧
        (∀ c, ancestor_or_self p c u → ancestor_or_self p c v →
          (get_vertex p c).m_level ≤ (get_vertex p w).m_level) ∧
        (w = u ∨ w = v ∨ recorded_from p w u ∨ recorded_from p w v) := by
  have hlu := tree_wf_level_le p hwf u hu
  have hlv := tree_wf_level_le p hwf v hv
  obtain ⟨u1, x1, a1, a2, a3, a4, a5⟩ := climb_to_level_spec p hwf (get_vertex p v).m_level
    p.m_verts.length u [u] hu (by omega)
  obtain ⟨v1, x2, b1, b2, b3, b4, b5⟩ := climb_to_level_spec p hwf (get_vertex p u1).m_level
    p.m_verts.length v [v] hv (by omega)
  have hl1 := tree_wf_level_le p hwf u1 a2
  obtain ⟨e1, e2, c1, c2, c3⟩ := climb_to_common_spec p hwf p.m_verts.length u1 v1
    ([u] ++ x1) ([v] ++ x2) a2 b2 (by rw [b4, a4]; omega) (by omega)
  have hcu : ∀ c, ancestor_or_self p c u → ancestor_or_self p c v →
      (get_vertex p c).m_level ≤ (get_vertex p u1).m_level := by
    intro c hc1 hc2
    have := ancestor_level_le p hwf c u hu hc1
    have := ancestor_level_le p hwf c v hv hc2
    rw [a4]
    omega
  have hcc : ∀ c, ancestor_or_self p c u → ancestor_or_self p c v →
      ancestor_or_self p c u1 ∧ ancestor_or_self p c v1 := by
    intro c hc1 hc2
    refine ⟨ancestor_chain p hwf u u1 c hu a3 hc1 (hcu c hc1 hc2),
      ancestor_chain p hwf v v1 c hv b3 hc2 ?_⟩
    have := hcu c hc1 hc2
    rw [b4]
    have := ancestor_level_le p hwf c v hv hc2
    omega
  refine ⟨[u] ++ x1 ++ e1 ++ ([v] ++ x2 ++ e2).reverse, ?_, by simp, ?_, ?_⟩
  · unfold find_path_on_tree
    simp only [a1, b1, c1]
  · rw [show [u] ++ x1 ++ e1 ++ ([v] ++ x2 ++ e2).reverse =
      ([u] ++ x1 ++ e1 ++ e2.reverse ++ x2.reverse) ++ [v] by simp]
    exact getLast?_append_singleton _ _
  · intro w hw
    simp only [List.mem_append, List.mem_reverse, List.mem_singleton] at hw
    rcases hw with ((rfl | hw) | hw) | ((rfl | hw) | hw)
    · exact ⟨Or.inl (ancestor_or_self_refl p w),
        fun c hc1 _ => ancestor_level_le p hwf c w hu hc1, Or.inl rfl⟩
    · obtain ⟨a, b, c⟩ := a5 w hw
      refine ⟨Or.inl a, ?_, Or.inr (Or.inr (Or.inl c))⟩
      intro c0 _ hc2
      have := ancestor_level_le p hwf c0 v hv hc2
      omega
    · obtain ⟨a, b, c⟩ := c2 w hw
      obtain ⟨c', h1, h2, h3⟩ := b
      exact ⟨Or.inl (ancestor_or_self_trans p w u1 u a a3),
        fun c0 hc1 hc2 => c c0 (hcc c0 hc1 hc2).1 (hcc c0 hc1 hc2).2,
        Or.inr (Or.inr (Or.inl ⟨c', ancestor_or_self_trans p c' u1 u h1 a3, h2, h3⟩))⟩
    · exact ⟨Or.inr (ancestor_or_self_refl p w),
        fun c _ hc2 => ancestor_level_le p hwf c w hv hc2, Or.inr (Or.inl rfl)⟩
    · obtain ⟨a, b, c⟩ := b5 w hw
      refine ⟨Or.inr a, ?_, Or.inr (Or.inr (Or.inr c))⟩
      intro c0 hc1 hc2
      have := hcu c0 hc1 hc2
      omega
    · obtain ⟨a, b, c⟩ := c3 w hw
      obtain ⟨c', h1, h2, h3⟩ := b
      exact ⟨Or.inr (ancestor_or_self_trans p w v1 v a b3),
        fun c0 hc1 hc2 => c c0 (hcc c0 hc1 hc2).1 (hcc c0 hc1 hc2).2,
        Or.inr (Or.inr (Or.inr ⟨c', ancestor_or_self_trans p c' v1 v h1 b3, h2, h3⟩))⟩

theorem seeded_wf (m : imp) (row_index root : Nat)
    (h : (seeded m row_index).m_root = some root) : root = 0 ∧ tree_wf (seeded m row_index) :=
  create_root_wf m row_index _ rfl rfl root h

theorem explored_wf (m : imp) (fuel row_index root : Nat)
    (h : (seeded m row_index).m_root = some root) : tree_wf (explored m fuel row_index) := by
  obtain ⟨h0, hwf⟩ := seeded_wf m row_index root h
  unfold explored
  simp only [h]
  subst h0
  exact (explore_under_wf m fuel 0 _ hwf hwf.2.1).1

/-- C35: for two vertices `u`, `v` of a well formed tree (the root at level 0 and without
parent, every other vertex one level below its parent), `find_path_on_tree(u, v)` ends
without meeting a null parent; the path starts with `u` and ends with `v`; each element is
an ancestor-or-self of `u` or of `v`, no higher than any common ancestor of the two; and
each element other than `u` and `v` is the parent of `u`, of `v` or of one of their
ancestors, with the same row as that child. -/
theorem find_path_on_tree_correct (p : lp_bound_propagator) (hwf : tree_wf p) (u v : Nat)
    (hu : u < p.m_verts.length) (hv : v < p.m_verts.length) :
    ∃ path, find_path_on_tree p u v = some path ∧
      path.head? = some u ∧ path.getLast? = some v ∧
      ∀ w ∈ path,
        (ancestor_or_self p w u ∨ ancestor_or_self p w v) ∧
        (∀ c, ancestor_or_self p c u → ancestor_or_self p c v →
          (get_vertex p c).m_level ≤ (get_vertex p w).m_level) ∧
        (w = u ∨ w = v ∨ recorded_from p w u ∨ recorded_from p w v) :=
  find_path_on_tree_spec p hwf u v hu hv

/-- In the tree explored on `tableau_q` from the seed row 0, the path from the vertex 4 to
the vertex 2 is `4, 3, 2`. -/
theorem find_path_on_tree_correct_witness :
    find_path_on_tree (explored imp_q 4 0) 4 2 = some [4, 3, 2] ∧
    ∃ path, find_path_on_tree (explored imp_q 4 0) 4 2 = some path ∧
      path.head? = some 4 ∧ path.getLast? = some 2 ∧
      ∀ w ∈ path,
        (ancestor_or_self (explored imp_q 4 0) w 4 ∨
          ancestor_or_self (explored imp_q 4 0) w 2) ∧
        (∀ c, ancestor_or_self (explored imp_q 4 0) c 4 →
          ancestor_or_self (explored imp_q 4 0) c 2 →
          (get_vertex (explored imp_q 4 0) c).m_level ≤
            (get_vertex (explored imp_q 4 0) w).m_level) ∧
        (w = 4 ∨ w = 2 ∨ recorded_from (explored imp_q 4 0) w 4 ∨
          recorded_from (explored imp_q 4 0) w 2) :=
  ⟨by decide!, find_path_on_tree_correct (explored imp_q 4 0)
    (explored_wf imp_q 4 0 0 (by decide!)) 4 2 (by decide!) (by decide!)⟩

/-! ## The check of a vertex against an offset table -/

theorem find_path_on_tree_some (p : lp_bound_propagator) (hwf : tree_wf p) (u v : Nat)
    (hu : u < p.m_verts.length) (hv : v < p.m_verts.length) :
    ∃ path, find_path_on_tree p u v = some path :=
  let ⟨path, h, _⟩ := find_path_on_tree_spec p hwf u v hu hv
  ⟨path, h⟩

theorem report_eq_of_path (m : imp) (u v : Nat) (p : lp_bound_propagator) (path : List Nat)
    (h : find_path_on_tree p u v = some path) :
    report_eq m u v p =
      add_eq_on_columns p (get_explanation_from_path m.lp p path)
        (get_vertex p u).m_column (get_vertex p v).m_column := by
  unfold report_eq
  rw [h]

theorem check_for_eq_and_add_to_offset_table_none (m : imp) (v : Nat) (t : Bool)
    (p : lp_bound_propagator)
    (h : (if t then p.m_offset_to_verts_neg else p.m_offset_to_verts)
      (get_vertex p v).m_offset = none) :
    check_for_eq_and_add_to_offset_table m v t p =
      if t then
        { p with m_offset_to_verts_neg :=
            Function.update p.m_offset_to_verts_neg (get_vertex p v).m_offset (some v) }
      else
        { p with m_offset_to_verts :=
            Function.update p.m_offset_to_verts (get_vertex p v).m_offset (some v) } := by
  unfold check_for_eq_and_add_to_offset_table
  rw [h]

theorem check_for_eq_and_add_to_offset_table_some (m : imp) (v : Nat) (t : Bool)
    (p : lp_bound_propagator) (k : Nat)
    (h : (if t then p.m_offset_to_verts_neg else p.m_offset_to_verts)
      (get_vertex p v).m_offset = some k) :
    check_for_eq_and_add_to_offset_table m v t p =
      if (get_vertex p k).m_column ≠ (get_vertex p v).m_column ∧
          is_equal m (get_vertex p k).m_column (get_vertex p v).m_column = false then
        report_eq m k v p
      else p := by
  unfold check_for_eq_and_add_to_offset_table
  rw [h]

theorem report_eq_tables (m : imp) (u v : Nat) (p : lp_bound_propagator) :
    (report_eq m u v p).m_offset_to_verts = p.m_offset_to_verts ∧
    (report_eq m u v p).m_offset_to_verts_neg = p.m_offset_to_verts_neg := by
  unfold report_eq
  split <;> exact ⟨rfl, rfl⟩

theorem get_vertex_congr (p q : lp_bound_propagator) (h : q.m_verts = p.m_verts) (i : Nat) :
    get_vertex q i = get_vertex p i := by
  unfold get_vertex
  rw [h]

theorem climb_to_level_congr (p q : lp_bound_propagator)
    (h : ∀ i, get_vertex q i = get_vertex p i) :
    ∀ (fuel u lvl : Nat) (acc : List Nat),
      climb_to_level q fuel u lvl acc = climb_to_level p fuel u lvl acc := by
  intro fuel
  induction fuel with
  | zero =>
    intro u lvl acc
    simp only [climb_to_level, h]
  | succ fuel ih =>
    intro u lvl acc
    simp only [climb_to_level, h, ih]

theorem climb_to_common_congr (p q : lp_bound_propagator)
    (h : ∀ i, get_vertex q i = get_vertex p i) :
    ∀ (fuel u v : Nat) (path vb : List Nat),
      climb_to_common q fuel u v path vb = climb_to_common p fuel u v path vb := by
  intro fuel
  induction fuel with
  | zero =>
    intro u v path vb
    simp only [climb_to_common, h]
  | succ fuel ih =>
    intro u v path vb
    simp only [climb_to_common, h, ih]

/-- The path search reads the arena only. -/
theorem find_path_on_tree_congr (p q : lp_bound_propagator) (h : q.m_verts = p.m_verts)
    (u v : Nat) : find_path_on_tree q u v = find_path_on_tree p u v := by
  unfold find_path_on_tree
  simp only [h, get_vertex_congr p q h, climb_to_level_congr p q (get_vertex_congr p q h),
    climb_to_common_congr p q (get_vertex_congr p q h)]

theorem report_eq_other (m : imp) (u v : Nat) (p : lp_bound_propagator)
    (f : ℚ → Option Nat) :
    report_eq m u v { p with m_offset_to_verts := f } =
      { report_eq m u v p with m_offset_to_verts := f } ∧
    report_eq m u v { p with m_offset_to_verts_neg := f } =
      { report_eq m u v p with m_offset_to_verts_neg := f } := by
  have h1 : find_path_on_tree { p with m_offset_to_verts := f } u v =
    find_path_on_tree p u v :=
    find_path_on_tree_congr p { p with m_offset_to_verts := f } rfl u v
  have h2 : find_path_on_tree { p with m_offset_to_verts_neg := f } u v =
    find_path_on_tree p u v :=
    find_path_on_tree_congr p { p with m_offset_to_verts_neg := f } rfl u v
  unfold report_eq
  rw [h1, h2]
  cases find_path_on_tree p u v <;> exact ⟨rfl, rfl⟩

/-- The check against one table neither reads nor writes the other table. -/
theorem check_for_eq_and_add_to_offset_table_other (m : imp) (v : Nat)
    (p : lp_bound_propagator) (f : ℚ → Option Nat) :
    check_for_eq_and_add_to_offset_table m v true { p with m_offset_to_verts := f } =
      { check_for_eq_and_add_to_offset_table m v true p with m_offset_to_verts := f } ∧
    check_for_eq_and_add_to_offset_table m v false { p with m_offset_to_verts_neg := f } =
      { check_for_eq_and_add_to_offset_table m v false p with m_offset_to_verts_neg := f } := by
  constructor
  · unfold check_for_eq_and_add_to_offset_table
    simp only [if_true]
    cases h : p.m_offset_to_verts_neg (get_vertex p v).m_offset with
    | none =>
      have h2 : p.m_offset_to_verts_neg
        (get_vertex { p with m_offset_to_verts := f } v).m_offset = none := h
      simp only [h2]
      rfl
    | some k =>
      have h2 : p.m_offset_to_verts_neg
        (get_vertex { p with m_offset_to_verts := f } v).m_offset = some k := h
      simp only [h2]
      split_ifs with h3 h4 h4
      · exact (report_eq_other m k v p f).1
      · exact absurd h3 h4
      · exact absurd h4 h3
      · rfl
  · unfold check_for_eq_and_add_to_offset_table
    simp only [Bool.false_eq_true, if_false]
    cases h : p.m_offset_to_verts (get_vertex p v).m_offset with
    | none =>
      have h2 : p.m_offset_to_verts
        (get_vertex { p with m_offset_to_verts_neg := f } v).m_offset = none := h
      simp only [h2]
      rfl
    | some k =>
      have h2 : p.m_offset_to_verts
        (get_vertex { p with m_offset_to_verts_neg := f } v).m_offset = some k := h
      simp only [h2]
      split_ifs with h3 h4 h4
      · exact (report_eq_other m k v p f).2
      · exact absurd h3 h4
      · exact absurd h4 h3
      · rfl

theorem check_for_eq_and_add_to_offsets_free (m : imp) (v : Nat) (p : lp_bound_propagator)
    (h : fixed_phase p = false) :
    check_for_eq_and_add_to_offsets m v p =
      check_for_eq_and_add_to_offset_table m v (get_vertex p v).m_neg p := by
  unfold check_for_eq_and_add_to_offsets
  rw [h]
  cases (get_vertex p v).m_neg <;> simp

/-- C34: `check_for_eq_and_add_to_offset_table(v, table)` on a well formed tree whose
table entries are allocated vertices.  Without an entry at `v.offset` it registers `v`
there and reports nothing.  With an entry `k` it leaves both tables and the tree alone, and
reports the equality of `k.column` and `v.column`, explained by the path from `k` to `v`,
exactly when the two columns differ and `is_equal` is false.  The check against one table
neither reads nor writes the other one, and in free phase
`check_for_eq_and_add_to_offsets` checks a vertex with `neg` set against the negated table
only and a vertex with `neg` clear against the other table only. -/
theorem check_for_eq_and_add_to_offset_table_effect (m : imp) (v : Nat) (t : Bool)
    (p : lp_bound_propagator) (hwf : tree_wf p) (hv : v < p.m_verts.length)
    (hk : ∀ k, (if t then p.m_offset_to_verts_neg else p.m_offset_to_verts)
      (get_vertex p v).m_offset = some k → k < p.m_verts.length) :
    ((if t then p.m_offset_to_verts_neg else p.m_offset_to_verts)
        (get_vertex p v).m_offset = none →
      check_for_eq_and_add_to_offset_table m v t p =
        (if t then
          { p with m_offset_to_verts_neg :=
              Function.update p.m_offset_to_verts_neg (get_vertex p v).m_offset (some v) }
        else
          { p with m_offset_to_verts :=
              Function.update p.m_offset_to_verts (get_vertex p v).m_offset (some v) }) ∧
      reports_of p (check_for_eq_and_add_to_offset_table m v t p) = []) ∧
    (∀ k, (if t then p.m_offset_to_verts_neg else p.m_offset_to_verts)
        (get_vertex p v).m_offset = some k →
      (check_for_eq_and_add_to_offset_table m v t p).m_offset_to_verts =
        p.m_offset_to_verts ∧
      (check_for_eq_and_add_to_offset_table m v t p).m_offset_to_verts_neg =
        p.m_offset_to_verts_neg ∧
      same_tree p (check_for_eq_and_add_to_offset_table m v t p) ∧
      ∃ path, find_path_on_tree p k v = some path ∧
        reports_of p (check_for_eq_and_add_to_offset_table m v t p) =
          if (get_vertex p k).m_column ≠ (get_vertex p v).m_column ∧
              is_equal m (get_vertex p k).m_column (get_vertex p v).m_column = false then
            [⟨(get_vertex p k).m_column, (get_vertex p v).m_column,
              get_explanation_from_path m.lp p path⟩]
          else []) ∧
    (∀ f, check_for_eq_and_add_to_offset_table m v true { p with m_offset_to_verts := f } =
        { check_for_eq_and_add_to_offset_table m v true p with m_offset_to_verts := f } ∧
      check_for_eq_and_add_to_offset_table m v false { p with m_offset_to_verts_neg := f } =
        { check_for_eq_and_add_to_offset_table m v false p with
          m_offset_to_verts_neg := f }) ∧
    (fixed_phase p = false →
      check_for_eq_and_add_to_offsets m v p =
        check_for_eq_and_add_to_offset_table m v (get_vertex p v).m_neg p) := by
  refine ⟨?_, ?_, check_for_eq_and_add_to_offset_table_other m v p,
    check_for_eq_and_add_to_offsets_free m v p⟩
  · intro h
    rw [check_for_eq_and_add_to_offset_table_none m v t p h]
    refine ⟨rfl, ?_⟩
    cases t <;> exact reports_of_append p _ [] (by simp)
  · intro k h
    obtain ⟨path, hpath⟩ := find_path_on_tree_some p hwf k v (hk k h) hv
    rw [check_for_eq_and_add_to_offset_table_some m v t p k h]
    refine ⟨?_, ?_, ?_, path, hpath, ?_⟩
    · split_ifs
      · exact (report_eq_tables m k v p).1
      · rfl
    · split_ifs
      · exact (report_eq_tables m k v p).2
      · rfl
    · split_ifs
      · exact report_eq_same_tree m k v p
      · exact same_tree_refl p
    · split_ifs
      · rw [report_eq_of_path m k v p path hpath, reports_of_add_eq]
      · exact reports_of_self p

/-- On `tableau_h`, once the root (column 0) is registered at offset 0, the check of its
child (column 2, offset 0) finds the root, leaves the table alone and reports the equality
of the columns 0 and 2. -/
theorem check_for_eq_and_add_to_offset_table_effect_witness :
    (check_for_eq_and_add_to_offsets imp_h 0 (seeded imp_h 0)).m_offset_to_verts
      (get_vertex (check_for_eq_and_add_to_offsets imp_h 0 (seeded imp_h 0)) 1).m_offset =
      some 0 ∧
    reports_of (check_for_eq_and_add_to_offsets imp_h 0 (seeded imp_h 0))
      (check_for_eq_and_add_to_offset_table imp_h 1 false
        (check_for_eq_and_add_to_offsets imp_h 0 (seeded imp_h 0))) = [⟨0, 2, []⟩] ∧
    (check_for_eq_and_add_to_offset_table imp_h 1 false
      (check_for_eq_and_add_to_offsets imp_h 0 (seeded imp_h 0))).m_offset_to_verts =
      (check_for_eq_and_add_to_offsets imp_h 0 (seeded imp_h 0)).m_offset_to_verts :=
  ⟨by decide!, by decide!,
    ((check_for_eq_and_add_to_offset_table_effect imp_h 1 false
      (check_for_eq_and_add_to_offsets imp_h 0 (seeded imp_h 0))
      (tree_wf_of_same_tree _ _ (check_for_eq_and_add_to_offsets_same_tree imp_h 0 _)
        (seeded_wf imp_h 0 0 (by decide!)).2)
      (by decide!)
      (fun k hk => by
        have h0 : (if false = true then
            (check_for_eq_and_add_to_offsets imp_h 0 (seeded imp_h 0)).m_offset_to_verts_neg
          else (check_for_eq_and_add_to_offsets imp_h 0 (seeded imp_h 0)).m_offset_to_verts)
            (get_vertex (check_for_eq_and_add_to_offsets imp_h 0 (seeded imp_h 0)) 1).m_offset =
            some 0 := by decide!
        rw [h0] at hk
        cases hk
        decide!)).2.1 0 (by decide!)).1⟩

/-! ## The tree classification and big offsets -/

theorem tree_row_scan_big (s : lar_solver) (b : ℚ → Bool) :
    ∀ (l : List row_cell) (x y : signed_column),
      tree_row_scan { s with is_big := b } l x y = tree_row_scan s l x y := by
  intro l
  induction l with
  | nil => intro x y; rfl
  | cons c cs ih =>
    intro x y
    have hc : column_is_fixed { s with is_big := b } c.var = column_is_fixed s c.var := rfl
    simp only [tree_row_scan, hc, ih]

/-- The tree classification of a row never consults `is_big`. -/
theorem is_tree_offset_row_big (s : lar_solver) (b : ℚ → Bool) (r : Nat) :
    is_tree_offset_row { s with is_big := b } r = is_tree_offset_row s r := by
  unfold is_tree_offset_row
  have h1 : lar_solver.get_row { s with is_big := b } r = s.get_row r := rfl
  have h2 : tree_row_offset { s with is_big := b } (s.get_row r) =
    tree_row_offset s (s.get_row r) := rfl
  rw [h1, tree_row_scan_big, h2]

/-- A row whose free cells the first loop of `is_offset_row` accepts is accepted by the
tree classification, whatever the sum of its fixed cells. -/
theorem is_tree_offset_row_of_scan (s : lar_solver) (r x y : Nat)
    (hwf : row_wf (s.get_row r))
    (h : offset_row_scan s (s.get_row r) null_lpvar null_lpvar = some (x, y))
    (hxy : ¬ (x = null_lpvar ∧ y = null_lpvar)) :
    ∃ x1 y1, is_tree_offset_row s r = some (x1, y1, fixed_offset s (s.get_row r)) := by
  rw [offset_row_scan_free] at h
  have sh := offset_row_scan_shape s _ (free_cells_free s _) (free_cells_wf s _ hwf) x y h
  rcases sh with ⟨_, hx, hy⟩ | ⟨c, hl, h1, _, _⟩ | ⟨c, hl, h1, _, _⟩ |
    ⟨c, d, hl, h1, h2, _, _⟩ | ⟨c, d, hl, h1, h2, _, _⟩
  · exact absurd ⟨hx, hy⟩ hxy
  · exact ⟨_, _, is_tree_offset_row_of_shape s r _ _ hwf
      (Or.inl ⟨c, hl, Or.inl h1, rfl, rfl⟩)⟩
  · exact ⟨_, _, is_tree_offset_row_of_shape s r _ _ hwf
      (Or.inl ⟨c, hl, Or.inr h1, rfl, rfl⟩)⟩
  · exact ⟨_, _, is_tree_offset_row_of_shape s r _ _ hwf
      (Or.inr ⟨c, d, hl, Or.inl h1, Or.inr h2, rfl, rfl⟩)⟩
  · exact ⟨_, _, is_tree_offset_row_of_shape s r _ _ hwf
      (Or.inr ⟨c, d, hl, Or.inr h1, Or.inl h2, rfl, rfl⟩)⟩

theorem create_root_of_some (m : imp) (row_index : Nat) (p : lp_bound_propagator)
    (x y : signed_column) (k : ℚ) (h : is_tree_offset_row m.lp row_index = some (x, y, k)) :
    (create_root m row_index p).m_root = some p.m_verts.length ∧
    p.m_verts.length < (create_root m row_index p).m_verts.length := by
  cases hy : y.not_set with
  | true =>
    rw [create_root_one m row_index p x y k h hy]
    exact ⟨rfl, by simp⟩
  | false =>
    rw [create_root_two m row_index p x y k h hy]
    exact ⟨rfl, by simp⟩

theorem add_child_from_row_of_some (m : imp) (row_index parent : Nat)
    (p : lp_bound_propagator) (x y : signed_column) (k : ℚ)
    (h : is_tree_offset_row m.lp row_index = some (x, y, k)) :
    (add_child_from_row m row_index parent p).2 = some p.m_verts.length := by
  unfold add_child_from_row
  rw [h]
  dsimp only
  split_ifs <;> first | rfl | (split <;> rfl)

/-- C31 (original wording refuted): on `tableau_r` the fixed cell of row 0 contributes
`2^32`, which is big, so that `is_offset_row` rejects the row in its second loop after the
first loop has accepted the free cells; yet `create_root(0)` makes a root and a child from
that row, and `add_child_from_row(1, ..)` makes two more vertices from row 1, which
`is_offset_row` rejects for the same reason. -/
theorem tree_uses_big_row_counterexample :
    offset_row_scan imp_r.lp (imp_r.lp.get_row 0) null_lpvar null_lpvar = some (0, 1) ∧
    offset_row_sum imp_r.lp (imp_r.lp.get_row 0) 0 = none ∧
    is_offset_row imp_r.lp 0 = none ∧
    is_offset_row imp_r.lp 1 = none ∧
    (seeded imp_r 0).m_root = some 0 ∧
    (seeded imp_r 0).m_verts =
      [⟨0, 0, [1], 0, none, 0, false⟩, ⟨0, 1, [], -4294967296, some 0, 1, false⟩] ∧
    (add_child_from_row imp_r 1 1 { seeded imp_r 0 with m_visited_rows := [1, 0] }).2 =
      some 2 ∧
    (add_child_from_row imp_r 1 1
      { seeded imp_r 0 with m_visited_rows := [1, 0] }).1.m_verts.length = 4 := by
  refine ⟨by decide!, by decide!, by decide!, by decide!, by decide!, by decide!,
    by decide!, by decide!⟩

/-- C31 (amended): the tree strategy makes no test of bigness.  A row whose free cells the
first loop of `is_offset_row` accepts (one or two free columns with coefficients `+1` and
`-1`) is accepted by `is_tree_offset_row` with the sum of its fixed cells as offset,
whether or not that sum is big: `create_root` makes a root from it and
`add_child_from_row` makes a vertex from it; and the tree classification of any row is the
same whatever `is_big` is.  Only `is_offset_row`, that is the table strategy, skips the
rows with a big offset. -/
theorem tree_classification_ignores_big (m : imp) (r x y : Nat)
    (hwf : row_wf (m.lp.get_row r))
    (hscan : offset_row_scan m.lp (m.lp.get_row r) null_lpvar null_lpvar = some (x, y))
    (hxy : ¬ (x = null_lpvar ∧ y = null_lpvar)) :
    (∃ x1 y1, is_tree_offset_row m.lp r = some (x1, y1, fixed_offset m.lp (m.lp.get_row r))) ∧
    (∀ p, (create_root m r p).m_root = some p.m_verts.length ∧
      p.m_verts.length < (create_root m r p).m_verts.length) ∧
    (∀ p parent, (add_child_from_row m r parent p).2 = some p.m_verts.length) ∧
    (∀ b r2, is_tree_offset_row { m.lp with is_big := b } r2 = is_tree_offset_row m.lp r2) := by
  obtain ⟨x1, y1, h⟩ := is_tree_offset_row_of_scan m.lp r x y hwf hscan hxy
  exact ⟨⟨x1, y1, h⟩, fun p => create_root_of_some m r p x1 y1 _ h,
    fun p parent => add_child_from_row_of_some m r parent p x1 y1 _ h,
    fun b r2 => is_tree_offset_row_big m.lp b r2⟩

theorem tableau_r_wf (r : Nat) : row_wf (imp_r.lp.get_row r) := by
  rcases r with _ | _ | r <;>
    simp [row_wf, imp_r, tableau_r, lar_solver.get_row, null_lpvar]

/-- On `tableau_r` the tree classification accepts row 0, whose offset `2^32` is big. -/
theorem tree_classification_ignores_big_witness :
    imp_r.lp.is_big (0 - fixed_offset imp_r.lp (imp_r.lp.get_row 0)) = true ∧
    ∃ x1 y1, is_tree_offset_row imp_r.lp 0 =
      some (x1, y1, fixed_offset imp_r.lp (imp_r.lp.get_row 0)) :=
  ⟨by decide!,
    (tree_classification_ignores_big imp_r 0 0 1 (tableau_r_wf 0) (by decide!)
      (by decide)).1⟩

/-! ## The anchor of the fixed phase -/

theorem get_vertex_shape_row (p q : lp_bound_propagator) (h : same_shape p q) (i : Nat) :
    (get_vertex q i).m_row = (get_vertex p i).m_row ∧
    (get_vertex q i).m_column = (get_vertex p i).m_column ∧
    (get_vertex q i).m_children = (get_vertex p i).m_children ∧
    (get_vertex q i).m_parent = (get_vertex p i).m_parent ∧
    (get_vertex q i).m_level = (get_vertex p i).m_level := by
  have h1 := h.2.2 i
  simp only [vertex.shape, Prod.mk.injEq] at h1
  exact h1

/-- What the switch of `add_child_from_row` leaves in `m_fixed_vertex`: the root, not the
vertex made for the row that caused the switch. -/
theorem add_child_from_row_fixed_vertex (m : imp) (row_index parent root : Nat)
    (p : lp_bound_propagator) (x y : signed_column) (k : ℚ)
    (h : is_tree_offset_row m.lp row_index = some (x, y, k))
    (hy : y.not_set = true) (hf : fixed_phase p = false) (hroot : p.m_root = some root)
    (hp : parent < p.m_verts.length) :
    (add_child_from_row m row_index parent p).1.m_fixed_vertex = some root ∧
    (add_child_from_row m row_index parent p).2 = some p.m_verts.length ∧
    (get_vertex (add_child_from_row m row_index parent p).1 p.m_verts.length).m_row =
      row_index ∧
    (get_vertex (add_child_from_row m row_index parent p).1 p.m_verts.length).m_column =
      x.m_column ∧
    (get_vertex (add_child_from_row m row_index parent p).1 p.m_verts.length).m_parent =
      some parent := by
  rw [add_child_from_row_one_free m row_index parent p x y k h hy hf hp]
  simp only [hroot]
  have hs := get_vertex_shape_row _ _ (switch_to_fixed_mode_in_tree_shape root
    ((if x.m_sign then k else -k) - (get_vertex p parent).m_offset)
    { attach p parent row_index x.m_column (get_vertex p parent).m_offset false with
      m_fixed_vertex := some p.m_verts.length }) p.m_verts.length
  have hg : get_vertex
      { attach p parent row_index x.m_column (get_vertex p parent).m_offset false with
        m_fixed_vertex := some p.m_verts.length } p.m_verts.length =
      ⟨row_index, x.m_column, [], (get_vertex p parent).m_offset, some parent,
        (get_vertex p parent).m_level + 1, false⟩ := by
    have := get_vertex_attach p parent row_index x.m_column (get_vertex p parent).m_offset
      false hp p.m_verts.length
    rw [if_pos rfl] at this
    exact this
  rw [hg] at hs
  exact ⟨(switch_to_fixed_mode_in_tree_frame root _ _).2.2.2, trivial, hs.1, hs.2.1, hs.2.2.2.1⟩

/-- C33: `add_child_from_row` assigns the new vertex to `m_fixed_vertex` and then calls
`switch_to_fixed_mode_in_tree(m_root, ..)`, which assigns its argument, the root, to
`m_fixed_vertex` again.  So after the switch, from any free-phase state with a root and
for any row with one free column, `fixed_vertex` is the root and not the new vertex
`(row, x)`.  On `tableau_q`, expanding row 1 from the child of the seed row leaves the
root 0 as `fixed_vertex` although the new vertex is 2; in the tree explored from row 0 the
path from the vertex 3 to `fixed_vertex` is `3, 0, 0`, whose rows are 2 and 0, and its
explanation holds the witnesses 6 and 7 of row 0 but not the witnesses 4 and 5 of the
fixed column of row 1, the row that fixed the tree. -/
theorem add_child_from_row_fixed_vertex_is_root :
    (∀ (m : imp) (row_index parent root : Nat) (p : lp_bound_propagator)
      (x y : signed_column) (k : ℚ), is_tree_offset_row m.lp row_index = some (x, y, k) →
      y.not_set = true → fixed_phase p = false → p.m_root = some root →
      parent < p.m_verts.length → root < p.m_verts.length →
      (add_child_from_row m row_index parent p).1.m_fixed_vertex = some root ∧
      (add_child_from_row m row_index parent p).2 = some p.m_verts.length ∧
      root ≠ p.m_verts.length ∧
      (get_vertex (add_child_from_row m row_index parent p).1 p.m_verts.length).m_row =
        row_index ∧
      (get_vertex (add_child_from_row m row_index parent p).1 p.m_verts.length).m_column =
        x.m_column) ∧
    is_tree_offset_row imp_q.lp 1 = some (⟨false, 1⟩, signed_column.ctor, -5) ∧
    fixed_phase tree_q = false ∧
    (add_child_from_row imp_q 1 1 tree_q).2 = some 2 ∧
    (add_child_from_row imp_q 1 1 tree_q).1.m_fixed_vertex = some 0 ∧
    (add_child_from_row imp_q 1 1 tree_q).1.m_verts =
      [⟨0, 0, [1], 6, none, 0, false⟩, ⟨0, 1, [2], 5, some 0, 1, false⟩,
       ⟨1, 1, [], 5, some 1, 2, false⟩] ∧
    (explored imp_q 4 0).m_fixed_vertex = some 0 ∧
    find_path_on_tree (explored imp_q 4 0) 3 0 = some [3, 0, 0] ∧
    [3, 0, 0].map (fun w => (get_vertex (explored imp_q 4 0) w).m_row) = [2, 0, 0] ∧
    get_explanation_from_path imp_q.lp (explored imp_q 4 0) [3, 0, 0] = [6, 7] ∧
    fixed_witnesses imp_q.lp 1 = [4, 5] := by
  refine ⟨?_, by decide!, by decide!, by decide!, by decide!, by decide!, by decide!,
    by decide!, by decide!, by decide!, by decide!⟩
  intro m row_index parent root p x y k h hy hf hroot hp hr
  obtain ⟨h1, h2, h3, h4, _⟩ :=
    add_child_from_row_fixed_vertex m row_index parent root p x y k h hy hf hroot hp
  exact ⟨h1, h2, by omega, h3, h4⟩

/-! ## The two reports of a hit in the fixed-value table -/

theorem check_for_eq_and_add_to_offset_table_eqs (m : imp) (v : Nat) (t : Bool)
    (p : lp_bound_propagator) :
    ∃ l, (check_for_eq_and_add_to_offset_table m v t p).m_eqs = p.m_eqs ++ l := by
  unfold check_for_eq_and_add_to_offset_table
  split
  · split_ifs
    · unfold report_eq
      split
      · exact ⟨[], by simp⟩
      · exact ⟨_, rfl⟩
    · exact ⟨[], by simp⟩
  · split_ifs <;> exact ⟨[], by simp⟩

/-- The report that `check_for_eq_and_add_to_offsets` makes in fixed phase on a hit of the
fixed-value table: it cites the bounds of the column found and the fixed columns of the
row of the vertex, nothing of the path to `fixed_vertex`. -/
theorem check_for_eq_and_add_to_offsets_fixed_eqs (m : imp) (v j : Nat)
    (p : lp_bound_propagator) (hf : fixed_phase p = true)
    (ho : m.lp.find_in_fixed_tables (get_vertex p v).m_offset
      (is_int m.lp (get_vertex p v).m_column) = some j)
    (hj : j ≠ (get_vertex p v).m_column) :
    ∃ rest, (check_for_eq_and_add_to_offsets m v p).m_eqs = p.m_eqs ++
      ⟨(get_vertex p v).m_column, j,
        [(m.lp.get_bound_constraint_witnesses_for_column j).1,
         (m.lp.get_bound_constraint_witnesses_for_column j).2] ++
        fixed_witnesses m.lp (get_vertex p v).m_row⟩ :: rest := by
  unfold check_for_eq_and_add_to_offsets
  simp only [hf, Bool.not_true, Bool.false_eq_true, if_false, ho, ne_eq, hj, not_false_eq_true,
    if_true]
  obtain ⟨l, hl⟩ := check_for_eq_and_add_to_offset_table_eqs m v false
    (add_eq_on_columns p
      (explain_fixed_in_row m.lp (get_vertex p v).m_row
        [(m.lp.get_bound_constraint_witnesses_for_column j).1,
         (m.lp.get_bound_constraint_witnesses_for_column j).2])
      (get_vertex p v).m_column j)
  refine ⟨l, ?_⟩
  rw [hl, explain_fixed_in_row_eq]
  simp [add_eq_on_columns]

theorem check_for_eq_and_add_to_offsets_fixed_report (m : imp) (v j : Nat)
    (p : lp_bound_propagator) (hf : fixed_phase p = true)
    (ho : m.lp.find_in_fixed_tables (get_vertex p v).m_offset
      (is_int m.lp (get_vertex p v).m_column) = some j)
    (hj : j ≠ (get_vertex p v).m_column) :
    ∃ rest, reports_of p (check_for_eq_and_add_to_offsets m v p) =
      ⟨(get_vertex p v).m_column, j,
        [(m.lp.get_bound_constraint_witnesses_for_column j).1,
         (m.lp.get_bound_constraint_witnesses_for_column j).2] ++
        fixed_witnesses m.lp (get_vertex p v).m_row⟩ :: rest := by
  obtain ⟨rest, h⟩ := check_for_eq_and_add_to_offsets_fixed_eqs m v j p hf ho hj
  exact ⟨rest, reports_of_append p _ _ h⟩

/-- The report of `try_add_equation_with_fixed_tables` on a hit of the fixed-value
table. -/
theorem try_add_equation_with_fixed_tables_hit (m : imp) (v j fv : Nat)
    (p : lp_bound_propagator) (path : List Nat)
    (ho : m.lp.find_in_fixed_tables (get_vertex p v).m_offset
      (is_int m.lp (get_vertex p v).m_column) = some j)
    (hfv : p.m_fixed_vertex = some fv) (hpath : find_path_on_tree p v fv = some path) :
    try_add_equation_with_fixed_tables m v p =
      add_eq_on_columns p
        (get_explanation_from_path m.lp p path ++
          [(m.lp.get_bound_constraint_witnesses_for_column j).1,
           (m.lp.get_bound_constraint_witnesses_for_column j).2])
        j (get_vertex p v).m_column := by
  unfold try_add_equation_with_fixed_tables
  simp only [ho, hfv, hpath]
  rfl

/-- One round of the per-vertex checks in fixed phase, on a well formed tree and with a
hit of the fixed-value table on another column: two reports of the same pair of columns,
the first explained by the path to `fixed_vertex`, the second by the row of the vertex. -/
theorem fixed_phase_checks_reports (m : imp) (v j fv : Nat) (p : lp_bound_propagator)
    (hwf : tree_wf p) (hv : v < p.m_verts.length) (hfv : p.m_fixed_vertex = some fv)
    (hfvlt : fv < p.m_verts.length)
    (ho : m.lp.find_in_fixed_tables (get_vertex p v).m_offset
      (is_int m.lp (get_vertex p v).m_column) = some j)
    (hj : j ≠ (get_vertex p v).m_column) :
    ∃ path rest, find_path_on_tree p v fv = some path ∧
      reports_of p (check_for_eq_and_add_to_offsets m v
          (try_add_equation_with_fixed_tables m v p)) =
        ⟨j, (get_vertex p v).m_column,
          get_explanation_from_path m.lp p path ++
            [(m.lp.get_bound_constraint_witnesses_for_column j).1,
             (m.lp.get_bound_constraint_witnesses_for_column j).2]⟩ ::
        ⟨(get_vertex p v).m_column, j,
          [(m.lp.get_bound_constraint_witnesses_for_column j).1,
           (m.lp.get_bound_constraint_witnesses_for_column j).2] ++
          fixed_witnesses m.lp (get_vertex p v).m_row⟩ :: rest := by
  obtain ⟨path, hpath⟩ := find_path_on_tree_some p hwf v fv hv hfvlt
  have h1 := try_add_equation_with_fixed_tables_hit m v j fv p path ho hfv hpath
  have hf : fixed_phase (try_add_equation_with_fixed_tables m v p) = true := by
    rw [h1]
    simp [fixed_phase, add_eq_on_columns, hfv]
  have hg : ∀ i, get_vertex (try_add_equation_with_fixed_tables m v p) i = get_vertex p i :=
    fun i => get_vertex_congr p _ (try_add_equation_with_fixed_tables_same_tree m v p).1 i
  obtain ⟨rest, hrest⟩ := check_for_eq_and_add_to_offsets_fixed_eqs m v j
    (try_add_equation_with_fixed_tables m v p) hf (by rw [hg]; exact ho) (by rw [hg]; exact hj)
  rw [hg] at hrest
  refine ⟨path, rest, hpath, reports_of_append p _ _ ?_⟩
  rw [hrest, h1]
  simp [add_eq_on_columns]

/-- C32: in fixed phase, whenever the fixed-value table holds a column `j` other than the
column of `v` at the offset of `v`, `check_for_eq_and_add_to_offsets` reports the equality
of the two columns with the bounds of `j` and the fixed columns of the row of `v` alone as
explanation, whatever the path from `v` to `fixed_vertex`.  In the tree explored on
`tableau_q` from the seed row 0, the fourth report is the equality of the columns 1 and 4
for the vertex 3 of row 2, with the witnesses 8 and 9 of column 4 as explanation: it holds
neither the witnesses 6 and 7 of the path from the vertex 3 to `fixed_vertex` nor the
witnesses 4 and 5 of the bounds of column 2, from which the value 5 of column 1 comes. -/
theorem fixed_table_report_explained_by_row :
    (∀ (m : imp) (v j : Nat) (p : lp_bound_propagator), fixed_phase p = true →
      m.lp.find_in_fixed_tables (get_vertex p v).m_offset
        (is_int m.lp (get_vertex p v).m_column) = some j →
      j ≠ (get_vertex p v).m_column →
      ∃ rest, reports_of p (check_for_eq_and_add_to_offsets m v p) =
        ⟨(get_vertex p v).m_column, j,
          [(m.lp.get_bound_constraint_witnesses_for_column j).1,
           (m.lp.get_bound_constraint_witnesses_for_column j).2] ++
          fixed_witnesses m.lp (get_vertex p v).m_row⟩ :: rest) ∧
    explore_under_ok imp_q 4 0 (seeded imp_q 0) = true ∧
    (explored imp_q 4 0).m_eqs.take 4 =
      [⟨4, 1, [4, 5, 6, 7, 8, 9]⟩, ⟨1, 4, [8, 9, 4, 5]⟩, ⟨4, 1, [6, 7, 8, 9]⟩,
       ⟨1, 4, [8, 9]⟩] ∧
    get_vertex (explored imp_q 4 0) 3 = ⟨2, 1, [4], 5, some 1, 2, false⟩ ∧
    (explored imp_q 4 0).m_fixed_vertex = some 0 ∧
    find_path_on_tree (explored imp_q 4 0) 3 0 = some [3, 0, 0] ∧
    get_explanation_from_path imp_q.lp (explored imp_q 4 0) [3, 0, 0] ++ [8, 9] =
      [6, 7, 8, 9] ∧
    fixed_witnesses imp_q.lp 2 = [] ∧
    imp_q.lp.get_bound_constraint_witnesses_for_column 2 = (4, 5) := by
  refine ⟨fun m v j p hf ho hj => check_for_eq_and_add_to_offsets_fixed_report m v j p hf ho hj,
    by decide!, by decide!, by decide!, by decide!, by decide!, by decide!, by decide!,
    by decide!⟩

/-- C38: in fixed phase, on a well formed tree, when the fixed-value table holds a column
`j` other than the column of `v` at the offset of `v`, one round of the per-vertex checks
of `explore_under` reports the equality of the two columns twice:
`try_add_equation_with_fixed_tables` reports `(j, v.column)` and
`check_for_eq_and_add_to_offsets` reports `(v.column, j)`.  On `tableau_q`, the round on
the vertex 2 in the state that `add_child_from_row(1, ..)` leaves reports the columns 4
and 1 and then the columns 1 and 4. -/
theorem fixed_phase_checks_report_twice :
    (∀ (m : imp) (v j fv : Nat) (p : lp_bound_propagator), tree_wf p →
      v < p.m_verts.length → p.m_fixed_vertex = some fv → fv < p.m_verts.length →
      m.lp.find_in_fixed_tables (get_vertex p v).m_offset
        (is_int m.lp (get_vertex p v).m_column) = some j →
      j ≠ (get_vertex p v).m_column →
      ∃ path rest, find_path_on_tree p v fv = some path ∧
        reports_of p (check_for_eq_and_add_to_offsets m v
            (try_add_equation_with_fixed_tables m v p)) =
          ⟨j, (get_vertex p v).m_column,
            get_explanation_from_path m.lp p path ++
              [(m.lp.get_bound_constraint_witnesses_for_column j).1,
               (m.lp.get_bound_constraint_witnesses_for_column j).2]⟩ ::
          ⟨(get_vertex p v).m_column, j,
            [(m.lp.get_bound_constraint_witnesses_for_column j).1,
             (m.lp.get_bound_constraint_witnesses_for_column j).2] ++
            fixed_witnesses m.lp (get_vertex p v).m_row⟩ :: rest) ∧
    fixed_phase (add_child_from_row imp_q 1 1 tree_q).1 = true ∧
    get_vertex (add_child_from_row imp_q 1 1 tree_q).1 2 = ⟨1, 1, [], 5, some 1, 2, false⟩ ∧
    imp_q.lp.find_in_fixed_tables 5 false = some 4 ∧
    reports_of (add_child_from_row imp_q 1 1 tree_q).1
      (check_for_eq_and_add_to_offsets imp_q 2
        (try_add_equation_with_fixed_tables imp_q 2 (add_child_from_row imp_q 1 1 tree_q).1)) =
      [⟨4, 1, [4, 5, 6, 7, 8, 9]⟩, ⟨1, 4, [8, 9, 4, 5]⟩] := by
  refine ⟨fun m v j fv p hwf hv hfv hfvlt ho hj =>
      fixed_phase_checks_reports m v j fv p hwf hv hfv hfvlt ho hj,
    by decide!, by decide!, by decide!, by decide!⟩

/-! ## The vertices explored twice -/

/-- The vertex that `add_child_from_row` returns is a child of `parent`: the loop of
`explore_under(parent)` over the children meets it again. -/
theorem add_child_from_row_returns_child (m : imp) (row_index parent u : Nat)
    (p : lp_bound_propagator) (hp : parent < p.m_verts.length)
    (h : (add_child_from_row m row_index parent p).2 = some u) :
    u ∈ (get_vertex (add_child_from_row m row_index parent p).1 parent).m_children := by
  cases hc : is_tree_offset_row m.lp row_index with
  | none =>
    rw [add_child_from_row_none m row_index parent p hc] at h
    cases h
  | some t =>
    obtain ⟨x, y, k⟩ := t
    have hu : u = p.m_verts.length := by
      rw [add_child_from_row_of_some m row_index parent p x y k hc] at h
      exact (Option.some.inj h).symm
    subst hu
    have hne : parent ≠ p.m_verts.length := by omega
    have hpush : ∀ (r c : Nat) (o : ℚ) (n : Bool),
        p.m_verts.length ∈ (get_vertex (attach p parent r c o n) parent).m_children := by
      intro r c o n
      rw [get_vertex_attach p parent r c o n hp parent, if_neg hne, if_pos rfl]
      simp [vertex.push_child]
    cases hy : y.not_set with
    | true =>
      cases hf : fixed_phase p with
      | true =>
        rw [add_child_from_row_one_fixed m row_index parent p x y k hc hy hf]
        exact hpush _ _ _ _
      | false =>
        rw [add_child_from_row_one_free m row_index parent p x y k hc hy hf hp]
        cases hr : p.m_root with
        | none => exact hpush _ _ _ _
        | some root =>
          dsimp only
          rw [(get_vertex_shape_row _ _ (switch_to_fixed_mode_in_tree_shape root _ _)
            parent).2.2.1]
          exact hpush _ _ _ _
    | false =>
      rw [add_child_from_row_two_attach m row_index parent p x y k hc hy hp]
      dsimp only
      rw [get_vertex_attach _ _ _ _ _ _ (by rw [attach_length]; omega) parent,
        if_neg (by rw [attach_length]; omega), if_neg hne]
      exact hpush _ _ _ _

/-- C37: the vertex that `add_child_from_row` returns to `go_over_vertex_column(v)` is a
child of `v`; `go_over_vertex_column` invokes `explore_under` on it, and the loop of
`explore_under(v)` over the children of `v`, which runs next, invokes `explore_under` on it
again.  On `tableau_q`, during `cheap_eq_tree(0)` from the constructor state,
`explore_under` is invoked on the vertices 0, 1, 2, 3, 4, 2, 3, 4 in this order: twice on
each of 2, 3 and 4, and each of the seven equalities is reported twice. -/
theorem explore_under_repeats_vertex :
    (∀ (m : imp) (row_index parent u : Nat) (p : lp_bound_propagator),
      parent < p.m_verts.length → (add_child_from_row m row_index parent p).2 = some u →
      u ∈ (get_vertex (add_child_from_row m row_index parent p).1 parent).m_children) ∧
    (seeded imp_q 0).m_root = some 0 ∧
    explore_under_ok imp_q 4 0 (seeded imp_q 0) = true ∧
    explore_under_calls imp_q 4 0 (seeded imp_q 0) = [0, 1, 2, 3, 4, 2, 3, 4] ∧
    (explored imp_q 4 0).m_verts.length = 5 ∧
    (explored imp_q 4 0).m_eqs =
      [⟨4, 1, [4, 5, 6, 7, 8, 9]⟩, ⟨1, 4, [8, 9, 4, 5]⟩, ⟨4, 1, [6, 7, 8, 9]⟩,
       ⟨1, 4, [8, 9]⟩, ⟨4, 5, [6, 7, 8, 9]⟩, ⟨5, 4, [8, 9]⟩, ⟨1, 5, [4, 5]⟩,
       ⟨4, 1, [4, 5, 6, 7, 8, 9]⟩, ⟨1, 4, [8, 9, 4, 5]⟩, ⟨4, 1, [6, 7, 8, 9]⟩,
       ⟨1, 4, [8, 9]⟩, ⟨4, 5, [6, 7, 8, 9]⟩, ⟨5, 4, [8, 9]⟩, ⟨1, 5, [4, 5]⟩] := by
  refine ⟨fun m row_index parent u p hp h =>
      add_child_from_row_returns_child m row_index parent u p hp h,
    by decide!, by decide!, by decide!, by decide!, by decide!⟩

/-! ## The rows left to visit -/

theorem filter_not_mem_cons_le (l rs : List Nat) (r : Nat) :
    (l.filter (fun x => decide (x ∉ r :: rs))).length ≤
      (l.filter (fun x => decide (x ∉ rs))).length := by
  induction l with
  | nil => simp
  | cons a l ih =>
    simp only [List.filter_cons]
    by_cases h1 : a ∉ r :: rs
    · have h2 : a ∉ rs := fun h => h1 (List.mem_cons_of_mem _ h)
      simp only [h1, h2, not_false_eq_true, not_true_eq_false, decide_True, decide_False,
        if_true, Bool.false_eq_true, if_false, List.length_cons]
      omega
    · by_cases h2 : a ∉ rs
      · simp only [h1, h2, not_false_eq_true, not_true_eq_false, decide_True, decide_False,
          if_true, Bool.false_eq_true, if_false, List.length_cons]
        omega
      · simp only [h1, h2, not_false_eq_true, not_true_eq_false, decide_True, decide_False,
          if_true, Bool.false_eq_true, if_false, List.length_cons]
        exact ih

theorem filter_not_mem_cons_lt (l rs : List Nat) (r : Nat) (hr : r ∉ rs) (hl : r ∈ l) :
    (l.filter (fun x => decide (x ∉ r :: rs))).length + 1 ≤
      (l.filter (fun x => decide (x ∉ rs))).length := by
  induction l with
  | nil => cases hl
  | cons a l ih =>
    simp only [List.filter_cons]
    by_cases ha : a = r
    · subst ha
      have h1 : ¬ (a ∉ a :: rs) := fun h => h (List.mem_cons_self _ _)
      simp only [h1, hr, not_false_eq_true, not_true_eq_false, decide_True, decide_False,
        if_true, List.length_cons, Bool.false_eq_true, if_false]
      have := filter_not_mem_cons_le l rs a
      omega
    · have hl2 : r ∈ l := by
        rcases List.mem_cons.1 hl with h | h
        · exact absurd h.symm ha
        · exact h
      have := ih hl2
      by_cases h2 : a ∉ rs
      · have h1 : a ∉ r :: rs := by
          intro h
          rcases List.mem_cons.1 h with h | h
          · exact ha h
          · exact h2 h
        simp only [h1, h2, not_false_eq_true, not_true_eq_false, decide_True, decide_False,
          if_true, Bool.false_eq_true, if_false, List.length_cons]
        omega
      · have h1 : ¬ (a ∉ r :: rs) := fun h => h2 (fun h3 => h (List.mem_cons_of_mem _ h3))
        simp only [h1, h2, not_false_eq_true, not_true_eq_false, decide_True, decide_False,
          if_true, Bool.false_eq_true, if_false, List.length_cons]
        exact this

theorem unvisited_rows_le (m : imp) (p : lp_bound_propagator) :
    unvisited_rows m p ≤ m.lp.row_count := by
  unfold unvisited_rows
  exact (List.length_filter_le _ _).trans (by simp)

theorem unvisited_rows_congr (m : imp) (p q : lp_bound_propagator)
    (h : q.m_visited_rows = p.m_visited_rows) : unvisited_rows m q = unvisited_rows m p := by
  unfold unvisited_rows
  rw [h]

theorem unvisited_rows_insert_le (m : imp) (p : lp_bound_propagator) (r : Nat) :
    unvisited_rows m { p with m_visited_rows := r :: p.m_visited_rows } ≤
      unvisited_rows m p :=
  filter_not_mem_cons_le _ _ _

theorem unvisited_rows_insert_lt (m : imp) (p : lp_bound_propagator) (r : Nat)
    (hr : r ∉ p.m_visited_rows) (hlt : r < m.lp.row_count) :
    unvisited_rows m { p with m_visited_rows := r :: p.m_visited_rows } + 1 ≤
      unvisited_rows m p :=
  filter_not_mem_cons_lt _ _ _ hr (List.mem_range.2 hlt)

/-- A row index beyond the tableau names an empty row, which the tree classification
rejects. -/
theorem is_tree_offset_row_of_ge (s : lar_solver) (r : Nat) (h : s.row_count ≤ r) :
    is_tree_offset_row s r = none := by
  have hrow : s.get_row r = [] := by
    unfold lar_solver.get_row
    rw [List.getD_eq_getElem?_getD, List.getElem?_eq_none h]
    rfl
  unfold is_tree_offset_row
  rw [hrow]
  rfl

/-! ## Levels and sizes when a vertex is attached -/

theorem arena_extends_refl (p : lp_bound_propagator) : arena_extends p p :=
  ⟨le_refl _, fun _ _ => ⟨rfl, rfl⟩⟩

theorem arena_extends_trans {p q r : lp_bound_propagator} (h1 : arena_extends p q)
    (h2 : arena_extends q r) : arena_extends p r :=
  ⟨le_trans h1.1 h2.1, fun i hi =>
    ⟨((h2.2 i (lt_of_lt_of_le hi h1.1)).1).trans (h1.2 i hi).1,
     ((h2.2 i (lt_of_lt_of_le hi h1.1)).2).trans (h1.2 i hi).2⟩⟩

theorem arena_extends_of_verts (p q : lp_bound_propagator) (h : q.m_verts = p.m_verts) :
    arena_extends p q :=
  ⟨by rw [h], fun i _ => by rw [get_vertex_congr p q h i]; exact ⟨rfl, rfl⟩⟩

theorem arena_extends_of_shape (p q : lp_bound_propagator) (h : same_shape p q) :
    arena_extends p q :=
  ⟨by rw [h.2.1], fun i _ =>
    ⟨(get_vertex_shape_row p q h i).2.1, (get_vertex_shape_row p q h i).2.2.2.2⟩⟩

theorem levels_linked_of_shape (p q : lp_bound_propagator) (h : same_shape p q)
    (hl : levels_linked p) : levels_linked q := by
  intro i c hc
  rw [(get_vertex_shape_row p q h i).2.2.1] at hc
  rw [(get_vertex_shape_row p q h c).2.2.2.2, (get_vertex_shape_row p q h i).2.2.2.2]
  exact hl i c hc

theorem attach_extends (p : lp_bound_propagator) (parent row column : Nat) (offset : ℚ)
    (neg : Bool) (hp : parent < p.m_verts.length) :
    arena_extends p (attach p parent row column offset neg) := by
  refine ⟨by rw [attach_length]; omega, fun i hi => ?_⟩
  rw [get_vertex_attach p parent row column offset neg hp i, if_neg (by omega)]
  split_ifs with h
  · subst h
    exact ⟨rfl, rfl⟩
  · exact ⟨rfl, rfl⟩

theorem attach_levels_linked (p : lp_bound_propagator) (parent row column : Nat)
    (offset : ℚ) (neg : Bool) (hp : parent < p.m_verts.length) (hord : arena_ordered p)
    (hl : levels_linked p) : levels_linked (attach p parent row column offset neg) := by
  intro i c hc
  have hext := attach_extends p parent row column offset neg hp
  have hnew : (get_vertex (attach p parent row column offset neg) p.m_verts.length).m_level =
      (get_vertex p parent).m_level + 1 := by
    rw [get_vertex_attach p parent row column offset neg hp, if_pos rfl]
  rw [get_vertex_attach p parent row column offset neg hp i] at hc
  by_cases h1 : i = p.m_verts.length
  · rw [if_pos h1] at hc
    cases hc
  · rw [if_neg h1] at hc
    by_cases h2 : i = parent
    · rw [if_pos h2] at hc
      subst h2
      simp only [vertex.push_child, List.mem_append, List.mem_singleton] at hc
      rw [(hext.2 i hp).2]
      rcases hc with hc | rfl
      · have := hord i c hc
        rw [(hext.2 c this.2).2]
        exact hl i c hc
      · exact hnew
    · rw [if_neg h2] at hc
      have := hord i c hc
      rw [(hext.2 c this.2).2, (hext.2 i (by omega)).2]
      exact hl i c hc

/-- The vertices that are there before `add_child_from_row` keep their columns and
levels. -/
theorem add_child_from_row_extends (m : imp) (row_index parent : Nat)
    (p : lp_bound_propagator) (hp : parent < p.m_verts.length) :
    arena_extends p (add_child_from_row m row_index parent p).1 := by
  cases h : is_tree_offset_row m.lp row_index with
  | none =>
    rw [add_child_from_row_none m row_index parent p h]
    exact arena_extends_refl p
  | some t =>
    obtain ⟨x, y, k⟩ := t
    cases hy : y.not_set with
    | false =>
      rw [add_child_from_row_two_attach m row_index parent p x y k h hy hp]
      dsimp only
      have hl1 := attach_length p parent row_index (get_vertex p parent).m_column
        (get_vertex p parent).m_offset (get_vertex p parent).m_neg
      exact arena_extends_trans (attach_extends p parent row_index _ _ _ hp)
        (attach_extends _ _ _ _ _ _ (by rw [hl1]; omega))
    | true =>
      cases hf : fixed_phase p with
      | true =>
        rw [add_child_from_row_one_fixed m row_index parent p x y k h hy hf]
        exact attach_extends _ _ _ _ _ _ hp
      | false =>
        rw [add_child_from_row_one_free m row_index parent p x y k h hy hf hp]
        dsimp only
        have he1 := attach_extends p parent row_index x.m_column (get_vertex p parent).m_offset
          false hp
        have hs0 : same_shape
            (attach p parent row_index x.m_column (get_vertex p parent).m_offset false)
            { attach p parent row_index x.m_column (get_vertex p parent).m_offset false with
              m_fixed_vertex := some p.m_verts.length } := ⟨rfl, rfl, fun _ => rfl⟩
        cases hr : p.m_root with
        | none => exact arena_extends_trans he1 (arena_extends_of_shape _ _ hs0)
        | some root =>
          exact arena_extends_trans he1 (arena_extends_of_shape _ _
            (same_shape_trans hs0 (switch_to_fixed_mode_in_tree_shape root _ _)))

/-- What `add_child_from_row` does to a well formed tree: at most two vertices are added
and the levels still follow the lists of children. -/
theorem add_child_from_row_grows (m : imp) (row_index parent : Nat)
    (p : lp_bound_propagator) (hwf : tree_wf p) (hl : levels_linked p)
    (hp : parent < p.m_verts.length) :
    arena_extends p (add_child_from_row m row_index parent p).1 ∧
    levels_linked (add_child_from_row m row_index parent p).1 ∧
    (add_child_from_row m row_index parent p).1.m_verts.length ≤ p.m_verts.length + 2 := by
  refine ⟨add_child_from_row_extends m row_index parent p hp, ?_⟩
  cases h : is_tree_offset_row m.lp row_index with
  | none =>
    rw [add_child_from_row_none m row_index parent p h]
    exact ⟨hl, Nat.le_add_right _ _⟩
  | some t =>
    obtain ⟨x, y, k⟩ := t
    cases hy : y.not_set with
    | false =>
      rw [add_child_from_row_two_attach m row_index parent p x y k h hy hp]
      dsimp only
      have hl1 := attach_length p parent row_index (get_vertex p parent).m_column
        (get_vertex p parent).m_offset (get_vertex p parent).m_neg
      have hw1 := attach_wf p parent row_index (get_vertex p parent).m_column
        (get_vertex p parent).m_offset (get_vertex p parent).m_neg hwf hp
      have hk1 := attach_levels_linked p parent row_index (get_vertex p parent).m_column
        (get_vertex p parent).m_offset (get_vertex p parent).m_neg hp hwf.2.2.2.2.2 hl
      refine ⟨attach_levels_linked _ _ _ _ _ _ (by rw [hl1]; omega) hw1.2.2.2.2.2 hk1, ?_⟩
      rw [attach_length, hl1]
    | true =>
      cases hf : fixed_phase p with
      | true =>
        rw [add_child_from_row_one_fixed m row_index parent p x y k h hy hf]
        dsimp only
        exact ⟨attach_levels_linked _ _ _ _ _ _ hp hwf.2.2.2.2.2 hl,
          by rw [attach_length]; omega⟩
      | false =>
        rw [add_child_from_row_one_free m row_index parent p x y k h hy hf hp, hwf.1]
        dsimp only
        have hk1 := attach_levels_linked p parent row_index x.m_column
          (get_vertex p parent).m_offset false hp hwf.2.2.2.2.2 hl
        have hs0 : same_shape
            (attach p parent row_index x.m_column (get_vertex p parent).m_offset false)
            { attach p parent row_index x.m_column (get_vertex p parent).m_offset false with
              m_fixed_vertex := some p.m_verts.length } := ⟨rfl, rfl, fun _ => rfl⟩
        have hsh := same_shape_trans hs0 (switch_to_fixed_mode_in_tree_shape 0
          ((if x.m_sign then k else -k) - (get_vertex p parent).m_offset)
          { attach p parent row_index x.m_column (get_vertex p parent).m_offset false with
            m_fixed_vertex := some p.m_verts.length })
        refine ⟨levels_linked_of_shape _ _ hsh hk1, ?_⟩
        rw [hsh.2.1, attach_length]
        omega

/-! ## The invariant of the exploration -/

theorem levels_linked_congr (p q : lp_bound_propagator) (h : q.m_verts = p.m_verts)
    (hl : levels_linked p) : levels_linked q := by
  intro i c hc
  rw [get_vertex_congr p q h] at hc ⊢
  rw [get_vertex_congr p q h]
  exact hl i c hc

theorem explore_inv_congr (m : imp) (p q : lp_bound_propagator) (hv : q.m_verts = p.m_verts)
    (hr : q.m_visited_rows = p.m_visited_rows) (hroot : q.m_root = p.m_root)
    (hp : explore_inv m p) : explore_inv m q := by
  refine ⟨tree_wf_congr p q ⟨hroot, by rw [hv], fun j => by rw [get_vertex_congr p q hv]⟩ hp.1,
    levels_linked_congr p q hv hp.2.1, ?_⟩
  have := hp.2.2
  unfold size_bounded at this ⊢
  rw [hv, unvisited_rows_congr m p q hr]
  exact this

theorem add_child_from_row_inv (m : imp) (r v : Nat) (q : lp_bound_propagator)
    (hq : explore_inv m q) (hv : v < q.m_verts.length) (hr : r ∉ q.m_visited_rows) :
    explore_inv m
      (add_child_from_row m r v { q with m_visited_rows := r :: q.m_visited_rows }).1 ∧
    arena_extends q
      (add_child_from_row m r v { q with m_visited_rows := r :: q.m_visited_rows }).1 := by
  have hwf2 : tree_wf { q with m_visited_rows := r :: q.m_visited_rows } :=
    tree_wf_congr q _ ⟨rfl, rfl, fun _ => rfl⟩ hq.1
  have hl2 : levels_linked { q with m_visited_rows := r :: q.m_visited_rows } :=
    levels_linked_congr q _ rfl hq.2.1
  obtain ⟨a1, _, _⟩ := add_child_from_row_wf m r v
    { q with m_visited_rows := r :: q.m_visited_rows } hwf2 hv
  obtain ⟨b1, b2, b3⟩ := add_child_from_row_grows m r v
    { q with m_visited_rows := r :: q.m_visited_rows } hwf2 hl2 hv
  have hrows := add_child_from_row_rows m r v
    { q with m_visited_rows := r :: q.m_visited_rows }
  have hu := unvisited_rows_congr m { q with m_visited_rows := r :: q.m_visited_rows } _ hrows
  have hsz := hq.2.2
  unfold size_bounded at hsz
  refine ⟨⟨a1, b2, ?_⟩, arena_extends_trans (arena_extends_of_verts q _ rfl) b1⟩
  unfold size_bounded
  rw [hu]
  by_cases hlt : r < m.lp.row_count
  · have := unvisited_rows_insert_lt m q r hr hlt
    have hlen : ({ q with m_visited_rows := r :: q.m_visited_rows } :
      lp_bound_propagator).m_verts.length = q.m_verts.length := rfl
    rw [hlen] at b3
    omega
  · have hnone := is_tree_offset_row_of_ge m.lp r (by omega)
    rw [add_child_from_row_none m r v _ hnone]
    have := unvisited_rows_insert_le m q r
    show q.m_verts.length + _ ≤ _
    omega

/-- The exploration from a valid vertex keeps the invariant and the old vertices. -/
theorem explore_under_keeps (m : imp) (fuel v : Nat) (p : lp_bound_propagator)
    (hp : explore_inv m p) (hv : v < p.m_verts.length) :
    explore_inv m (explore_under m fuel v p) ∧ arena_extends p (explore_under m fuel v p) := by
  have h := explore_under_invariant m
    (fun q => explore_inv m q ∧ arena_extends p q)
    (fun q u => u < q.m_verts.length)
    (fun a b hab ha => ⟨⟨explore_inv_congr m a b hab.1 hab.2.1 hab.2.2.2.1 ha.1,
        arena_extends_trans ha.2 (arena_extends_of_verts a b hab.1)⟩,
      fun u hu => (by show u < b.m_verts.length; rw [hab.1]; exact hu)⟩)
    (fun a c ha _ => ⟨⟨explore_inv_congr m a _ rfl rfl rfl ha.1,
        arena_extends_trans ha.2 (arena_extends_of_verts a _ rfl)⟩, fun u hu => hu⟩)
    (fun q w r hq hw hr => by
      have hq2 : tree_wf { q with m_visited_rows := r :: q.m_visited_rows } :=
        tree_wf_congr q _ ⟨rfl, rfl, fun _ => rfl⟩ hq.1.1
      obtain ⟨_, a2, a3⟩ := add_child_from_row_wf m r w
        { q with m_visited_rows := r :: q.m_visited_rows } hq2 hw
      obtain ⟨c1, c2⟩ := add_child_from_row_inv m r w q hq.1 hw hr
      exact ⟨⟨c1, arena_extends_trans hq.2 c2⟩, fun u hu => lt_of_lt_of_le hu a2, a3⟩)
    (fun a w c ha _ hc => (ha.1.1.2.2.2.2.2 w c hc).2)
    fuel v p ⟨hp, arena_extends_refl p⟩ hv
  exact h.1

/-! ## Enough fuel for the whole exploration -/

/-- A left fold stays within the fuel when each step does so from any state that satisfies
an invariant of the fold. -/
theorem fold_ok_of_inv {α : Type} (f : lp_bound_propagator → α → lp_bound_propagator)
    (g : lp_bound_propagator → α → Bool) (I : lp_bound_propagator → Prop) :
    ∀ (l : List α), (∀ q a, a ∈ l → I q → g q a = true ∧ I (f q a)) →
      ∀ q, I q → fold_ok f g l q = true ∧ I (l.foldl f q) := by
  intro l
  induction l with
  | nil => intro _ q hq; exact ⟨rfl, hq⟩
  | cons a l ih =>
    intro h q hq
    obtain ⟨h1, h2⟩ := h q a (List.mem_cons_self _ _) hq
    obtain ⟨h3, h4⟩ := ih (fun q b hb => h q b (List.mem_cons_of_mem _ hb)) (f q a) h2
    exact ⟨by simp [fold_ok, h1, h3], h4⟩

/-- One turn of the loop of `go_over_vertex_column(v)` stays within the fuel `n` of the
nested call when the fuel `n + 1` of the call on `v` covers the rows left to visit. -/
theorem go_over_vertex_column_step_fuel (m : imp) (n v : Nat)
    (ih : ∀ u q, explore_inv m q → u < q.m_verts.length →
      2 * m.lp.row_count ≤ n + (get_vertex q u).m_level → explore_under_ok m n u q = true)
    (q : lp_bound_propagator) (r : Nat) (hq : explore_inv m q) (hv : v < q.m_verts.length)
    (hL : 2 * m.lp.row_count ≤ n + 1 + (get_vertex q v).m_level) :
    go_over_vertex_column_step_ok m (explore_under_ok m n) v q r = true ∧
    explore_inv m (go_over_vertex_column_step m (explore_under m n) v q r) ∧
    arena_extends q (go_over_vertex_column_step m (explore_under m n) v q r) := by
  unfold go_over_vertex_column_step_ok go_over_vertex_column_step
  cases hc : check_insert q.m_visited_rows r with
  | none => exact ⟨rfl, hq, arena_extends_refl q⟩
  | some rows =>
    obtain ⟨hrows, hnot⟩ := check_insert_some _ _ _ hc
    subst hrows
    dsimp only
    have hq2 : tree_wf { q with m_visited_rows := r :: q.m_visited_rows } :=
      tree_wf_congr q _ ⟨rfl, rfl, fun _ => rfl⟩ hq.1
    obtain ⟨_, a2, a3⟩ := add_child_from_row_wf m r v
      { q with m_visited_rows := r :: q.m_visited_rows } hq2 hv
    obtain ⟨c1, c2⟩ := add_child_from_row_inv m r v q hq hv hnot
    have hch := add_child_from_row_returns_child m r v
    rcases ha : add_child_from_row m r v
        { q with m_visited_rows := r :: q.m_visited_rows } with ⟨q1, _ | u⟩
    · rw [ha] at c1 c2
      exact ⟨rfl, c1, c2⟩
    · rw [ha] at c1 c2 a3
      have hu : u < q1.m_verts.length := a3 u rfl
      have hmem := hch u { q with m_visited_rows := r :: q.m_visited_rows } hv
        (by rw [ha])
      rw [ha] at hmem
      have hlev := c1.2.1 v u hmem
      have hlv := (c2.2 v hv).2
      dsimp only at hlev hlv hu ⊢
      obtain ⟨d1, d2⟩ := explore_under_keeps m n u q1 c1 hu
      exact ⟨ih u q1 c1 hu (by omega), d1, arena_extends_trans c2 d2⟩

/-- The exploration of a vertex stays within the fuel as soon as the fuel plus the level of
the vertex reaches twice the number of rows of the tableau. -/
theorem explore_under_ok_of_fuel (m : imp) :
    ∀ (fuel v : Nat) (p : lp_bound_propagator), explore_inv m p → v < p.m_verts.length →
      2 * m.lp.row_count ≤ fuel + (get_vertex p v).m_level →
      explore_under_ok m fuel v p = true := by
  intro fuel
  induction fuel with
  | zero =>
    intro v p hp hv hL
    have h1 := tree_wf_level_le p hp.1 v hv
    have h2 := hp.2.2
    unfold size_bounded at h2
    omega
  | succ n ih =>
    intro v p hp hv hL
    rw [explore_under_ok]
    have h1 : same_tree p
        (if fixed_phase p = true then try_add_equation_with_fixed_tables m v p else p) := by
      split_ifs
      · exact try_add_equation_with_fixed_tables_same_tree m v p
      · exact same_tree_refl p
    generalize (if fixed_phase p = true then try_add_equation_with_fixed_tables m v p
      else p) = p1 at h1
    have h2 := same_tree_trans h1 (check_for_eq_and_add_to_offsets_same_tree m v p1)
    generalize check_for_eq_and_add_to_offsets m v p1 = p2 at h2
    have hp2 : explore_inv m p2 := explore_inv_congr m p p2 h2.1 h2.2.1 h2.2.2.2.1 hp
    have hg2 : ∀ i, get_vertex p2 i = get_vertex p i := get_vertex_congr p p2 h2.1
    have hv2 : v < p2.m_verts.length := by rw [h2.1]; exact hv
    -- the loop over the rows of the column
    have hrows : go_over_vertex_column_ok m (explore_under m n) (explore_under_ok m n) v p2 =
          true ∧
        explore_inv m (go_over_vertex_column m (explore_under m n) v p2) ∧
        arena_extends p2 (go_over_vertex_column m (explore_under m n) v p2) := by
      rw [go_over_vertex_column_eq_fold]
      unfold go_over_vertex_column_ok
      cases hc : check_insert p2.m_visited_columns (get_vertex p2 v).m_column with
      | none => exact ⟨rfl, hp2, arena_extends_refl p2⟩
      | some cols =>
        dsimp only
        have hstart : explore_inv m { p2 with m_visited_columns := cols } ∧
            arena_extends p2 { p2 with m_visited_columns := cols } :=
          ⟨explore_inv_congr m p2 _ rfl rfl rfl hp2, arena_extends_of_verts p2 _ rfl⟩
        obtain ⟨f1, f2⟩ := fold_ok_of_inv
          (go_over_vertex_column_step m (explore_under m n) v)
          (go_over_vertex_column_step_ok m (explore_under_ok m n) v)
          (fun q => explore_inv m q ∧ arena_extends p2 q)
          (m.lp.columns (get_vertex p2 v).m_column)
          (fun q r _ hq => by
            have hvq : v < q.m_verts.length := lt_of_lt_of_le hv2 hq.2.1
            have hlq := (hq.2.2 v hv2).2
            rw [hg2] at hlq
            obtain ⟨s1, s2, s3⟩ := go_over_vertex_column_step_fuel m n v ih q r hq.1 hvq
              (by omega)
            exact ⟨s1, s2, arena_extends_trans hq.2 s3⟩)
          { p2 with m_visited_columns := cols } hstart
        exact ⟨f1, f2.1, f2.2⟩
    obtain ⟨r1, r2, r3⟩ := hrows
    generalize go_over_vertex_column m (explore_under m n) v p2 = p3 at r2 r3 ⊢
    rw [r1, Bool.true_and]
    -- the loop over the children
    have hlv3 := (r3.2 v hv2).2
    rw [hg2] at hlv3
    have hch := fold_ok_of_inv (fun q c => explore_under m n c q)
      (fun q c => explore_under_ok m n c q)
      (fun q => explore_inv m q ∧ arena_extends p3 q)
      (get_vertex p3 v).m_children
      (fun q c hc hq => by
        have hc3 := (r2.1.2.2.2.2.2 v c hc).2
        have hcq : c < q.m_verts.length := lt_of_lt_of_le hc3 hq.2.1
        have hlc := r2.2.1 v c hc
        have hlq := (hq.2.2 c hc3).2
        obtain ⟨d1, d2⟩ := explore_under_keeps m n c q hq.1 hcq
        exact ⟨ih c q hq.1 hcq (by omega), d1, arena_extends_trans hq.2 d2⟩)
      p3 ⟨r2, arena_extends_refl p3⟩
    exact hch.1

/-! ## The termination of `cheap_eq_tree` -/

theorem create_root_inv (m : imp) (row_index root : Nat) (p : lp_bound_propagator)
    (hempty : p.m_verts = []) (hroot : p.m_root = none)
    (hrow : row_index ∉ p.m_visited_rows)
    (h : (create_root m row_index
      { p with m_visited_rows := row_index :: p.m_visited_rows }).m_root = some root) :
    root = 0 ∧
    explore_inv m (create_root m row_index
      { p with m_visited_rows := row_index :: p.m_visited_rows }) := by
  obtain ⟨h0, hwf⟩ := create_root_wf m row_index
    { p with m_visited_rows := row_index :: p.m_visited_rows } hempty hroot root h
  refine ⟨h0, hwf, ?_, ?_⟩
  · cases hc : is_tree_offset_row m.lp row_index with
    | none =>
      rw [create_root_none m row_index _ hc] at h
      rw [hroot] at h
      cases h
    | some t =>
      obtain ⟨x, y, k⟩ := t
      intro i c hc2
      have hd : (default : vertex).m_children = [] := rfl
      cases hy : y.not_set with
      | true =>
        rw [create_root_one m row_index _ x y k hc hy] at hc2
        rcases i with _ | i <;> simp [get_vertex, hempty, hd] at hc2
      | false =>
        rw [create_root_two m row_index _ x y k hc hy] at hc2 ⊢
        rcases i with _ | _ | i <;> simp [get_vertex, hempty, hd] at hc2
        subst hc2
        simp [get_vertex, hempty]
  · unfold size_bounded
    by_cases hlt : row_index < m.lp.row_count
    · have h1 := unvisited_rows_insert_lt m p row_index hrow hlt
      have h2 := unvisited_rows_le m p
      have h3 : unvisited_rows m (create_root m row_index
          { p with m_visited_rows := row_index :: p.m_visited_rows }) =
          unvisited_rows m { p with m_visited_rows := row_index :: p.m_visited_rows } :=
        unvisited_rows_congr m _ _ (create_root_rows m row_index _)
      have h4 : (create_root m row_index
          { p with m_visited_rows := row_index :: p.m_visited_rows }).m_verts.length ≤ 2 := by
        cases hc : is_tree_offset_row m.lp row_index with
        | none =>
          rw [create_root_none m row_index _ hc]
          simp [hempty]
        | some t =>
          obtain ⟨x, y, k⟩ := t
          cases hy : y.not_set with
          | true =>
            rw [create_root_one m row_index _ x y k hc hy]
            simp [hempty]
          | false =>
            rw [create_root_two m row_index _ x y k hc hy]
            simp [hempty]
      omega
    · rw [create_root_none m row_index _ (is_tree_offset_row_of_ge m.lp row_index
        (by omega))] at h
      rw [hroot] at h
      cases h

/-- With twice the number of rows as fuel, the model of `cheap_eq_tree` follows the whole
recursion, from any state without a tree. -/
theorem cheap_eq_tree_ok_of_fuel (m : imp) (row_index : Nat) (p : lp_bound_propagator)
    (hempty : p.m_verts = []) (hroot : p.m_root = none) :
    cheap_eq_tree_ok m (2 * m.lp.row_count) row_index p = true := by
  unfold cheap_eq_tree_ok
  cases hc : check_insert p.m_visited_rows row_index with
  | none => rfl
  | some rows =>
    obtain ⟨hrows, hnot⟩ := check_insert_some _ _ _ hc
    subst hrows
    dsimp only
    cases hr : (create_root m row_index
      { p with m_visited_rows := row_index :: p.m_visited_rows }).m_root with
    | none => rfl
    | some root =>
      obtain ⟨h0, hinv⟩ := create_root_inv m row_index root p hempty hroot hnot hr
      subst h0
      exact explore_under_ok_of_fuel m _ 0 _ hinv hinv.1.2.1 (by omega)

theorem switch_to_fixed_mode_fuel (d : ℚ) (p : lp_bound_propagator) (hord : arena_ordered p)
    (v k : Nat) :
    switch_to_fixed_mode d (p.m_verts.length + 1 + k) v p =
      switch_to_fixed_mode d (p.m_verts.length + 1) v p := by
  rw [switch_to_fixed_mode_eq_foldl, switch_to_fixed_mode_eq_foldl,
    tree_nodes_fuel_add p hord v k]

/-- C36: from any state without a tree, on any tableau and for any row index, the model of
`cheap_eq_tree` with twice the number of rows as fuel follows the whole recursion of
`explore_under` and `go_over_vertex_column`, and more fuel gives the same result; during
the exploration the tree never has more than two vertices for each row of the tableau, and
it stays well formed; in a well formed tree the recursion of `switch_to_fixed_mode`, and
the traversal of the lists of children that `delete_tree` follows, never go deeper than
the number of vertices. -/
theorem cheap_eq_tree_terminates (m : imp) (row_index : Nat) (p : lp_bound_propagator)
    (hempty : p.m_verts = []) (hroot : p.m_root = none) :
    cheap_eq_tree_ok m (2 * m.lp.row_count) row_index p = true ∧
    (∀ k, cheap_eq_tree m (2 * m.lp.row_count + k) row_index p =
      cheap_eq_tree m (2 * m.lp.row_count) row_index p) ∧
    (∀ fuel root, row_index ∉ p.m_visited_rows →
      (create_root m row_index
        { p with m_visited_rows := row_index :: p.m_visited_rows }).m_root = some root →
      tree_wf (explore_under m fuel root (create_root m row_index
        { p with m_visited_rows := row_index :: p.m_visited_rows })) ∧
      (explore_under m fuel root (create_root m row_index
        { p with m_visited_rows := row_index :: p.m_visited_rows })).m_verts.length ≤
          2 * m.lp.row_count) ∧
    (∀ (q : lp_bound_propagator) (d : ℚ) (v k : Nat), tree_wf q →
      switch_to_fixed_mode d (q.m_verts.length + 1 + k) v q =
        switch_to_fixed_mode d (q.m_verts.length + 1) v q ∧
      tree_nodes q (q.m_verts.length + 1 + k) v = tree_nodes q (q.m_verts.length + 1) v) := by
  refine ⟨cheap_eq_tree_ok_of_fuel m row_index p hempty hroot,
    fun k => cheap_eq_tree_fuel m _ row_index p
      (cheap_eq_tree_ok_of_fuel m row_index p hempty hroot) k, ?_, ?_⟩
  · intro fuel root hnot hr
    obtain ⟨h0, hinv⟩ := create_root_inv m row_index root p hempty hroot hnot hr
    subst h0
    obtain ⟨h1, _⟩ := explore_under_keeps m fuel 0 _ hinv hinv.1.2.1
    have := h1.2.2
    unfold size_bounded at this
    exact ⟨h1.1, by omega⟩
  · intro q d v k hwf
    exact ⟨switch_to_fixed_mode_fuel d q hwf.2.2.2.2.2 v k,
      tree_nodes_fuel_add q hwf.2.2.2.2.2 v k⟩

/-- On `tableau_q`, with three rows, the fuel 6 covers `cheap_eq_tree(0)` from the
constructor state. -/
theorem cheap_eq_tree_terminates_witness :
    cheap_eq_tree_ok imp_q (2 * imp_q.lp.row_count) 0 lp_bound_propagator.ctor = true ∧
    2 * imp_q.lp.row_count = 6 ∧
    (explored imp_q 6 0).m_verts.length = 5 :=
  ⟨(cheap_eq_tree_terminates imp_q 0 lp_bound_propagator.ctor rfl rfl).1, by decide,
    by decide!⟩

/-! ## The assertions of `add_child_from_row` on the columns -/

/-- The exploration from a valid vertex of a well formed tree keeps the columns and the
levels of the vertices that are there. -/
theorem explore_under_extends (m : imp) (fuel v : Nat) (p : lp_bound_propagator)
    (hwf : tree_wf p) (hv : v < p.m_verts.length) :
    tree_wf (explore_under m fuel v p) ∧ arena_extends p (explore_under m fuel v p) := by
  have h := explore_under_invariant m
    (fun q => tree_wf q ∧ arena_extends p q)
    (fun q u => u < q.m_verts.length)
    (fun a b hab ha => ⟨⟨tree_wf_of_same_tree a b hab ha.1,
        arena_extends_trans ha.2 (arena_extends_of_verts a b hab.1)⟩,
      fun u hu => (by show u < b.m_verts.length; rw [hab.1]; exact hu)⟩)
    (fun a c ha _ => ⟨⟨tree_wf_congr a _ ⟨rfl, rfl, fun _ => rfl⟩ ha.1,
        arena_extends_trans ha.2 (arena_extends_of_verts a _ rfl)⟩, fun u hu => hu⟩)
    (fun q w r hq hw _ => by
      have hq2 : tree_wf { q with m_visited_rows := r :: q.m_visited_rows } :=
        tree_wf_congr q _ ⟨rfl, rfl, fun _ => rfl⟩ hq.1
      obtain ⟨a1, a2, a3⟩ := add_child_from_row_wf m r w
        { q with m_visited_rows := r :: q.m_visited_rows } hq2 hw
      have a4 := add_child_from_row_extends m r w
        { q with m_visited_rows := r :: q.m_visited_rows } hw
      exact ⟨⟨a1, arena_extends_trans hq.2
        (arena_extends_trans (arena_extends_of_verts q _ rfl) a4)⟩,
        fun u hu => lt_of_lt_of_le hu a2, a3⟩)
    (fun a w c ha _ hc => (ha.1.2.2.2.2.2 w c hc).2)
    fuel v p ⟨hwf, arena_extends_refl p⟩ hv
  exact h.1

/-- The assertions on the columns hold for a row that has a cell of the column of the
parent, when that column is not fixed. -/
theorem add_child_from_row_asserts_of (m : imp) (r v : Nat) (q : lp_bound_propagator)
    (hrow : row_wf (m.lp.get_row r))
    (hcell : ∃ c ∈ m.lp.get_row r, c.var = (get_vertex q v).m_column)
    (hfree : column_is_fixed m.lp (get_vertex q v).m_column = false) :
    add_child_from_row_asserts m r v q = true := by
  unfold add_child_from_row_asserts
  cases h : is_tree_offset_row m.lp r with
  | none => rfl
  | some t =>
    obtain ⟨x, y, k⟩ := t
    dsimp only
    obtain ⟨hsh, _⟩ := is_tree_offset_row_shape m.lp r x y k hrow h
    obtain ⟨c, hc, hcv⟩ := hcell
    have hcf : c ∈ free_cells m.lp (m.lp.get_row r) := by
      unfold free_cells
      rw [List.mem_filter]
      exact ⟨hc, by rw [hcv, hfree]; rfl⟩
    rcases hsh with ⟨c1, hl, _, hx, hy⟩ | ⟨c1, c2, hl, _, _, hx, hy⟩
    · rw [hl, List.mem_singleton] at hcf
      subst hcf
      have hns : y.not_set = true := by rw [hy]; rfl
      rw [if_pos hns, hx]
      simp [signed_cell, hcv]
    · have hc2 : c2 ∈ m.lp.get_row r := by
        have : c2 ∈ free_cells m.lp (m.lp.get_row r) := by rw [hl]; simp
        exact (List.mem_filter.1 this).1
      have hns : y.not_set = false := by
        rw [hy]
        simp [signed_cell, signed_column.not_set, hrow c2 hc2]
      rw [hns, hx, hy]
      rw [hl] at hcf
      simp only [Bool.false_eq_true, if_false, signed_cell, Bool.or_eq_true, decide_eq_true_eq]
      rcases List.mem_cons.1 hcf with h1 | h1
      · left
        rw [← hcv, h1]
      · rw [List.mem_singleton] at h1
        right
        rw [← hcv, h1]

theorem go_over_vertex_column_asserts_of (m : imp) (hagree : indexes_agree m.lp)
    (hrows : ∀ r, row_wf (m.lp.get_row r)) (fuel v : Nat) (p : lp_bound_propagator)
    (hwf : tree_wf p) (hv : v < p.m_verts.length)
    (hfree : column_is_fixed m.lp (get_vertex p v).m_column = false) :
    go_over_vertex_column_asserts m (explore_under m fuel) v p = true := by
  unfold go_over_vertex_column_asserts
  cases hc : check_insert p.m_visited_columns (get_vertex p v).m_column with
  | none => rfl
  | some cols =>
    dsimp only
    have hfold := fold_ok_of_inv
      (go_over_vertex_column_step m (explore_under m fuel) v)
      (go_over_vertex_column_step_asserts m v)
      (fun q => tree_wf q ∧ arena_extends p q)
      (m.lp.columns (get_vertex p v).m_column)
      (fun q r hr hq => by
        have hvq : v < q.m_verts.length := lt_of_lt_of_le hv hq.2.1
        have hcol := (hq.2.2 v hv).1
        unfold go_over_vertex_column_step_asserts go_over_vertex_column_step
        cases hci : check_insert q.m_visited_rows r with
        | none => exact ⟨rfl, hq⟩
        | some rows =>
          dsimp only
          have hq2 : tree_wf { q with m_visited_rows := rows } :=
            tree_wf_congr q _ ⟨rfl, rfl, fun _ => rfl⟩ hq.1
          have hg : get_vertex { q with m_visited_rows := rows } v = get_vertex q v := rfl
          refine ⟨add_child_from_row_asserts_of m r v _ (hrows r)
            (by rw [hg, hcol]; exact hagree _ r hr) (by rw [hg, hcol]; exact hfree), ?_⟩
          obtain ⟨a1, a2, a3⟩ := add_child_from_row_wf m r v
            { q with m_visited_rows := rows } hq2 hvq
          have a4 := arena_extends_trans hq.2
            (arena_extends_trans (arena_extends_of_verts q { q with m_visited_rows := rows } rfl)
              (add_child_from_row_extends m r v { q with m_visited_rows := rows } hvq))
          rcases ha : add_child_from_row m r v { q with m_visited_rows := rows } with
            ⟨q1, _ | u⟩
          · rw [ha] at a1 a4
            exact ⟨a1, a4⟩
          · rw [ha] at a1 a3 a4
            obtain ⟨b1, b2⟩ := explore_under_extends m fuel u q1 a1 (a3 u rfl)
            exact ⟨b1, arena_extends_trans a4 b2⟩)
      { p with m_visited_columns := cols }
      ⟨tree_wf_congr p _ ⟨rfl, rfl, fun _ => rfl⟩ hwf, arena_extends_of_verts p _ rfl⟩
    exact hfold.1

/-- C40: when the row and column indexes of the tableau agree and the cells name real
columns, then from any well formed tree and any vertex `v` whose column is not fixed, every
call of `add_child_from_row` that `go_over_vertex_column(v)` makes meets its assertions on
the columns, whatever the depth of the nested explorations: for a row with one free column
that column is the column of `v`, and for a row with two free columns one of the two is the
column of `v`. -/
theorem go_over_vertex_column_asserts_hold (m : imp) (hagree : indexes_agree m.lp)
    (hrows : ∀ r, row_wf (m.lp.get_row r)) (fuel v : Nat) (p : lp_bound_propagator)
    (hwf : tree_wf p) (hv : v < p.m_verts.length)
    (hfree : column_is_fixed m.lp (get_vertex p v).m_column = false) :
    go_over_vertex_column_asserts m (explore_under m fuel) v p = true :=
  go_over_vertex_column_asserts_of m hagree hrows fuel v p hwf hv hfree

theorem tableau_q_wf (r : Nat) : row_wf (imp_q.lp.get_row r) := by
  rcases r with _ | _ | _ | r <;>
    simp [row_wf, imp_q, tableau_q, lar_solver.get_row, null_lpvar]

theorem tableau_q_agree : indexes_agree imp_q.lp := by
  intro j r hr
  simp only [imp_q, tableau_q] at hr
  split_ifs at hr with h0 h1 h2 h3 h5
  · subst h0
    simp only [List.mem_singleton] at hr
    subst hr
    exact ⟨⟨0, 1⟩, by simp [imp_q, tableau_q, lar_solver.get_row], rfl⟩
  · subst h1
    simp only [List.mem_cons, List.mem_singleton, List.not_mem_nil, or_false] at hr
    rcases hr with rfl | rfl | rfl
    · exact ⟨⟨1, -1⟩, by simp [imp_q, tableau_q, lar_solver.get_row], rfl⟩
    · exact ⟨⟨1, 1⟩, by simp [imp_q, tableau_q, lar_solver.get_row], rfl⟩
    · exact ⟨⟨1, 1⟩, by simp [imp_q, tableau_q, lar_solver.get_row], rfl⟩
  · subst h2
    simp only [List.mem_singleton] at hr
    subst hr
    exact ⟨⟨2, -1⟩, by simp [imp_q, tableau_q, lar_solver.get_row], rfl⟩
  · subst h3
    simp only [List.mem_singleton] at hr
    subst hr
    exact ⟨⟨3, -1⟩, by simp [imp_q, tableau_q, lar_solver.get_row], rfl⟩
  · subst h5
    simp only [List.mem_singleton] at hr
    subst hr
    exact ⟨⟨5, -1⟩, by simp [imp_q, tableau_q, lar_solver.get_row], rfl⟩
  · cases hr

/-- On `tableau_q`, the calls of `add_child_from_row` for the rows 1 and 2 that
`go_over_vertex_column` makes on the child of the seed row meet their assertions. -/
theorem go_over_vertex_column_asserts_hold_witness :
    (seeded imp_q 0).m_visited_rows = [0] ∧
    imp_q.lp.columns (get_vertex (seeded imp_q 0) 1).m_column = [0, 1, 2] ∧
    go_over_vertex_column_asserts imp_q (explore_under imp_q 3) 1 (seeded imp_q 0) = true :=
  ⟨by decide!, by decide!,
    go_over_vertex_column_asserts_hold imp_q tableau_q_agree tableau_q_wf 3 1 (seeded imp_q 0)
      (seeded_wf imp_q 0 0 (by decide!)).2 (by decide!) (by decide!)⟩

end lp
